import Mathlib

/-! AlgoStructure: instrumented algorithm drivers.

A shallow embedding of the four tracer families of the repository
(`server/algorithms/dp.cpp`, `sort.cpp`, `graph.cpp`, `tree.cpp`) together with
theorems about the traces they record.

Modelling conventions.

* A C++ `int` is a Lean `Int`.  Index arithmetic is unbounded (container sizes are far
  below `2^31`); value arithmetic that can overflow is passed through `wrapInt32`.
* A `vector<T>` is a `List T`.  `getAt`/`setAt` take the `int` index of the source; an
  index outside the vector (undefined behaviour in the source) reads a default value and
  writes nothing.
* A `std::map` with `int` keys is a list of pairs in increasing key order; a `std::set`
  that is only tested for membership is a list.
* The `double` screen coordinates `x`, `y` of the render entities are pure layout and are
  left out of the entity records.
* A local `AlgorithmState s;` leaves `step`/`totalSteps` indeterminate until they are
  assigned; the model starts them at `0`.
* A `for` loop with a known trip count is `forLoop`; a `while` loop is `whileLoop`, which
  takes a bound on the number of iterations and answers `none` when the bound is too small.
  Recursive procedures take a bound on the recursion depth in the same way.  The drivers
  pass bounds that are proved sufficient, so every driver is shown to return a result.
* A `std::string` is the list of its bytes (`CppString`): `length()` counts bytes and
  `operator[]` reads one byte, whatever the text encoding.  `cppString` gives the bytes of
  a text in UTF-8, the form in which a string literal of the source or a string handed
  through the binding reaches the drivers.  A `message` is a Lean `String` that holds one
  `Char` per byte of the C++ message, the character whose code is the byte (`showString`),
  so ASCII text reads as itself.
* A method that changes its object returns the new object; `quickSort`, `mergeSort` and
  `heapSort` also return the array they leave in their reference argument.
-/

namespace AlgoStructure

/-! ## Shared modelling devices -/

/-- Two's-complement wrap of an integer into the range of a 32-bit `int`. -/
def wrapInt32 (x : Int) : Int :=
  (x + 2147483648) % 4294967296 - 2147483648

/-- Largest value of a 32-bit `int` (`numeric_limits<int>::max()`). -/
def INT_MAX : Int := 2147483647

/-- One `char` of a `std::string`: a byte. -/
abbrev CppChar : Type := Fin 256

/-- A `std::string`: its bytes in order.  `length()` is the number of bytes and
`operator[]` reads one byte. -/
abbrev CppString : Type := List CppChar

/-- The `std::string` of a text: its UTF-8 bytes (for ASCII text one byte per character). -/
def cppString (s : String) : CppString :=
  s.data.flatMap (fun c => (String.utf8EncodeChar c).map (fun b => b.val))

/-- The bytes of a `std::string` as a `message` holds them: one `Char` per byte, the
character whose code is the byte. -/
def showString (s : CppString) : String :=
  String.mk (s.map (fun b => Char.ofNat b.val))

/-- Read `v[i]`; an index outside the vector yields the default `d`. -/
def getAt {α : Type} (l : List α) (i : Int) (d : α) : α :=
  if i < 0 then d else l.getD i.toNat d

/-- Write `v[i] = x`; an index outside the vector leaves it unchanged. -/
def setAt {α : Type} (l : List α) (i : Int) (x : α) : List α :=
  if i < 0 then l else l.set i.toNat x

/-- Loop `for (int j = a; ...; j++) body`, run for `n` iterations starting at `j = a`. -/
def forLoop {σ : Type} (body : Int → σ → σ) : Nat → Int → σ → σ
  | 0, _, s => s
  | n + 1, j, s => forLoop body n (j + 1) (body j s)

/-- Loop `while (cond) body` with at most `fuel` iterations; `none` when the loop would
need more. -/
def whileLoop {σ : Type} (cond : σ → Bool) (body : σ → σ) : Nat → σ → Option σ
  | 0, s => if cond s then none else some s
  | fuel + 1, s => if cond s then whileLoop cond body fuel (body s) else some s

/-- Loop `for (int i = a; ...; i--) body` whose body can fail, run for `n` iterations
starting at `i = a`. -/
def forDownLoop {σ : Type} (body : Int → σ → Option σ) : Nat → Int → σ → Option σ
  | 0, _, s => some s
  | n + 1, i, s =>
    match body i s with
    | none => none
    | some s1 => forDownLoop body n (i - 1) s1

/-- Assignment `m[k] = v` on a `std::map` with `int` keys, kept as a list of pairs in
increasing key order: an existing entry is overwritten, a new one is put in its place. -/
def mapInsert {β : Type} (k : Int) (v : β) : List (Int × β) → List (Int × β)
  | [] => [(k, v)]
  | (k1, v1) :: rest =>
    if k < k1 then (k, v) :: (k1, v1) :: rest
    else if k = k1 then (k, v) :: rest
    else (k1, v1) :: mapInsert k v rest

/-- Lookup `m.find(k)` on a `std::map`: the mapped value, or `none` for `m.end()`. -/
def mapFind {β : Type} (k : Int) (m : List (Int × β)) : Option β :=
  (m.find? (fun p => p.1 == k)).map Prod.snd

/-- Read `m[k]` on a `std::map`: the mapped value, the default `d` for an absent key. -/
def mapGet {β : Type} (m : List (Int × β)) (k : Int) (d : β) : β :=
  (mapFind k m).getD d

/-- The map after evaluating `m[k]`: an absent key is inserted with the default `d`. -/
def mapTouch {β : Type} (m : List (Int × β)) (k : Int) (d : β) : List (Int × β) :=
  match mapFind k m with
  | some _ => m
  | none => mapInsert k d m

/-- The step numbers `l` of a trace are `1, 2, ..., l.length` in this order. -/
def StepsFromOne (l : List Int) : Prop :=
  ∀ i : Nat, ∀ h : i < l.length, l.get ⟨i, h⟩ = (i : Int) + 1

/-! ## Dynamic programming family (`dp.cpp`) -/

namespace DpCpp

/-- Render entity of one array or table cell (`struct CellPosition`, without `x`, `y`). -/
structure CellPosition where
  id : Int
  value : String
  highlighted : Bool
  deriving DecidableEq, Repr

/-- Snapshot record (`struct AlgorithmState`); the defaults are those of `AlgorithmState()`. -/
structure AlgorithmState where
  cells : List CellPosition := []
  memoTable : List String := []
  message : String := ""
  step : Int := 0
  totalSteps : Int := 0
  deriving DecidableEq, Repr

/-- Private members of `class DynamicProgramming`; the defaults are the constructor's. -/
structure DynamicProgramming where
  states : List AlgorithmState := []
  currentStep : Int := 0
  totalSteps : Int := 0
  deriving DecidableEq, Repr

/-- Inner loop of `createGrid`: the cells of row `i`, from column `j` on, ids from `id`. -/
def createGridCells (highlightRow highlightCol i : Int) :
    List Int → Int → Int → List CellPosition
  | [], _, _ => []
  | v :: rest, j, id =>
    { id := id, value := toString v,
      highlighted := (i == highlightRow && j == highlightCol) } ::
      createGridCells highlightRow highlightCol i rest (j + 1) (id + 1)

/-- Outer loop of `createGrid`: rows from index `i` on, ids from `id`. -/
def createGridRows (highlightRow highlightCol : Int) :
    List (List Int) → Int → Int → List CellPosition
  | [], _, _ => []
  | row :: rows, i, id =>
    createGridCells highlightRow highlightCol i row 0 id ++
      createGridRows highlightRow highlightCol rows (i + 1) (id + row.length)

/-- Entity projector `createGrid(cells, grid, highlightRow, highlightCol)`. -/
def createGrid (grid : List (List Int)) (highlightRow highlightCol : Int) :
    List CellPosition :=
  createGridRows highlightRow highlightCol grid 0 0

/-- Loop of `createArray`, from index `i` on. -/
def createArrayFrom (highlightIndex : Int) : List Int → Int → List CellPosition
  | [], _ => []
  | v :: rest, i =>
    { id := i, value := toString v, highlighted := (i == highlightIndex) } ::
      createArrayFrom highlightIndex rest (i + 1)

/-- Entity projector `createArray(cells, array, highlightIndex)`. -/
def createArray (array : List Int) (highlightIndex : Int) : List CellPosition :=
  createArrayFrom highlightIndex array 0

/-- Read `dp[i][j]` of a table. -/
def getCell (dp : List (List Int)) (i j : Int) : Int :=
  getAt (getAt dp i []) j 0

/-- Write `dp[i][j] = v` of a table. -/
def setCell (dp : List (List Int)) (i j : Int) (v : Int) : List (List Int) :=
  setAt dp i (setAt (getAt dp i []) j v)

/-- Closing block of every driver: `totalSteps = states.size(); currentStep = 0;` and the
loop that writes `totalSteps` into every snapshot. -/
def finalize (states : List AlgorithmState) : DynamicProgramming :=
  { states := states.map (fun st => { st with totalSteps := (states.length : Int) }),
    currentStep := 0,
    totalSteps := (states.length : Int) }

/-- Body of the fill loop of `fibonacci` for index `i`, on the pair `(fib, states)`. -/
def fibonacciBody (initialState : AlgorithmState) (i : Int)
    (s : List Int × List AlgorithmState) : List Int × List AlgorithmState :=
  let fib := setAt s.1 i (wrapInt32 (getAt s.1 (i - 1) 0 + getAt s.1 (i - 2) 0))
  let state : AlgorithmState :=
    { initialState with
      step := (s.2.length : Int) + 1,
      message := "Computing Fibonacci(" ++ toString i ++ ") = Fibonacci(" ++
        toString (i - 1) ++ ") + Fibonacci(" ++ toString (i - 2) ++ ") = " ++
        toString (getAt fib (i - 1) 0) ++ " + " ++ toString (getAt fib (i - 2) 0) ++
        " = " ++ toString (getAt fib i 0),
      cells := createArray fib i }
  (fib, s.2 ++ [state])

/-- Method `DynamicProgramming::fibonacci(n)` for `n >= 0` (a negative `n` indexes the
empty array `fib`, undefined behaviour). -/
def DynamicProgramming.fibonacci (_self : DynamicProgramming) (n : Nat) :
    DynamicProgramming :=
  let fib0 : List Int := List.replicate (n + 1) 0
  let fib1 : List Int := if n ≥ 1 then setAt fib0 1 1 else fib0
  let initialState : AlgorithmState :=
    { message := "Calculating Fibonacci(" ++ toString n ++ ") using Dynamic Programming",
      step := 1,
      cells := createArray fib1 (-1) }
  let r := forLoop (fibonacciBody initialState) (n - 1) 2 (fib1, [initialState])
  let finalState : AlgorithmState :=
    { r.2.getLastD {} with
      step := (r.2.length : Int) + 1,
      message := "Fibonacci(" ++ toString n ++ ") = " ++ toString (getAt r.1 (n : Int) 0),
      cells := createArray r.1 (n : Int) }
  finalize (r.2 ++ [finalState])

/-- Loop of `knapsack` that builds the text `itemsInfo`, iteration `i`. -/
def itemsInfoBody (values weights : List Int) (n : Int) (i : Int) (info : String) : String :=
  let info1 := info ++ ("(value=" ++ toString (getAt values i 0) ++ ", weight=" ++
    toString (getAt weights i 0) ++ ")")
  if i < n - 1 then info1 ++ ", " else info1

/-- Body of the inner fill loop of `knapsack` for cell `(i, w)`, on `(dp, states)`. -/
def knapsackBody (values weights : List Int) (initialState : AlgorithmState) (i w : Int)
    (s : List (List Int) × List AlgorithmState) : List (List Int) × List AlgorithmState :=
  let wi := getAt weights (i - 1) 0
  let vi := getAt values (i - 1) 0
  let dp : List (List Int) :=
    if wi > w then setCell s.1 i w (getCell s.1 (i - 1) w)
    else setCell s.1 i w
      (max (getCell s.1 (i - 1) w) (wrapInt32 (vi + getCell s.1 (i - 1) (w - wi))))
  let state : AlgorithmState :=
    { initialState with
      step := (s.2.length : Int) + 1,
      message :=
        if wi > w then
          "Item " ++ toString i ++ " (weight=" ++ toString wi ++
            ") is too heavy for capacity " ++ toString w ++ ", take previous value " ++
            toString (getCell dp (i - 1) w)
        else
          "For item " ++ toString i ++ " (value=" ++ toString vi ++ ", weight=" ++
            toString wi ++ ") and capacity " ++ toString w ++ ":\nMax of (excluding=" ++
            toString (getCell dp (i - 1) w) ++ ", including=" ++
            toString (wrapInt32 (vi + getCell dp (i - 1) (w - wi))) ++ ") = " ++
            toString (getCell dp i w),
      cells := createGrid dp i w }
  (dp, s.2 ++ [state])

/-- Body of the outer fill loop of `knapsack` for item `i`: the whole inner loop. -/
def knapsackRow (values weights : List Int) (capacity : Nat) (initialState : AlgorithmState)
    (i : Int) (s : List (List Int) × List AlgorithmState) :
    List (List Int) × List AlgorithmState :=
  forLoop (knapsackBody values weights initialState i) (capacity + 1) 0 s

/-- Method `DynamicProgramming::knapsack(values, weights, capacity)` for `capacity >= 0`
(a negative capacity indexes outside the table, undefined behaviour). -/
def DynamicProgramming.knapsack (self : DynamicProgramming) (values weights : List Int)
    (capacity : Nat) : DynamicProgramming :=
  if values.isEmpty || weights.isEmpty || values.length != weights.length then
    { self with states := [] }
  else
    let n : Nat := values.length
    let dp0 : List (List Int) := List.replicate (n + 1) (List.replicate (capacity + 1) 0)
    let itemsInfo : String :=
      forLoop (itemsInfoBody values weights (n : Int)) n 0 "Items: [" ++ "]"
    let initialState : AlgorithmState :=
      { message := "Solving 0-1 Knapsack Problem with " ++ toString n ++
          " items and capacity " ++ toString capacity ++ ("\n" ++ itemsInfo),
        step := 1,
        cells := createGrid dp0 (-1) (-1) }
    let r := forLoop (knapsackRow values weights capacity initialState) n 1
      (dp0, [initialState])
    let finalState : AlgorithmState :=
      { r.2.getLastD {} with
        step := (r.2.length : Int) + 1,
        message := "Maximum value: " ++ toString (getCell r.1 (n : Int) (capacity : Int)),
        cells := createGrid r.1 (-1) (-1) }
    finalize (r.2 ++ [finalState])

/-- Body of the inner fill loop of `longestCommonSubsequence` for cell `(i, j)`.  The
compared `str1[i-1]` and `str2[j-1]` are single bytes, and `string(1, c)` in the message is
the string of that one byte. -/
def lcsBody (str1 str2 : CppString) (initialState : AlgorithmState) (i j : Int)
    (s : List (List Int) × List AlgorithmState) : List (List Int) × List AlgorithmState :=
  let c1 := getAt str1 (i - 1) (0 : CppChar)
  let c2 := getAt str2 (j - 1) (0 : CppChar)
  let dp : List (List Int) :=
    if c1 = c2 then setCell s.1 i j (wrapInt32 (getCell s.1 (i - 1) (j - 1) + 1))
    else setCell s.1 i j (max (getCell s.1 (i - 1) j) (getCell s.1 i (j - 1)))
  let state : AlgorithmState :=
    { initialState with
      step := (s.2.length : Int) + 1,
      message :=
        if c1 = c2 then
          "Characters match: " ++ showString [c1] ++ " = " ++ showString [c2] ++
            ", incrementing from diagonal"
        else
          "Characters don't match: " ++ showString [c1] ++ " != " ++ showString [c2] ++
            ", taking max of up and left",
      cells := createGrid dp i j }
  (dp, s.2 ++ [state])

/-- Body of the outer fill loop of `longestCommonSubsequence` for row `i`. -/
def lcsRow (str1 str2 : CppString) (initialState : AlgorithmState) (i : Int)
    (s : List (List Int) × List AlgorithmState) : List (List Int) × List AlgorithmState :=
  forLoop (lcsBody str1 str2 initialState i) str2.length 1 s

/-- Variables `i`, `j`, `lcs` of the reconstruction loop. -/
structure LcsWalk where
  i : Int
  j : Int
  lcs : CppString
  deriving DecidableEq, Repr

/-- Condition `i > 0 && j > 0` of the reconstruction loop. -/
def lcsWalkCond (s : LcsWalk) : Bool :=
  decide (s.i > 0) && decide (s.j > 0)

/-- Body of the reconstruction loop; `lcs = str1[i-1] + lcs` puts one byte in front. -/
def lcsWalkBody (str1 str2 : CppString) (dp : List (List Int)) (s : LcsWalk) : LcsWalk :=
  if getAt str1 (s.i - 1) (0 : CppChar) = getAt str2 (s.j - 1) (0 : CppChar) then
    { i := s.i - 1, j := s.j - 1, lcs := getAt str1 (s.i - 1) (0 : CppChar) :: s.lcs }
  else if getCell dp (s.i - 1) s.j > getCell dp s.i (s.j - 1) then
    { s with i := s.i - 1 }
  else
    { s with j := s.j - 1 }

/-- Method `DynamicProgramming::longestCommonSubsequence(str1, str2)`; `m` and `n` are
the byte counts `str1.length()` and `str2.length()`.  The reconstruction loop lowers
`i + j` each round, so `m + n` rounds are allowed. -/
def DynamicProgramming.longestCommonSubsequence (self : DynamicProgramming)
    (str1 str2 : CppString) : Option DynamicProgramming :=
  if str1.isEmpty || str2.isEmpty then
    some { self with states := [] }
  else
    let m : Nat := str1.length
    let n : Nat := str2.length
    let dp0 : List (List Int) := List.replicate (m + 1) (List.replicate (n + 1) 0)
    let initialState : AlgorithmState :=
      { message := "Finding Longest Common Subsequence of \"" ++ showString str1 ++
          "\" and \"" ++ showString str2 ++ "\"",
        step := 1,
        cells := createGrid dp0 (-1) (-1) }
    let r := forLoop (lcsRow str1 str2 initialState) m 1 (dp0, [initialState])
    match whileLoop lcsWalkCond (lcsWalkBody str1 str2 r.1) (m + n)
        { i := (m : Int), j := (n : Int), lcs := [] } with
    | none => none
    | some walk =>
      let finalState : AlgorithmState :=
        { r.2.getLastD {} with
          step := (r.2.length : Int) + 1,
          message := "Length of LCS: " ++ toString (getCell r.1 (m : Int) (n : Int)) ++
            ("\nLCS: \"" ++ showString walk.lcs ++ "\""),
          cells := createGrid r.1 (-1) (-1) }
      some (finalize (r.2 ++ [finalState]))

/-- Method `DynamicProgramming::getStepCount()`. -/
def DynamicProgramming.getStepCount (self : DynamicProgramming) : Int :=
  self.totalSteps

/-- Method `DynamicProgramming::getStep(step)`. -/
def DynamicProgramming.getStep (self : DynamicProgramming) (step : Int) : AlgorithmState :=
  if step < 0 ∨ step ≥ (self.states.length : Int) then {}
  else self.states.getD step.toNat {}

end DpCpp

/-! ## Sorting family (`sort.cpp`) -/

namespace SortCpp

/-- Render entity of one array element (`struct ArrayElement`, without `x`, `y`). -/
structure ArrayElement where
  id : Int
  value : Int
  highlighted : Bool
  swapping : Bool
  deriving DecidableEq, Repr

/-- Snapshot record (`struct AlgorithmState`); the defaults are those of `AlgorithmState()`. -/
structure AlgorithmState where
  elements : List ArrayElement := []
  message : String := ""
  step : Int := 0
  totalSteps : Int := 0
  deriving DecidableEq, Repr

/-- Private members of `class SortingAlgorithms`; the defaults are the constructor's. -/
structure SortingAlgorithms where
  states : List AlgorithmState := []
  currentStep : Int := 0
  totalSteps : Int := 0
  deriving DecidableEq, Repr

/-- Loop of `createArrayVisualization`, from index `i` on. -/
def createArrayVisualizationFrom (highlight1 highlight2 : Int) (swapping : Bool) :
    List Int → Int → List ArrayElement
  | [], _ => []
  | v :: rest, i =>
    { id := i, value := v,
      highlighted := (i == highlight1 || i == highlight2),
      swapping := (swapping && (i == highlight1 || i == highlight2)) } ::
      createArrayVisualizationFrom highlight1 highlight2 swapping rest (i + 1)

/-- Entity projector `createArrayVisualization(elements, arr, highlight1, highlight2,
swapping)`; the source's default arguments are `-1`, `-1`, `false`. -/
def createArrayVisualization (arr : List Int) (highlight1 highlight2 : Int)
    (swapping : Bool) : List ArrayElement :=
  createArrayVisualizationFrom highlight1 highlight2 swapping arr 0

/-- The block that records one snapshot: `AlgorithmState s; s.step = states.size() + 1;
s.message = message; createArrayVisualization(s.elements, ...); states.push_back(s);`. -/
def pushState (states : List AlgorithmState) (message : String)
    (elements : List ArrayElement) : List AlgorithmState :=
  states ++ [{ elements := elements, message := message, step := (states.length : Int) + 1 }]

/-- Exchange `swap(arr[i], arr[j])`. -/
def swapAt (arr : List Int) (i j : Int) : List Int :=
  setAt (setAt arr i (getAt arr j 0)) j (getAt arr i 0)

/-- Closing block of every driver: `totalSteps = states.size(); currentStep = 0;` and the
loop that writes `totalSteps` into every snapshot. -/
def finalize (states : List AlgorithmState) : SortingAlgorithms :=
  { states := states.map (fun st => { st with totalSteps := (states.length : Int) }),
    currentStep := 0,
    totalSteps := (states.length : Int) }

/-- Variables `arr`, `i`, `states` of the partition loop of `quickSortSteps`. -/
structure PartitionVars where
  arr : List Int
  i : Int
  states : List AlgorithmState
  deriving DecidableEq, Repr

/-- Body of the partition loop `for (int j = low; j <= high - 1; j++)`. -/
def partitionBody (pivot high : Int) (j : Int) (s : PartitionVars) : PartitionVars :=
  let states1 := pushState s.states
    ("Compare " ++ toString (getAt s.arr j 0) ++ " with pivot " ++ toString pivot)
    (createArrayVisualization s.arr j high false)
  if getAt s.arr j 0 < pivot then
    let i := s.i + 1
    let states2 := pushState states1
      ("Swap " ++ toString (getAt s.arr i 0) ++ " and " ++ toString (getAt s.arr j 0))
      (createArrayVisualization s.arr i j true)
    let arr := swapAt s.arr i j
    let states3 := pushState states2 "After swap" (createArrayVisualization arr i j false)
    { arr := arr, i := i, states := states3 }
  else
    { s with states := states1 }

/-- The part of `quickSortSteps` before its recursive calls, for `low < high`: segment
and pivot snapshots, partition loop, pivot placement.  In the result `i + 1` is `pi`. -/
def partitionSteps (arr : List Int) (states : List AlgorithmState) (low high : Int) :
    PartitionVars :=
  let states1 := pushState states
    ("Sorting segment [" ++ toString low ++ " to " ++ toString high ++ "]")
    (createArrayVisualization arr low high false)
  let pivot := getAt arr high 0
  let states2 := pushState states1
    ("Pivot: " ++ toString pivot ++ " (index " ++ toString high ++ ")")
    (createArrayVisualization arr high (-1) false)
  let p := forLoop (partitionBody pivot high) (high - low).toNat low
    { arr := arr, i := low - 1, states := states2 }
  let states3 := pushState p.states
    ("Swap " ++ toString (getAt p.arr (p.i + 1) 0) ++ " and pivot " ++
      toString (getAt p.arr high 0))
    (createArrayVisualization p.arr (p.i + 1) high true)
  let arr1 := swapAt p.arr (p.i + 1) high
  let states4 := pushState states3
    ("After placing pivot at position " ++ toString (p.i + 1))
    (createArrayVisualization arr1 (p.i + 1) (-1) false)
  { arr := arr1, i := p.i, states := states4 }

/-- Method `quickSortSteps(arr, low, high)`, with a bound on the recursion depth. -/
def quickSortSteps : Nat → List Int → List AlgorithmState → Int → Int →
    Option (List Int × List AlgorithmState)
  | 0, arr, states, low, high =>
    if low < high then none else some (arr, states)
  | fuel + 1, arr, states, low, high =>
    if low < high then
      let p := partitionSteps arr states low high
      let pi := p.i + 1
      match quickSortSteps fuel p.arr p.states low (pi - 1) with
      | none => none
      | some r => quickSortSteps fuel r.1 r.2 (pi + 1) high
    else some (arr, states)

/-- Variables `arr`, `i`, `j`, `k`, `states` of the three loops of `mergeSteps`. -/
structure MergeVars where
  arr : List Int
  i : Int
  j : Int
  k : Int
  states : List AlgorithmState
  deriving DecidableEq, Repr

/-- Condition `i < n1 && j < n2` of the first loop of `mergeSteps`. -/
def mergeCond (n1 n2 : Int) (s : MergeVars) : Bool :=
  decide (s.i < n1) && decide (s.j < n2)

/-- Body of the first loop of `mergeSteps`. -/
def mergeBody (L R : List Int) (left mid : Int) (s : MergeVars) : MergeVars :=
  let states1 := pushState s.states
    ("Compare " ++ toString (getAt L s.i 0) ++ " and " ++ toString (getAt R s.j 0))
    (createArrayVisualization s.arr (left + s.i) (mid + 1 + s.j) false)
  if getAt L s.i 0 ≤ getAt R s.j 0 then
    let arr := setAt s.arr s.k (getAt L s.i 0)
    let states2 := pushState states1
      ("Place " ++ toString (getAt L s.i 0) ++ " at position " ++ toString s.k)
      (createArrayVisualization arr s.k (-1) false)
    { arr := arr, i := s.i + 1, j := s.j, k := s.k + 1, states := states2 }
  else
    let arr := setAt s.arr s.k (getAt R s.j 0)
    let states2 := pushState states1
      ("Place " ++ toString (getAt R s.j 0) ++ " at position " ++ toString s.k)
      (createArrayVisualization arr s.k (-1) false)
    { arr := arr, i := s.i, j := s.j + 1, k := s.k + 1, states := states2 }

/-- Condition `i < n1` of the second loop of `mergeSteps`. -/
def copyLeftCond (n1 : Int) (s : MergeVars) : Bool :=
  decide (s.i < n1)

/-- Body of the second loop of `mergeSteps`. -/
def copyLeftBody (L : List Int) (s : MergeVars) : MergeVars :=
  let arr := setAt s.arr s.k (getAt L s.i 0)
  let states1 := pushState s.states
    ("Copy remaining element " ++ toString (getAt L s.i 0) ++ " from left array")
    (createArrayVisualization arr s.k (-1) false)
  { arr := arr, i := s.i + 1, j := s.j, k := s.k + 1, states := states1 }

/-- Condition `j < n2` of the third loop of `mergeSteps`. -/
def copyRightCond (n2 : Int) (s : MergeVars) : Bool :=
  decide (s.j < n2)

/-- Body of the third loop of `mergeSteps`. -/
def copyRightBody (R : List Int) (s : MergeVars) : MergeVars :=
  let arr := setAt s.arr s.k (getAt R s.j 0)
  let states1 := pushState s.states
    ("Copy remaining element " ++ toString (getAt R s.j 0) ++ " from right array")
    (createArrayVisualization arr s.k (-1) false)
  { arr := arr, i := s.i, j := s.j + 1, k := s.k + 1, states := states1 }

/-- Method `mergeSteps(arr, left, mid, right)`.  Every round of its loops raises `i` or
`j`, so each loop is allowed `n1 + n2` rounds. -/
def mergeSteps (arr : List Int) (states : List AlgorithmState) (left mid right : Int) :
    Option (List Int × List AlgorithmState) :=
  let n1 := mid - left + 1
  let n2 := right - mid
  let states1 := pushState states "Copying elements to temporary arrays"
    (createArrayVisualization arr left right false)
  let L := forLoop (fun i (L : List Int) => setAt L i (getAt arr (left + i) 0)) n1.toNat 0
    (List.replicate n1.toNat 0)
  let R := forLoop (fun j (R : List Int) => setAt R j (getAt arr (mid + 1 + j) 0)) n2.toNat 0
    (List.replicate n2.toNat 0)
  let fuel := (n1 + n2).toNat
  match whileLoop (mergeCond n1 n2) (mergeBody L R left mid) fuel
      { arr := arr, i := 0, j := 0, k := left, states := states1 } with
  | none => none
  | some s1 =>
    match whileLoop (copyLeftCond n1) (copyLeftBody L) fuel s1 with
    | none => none
    | some s2 =>
      match whileLoop (copyRightCond n2) (copyRightBody R) fuel s2 with
      | none => none
      | some s3 => some (s3.arr, s3.states)

/-- Method `mergeSortSteps(arr, left, right)`, with a bound on the recursion depth. -/
def mergeSortSteps : Nat → List Int → List AlgorithmState → Int → Int →
    Option (List Int × List AlgorithmState)
  | 0, arr, states, left, right =>
    if left < right then none else some (arr, states)
  | fuel + 1, arr, states, left, right =>
    if left < right then
      let states1 := pushState states
        ("Sorting segment [" ++ toString left ++ " to " ++ toString right ++ "]")
        (createArrayVisualization arr left right false)
      let mid := left + (right - left) / 2
      let states2 := pushState states1
        ("Split into [" ++ toString left ++ " to " ++ toString mid ++ "] and [" ++
          toString (mid + 1) ++ " to " ++ toString right ++ "]")
        (createArrayVisualization arr (-1) (-1) false)
      match mergeSortSteps fuel arr states2 left mid with
      | none => none
      | some r1 =>
        match mergeSortSteps fuel r1.1 r1.2 (mid + 1) right with
        | none => none
        | some r2 => mergeSteps r2.1 r2.2 left mid right
    else some (arr, states)

/-- Result of the part of `heapifySteps` before its recursive call. -/
structure HeapifyVars where
  arr : List Int
  largest : Int
  states : List AlgorithmState
  deriving DecidableEq, Repr

/-- The part of `heapifySteps(arr, n, i)` before the recursive call: subtree snapshot,
the two child comparisons and, when `largest != i`, the swap with its two snapshots. -/
def heapifyNode (arr : List Int) (states : List AlgorithmState) (n i : Int) : HeapifyVars :=
  let left := 2 * i + 1
  let right := 2 * i + 2
  let states1 := pushState states
    ("Heapifying subtree rooted at index " ++ toString i)
    (createArrayVisualization arr i (-1) false)
  let states2 :=
    if left < n then
      pushState states1
        ("Compare " ++ toString (getAt arr i 0) ++ " with left child " ++
          toString (getAt arr left 0))
        (createArrayVisualization arr i left false)
    else states1
  let largest1 := if left < n ∧ getAt arr left 0 > getAt arr i 0 then left else i
  let states3 :=
    if right < n then
      pushState states2
        ("Compare " ++ toString (getAt arr largest1 0) ++ " with right child " ++
          toString (getAt arr right 0))
        (createArrayVisualization arr largest1 right false)
    else states2
  let largest := if right < n ∧ getAt arr right 0 > getAt arr largest1 0 then right
    else largest1
  if largest ≠ i then
    let states4 := pushState states3
      ("Swap " ++ toString (getAt arr i 0) ++ " and " ++ toString (getAt arr largest 0))
      (createArrayVisualization arr i largest true)
    let arr1 := swapAt arr i largest
    let states5 := pushState states4 "After swap"
      (createArrayVisualization arr1 i largest false)
    { arr := arr1, largest := largest, states := states5 }
  else
    { arr := arr, largest := largest, states := states3 }

/-- Method `heapifySteps(arr, n, i)`, with a bound on the recursion depth. -/
def heapifySteps : Nat → List Int → List AlgorithmState → Int → Int →
    Option (List Int × List AlgorithmState)
  | 0, arr, states, n, i =>
    let r := heapifyNode arr states n i
    if r.largest ≠ i then none else some (r.arr, r.states)
  | fuel + 1, arr, states, n, i =>
    let r := heapifyNode arr states n i
    if r.largest ≠ i then heapifySteps fuel r.arr r.states n r.largest
    else some (r.arr, r.states)

/-- Body of the heap-building loop `for (int i = n / 2 - 1; i >= 0; i--)`.  The recursion
of `heapifySteps` moves to a larger index below `n`, so depth `n` is allowed. -/
def buildHeapBody (n : Int) (i : Int) (s : List Int × List AlgorithmState) :
    Option (List Int × List AlgorithmState) :=
  heapifySteps n.toNat s.1 s.2 n i

/-- Body of the extraction loop `for (int i = n - 1; i > 0; i--)`. -/
def extractBody (n : Int) (i : Int) (s : List Int × List AlgorithmState) :
    Option (List Int × List AlgorithmState) :=
  let states1 := pushState s.2
    ("Move root " ++ toString (getAt s.1 0 0) ++ " to end")
    (createArrayVisualization s.1 0 i true)
  let arr1 := swapAt s.1 0 i
  let states2 := pushState states1 "After moving root, re-heapify remaining heap"
    (createArrayVisualization arr1 0 i false)
  heapifySteps n.toNat arr1 states2 i 0

/-- Method `heapSortSteps(arr)`. -/
def heapSortSteps (arr : List Int) (states : List AlgorithmState) :
    Option (List Int × List AlgorithmState) :=
  let n : Int := (arr.length : Int)
  let states1 := pushState states "Building heap (rearranging array)"
    (createArrayVisualization arr (-1) (-1) false)
  match forDownLoop (buildHeapBody n) (n / 2).toNat (n / 2 - 1) (arr, states1) with
  | none => none
  | some r =>
    let states2 := pushState r.2 "Heap built successfully"
      (createArrayVisualization r.1 (-1) (-1) false)
    forDownLoop (extractBody n) (n - 1).toNat (n - 1) (r.1, states2)

/-- Final snapshot and closing block shared by the three sort drivers. -/
def finishSort (message : String) (r : List Int × List AlgorithmState) :
    SortingAlgorithms × List Int :=
  (finalize (pushState r.2 message (createArrayVisualization r.1 (-1) (-1) false)), r.1)

/-- Method `SortingAlgorithms::quickSort(arr)`: the new object and the array left in
`arr`.  `arr.size() - 1` is `-1` as an `int` for the empty array; a segment of `k`
elements recurses to depth at most `k`. -/
def SortingAlgorithms.quickSort (_self : SortingAlgorithms) (arr : List Int) :
    Option (SortingAlgorithms × List Int) :=
  let states1 := pushState [] "Initial array for QuickSort"
    (createArrayVisualization arr (-1) (-1) false)
  (quickSortSteps arr.length arr states1 0 ((arr.length : Int) - 1)).map
    (finishSort "Array sorted with QuickSort")

/-- Method `SortingAlgorithms::mergeSort(arr)`: the new object and the array left in
`arr`. -/
def SortingAlgorithms.mergeSort (_self : SortingAlgorithms) (arr : List Int) :
    Option (SortingAlgorithms × List Int) :=
  let states1 := pushState [] "Initial array for MergeSort"
    (createArrayVisualization arr (-1) (-1) false)
  (mergeSortSteps arr.length arr states1 0 ((arr.length : Int) - 1)).map
    (finishSort "Array sorted with MergeSort")

/-- Method `SortingAlgorithms::heapSort(arr)`: the new object and the array left in
`arr`. -/
def SortingAlgorithms.heapSort (_self : SortingAlgorithms) (arr : List Int) :
    Option (SortingAlgorithms × List Int) :=
  let states1 := pushState [] "Initial array for HeapSort"
    (createArrayVisualization arr (-1) (-1) false)
  (heapSortSteps arr states1).map (finishSort "Array sorted with HeapSort")

/-- Method `SortingAlgorithms::getStepCount()`. -/
def SortingAlgorithms.getStepCount (self : SortingAlgorithms) : Int :=
  self.totalSteps

/-- Method `SortingAlgorithms::getStep(step)`. -/
def SortingAlgorithms.getStep (self : SortingAlgorithms) (step : Int) : AlgorithmState :=
  if step < 0 ∨ step ≥ (self.states.length : Int) then {}
  else self.states.getD step.toNat {}

end SortCpp

/-! ## Graph family (`graph.cpp`) -/

namespace GraphCpp

/-- Render entity of one graph node (`struct NodePosition`, without `x`, `y`). -/
structure NodePosition where
  id : Int
  value : Int
  highlighted : Bool
  deriving DecidableEq, Repr

/-- Render entity of one directed adjacency entry (`struct EdgePosition`). -/
structure EdgePosition where
  source : Int
  target : Int
  weight : Int
  highlighted : Bool
  deriving DecidableEq, Repr

/-- Snapshot record (`struct AlgorithmState`); the defaults are those of `AlgorithmState()`. -/
structure AlgorithmState where
  nodes : List NodePosition := []
  edges : List EdgePosition := []
  message : String := ""
  step : Int := 0
  totalSteps : Int := 0
  deriving DecidableEq, Repr

/-- Adjacency entry (`struct Graph::Edge`). -/
structure Edge where
  target : Int
  weight : Int
  deriving DecidableEq, Repr

/-- Private members of `class Graph`; the defaults are the constructor's.  The member
`nodePositions` only feeds the `x`, `y` coordinates and is left out. -/
structure Graph where
  adjacencyList : List (Int × List Edge) := []
  nextNodeId : Int := 0
  states : List AlgorithmState := []
  currentStep : Int := 0
  totalSteps : Int := 0
  deriving DecidableEq, Repr

/-- Method `Graph::createInitialState(message)`. -/
def createInitialState (adjacencyList : List (Int × List Edge)) (message : String) :
    AlgorithmState :=
  { message := message,
    step := 1,
    nodes := adjacencyList.map (fun node =>
      { id := node.1, value := node.1, highlighted := false }),
    edges := adjacencyList.flatMap (fun node => node.2.map (fun edge =>
      { source := node.1, target := edge.target, weight := edge.weight,
        highlighted := false })) }

/-- Method `Graph::addNode()`: the new graph and the returned id. -/
def Graph.addNode (self : Graph) : Graph × Int :=
  ({ self with
      nextNodeId := self.nextNodeId + 1,
      adjacencyList := mapInsert self.nextNodeId [] self.adjacencyList },
    self.nextNodeId)

/-- Method `Graph::addEdge(source, target, weight)`. -/
def Graph.addEdge (self : Graph) (source target weight : Int) : Graph :=
  if (mapFind source self.adjacencyList).isSome ∧ (mapFind target self.adjacencyList).isSome
  then
    let adj1 := mapInsert source
      (mapGet self.adjacencyList source [] ++ [{ target := target, weight := weight }])
      self.adjacencyList
    let adj2 := mapInsert target
      (mapGet adj1 target [] ++ [{ target := source, weight := weight }]) adj1
    { self with adjacencyList := adj2 }
  else self

/-- Closing block of every driver: `totalSteps = states.size(); currentStep = 0;` and the
loop that writes `totalSteps` into every snapshot. -/
def finalize (self : Graph) (adjacencyList : List (Int × List Edge))
    (states : List AlgorithmState) : Graph :=
  { self with
    adjacencyList := adjacencyList,
    states := states.map (fun st => { st with totalSteps := (states.length : Int) }),
    currentStep := 0,
    totalSteps := (states.length : Int) }

/-- The two highlight loops of a `Visiting node` snapshot of DFS and BFS: exactly the
node `current` is highlighted, and an edge becomes highlighted when it is one of the
`traversalEdges`. -/
def visitState (initialState : AlgorithmState) (states : List AlgorithmState)
    (current : Int) (traversalEdges : List (Int × Int)) : AlgorithmState :=
  { initialState with
    step := (states.length : Int) + 1,
    message := "Visiting node " ++ toString current,
    nodes := initialState.nodes.map (fun node =>
      { node with highlighted := (node.id == current) }),
    edges := initialState.edges.map (fun edge =>
      if traversalEdges.any (fun tEdge => edge.source == tEdge.1 && edge.target == tEdge.2)
      then { edge with highlighted := true } else edge) }

/-- Total number of adjacency entries of a graph. -/
def edgeEntryCount (adjacencyList : List (Int × List Edge)) : Nat :=
  (adjacencyList.map (fun node => node.2.length)).sum

/-- Variables of the main loop of `depthFirstSearch`; the head of `nodeStack` is the
top of the stack. -/
structure DfsVars where
  adjacencyList : List (Int × List Edge)
  visited : List Int
  nodeStack : List Int
  traversalEdges : List (Int × Int)
  states : List AlgorithmState
  deriving DecidableEq, Repr

/-- Condition `!nodeStack.empty()` of the main loop of `depthFirstSearch`. -/
def dfsCond (s : DfsVars) : Bool :=
  !s.nodeStack.isEmpty

/-- One round of the loop `for (int i = neighbors.size() - 1; i >= 0; i--)` of
`depthFirstSearch`, on the pair `(nodeStack, traversalEdges)`. -/
def dfsPush (visited : List Int) (current : Int) (s : List Int × List (Int × Int))
    (edge : Edge) : List Int × List (Int × Int) :=
  if edge.target ∈ visited then s
  else (edge.target :: s.1, s.2 ++ [(current, edge.target)])

/-- Body of the main loop of `depthFirstSearch`. -/
def dfsBody (initialState : AlgorithmState) (s : DfsVars) : DfsVars :=
  match s.nodeStack with
  | [] => s
  | current :: rest =>
    if current ∈ s.visited then { s with nodeStack := rest }
    else
      let visited := current :: s.visited
      let state := visitState initialState s.states current s.traversalEdges
      let neighbors := mapGet s.adjacencyList current []
      let pushed := neighbors.reverse.foldl (dfsPush visited current) (rest, s.traversalEdges)
      { adjacencyList := mapTouch s.adjacencyList current [],
        visited := visited,
        nodeStack := pushed.1,
        traversalEdges := pushed.2,
        states := s.states ++ [state] }

/-- Final snapshot of the three traversals: a copy of `states.back()` with the next step
number and the closing message. -/
def finalState (states : List AlgorithmState) (message : String) : AlgorithmState :=
  { states.getLastD {} with step := (states.length : Int) + 1, message := message }

/-- Method `Graph::depthFirstSearch(startNode)`.  Every adjacency entry pushes at most
one node, so the main loop is allowed one round per entry and one for the start node. -/
def Graph.depthFirstSearch (self : Graph) (startNode : Int) : Option Graph :=
  let initialState := createInitialState self.adjacencyList
    ("Starting DFS from node " ++ toString startNode)
  match whileLoop dfsCond (dfsBody initialState) (edgeEntryCount self.adjacencyList + 1)
      { adjacencyList := self.adjacencyList, visited := [], nodeStack := [startNode],
        traversalEdges := [], states := [initialState] } with
  | none => none
  | some s =>
    some (finalize self s.adjacencyList
      (s.states ++ [finalState s.states "DFS traversal complete"]))

/-- Variables of the main loop of `breadthFirstSearch`; the head of `nodeQueue` is the
front of the queue. -/
structure BfsVars where
  adjacencyList : List (Int × List Edge)
  visited : List Int
  nodeQueue : List Int
  traversalEdges : List (Int × Int)
  states : List AlgorithmState
  deriving DecidableEq, Repr

/-- Condition `!nodeQueue.empty()` of the main loop of `breadthFirstSearch`. -/
def bfsCond (s : BfsVars) : Bool :=
  !s.nodeQueue.isEmpty

/-- One round of the neighbour loop of `breadthFirstSearch`, on the triple
`(visited, nodeQueue, traversalEdges)`. -/
def bfsPush (current : Int) (s : List Int × List Int × List (Int × Int)) (edge : Edge) :
    List Int × List Int × List (Int × Int) :=
  if edge.target ∈ s.1 then s
  else (edge.target :: s.1, s.2.1 ++ [edge.target], s.2.2 ++ [(current, edge.target)])

/-- Body of the main loop of `breadthFirstSearch`. -/
def bfsBody (initialState : AlgorithmState) (s : BfsVars) : BfsVars :=
  match s.nodeQueue with
  | [] => s
  | current :: rest =>
    let state := visitState initialState s.states current s.traversalEdges
    let neighbors := mapGet s.adjacencyList current []
    let pushed := neighbors.foldl (bfsPush current) (s.visited, rest, s.traversalEdges)
    { adjacencyList := mapTouch s.adjacencyList current [],
      visited := pushed.1,
      nodeQueue := pushed.2.1,
      traversalEdges := pushed.2.2,
      states := s.states ++ [state] }

/-- Method `Graph::breadthFirstSearch(startNode)`.  Every adjacency entry enqueues at
most one node, so the main loop is allowed one round per entry and one for the start. -/
def Graph.breadthFirstSearch (self : Graph) (startNode : Int) : Option Graph :=
  let initialState := createInitialState self.adjacencyList
    ("Starting BFS from node " ++ toString startNode)
  match whileLoop bfsCond (bfsBody initialState) (edgeEntryCount self.adjacencyList + 1)
      { adjacencyList := self.adjacencyList, visited := [startNode],
        nodeQueue := [startNode], traversalEdges := [], states := [initialState] } with
  | none => none
  | some s =>
    some (finalize self s.adjacencyList
      (s.states ++ [finalState s.states "BFS traversal complete"]))

/-- Variables of the main loop of `dijkstraAlgorithm`; `unvisited` is kept in increasing
order, the iteration order of `std::set`.  Reading `distances[k]` for an absent key
gives `0`. -/
structure DijkstraVars where
  adjacencyList : List (Int × List Edge)
  distances : List (Int × Int)
  previous : List (Int × Int)
  unvisited : List Int
  states : List AlgorithmState
  deriving DecidableEq, Repr

/-- The scan `current = *unvisited.begin(); for (node : unvisited) if (distances[node] <
distances[current]) current = node;` (`none` for an empty set). -/
def selectCurrent (distances : List (Int × Int)) (unvisited : List Int) : Option Int :=
  match unvisited with
  | [] => none
  | first :: _ =>
    some (unvisited.foldl
      (fun current node =>
        if mapGet distances node 0 < mapGet distances current 0 then node else current)
      first)

/-- Edge highlight loop by `previous`: an edge becomes highlighted when `previous` maps
its target to its source. -/
def highlightPrevious (previous : List (Int × Int)) (edges : List EdgePosition) :
    List EdgePosition :=
  edges.map (fun edge =>
    if mapFind edge.target previous = some edge.source
    then { edge with highlighted := true } else edge)

/-- Condition of a further round of the main loop of `dijkstraAlgorithm`: `unvisited`
is not empty and the scanned node does not meet the `break` test
`distances[current] == numeric_limits<int>::max()`. -/
def dijkstraCond (s : DijkstraVars) : Bool :=
  match selectCurrent s.distances s.unvisited with
  | none => false
  | some current => mapGet s.distances current 0 != INT_MAX

/-- Variables of the neighbour loop of `dijkstraAlgorithm`. -/
structure RelaxVars where
  distances : List (Int × Int)
  previous : List (Int × Int)
  states : List AlgorithmState
  deriving DecidableEq, Repr

/-- One round of the neighbour loop of `dijkstraAlgorithm`; `state` is the
`Processing node` snapshot of the current round. -/
def relaxEdge (state : AlgorithmState) (current : Int) (s : RelaxVars) (edge : Edge) :
    RelaxVars :=
  let neighbor := edge.target
  let alt := wrapInt32 (mapGet s.distances current 0 + edge.weight)
  if alt < mapGet s.distances neighbor 0 then
    let relaxState : AlgorithmState :=
      { state with
        step := (s.states.length : Int) + 1,
        message := "Updated distance to node " ++ toString neighbor ++ " to " ++
          toString alt,
        edges := state.edges.map (fun e =>
          if e.source == current && e.target == neighbor
          then { e with highlighted := true } else e) }
    { distances := mapInsert neighbor alt s.distances,
      previous := mapInsert neighbor current s.previous,
      states := s.states ++ [relaxState] }
  else s

/-- Body of the main loop of `dijkstraAlgorithm` after the scan and the `break` test. -/
def dijkstraBody (initialState : AlgorithmState) (s : DijkstraVars) : DijkstraVars :=
  match selectCurrent s.distances s.unvisited with
  | none => s
  | some current =>
    let state : AlgorithmState :=
      { initialState with
        step := (s.states.length : Int) + 1,
        message := "Processing node " ++ toString current ++ " with distance " ++
          toString (mapGet s.distances current 0),
        nodes := initialState.nodes.map (fun node =>
          if node.id == current then { node with highlighted := true } else node),
        edges := highlightPrevious s.previous initialState.edges }
    let relaxed := (mapGet s.adjacencyList current []).foldl (relaxEdge state current)
      { distances := s.distances, previous := s.previous, states := s.states ++ [state] }
    { adjacencyList := mapTouch s.adjacencyList current [],
      distances := relaxed.distances,
      previous := relaxed.previous,
      unvisited := s.unvisited.erase current,
      states := relaxed.states }

/-- Method `Graph::dijkstraAlgorithm(startNode)`.  Every round of the main loop erases
one node from `unvisited`, so one round per node is allowed. -/
def Graph.dijkstraAlgorithm (self : Graph) (startNode : Int) : Option Graph :=
  let initialState := createInitialState self.adjacencyList
    ("Starting Dijkstra's algorithm from node " ++ toString startNode)
  let distances0 := self.adjacencyList.foldl
    (fun (d : List (Int × Int)) node => mapInsert node.1 INT_MAX d) []
  let unvisited0 := self.adjacencyList.map Prod.fst
  match whileLoop dijkstraCond (dijkstraBody initialState) self.adjacencyList.length
      { adjacencyList := self.adjacencyList,
        distances := mapInsert startNode 0 distances0,
        previous := [], unvisited := unvisited0, states := [initialState] } with
  | none => none
  | some s =>
    let final0 := finalState s.states "Dijkstra's algorithm complete"
    some (finalize self s.adjacencyList
      (s.states ++ [{ final0 with edges := highlightPrevious s.previous final0.edges }]))

/-- Method `Graph::getStepCount()`. -/
def Graph.getStepCount (self : Graph) : Int :=
  self.totalSteps

/-- Method `Graph::getStep(step)`. -/
def Graph.getStep (self : Graph) (step : Int) : AlgorithmState :=
  if step < 0 ∨ step ≥ (self.states.length : Int) then {}
  else self.states.getD step.toNat {}

/-- Method `Graph::createDemoGraph()`. -/
def Graph.createDemoGraph (self : Graph) : Graph :=
  let g0 : Graph := { self with adjacencyList := [], nextNodeId := 0 }
  let g6 := forLoop (fun _ (g : Graph) => g.addNode.1) 6 0 g0
  ((((((((g6.addEdge 0 1 4).addEdge 0 2 2).addEdge 1 2 5).addEdge 1 3 10).addEdge 2 3 3).addEdge
    2 4 7).addEdge 3 4 4).addEdge 3 5 6).addEdge 4 5 1

/-- Function `performGraphOperation(algorithm, startNode)` on the global instance
`graph`: the returned `int` and the new value of `graph`. -/
def performGraphOperation (graph : Graph) (algorithm startNode : Int) :
    Option (Int × Graph) :=
  let graph1 := if graph.getStepCount = 0 then graph.createDemoGraph else graph
  if algorithm = 0 then
    (graph1.depthFirstSearch startNode).map (fun g => (g.getStepCount, g))
  else if algorithm = 1 then
    (graph1.breadthFirstSearch startNode).map (fun g => (g.getStepCount, g))
  else if algorithm = 2 then
    (graph1.dijkstraAlgorithm startNode).map (fun g => (g.getStepCount, g))
  else
    some (-1, graph1)

end GraphCpp

/-! ## Tree family (`tree.cpp`) -/

namespace TreeCpp

/-- A `Node*`: the null pointer, or a node with its `data`, `left` and `right`. -/
inductive Node where
  | null : Node
  | mk (data : Int) (left right : Node) : Node
  deriving DecidableEq, Repr

/-- Render entity of one tree node (`struct NodePosition`, without `x`, `y`). -/
structure NodePosition where
  id : Int
  value : Int
  highlighted : Bool
  deriving DecidableEq, Repr

/-- Render entity of one tree edge (`struct EdgePosition`). -/
structure EdgePosition where
  source : Int
  target : Int
  highlighted : Bool
  deriving DecidableEq, Repr

/-- Snapshot record (`struct AlgorithmState`); the defaults are those of `AlgorithmState()`. -/
structure AlgorithmState where
  nodes : List NodePosition := []
  edges : List EdgePosition := []
  message : String := ""
  step : Int := 0
  totalSteps : Int := 0
  deriving DecidableEq, Repr

/-- Modelled from the spec: the declaration of `edges`, the edge list that
`calculatePositions` appends to and the two `create...States` methods copy into their
snapshots, is missing from `tree.cpp`; it is taken as one more member, a
`vector<EdgePosition>` that starts empty.  The other fields are the private members of
`class BinarySearchTree`, with the constructor's defaults. -/
structure BinarySearchTree where
  root : Node := Node.null
  edges : List EdgePosition := []
  states : List AlgorithmState := []
  currentStep : Int := 0
  totalSteps : Int := 0
  deriving DecidableEq, Repr

/-- Method `insertRecursive(current, value, path)`: the returned pointer and `path`. -/
def insertRecursive : Node → Int → List Int → Node × List Int
  | Node.null, value, path => (Node.mk value Node.null Node.null, path)
  | Node.mk data left right, value, path =>
    if value < data then
      let r := insertRecursive left value (path ++ [data])
      (Node.mk data r.1 right, r.2)
    else if value > data then
      let r := insertRecursive right value (path ++ [data])
      (Node.mk data left r.1, r.2)
    else (Node.mk data left right, path ++ [data])

/-- Method `findNode(current, value, path)`: the returned pointer and `path`. -/
def findNode : Node → Int → List Int → Node × List Int
  | Node.null, _, path => (Node.null, path)
  | Node.mk data left right, value, path =>
    if data = value then (Node.mk data left right, path ++ [data])
    else if value < data then findNode left value (path ++ [data])
    else findNode right value (path ++ [data])

/-- Variables `positions`, `nextId` and the member `edges` that `calculatePositions`
updates. -/
structure LayoutVars where
  positions : List (Int × NodePosition)
  nextId : Int
  edges : List EdgePosition
  deriving DecidableEq, Repr

/-- The statement `edges.push_back(\x7bid, positions[child->data].id, false\x7d)` after
the recursive call on a child, skipped for a null child. -/
def pushChildEdge (id : Int) (child : Node) (s : LayoutVars) : LayoutVars :=
  match child with
  | Node.null => s
  | Node.mk data _ _ =>
    { s with edges := s.edges ++
        [{ source := id,
           target := (mapGet s.positions data { id := 0, value := 0, highlighted := false }).id,
           highlighted := false }] }

/-- Method `calculatePositions(node, x, y, horizontalSpacing, level, positions, nextId)`. -/
def calculatePositions : Node → LayoutVars → LayoutVars
  | Node.null, s => s
  | Node.mk data left right, s =>
    let id := s.nextId
    let s1 : LayoutVars :=
      { s with
        nextId := id + 1,
        positions := mapInsert data { id := id, value := data, highlighted := false }
          s.positions }
    let s2 := pushChildEdge id left (calculatePositions left s1)
    pushChildEdge id right (calculatePositions right s2)

/-- Method `getNodeIdByValue(state, value)`. -/
def getNodeIdByValue (state : AlgorithmState) (value : Int) : Int :=
  match state.nodes.find? (fun node => node.value == value) with
  | some node => node.id
  | none => -1

/-- Closing block of both drivers: `totalSteps = states.size(); currentStep = 0;` and
the loop that writes `totalSteps` into every snapshot. -/
def finalize (self : BinarySearchTree) (states : List AlgorithmState) : BinarySearchTree :=
  { self with
    states := states.map (fun st => { st with totalSteps := (states.length : Int) }),
    currentStep := 0,
    totalSteps := (states.length : Int) }

/-- The two highlight loops shared by the path snapshots of insertion and search: the
nodes whose value is `path[i]`, and for `i > 0` the edge from `path[i-1]` to `path[i]`. -/
def highlightPath (initialState : AlgorithmState) (path : List Int) (i : Int) :
    AlgorithmState :=
  let state1 : AlgorithmState :=
    { initialState with
      nodes := initialState.nodes.map (fun node =>
        { node with highlighted := (node.value == getAt path i 0) }) }
  if i > 0 then
    { state1 with
      edges := state1.edges.map (fun edge =>
        if edge.source == getNodeIdByValue state1 (getAt path (i - 1) 0) &&
            edge.target == getNodeIdByValue state1 (getAt path i 0)
        then { edge with highlighted := true } else edge) }
  else state1

/-- Body of the loop over `path` of `createInsertionStates`. -/
def insertionPathBody (initialState : AlgorithmState) (path : List Int) (i : Int)
    (states : List AlgorithmState) : List AlgorithmState :=
  states ++ [{ highlightPath initialState path i with
    step := i + 2,
    message := "Comparing with node " ++ toString (getAt path i 0) }]

/-- Method `createInsertionStates(value)`. -/
def createInsertionStates (self : BinarySearchTree) (value : Int) : BinarySearchTree :=
  let layout := calculatePositions self.root
    { positions := [], nextId := 0, edges := self.edges }
  let initialState : AlgorithmState :=
    { message := "Starting BST insertion for value " ++ toString value,
      step := 1,
      nodes := layout.positions.map Prod.snd,
      edges := layout.edges }
  let r := insertRecursive self.root value []
  let path := r.2
  let states := forLoop (insertionPathBody initialState path) path.length 0 [initialState]
  let layout2 := calculatePositions r.1 { positions := [], nextId := 0, edges := [] }
  let finalState : AlgorithmState :=
    { states.getLastD {} with
      step := (path.length : Int) + 2,
      message := "Inserted " ++ toString value ++ " into the tree",
      nodes := layout2.positions.map (fun pair =>
        if pair.2.value = value then { pair.2 with highlighted := true } else pair.2),
      edges := layout2.edges }
  finalize { self with root := r.1, edges := layout2.edges } (states ++ [finalState])

/-- Body of the loop over `path` of `createSearchStates`. -/
def searchPathBody (initialState : AlgorithmState) (path : List Int) (value : Int) (i : Int)
    (states : List AlgorithmState) : List AlgorithmState :=
  states ++ [{ highlightPath initialState path i with
    step := i + 2,
    message :=
      if getAt path i 0 = value then
        "Found value " ++ toString value ++ " at this node"
      else
        "Checking node " ++ toString (getAt path i 0) ++ ", moving to " ++
          (if value < getAt path i 0 then "left" else "right") }]

/-- Method `createSearchStates(value)`. -/
def createSearchStates (self : BinarySearchTree) (value : Int) : BinarySearchTree :=
  let layout := calculatePositions self.root
    { positions := [], nextId := 0, edges := self.edges }
  let initialState : AlgorithmState :=
    { message := "Starting BST search for value " ++ toString value,
      step := 1,
      nodes := layout.positions.map Prod.snd,
      edges := layout.edges }
  let r := findNode self.root value []
  let path := r.2
  let states := forLoop (searchPathBody initialState path value) path.length 0 [initialState]
  let finalState : AlgorithmState :=
    { states.getLastD {} with
      step := (path.length : Int) + 2,
      message :=
        if r.1 ≠ Node.null then "Value " ++ toString value ++ " found in the tree"
        else "Value " ++ toString value ++ " not found in the tree" }
  finalize { self with edges := layout.edges } (states ++ [finalState])

/-- Method `BinarySearchTree::insert(value)`. -/
def BinarySearchTree.insert (self : BinarySearchTree) (value : Int) : BinarySearchTree :=
  createInsertionStates self value

/-- Method `BinarySearchTree::search(value)`: the new object and the returned `bool`. -/
def BinarySearchTree.search (self : BinarySearchTree) (value : Int) :
    BinarySearchTree × Bool :=
  let self1 := createSearchStates self value
  (self1, decide ((findNode self1.root value []).1 ≠ Node.null))

/-- Method `BinarySearchTree::getStepCount()`. -/
def BinarySearchTree.getStepCount (self : BinarySearchTree) : Int :=
  self.totalSteps

/-- Method `BinarySearchTree::getStep(step)`. -/
def BinarySearchTree.getStep (self : BinarySearchTree) (step : Int) : AlgorithmState :=
  if step < 0 ∨ step ≥ (self.states.length : Int) then {}
  else self.states.getD step.toNat {}

end TreeCpp

/-! ## Properties the theorems speak about -/

/-- The accessor `getStep` numbers a DP trace `1, 2, ...`: `getStep(i).step = i + 1`
for every index `i` inside the trace. -/
def DpCpp.Numbered (self : DpCpp.DynamicProgramming) : Prop :=
  ∀ i : Int, 0 ≤ i → i < (self.states.length : Int) → (self.getStep i).step = i + 1

/-- The accessor `getStep` numbers a sorting trace `1, 2, ...`. -/
def SortCpp.Numbered (self : SortCpp.SortingAlgorithms) : Prop :=
  ∀ i : Int, 0 ≤ i → i < (self.states.length : Int) → (self.getStep i).step = i + 1

/-- The accessor `getStep` numbers a graph trace `1, 2, ...`. -/
def GraphCpp.Numbered (self : GraphCpp.Graph) : Prop :=
  ∀ i : Int, 0 ≤ i → i < (self.states.length : Int) → (self.getStep i).step = i + 1

/-- The accessor `getStep` numbers a tree trace `1, 2, ...`. -/
def TreeCpp.Numbered (self : TreeCpp.BinarySearchTree) : Prop :=
  ∀ i : Int, 0 ≤ i → i < (self.states.length : Int) → (self.getStep i).step = i + 1

/-- A finished trace: it has a snapshot, every snapshot carries the number of snapshots
as its `totalSteps`, the last snapshot has that number as its `step`, and `count` (the
value of `getStepCount()`) is that number too. -/
def TraceFinalized {α : Type} (step total : α → Int) (states : List α) (count : Int) :
    Prop :=
  states ≠ [] ∧ (∀ st ∈ states, total st = (states.length : Int)) ∧
    (∀ last, states.getLast? = some last → step last = (states.length : Int)) ∧
    count = (states.length : Int)

/-- The `step` fields of a trace are `1, 2, ...` in this order. -/
def Stepped {α : Type} (step : α → Int) (states : List α) : Prop :=
  StepsFromOne (states.map step)

/-- Number of adjacency entries whose source node is not yet in `visited`: what the DFS
loop can still push. -/
def GraphCpp.unvisitedWeight (adjacencyList : List (Int × List GraphCpp.Edge))
    (visited : List Int) : Nat :=
  ((adjacencyList.filter (fun node => decide (node.1 ∉ visited))).map
    (fun node => node.2.length)).sum

/-- Number of adjacency entries whose target node is not yet in `visited`: what the BFS
loop can still enqueue. -/
def GraphCpp.unvisitedTargets (adjacencyList : List (Int × List GraphCpp.Edge))
    (visited : List Int) : Nat :=
  (adjacencyList.map (fun node =>
    (node.2.filter (fun edge => decide (edge.target ∉ visited))).length)).sum

/-! ## Predicates and recurrences used in the proofs -/

namespace SortCpp

/-- The array `b` arises from `a` by exchanges `swap(arr[i], arr[j])` whose two positions
lie in the segment `[lo, hi]`. -/
inductive SwapReach (lo hi : Int) : List Int → List Int → Prop
  | refl (a : List Int) : SwapReach lo hi a a
  | step (a b : List Int) (i j : Int) : SwapReach lo hi a b → lo ≤ i → i ≤ hi → lo ≤ j →
      j ≤ hi → SwapReach lo hi a (swapAt b i j)

/-- The segment `[lo, hi]` of `a` is in non-decreasing order. -/
def SortedOn (lo hi : Int) (a : List Int) : Prop :=
  ∀ i j : Int, lo ≤ i → i ≤ j → j ≤ hi → getAt a i 0 ≤ getAt a j 0

/-- Invariant of the partition loop of `quickSortSteps` before round `j`, for the segment
`[low, high]` of the array `arr` with pivot value `v`. -/
def PartitionInv (arr : List Int) (low high v : Int) (j : Int) (s : PartitionVars) : Prop :=
  SwapReach low high arr s.arr ∧ low - 1 ≤ s.i ∧ s.i < j ∧
    (∀ k, low ≤ k → k ≤ s.i → getAt s.arr k 0 < v) ∧
    (∀ k, s.i < k → k < j → v ≤ getAt s.arr k 0) ∧
    getAt s.arr high 0 = v

/-- A driver result whose final snapshot shows `arr` sorted. -/
def SortsTo (run : Option (SortingAlgorithms × List Int)) (arr : List Int) : Prop :=
  ∃ r last, run = some r ∧ r.1.states.getLast? = some last ∧
    last.elements.map ArrayElement.id = (List.range arr.length).map (fun k : Nat => (k : Int)) ∧
    (last.elements.map ArrayElement.value).Perm arr ∧
    (last.elements.map ArrayElement.value).Sorted (fun x y => x ≤ y)

/-- Invariant of the three loops of `mergeSteps` on the array `P ++ A ++ B ++ S`: the
part `W` already written continues to the merge of `A` and `B`. -/
def MergeInv (P A B S : List Int) (t : MergeVars) : Prop :=
  ∃ W X : List Int, t.arr = P ++ W ++ X ++ S ∧
    W.length + X.length = A.length + B.length ∧
    0 ≤ t.i ∧ t.i ≤ (A.length : Int) ∧ 0 ≤ t.j ∧ t.j ≤ (B.length : Int) ∧
    (W.length : Int) = t.i + t.j ∧ t.k = (P.length : Int) + t.i + t.j ∧
    W ++ List.merge (A.drop t.i.toNat) (B.drop t.j.toNat) (fun x y => decide (x ≤ y)) =
      List.merge A B (fun x y => decide (x ≤ y))

/-- Node `k` of the heap of size `n` is not below its children. -/
def ChildrenLe (a : List Int) (n k : Int) : Prop :=
  (2 * k + 1 < n → getAt a (2 * k + 1) 0 ≤ getAt a k 0) ∧
  (2 * k + 2 < n → getAt a (2 * k + 2) 0 ≤ getAt a k 0)

/-- Max-heap order at every node from index `s` on, for the heap of size `n`. -/
def HeapFrom (a : List Int) (n s : Int) : Prop :=
  ∀ k, s ≤ k → k < n → ChildrenLe a n k

/-- Precondition of `heapifySteps(arr, n, i)`: max-heap order at every node from `s` on
except `i`, and a parent of `i` is not below the children of `i`. -/
def HeapExcept (a : List Int) (n s i : Int) : Prop :=
  (∀ k, s ≤ k → k < n → k ≠ i → ChildrenLe a n k) ∧
  (∀ k, s ≤ k → k < n → (2 * k + 1 = i ∨ 2 * k + 2 = i) →
    (2 * i + 1 < n → getAt a (2 * i + 1) 0 ≤ getAt a k 0) ∧
    (2 * i + 2 < n → getAt a (2 * i + 2) 0 ≤ getAt a k 0))

/-- Invariant of the extraction loop of `heapSortSteps` before the round with index `j`. -/
def ExtractInv (arr : List Int) (j : Int) (t : List Int × List AlgorithmState) : Prop :=
  HeapFrom t.1 (j + 1) 0 ∧ SortedOn (j + 1) ((arr.length : Int) - 1) t.1 ∧
    (∀ k m, 0 ≤ k → k ≤ j → j < m → m ≤ (arr.length : Int) - 1 →
      getAt t.1 k 0 ≤ getAt t.1 m 0) ∧
    SwapReach 0 ((arr.length : Int) - 1) arr t.1

end SortCpp

namespace DpCpp

/-- Total value of a selection of `(value, weight)` items. -/
def totalValue (s : List (Int × Int)) : Int := (s.map Prod.fst).sum

/-- Total weight of a selection of `(value, weight)` items. -/
def totalWeight (s : List (Int × Int)) : Int := (s.map Prod.snd).sum

/-- `V` is the largest total value of a selection of the items `values[k]`, `weights[k]`
whose total weight is at most `capacity`. -/
def IsKnapsackOptimum (values weights : List Int) (capacity : Int) (V : Int) : Prop :=
  (∃ s, s.Sublist (values.zip weights) ∧ totalWeight s ≤ capacity ∧ totalValue s = V) ∧
  (∀ s, s.Sublist (values.zip weights) → totalWeight s ≤ capacity → totalValue s ≤ V)

/-- The knapsack recurrence of the fill loop, on the items taken so far (latest first). -/
def knapBest : List (Int × Int) → Int → Int
  | [], _ => 0
  | (v, wt) :: rest, w =>
    if wt > w then knapBest rest w else max (knapBest rest w) (v + knapBest rest (w - wt))

/-- The table `dp` has `rows` rows of `cols` columns. -/
def TableDims (dp : List (List Int)) (rows cols : Nat) : Prop :=
  dp.length = rows ∧ ∀ row ∈ dp, row.length = cols

/-- Every selection of the values has a total inside the range of a 32-bit `int`. -/
def ValuesInRange (values : List Int) : Prop :=
  ∀ s : List Int, s.Sublist values → -2147483648 ≤ s.sum ∧ s.sum ≤ 2147483647

/-- Rows `0 .. i-1` of the knapsack table hold the values of the recurrence. -/
def RowsDone (items : List (Int × Int)) (capacity : Nat) (dp : List (List Int)) (i : Int) :
    Prop :=
  ∀ r w : Int, 0 ≤ r → r < i → 0 ≤ w → w ≤ (capacity : Int) →
    getCell dp r w = knapBest ((items.take r.toNat).reverse) w

/-- Invariant of the inner fill loop of `knapsack` in row `i` before column `w`. -/
def RowInv (items : List (Int × Int)) (capacity : Nat) (i w : Int)
    (s : List (List Int) × List AlgorithmState) : Prop :=
  TableDims s.1 (items.length + 1) (capacity + 1) ∧ RowsDone items capacity s.1 i ∧
    ∀ w1 : Int, 0 ≤ w1 → w1 < w →
      getCell s.1 i w1 = knapBest ((items.take i.toNat).reverse) w1

end DpCpp

namespace DpCpp

/-- Invariant of the fill loop of `fibonacci(n)` before round `i`: the entries below `i`
are the Fibonacci numbers. -/
def FibInv (n : Nat) (i : Int) (s : List Int × List AlgorithmState) : Prop :=
  s.1.length = n + 1 ∧
    ∀ k : Nat, (k : Int) < i → k ≤ n → getAt s.1 (k : Int) 0 = (Nat.fib k : Int)

end DpCpp

namespace TreeCpp

/-- The value `v` is the `data` of some node of the tree. -/
def Node.Contains (v : Int) : Node → Prop
  | Node.null => False
  | Node.mk data left right => v = data ∨ Node.Contains v left ∨ Node.Contains v right

/-- Search-tree order: everything in a left subtree is smaller than the node, everything in
a right subtree larger. -/
def Node.Ordered : Node → Prop
  | Node.null => True
  | Node.mk data left right =>
    (∀ x, Node.Contains x left → x < data) ∧ (∀ x, Node.Contains x right → data < x) ∧
      Node.Ordered left ∧ Node.Ordered right

/-- The tree object after `insert(x)` for each `x` of `xs` in turn, starting from the
freshly constructed (empty) tree. -/
def insertAll (xs : List Int) : BinarySearchTree :=
  xs.foldl (fun bst x => bst.insert x) {}

/-- A layout map as `calculatePositions` builds it: keys strictly increasing, and the entry
under key `k` is an unhighlighted entity of value `k`. -/
def LayoutOk (positions : List (Int × NodePosition)) : Prop :=
  (positions.map Prod.fst).Pairwise (fun a b => a < b) ∧
    ∀ p ∈ positions, p.2.value = p.1 ∧ p.2.highlighted = false

end TreeCpp

namespace DpCpp

/-- `L` is the length of a longest common subsequence of the byte sequences `s1` and `s2`:
some common subsequence has `L` bytes and none has more. -/
def IsLcsLength (s1 s2 : CppString) (L : Int) : Prop :=
  (∃ c : CppString, c.Sublist s1 ∧ c.Sublist s2 ∧ (c.length : Int) = L) ∧
    ∀ c : CppString, c.Sublist s1 → c.Sublist s2 → (c.length : Int) ≤ L

/-- The recurrence of the LCS fill loop, on the bytes read so far (latest first). -/
def lcsLen : CppString → CppString → Nat
  | [], _ => 0
  | _ :: _, [] => 0
  | a :: as, b :: bs =>
    if a = b then lcsLen as bs + 1 else max (lcsLen as (b :: bs)) (lcsLen (a :: as) bs)
termination_by s1 s2 => s1.length + s2.length

/-- The value the recurrence gives for cell `(i, j)` of the LCS table. -/
def lcsAt (str1 str2 : CppString) (i j : Int) : Int :=
  (lcsLen (str1.take i.toNat).reverse (str2.take j.toNat).reverse : Nat)

/-- Rows `0 .. i-1` of the LCS table hold the values of the recurrence, and column 0 is
still zero in every row. -/
def LcsRowsDone (str1 str2 : CppString) (dp : List (List Int)) (i : Int) : Prop :=
  (∀ r c : Int, 0 ≤ r → r < i → 0 ≤ c → c ≤ (str2.length : Int) →
    getCell dp r c = lcsAt str1 str2 r c) ∧
  ∀ r : Int, 0 ≤ r → r ≤ (str1.length : Int) → getCell dp r 0 = 0

/-- Invariant of the inner fill loop of `longestCommonSubsequence` in row `i` before
column `j`. -/
def LcsRowInv (str1 str2 : CppString) (i j : Int)
    (s : List (List Int) × List AlgorithmState) : Prop :=
  TableDims s.1 (str1.length + 1) (str2.length + 1) ∧ LcsRowsDone str1 str2 s.1 i ∧
    ∀ c : Int, 0 ≤ c → c < j → getCell s.1 i c = lcsAt str1 str2 i c

/-- Invariant of the reconstruction loop: the characters collected so far are a common
subsequence of the unread suffixes and account for the part of the table value already
walked past. -/
def LcsWalkInv (str1 str2 : CppString) (s : LcsWalk) : Prop :=
  0 ≤ s.i ∧ s.i ≤ (str1.length : Int) ∧ 0 ≤ s.j ∧ s.j ≤ (str2.length : Int) ∧
    s.lcs.Sublist (str1.drop s.i.toNat) ∧ s.lcs.Sublist (str2.drop s.j.toNat) ∧
    (s.lcs.length : Int) + lcsAt str1 str2 s.i s.j =
      lcsAt str1 str2 (str1.length : Int) (str2.length : Int)

end DpCpp

namespace GraphCpp

/-- The adjacency list has an entry from `u` to `w`. -/
def HasEdge (adj : List (Int × List Edge)) (u w : Int) : Prop :=
  ∃ e ∈ mapGet adj u [], e.target = w

/-- The node `v` can be reached from `s` along adjacency entries (in zero or more steps). -/
def Reachable (adj : List (Int × List Edge)) (s v : Int) : Prop :=
  Relation.ReflTransGen (HasEdge adj) s v

/-- The messages of a finished traversal trace: the opening message, one
`"Visiting node v"` per entry of `visits` in order, and the closing message. -/
def traversalMessages (opening : String) (visits : List Int) (closing : String) :
    List String :=
  [opening] ++ visits.map (fun v => "Visiting node " ++ toString v) ++ [closing]

/-- Invariant of the main loop of `breadthFirstSearch`: `visited`, oldest first, is the
list of nodes already dequeued followed by the queue; everything marked is reachable; and
every neighbour of a dequeued node is marked. -/
def BfsInv (adj : List (Int × List Edge)) (start : Int) (opening : String) (s : BfsVars) :
    Prop :=
  ∃ done : List Int,
    (∀ u, mapGet s.adjacencyList u [] = mapGet adj u []) ∧
    s.visited.reverse = done ++ s.nodeQueue ∧
    s.visited.Nodup ∧
    (∀ v ∈ s.visited, Reachable adj start v) ∧
    (∀ u ∈ done, ∀ w, HasEdge adj u w → w ∈ s.visited) ∧
    start ∈ s.visited ∧
    s.states.map AlgorithmState.message =
      [opening] ++ done.map (fun v => "Visiting node " ++ toString v)

/-- Invariant of the main loop of `depthFirstSearch`: `visited` has no repetition and the
snapshots follow it; everything visited or stacked is reachable; every neighbour of a
visited node is visited or on the stack. -/
def DfsInv (adj : List (Int × List Edge)) (start : Int) (opening : String) (s : DfsVars) :
    Prop :=
  (∀ u, mapGet s.adjacencyList u [] = mapGet adj u []) ∧
  s.visited.Nodup ∧
  (∀ v ∈ s.visited, Reachable adj start v) ∧
  (∀ v ∈ s.nodeStack, Reachable adj start v) ∧
  (∀ u ∈ s.visited, ∀ w, HasEdge adj u w → w ∈ s.visited ∨ w ∈ s.nodeStack) ∧
  (start ∈ s.visited ∨ start ∈ s.nodeStack) ∧
  s.states.map AlgorithmState.message =
    [opening] ++ s.visited.reverse.map (fun v => "Visiting node " ++ toString v)

end GraphCpp

/-! ## The step accessor as a call on the object -/

/-- The call `dp.getStep(step)` with the object made explicit: the object after the call
and the returned snapshot.  The method is `const`; its body assigns no member. -/
def DpCpp.DynamicProgramming.getStepCall (self : DpCpp.DynamicProgramming) (step : Int) :
    DpCpp.DynamicProgramming × DpCpp.AlgorithmState :=
  (self, self.getStep step)

/-- The call `sorting.getStep(step)` with the object made explicit: the object after the
call and the returned snapshot.  The method is `const`; its body assigns no member. -/
def SortCpp.SortingAlgorithms.getStepCall (self : SortCpp.SortingAlgorithms) (step : Int) :
    SortCpp.SortingAlgorithms × SortCpp.AlgorithmState :=
  (self, self.getStep step)

/-- The call `graph.getStep(step)` with the object made explicit: the object after the
call and the returned snapshot.  The method is `const`; its body assigns no member. -/
def GraphCpp.Graph.getStepCall (self : GraphCpp.Graph) (step : Int) :
    GraphCpp.Graph × GraphCpp.AlgorithmState :=
  (self, self.getStep step)

/-- The call `bst.getStep(step)` with the object made explicit: the object after the call
and the returned snapshot.  The body only reads `states`. -/
def TreeCpp.BinarySearchTree.getStepCall (self : TreeCpp.BinarySearchTree) (step : Int) :
    TreeCpp.BinarySearchTree × TreeCpp.AlgorithmState :=
  (self, self.getStep step)

namespace GraphCpp

/-- One call of the graph construction protocol: `addNode()` or
`addEdge(source, target, weight)`. -/
inductive BuildOp where
  | addNode : BuildOp
  | addEdge (source target weight : Int) : BuildOp
  deriving DecidableEq, Repr

/-- The graph after one construction call. -/
def Graph.applyOp (self : Graph) : BuildOp → Graph
  | BuildOp.addNode => self.addNode.1
  | BuildOp.addEdge source target weight => self.addEdge source target weight

/-- The graph built from the freshly constructed (empty) graph by the calls `ops` in
order. -/
def buildGraph (ops : List BuildOp) : Graph :=
  ops.foldl Graph.applyOp {}

/-- The node `u` is a key of the adjacency map (`adjacencyList.find(u) != end()`). -/
def IsNode (adj : List (Int × List Edge)) (u : Int) : Prop :=
  (mapFind u adj).isSome = true

end GraphCpp

namespace DpCpp

/-- The ids of the highlighted cells of a snapshot, in cell order. -/
def highlightedIds (st : AlgorithmState) : List Int :=
  (st.cells.filter (fun c => c.highlighted)).map CellPosition.id

/-- The highlight of each per-cell snapshot of a table fill, in loop order: rows
`1 .. rows`, in each row the columns `firstCol .. firstCol + cols - 1`, and for cell
`(i, j)` of a table `width` columns wide the single id `i * width + j`. -/
def perCellHighlights (rows width firstCol cols : Nat) : List (List Int) :=
  (List.range rows).flatMap (fun (r : Nat) =>
    (List.range cols).map (fun (c : Nat) =>
      [((r : Int) + 1) * (width : Int) + ((firstCol : Int) + (c : Int))]))

end DpCpp

namespace TreeCpp

/-- The values of a tree in pre-order: the node, then its left subtree, then its right
subtree. -/
def Node.preorder : Node → List Int
  | Node.null => []
  | Node.mk data left right => data :: (Node.preorder left ++ Node.preorder right)

/-- The edge entity from the node with id `parent` to its child with id `childId`; none
for a null child. -/
def linkTo (parent childId : Int) : Node → List EdgePosition
  | Node.null => []
  | Node.mk _ _ _ => [{ source := parent, target := childId, highlighted := false }]

/-- One edge entity `(parent id, child id)` per parent-child link of the tree, with the
nodes numbered in pre-order from `base`, in the order in which the traversal returns from
the children. -/
def childLinks : Node → Int → List EdgePosition
  | Node.null, _ => []
  | Node.mk _ left right, base =>
    childLinks left (base + 1) ++ linkTo base (base + 1) left ++
      (childLinks right (base + 1 + (Node.preorder left).length) ++
        linkTo base (base + 1 + (Node.preorder left).length) right)

/-- The unhighlighted node entity of the value `x` when the values `pre` are numbered in
order from `base`. -/
def entityAt (pre : List Int) (base : Int) (x : Int) : NodePosition :=
  { id := base + (List.indexOf x pre : Nat), value := x, highlighted := false }

end TreeCpp

namespace GraphCpp

/-- The neighbours of `n` in adjacency-list (edge declaration) order. -/
def neighbours (adj : List (Int × List Edge)) (n : Int) : List Int :=
  (mapGet adj n []).map Edge.target

/-- The recursive depth-first search, as a relation `RecDfs adj todo visited result`: with
`visited` the nodes visited so far in visiting order, calling the recursive procedure on
each node of `todo` in turn leaves the visiting order `result`.  The procedure returns at
once on a visited node; otherwise it records the node and calls itself on the node's
neighbours in adjacency-list order. -/
inductive RecDfs (adj : List (Int × List Edge)) : List Int → List Int → List Int → Prop where
  | done (visited : List Int) : RecDfs adj [] visited visited
  | skip (n : Int) (rest visited result : List Int) :
      n ∈ visited → RecDfs adj rest visited result → RecDfs adj (n :: rest) visited result
  | visit (n : Int) (rest visited mid result : List Int) :
      n ∉ visited → RecDfs adj (neighbours adj n) (visited ++ [n]) mid →
      RecDfs adj rest mid result → RecDfs adj (n :: rest) visited result

end GraphCpp

namespace GraphCpp

/-- What a snapshot of the main loop of `dijkstraAlgorithm` records: a node being settled
at a distance, or a tentative distance being lowered by a successful relaxation. -/
inductive DijkstraEvent where
  | settle (node distance : Int) : DijkstraEvent
  | update (node distance : Int) : DijkstraEvent
  deriving DecidableEq, Repr

/-- The message of the snapshot that records the event. -/
def DijkstraEvent.message : DijkstraEvent → String
  | DijkstraEvent.settle node distance =>
    "Processing node " ++ toString node ++ " with distance " ++ toString distance
  | DijkstraEvent.update node distance =>
    "Updated distance to node " ++ toString node ++ " to " ++ toString distance

/-- The event is the settling of a node. -/
def DijkstraEvent.isSettle : DijkstraEvent → Bool
  | DijkstraEvent.settle _ _ => true
  | DijkstraEvent.update _ _ => false

/-- The event is a successful relaxation. -/
def DijkstraEvent.isUpdate : DijkstraEvent → Bool
  | DijkstraEvent.settle _ _ => false
  | DijkstraEvent.update _ _ => true

/-- The successful relaxations of one run of the neighbour loop of `dijkstraAlgorithm`
over `edges`, from the distance map `distances`: an edge counts exactly when the test
`alt < distances[neighbor]` holds, and the map is then updated as in the loop. -/
def relaxLog (current : Int) : List (Int × Int) → List Edge → List DijkstraEvent
  | _, [] => []
  | distances, edge :: edges =>
    if wrapInt32 (mapGet distances current 0 + edge.weight) < mapGet distances edge.target 0
    then
      DijkstraEvent.update edge.target (wrapInt32 (mapGet distances current 0 + edge.weight)) ::
        relaxLog current
          (mapInsert edge.target (wrapInt32 (mapGet distances current 0 + edge.weight))
            distances) edges
    else relaxLog current distances edges

/-- The events of the main loop of `dijkstraAlgorithm` from the state `s`, for at most
`fuel` rounds: each round that passes the loop test and the `break` test settles the
scanned node and then runs the neighbour loop. -/
def dijkstraLog (initialState : AlgorithmState) : Nat → DijkstraVars → List DijkstraEvent
  | 0, _ => []
  | fuel + 1, s =>
    match selectCurrent s.distances s.unvisited with
    | none => []
    | some current =>
      if mapGet s.distances current 0 != INT_MAX then
        DijkstraEvent.settle current (mapGet s.distances current 0) ::
          (relaxLog current s.distances (mapGet s.adjacencyList current []) ++
            dijkstraLog initialState fuel (dijkstraBody initialState s))
      else []

/-- The events of the whole run `dijkstraAlgorithm(startNode)`: the main loop started
from the initial distances (`INT_MAX` everywhere, 0 at the start node) with every node
unvisited. -/
def Graph.dijkstraEvents (self : Graph) (startNode : Int) : List DijkstraEvent :=
  let initialState := createInitialState self.adjacencyList
    ("Starting Dijkstra's algorithm from node " ++ toString startNode)
  dijkstraLog initialState self.adjacencyList.length
    { adjacencyList := self.adjacencyList,
      distances := mapInsert startNode 0 (self.adjacencyList.foldl
        (fun (d : List (Int × Int)) node => mapInsert node.1 INT_MAX d) []),
      previous := [], unvisited := self.adjacencyList.map Prod.fst,
      states := [initialState] }

end GraphCpp

namespace GraphCpp

/-- There is a walk from `s` to the node along adjacency entries whose weights add up to
the given total. -/
inductive WalkWeight (adj : List (Int × List Edge)) (s : Int) : Int → Int → Prop where
  | start : WalkWeight adj s s 0
  | step (u d : Int) (e : Edge) :
      WalkWeight adj s u d → e ∈ mapGet adj u [] → WalkWeight adj s e.target (d + e.weight)

/-- The total `d` is the minimum weight of a walk from `s` to `v`. -/
def IsShortest (adj : List (Int × List Edge)) (s v d : Int) : Prop :=
  WalkWeight adj s v d ∧ ∀ d1, WalkWeight adj s v d1 → d ≤ d1

/-- The nodes settled by a list of events, each with the distance it was settled at, in
order. -/
def settles : List DijkstraEvent → List (Int × Int)
  | [] => []
  | DijkstraEvent.settle node distance :: rest => (node, distance) :: settles rest
  | DijkstraEvent.update _ _ :: rest => settles rest

/-- Invariant of the main loop of `dijkstraAlgorithm` on a graph with non-negative
weights: tentative distances are `INT_MAX` or the weight of a walk; a settled node (a
node no longer in `unvisited`) has its final, minimal distance, its edges are relaxed, and
its distance is at most that of every unvisited node. -/
def DijkstraInv (adj : List (Int × List Edge)) (start : Int) (s : DijkstraVars) : Prop :=
  (∀ u, mapGet s.adjacencyList u [] = mapGet adj u []) ∧
  s.unvisited.Nodup ∧ (∀ v ∈ s.unvisited, IsNode adj v) ∧
  (∀ v, IsNode adj v → mapGet s.distances v 0 = INT_MAX ∨
    (0 ≤ mapGet s.distances v 0 ∧ mapGet s.distances v 0 < INT_MAX ∧
      WalkWeight adj start v (mapGet s.distances v 0))) ∧
  (∀ u, IsNode adj u → u ∉ s.unvisited → mapGet s.distances u 0 < INT_MAX ∧
    ∀ d1, WalkWeight adj start u d1 → mapGet s.distances u 0 ≤ d1) ∧
  (∀ u, IsNode adj u → u ∉ s.unvisited → ∀ e ∈ mapGet adj u [],
    mapGet s.distances e.target 0 ≤ mapGet s.distances u 0 + e.weight) ∧
  (∀ u, IsNode adj u → u ∉ s.unvisited → ∀ v ∈ s.unvisited,
    mapGet s.distances u 0 ≤ mapGet s.distances v 0) ∧
  mapGet s.distances start 0 = 0

/-- The graph the Dijkstra claims are about: distinct keys, every edge leads to a node,
weights are non-negative, and the sum of the distance of a node and the weight of an edge
leaving it stays below `INT_MAX`, the value the code uses for "no path yet". -/
def DijkstraInput (adj : List (Int × List Edge)) (start : Int) : Prop :=
  (adj.map Prod.fst).Nodup ∧ IsNode adj start ∧
  (∀ p ∈ adj, ∀ e ∈ p.2, IsNode adj e.target ∧ 0 ≤ e.weight) ∧
  (∀ u d, IsShortest adj start u d → ∀ e ∈ mapGet adj u [], d + e.weight < INT_MAX)

end GraphCpp

namespace SortCpp

/-- The value sequence shown by a snapshot. -/
def AlgorithmState.values (st : AlgorithmState) : List Int :=
  st.elements.map ArrayElement.value

/-- The `swapping` flags of a snapshot, by position. -/
def AlgorithmState.swapFlags (st : AlgorithmState) : List Bool :=
  st.elements.map ArrayElement.swapping

/-- A swap-intent snapshot: some element has `swapping = true`. -/
def AlgorithmState.hasSwap (st : AlgorithmState) : Bool :=
  st.elements.any ArrayElement.swapping

/-- The flags of `n` elements of which exactly those at positions `i` and `j` are set. -/
def flagsAt (n : Nat) (i j : Int) : List Bool :=
  (List.range n).map (fun (p : Nat) => decide ((p : Int) = i ∨ (p : Int) = j))

/-- The snapshot `b` is the post-swap snapshot of the swap-intent snapshot `a`: `a` is
flagged exactly at two positions `i`, `j` of the array, `b` has no flag, and the values of
`b` are those of `a` with the values at `i` and `j` exchanged. -/
def SwapPair (a b : AlgorithmState) : Prop :=
  ∃ i j : Int, 0 ≤ i ∧ i < (a.elements.length : Int) ∧ 0 ≤ j ∧
    j < (a.elements.length : Int) ∧
    a.swapFlags = flagsAt a.elements.length i j ∧
    b.hasSwap = false ∧
    b.values = swapAt a.values i j ∧
    (i = j → b.values = a.values)

/-- The snapshot `c` is the comparison snapshot of `arr[j]` with the pivot `arr[high]`,
the comparison held, and `a` is the swap-intent snapshot of `arr[i]` and `arr[j]` on the
same array. -/
def PartitionSwap (c a : AlgorithmState) : Prop :=
  ∃ (arr : List Int) (i j high : Int), getAt arr j 0 < getAt arr high 0 ∧
    c.elements = createArrayVisualization arr j high false ∧
    c.message = "Compare " ++ toString (getAt arr j 0) ++ " with pivot " ++
      toString (getAt arr high 0) ∧
    a.elements = createArrayVisualization arr i j true ∧
    a.message = "Swap " ++ toString (getAt arr i 0) ++ " and " ++ toString (getAt arr j 0)

/-- The snapshot `a` is the swap-intent snapshot of the pivot placement that ends a
partition. -/
def PivotPlacement (a : AlgorithmState) : Prop :=
  ∃ (arr : List Int) (pi high : Int),
    a.elements = createArrayVisualization arr pi high true ∧
    a.message = "Swap " ++ toString (getAt arr pi 0) ++ " and pivot " ++
      toString (getAt arr high 0)

/-- How a swap-intent snapshot of `quickSort` arises: it is the pivot placement, or a swap
of the partition loop that directly follows the comparison snapshot `previous`. -/
def QuickSwapOrigin (previous : Option AlgorithmState) (a : AlgorithmState) : Prop :=
  PivotPlacement a ∨ ∃ c, previous = some c ∧ PartitionSwap c a

/-- Traces built from snapshots without a flag and from pairs of a swap-intent snapshot
and its post-swap snapshot; `Q` relates the snapshot before an intent to the intent. -/
inductive SwapTrace (Q : Option AlgorithmState → AlgorithmState → Prop) :
    List AlgorithmState → Prop
  | nil : SwapTrace Q []
  | plain (states : List AlgorithmState) (st : AlgorithmState) :
      SwapTrace Q states → st.hasSwap = false → SwapTrace Q (states ++ [st])
  | swap (states : List AlgorithmState) (a b : AlgorithmState) :
      SwapTrace Q states → SwapPair a b → Q states.getLast? a →
      SwapTrace Q (states ++ [a, b])

end SortCpp

namespace TreeCpp

/-- The values of a tree in in-order: the left subtree, then the node, then the right
subtree. -/
def Node.inorder : Node → List Int
  | Node.null => []
  | Node.mk data left right => Node.inorder left ++ data :: Node.inorder right

/-- The descent for `v`, in the words of the specification: the values of the nodes met
from the root down, going left where `v` is smaller than the node, right where it is
larger, and stopping at a node equal to `v` or at an empty place. -/
def descentPath : Node → Int → List Int
  | Node.null, _ => []
  | Node.mk data left right, v =>
    data :: (if v < data then descentPath left v
      else if v > data then descentPath right v else [])

/-- The values of the highlighted node entities of a snapshot. -/
def highlightedValues (st : AlgorithmState) : List Int :=
  (st.nodes.filter (fun n => n.highlighted)).map NodePosition.value

end TreeCpp

namespace DpCpp

/-- The `int` sum `fib[i-1] + fib[i-2]` that round `i` of the fill loop of `fibonacci`
computes, as a mathematical integer, before it is stored into the `int` entry `fib[i]`. -/
def fibonacciSum (fib : List Int) (i : Int) : Int :=
  getAt fib (i - 1) 0 + getAt fib (i - 2) 0

/-- The sums computed by `cnt` rounds of the fill loop of `fibonacci` from index `i` on,
in loop order. -/
def fibonacciSumsFrom (initialState : AlgorithmState) :
    Nat → Int → List Int × List AlgorithmState → List Int
  | 0, _, _ => []
  | cnt + 1, i, s =>
    fibonacciSum s.1 i :: fibonacciSumsFrom initialState cnt (i + 1)
      (fibonacciBody initialState i s)

/-- The sums computed by the whole run `fibonacci(n)`. -/
def DynamicProgramming.fibonacciSums (_self : DynamicProgramming) (n : Nat) : List Int :=
  let fib0 : List Int := List.replicate (n + 1) 0
  let fib1 : List Int := if n ≥ 1 then setAt fib0 1 1 else fib0
  let initialState : AlgorithmState :=
    { message := "Calculating Fibonacci(" ++ toString n ++ ") using Dynamic Programming",
      step := 1,
      cells := createArray fib1 (-1) }
  fibonacciSumsFrom initialState (n - 1) 2 (fib1, [initialState])

/-- Entries `0 .. i-1` of the array, as far as index 46, hold the Fibonacci numbers. -/
def FibPrefix (n : Nat) (i : Int) (s : List Int × List AlgorithmState) : Prop :=
  s.1.length = n + 1 ∧
    ∀ k : Nat, (k : Int) < i → k ≤ n → k ≤ 46 → getAt s.1 (k : Int) 0 = (Nat.fib k : Int)

end DpCpp

namespace SortCpp

/-- The snapshot shows an array for which `P` holds: its elements are the ones that
`createArrayVisualization` makes from that array. -/
def ShowsArray (P : List Int → Prop) (st : AlgorithmState) : Prop :=
  ∃ (a : List Int) (h1 h2 : Int) (sw : Bool),
    st.elements = createArrayVisualization a h1 h2 sw ∧ P a

/-- Every snapshot of the trace shows an array for which `P` holds. -/
def AllShow (P : List Int → Prop) (states : List AlgorithmState) : Prop :=
  ∀ st ∈ states, ShowsArray P st

end SortCpp

namespace DpCpp

/-- The snapshot shows an array of `len` cells: its entities are the ones that
`createArray` makes from such an array. -/
def ShowsCells (len : Nat) (st : AlgorithmState) : Prop :=
  ∃ (a : List Int) (h : Int), a.length = len ∧ st.cells = createArray a h

/-- The snapshot shows a table of `rows` rows and `cols` columns: its entities are the
ones that `createGrid` makes from such a table. -/
def ShowsTable (rows cols : Nat) (st : AlgorithmState) : Prop :=
  ∃ (dp : List (List Int)) (hr hc : Int), TableDims dp rows cols ∧
    st.cells = createGrid dp hr hc

end DpCpp

namespace DpCpp

/-- Read `v[i]` with the bounds made explicit: `none` for an index outside the vector. -/
def getAtChecked {α : Type} (l : List α) (i : Int) : Option α :=
  if i < 0 then none else l[i.toNat]?

/-- Write `v[i] = x` with the bounds made explicit: `none` for an index outside the
vector. -/
def setAtChecked {α : Type} (l : List α) (i : Int) (x : α) : Option (List α) :=
  if i < 0 ∨ i ≥ (l.length : Int) then none else some (setAt l i x)

/-- Read `dp[i][j]` with the bounds of both index steps made explicit. -/
def getCellChecked (dp : List (List Int)) (i j : Int) : Option Int :=
  (getAtChecked dp i).bind (fun row => getAtChecked row j)

/-- Write `dp[i][j] = v` with the bounds of both index steps made explicit. -/
def setCellChecked (dp : List (List Int)) (i j : Int) (v : Int) : Option (List (List Int)) :=
  (getAtChecked dp i).bind (fun row =>
    (setAtChecked row j v).bind (fun row1 => setAtChecked dp i row1))

/-- Body of the inner fill loop of `knapsack` for cell `(i, w)` on the table alone, every
element access of the statement and of the message in source order, each with explicit
bounds: `none` as soon as one access is outside its vector. -/
def knapsackBodyChecked (values weights : List Int) (i w : Int) (dp : List (List Int)) :
    Option (List (List Int)) :=
  (getAtChecked weights (i - 1)).bind (fun wi =>
    if wi > w then
      (getCellChecked dp (i - 1) w).bind (fun up =>
        (setCellChecked dp i w up).bind (fun dp1 =>
          (getCellChecked dp1 (i - 1) w).bind (fun _ => some dp1)))
    else
      (getCellChecked dp (i - 1) w).bind (fun up =>
        (getAtChecked values (i - 1)).bind (fun vi =>
          (getCellChecked dp (i - 1) (w - wi)).bind (fun diag =>
            (setCellChecked dp i w (max up (wrapInt32 (vi + diag)))).bind (fun dp1 =>
              (getCellChecked dp1 (i - 1) w).bind (fun _ =>
                (getCellChecked dp1 (i - 1) (w - wi)).bind (fun _ =>
                  (getCellChecked dp1 i w).bind (fun _ => some dp1))))))))

/-- The fill loops and the final read `dp[n][capacity]` of `knapsack` with explicit bounds:
`none` when some access is outside its vector, `some none` for the early return on invalid
input, otherwise the value read from `dp[n][capacity]`. -/
def DynamicProgramming.knapsackChecked (_self : DynamicProgramming)
    (values weights : List Int) (capacity : Nat) : Option (Option Int) :=
  if values.isEmpty || weights.isEmpty || values.length != weights.length then some none
  else
    let n : Nat := values.length
    let dp0 : List (List Int) := List.replicate (n + 1) (List.replicate (capacity + 1) 0)
    (forLoop (fun i (s : Option (List (List Int))) =>
        forLoop (fun w (u : Option (List (List Int))) =>
          u.bind (knapsackBodyChecked values weights i w)) (capacity + 1) 0 s)
      n 1 (some dp0)).bind (fun dp =>
        (getCellChecked dp (n : Int) (capacity : Int)).map some)

/-- Body of the inner fill loop of `longestCommonSubsequence` for cell `(i, j)` on the
table alone, with explicit bounds on every access. -/
def lcsBodyChecked (str1 str2 : CppString) (i j : Int) (dp : List (List Int)) :
    Option (List (List Int)) :=
  (getAtChecked str1 (i - 1)).bind (fun c1 =>
    (getAtChecked str2 (j - 1)).bind (fun c2 =>
      if c1 = c2 then
        (getCellChecked dp (i - 1) (j - 1)).bind (fun diag =>
          setCellChecked dp i j (wrapInt32 (diag + 1)))
      else
        (getCellChecked dp (i - 1) j).bind (fun up =>
          (getCellChecked dp i (j - 1)).bind (fun left =>
            setCellChecked dp i j (max up left)))))

/-- Body of the reconstruction loop with explicit bounds on every access. -/
def lcsWalkBodyChecked (str1 str2 : CppString) (dp : List (List Int)) (s : LcsWalk) :
    Option LcsWalk :=
  (getAtChecked str1 (s.i - 1)).bind (fun c1 =>
    (getAtChecked str2 (s.j - 1)).bind (fun c2 =>
      if c1 = c2 then some { i := s.i - 1, j := s.j - 1, lcs := c1 :: s.lcs }
      else
        (getCellChecked dp (s.i - 1) s.j).bind (fun up =>
          (getCellChecked dp s.i (s.j - 1)).bind (fun left =>
            if up > left then some { s with i := s.i - 1 }
            else some { s with j := s.j - 1 }))))

/-- The reconstruction loop with explicit bounds, for at most `fuel` rounds. -/
def lcsWalkChecked (str1 str2 : CppString) (dp : List (List Int)) :
    Nat → LcsWalk → Option LcsWalk
  | 0, s => if lcsWalkCond s then none else some s
  | fuel + 1, s =>
    if lcsWalkCond s then
      (lcsWalkBodyChecked str1 str2 dp s).bind (lcsWalkChecked str1 str2 dp fuel)
    else some s

/-- The fill loops, the read `dp[m][n]` and the reconstruction loop of
`longestCommonSubsequence` with explicit bounds: `none` when some access is outside its
vector or string, `some none` for the early return, otherwise the length read and the
subsequence found. -/
def DynamicProgramming.longestCommonSubsequenceChecked (_self : DynamicProgramming)
    (str1 str2 : CppString) : Option (Option (Int × CppString)) :=
  if str1.isEmpty || str2.isEmpty then some none
  else
    let m : Nat := str1.length
    let n : Nat := str2.length
    let dp0 : List (List Int) := List.replicate (m + 1) (List.replicate (n + 1) 0)
    (forLoop (fun i (s : Option (List (List Int))) =>
        forLoop (fun j (u : Option (List (List Int))) =>
          u.bind (lcsBodyChecked str1 str2 i j)) n 1 s)
      m 1 (some dp0)).bind (fun dp =>
        (getCellChecked dp (m : Int) (n : Int)).bind (fun len =>
          (lcsWalkChecked str1 str2 dp (m + n)
            { i := (m : Int), j := (n : Int), lcs := [] }).map
              (fun walk => some (len, walk.lcs))))

end DpCpp

namespace GraphCpp

/-- There is a walk of `n` adjacency entries from `s` to `v`. -/
inductive HopWalk (adj : List (Int × List Edge)) (s : Int) : Int → Nat → Prop
  | start : HopWalk adj s s 0
  | step {u w : Int} {n : Nat} : HopWalk adj s u n → HasEdge adj u w → HopWalk adj s w (n + 1)

/-- The hop distance of `v` from `s` is `d`: some walk from `s` to `v` has `d` adjacency
entries and no walk from `s` to `v` has fewer. -/
def IsHopDist (adj : List (Int × List Edge)) (s v : Int) (d : Nat) : Prop :=
  HopWalk adj s v d ∧ ∀ n, HopWalk adj s v n → d ≤ n

/-- Invariant of the main loop of `breadthFirstSearch` with levels: the marked nodes,
oldest first, are the dequeued nodes `P` followed by the queue `Q`, each with the length of
a walk that reaches it; the levels never decrease along `P ++ Q` and exceed the level of no
queued node by more than one; every neighbour of a dequeued node is marked with a level at
most one higher. -/
def BfsLevelInv (adj : List (Int × List Edge)) (start : Int) (opening : String)
    (s : BfsVars) : Prop :=
  ∃ P Q : List (Int × Nat),
    (∀ u, mapGet s.adjacencyList u [] = mapGet adj u []) ∧
    s.nodeQueue = Q.map Prod.fst ∧
    s.visited.reverse = (P ++ Q).map Prod.fst ∧
    s.visited.Nodup ∧
    (P ++ Q).Pairwise (fun p q => p.2 ≤ q.2) ∧
    (∀ p ∈ P ++ Q, HopWalk adj start p.1 p.2) ∧
    (∀ q ∈ Q, ∀ r ∈ P ++ Q, r.2 ≤ q.2 + 1) ∧
    (∀ p ∈ P, ∀ w, HasEdge adj p.1 w → ∃ r ∈ P ++ Q, r.1 = w ∧ r.2 ≤ p.2 + 1) ∧
    (start, 0) ∈ P ++ Q ∧
    s.states.map AlgorithmState.message =
      [opening] ++ P.map (fun p => "Visiting node " ++ toString p.1)

end GraphCpp

namespace GraphCpp

end GraphCpp

/-! ## Theorems -/

/-! ### Loops and step numbering -/

theorem stepsFromOne_nil : StepsFromOne [] := by
  intro i h
  simp at h

theorem stepsFromOne_append {l : List Int} {x : Int} (hl : StepsFromOne l)
    (hx : x = (l.length : Int) + 1) : StepsFromOne (l ++ [x]) := by
  intro i h
  simp only [List.get_eq_getElem]
  by_cases hi : i < l.length
  · rw [List.getElem_append_left hi]
    exact hl i hi
  · have hi2 : i = l.length := by
      simp at h
      omega
    subst hi2
    simp [hx]

theorem forLoop_invariant {σ : Type} (body : Int → σ → σ) (Inv : Int → σ → Prop) :
    ∀ (n : Nat) (a : Int) (s : σ), Inv a s →
      (∀ j t, a ≤ j → j < a + n → Inv j t → Inv (j + 1) (body j t)) →
      Inv (a + n) (forLoop body n a s) := by
  intro n
  induction n with
  | zero =>
    intro a s h _
    simpa [forLoop] using h
  | succ n ih =>
    intro a s h hstep
    have h1 : Inv (a + 1) (body a s) := hstep a s (le_refl a) (by push_cast; omega) h
    have h2 := ih (a + 1) (body a s) h1
      (fun j t hj1 hj2 hI => hstep j t (by omega) (by push_cast; omega) hI)
    have e : a + ((n + 1 : Nat) : Int) = a + 1 + (n : Int) := by push_cast; ring
    rw [e]
    exact h2

theorem forLoop_preserves {σ : Type} (body : Int → σ → σ) (P : σ → Prop)
    (hstep : ∀ j t, P t → P (body j t)) (n : Nat) (a : Int) (s : σ) (h : P s) :
    P (forLoop body n a s) :=
  forLoop_invariant body (fun _ t => P t) n a s h (fun j t _ _ hP => hstep j t hP)

theorem whileLoop_invariant {σ : Type} (cond : σ → Bool) (body : σ → σ) (Inv : σ → Prop)
    (hstep : ∀ t, Inv t → cond t = true → Inv (body t)) :
    ∀ (fuel : Nat) (s r : σ), Inv s → whileLoop cond body fuel s = some r →
      Inv r ∧ cond r = false := by
  intro fuel
  induction fuel with
  | zero =>
    intro s r h hr
    by_cases hc : cond s = true
    · simp [whileLoop, hc] at hr
    · simp [whileLoop, hc] at hr
      subst hr
      exact ⟨h, by simpa using hc⟩
  | succ fuel ih =>
    intro s r h hr
    by_cases hc : cond s = true
    · simp only [whileLoop, hc, if_true] at hr
      exact ih (body s) r (hstep s h hc) hr
    · simp [whileLoop, hc] at hr
      subst hr
      exact ⟨h, by simpa using hc⟩

theorem whileLoop_terminates {σ : Type} (cond : σ → Bool) (body : σ → σ) (Inv : σ → Prop)
    (μ : σ → Nat) (hstep : ∀ t, Inv t → cond t = true → Inv (body t) ∧ μ (body t) < μ t) :
    ∀ (fuel : Nat) (s : σ), Inv s → μ s ≤ fuel → ∃ r, whileLoop cond body fuel s = some r := by
  intro fuel
  induction fuel with
  | zero =>
    intro s h hμ
    by_cases hc : cond s = true
    · have := (hstep s h hc).2
      omega
    · exact ⟨s, by simp [whileLoop, hc]⟩
  | succ fuel ih =>
    intro s h hμ
    by_cases hc : cond s = true
    · have h2 := hstep s h hc
      obtain ⟨r, hr⟩ := ih (body s) h2.1 (by omega)
      exact ⟨r, by simp only [whileLoop, hc, if_true]; exact hr⟩
    · exact ⟨s, by simp [whileLoop, hc]⟩

theorem forDownLoop_invariant {σ : Type} (body : Int → σ → Option σ) (Inv : Int → σ → Prop) :
    ∀ (n : Nat) (a : Int) (s : σ), Inv a s →
      (∀ j t, a - n < j → j ≤ a → Inv j t → ∃ t1, body j t = some t1 ∧ Inv (j - 1) t1) →
      ∃ r, forDownLoop body n a s = some r ∧ Inv (a - n) r := by
  intro n
  induction n with
  | zero =>
    intro a s h _
    exact ⟨s, rfl, by simpa using h⟩
  | succ n ih =>
    intro a s h hstep
    obtain ⟨t1, ht1, hI⟩ := hstep a s (by push_cast; omega) (le_refl a) h
    obtain ⟨r, hr, hIr⟩ := ih (a - 1) t1 hI
      (fun j t hj1 hj2 hI => hstep j t (by push_cast; omega) (by omega) hI)
    refine ⟨r, ?_, ?_⟩
    · simp only [forDownLoop, ht1]
      exact hr
    · have e : a - ((n + 1 : Nat) : Int) = a - 1 - (n : Int) := by push_cast; ring
      rw [e]
      exact hIr

/-! ### Step numbering of the DP traces -/

theorem stepped_nil {α : Type} (step : α → Int) : Stepped step [] := stepsFromOne_nil

theorem stepped_push {α : Type} (step : α → Int) (states : List α) (x : α)
    (h : Stepped step states) (hx : step x = (states.length : Int) + 1) :
    Stepped step (states ++ [x]) := by
  unfold Stepped
  rw [List.map_append, List.map_singleton]
  exact stepsFromOne_append h (by simpa using hx)

theorem stepped_single {α : Type} (step : α → Int) (x : α) (hx : step x = 1) :
    Stepped step [x] := by
  have := stepped_push step [] x (stepped_nil step) (by simpa using hx)
  simpa using this

theorem stepped_getD {α : Type} (step : α → Int) (states : List α) (d : α)
    (h : Stepped step states) (i : Int) (h0 : 0 ≤ i) (h1 : i < (states.length : Int)) :
    step (states.getD i.toNat d) = i + 1 := by
  have hi : i.toNat < states.length := by omega
  have h2 := h i.toNat (by simpa using hi)
  rw [List.getD_eq_getElem states d hi]
  simp only [List.get_eq_getElem, List.getElem_map] at h2
  rw [h2]
  omega

theorem stepped_getLast {α : Type} (step : α → Int) (states : List α)
    (h : Stepped step states) (last : α) (hl : states.getLast? = some last) :
    step last = (states.length : Int) := by
  have hne : states ≠ [] := by
    intro e
    simp [e] at hl
  have hpos : 0 < states.length := List.length_pos.mpr hne
  rw [List.getLast?_eq_getElem?] at hl
  have hi : states.length - 1 < states.length := by omega
  rw [List.getElem?_eq_getElem hi] at hl
  have h2 := h (states.length - 1) (by simpa using hi)
  simp only [List.get_eq_getElem, List.getElem_map] at h2
  have e : states[states.length - 1] = last := by simpa using hl
  rw [← e, h2]
  omega

theorem foldl_preserves {σ β : Type} (f : σ → β → σ) (P : σ → Prop)
    (hstep : ∀ s x, P s → P (f s x)) (l : List β) (s : σ) (h : P s) : P (l.foldl f s) := by
  induction l generalizing s with
  | nil => simpa using h
  | cons x xs ih => exact ih (f s x) (hstep s x h)

namespace DpCpp

theorem dp_finalize_numbered (states : List AlgorithmState)
    (h : Stepped AlgorithmState.step states) : Numbered (finalize states) := by
  intro i h0 h1
  have hlen : (finalize states).states.length = states.length := by simp [finalize]
  rw [hlen] at h1
  have hn : ¬ (i < 0 ∨ i ≥ ((finalize states).states.length : Int)) := by rw [hlen]; omega
  simp only [DynamicProgramming.getStep, if_neg hn]
  have hs : Stepped AlgorithmState.step (finalize states).states := by
    unfold Stepped
    simp only [finalize, List.map_map]
    exact h
  exact stepped_getD AlgorithmState.step _ _ hs i h0 (by rw [hlen]; exact h1)

theorem dp_finalize_finalized (states : List AlgorithmState) (hne : states ≠ [])
    (h : Stepped AlgorithmState.step states) :
    TraceFinalized AlgorithmState.step AlgorithmState.totalSteps (finalize states).states
      (finalize states).getStepCount := by
  have hlen : (finalize states).states.length = states.length := by simp [finalize]
  have hs : Stepped AlgorithmState.step (finalize states).states := by
    unfold Stepped
    simp only [finalize, List.map_map]
    exact h
  refine ⟨?_, ?_, ?_, ?_⟩
  · intro e
    have := congrArg List.length e
    rw [hlen] at this
    exact hne (List.length_eq_zero.mp (by simpa using this))
  · intro st hst
    rw [hlen]
    simp only [finalize, List.mem_map] at hst
    obtain ⟨a, _, rfl⟩ := hst
    rfl
  · intro last hl
    exact stepped_getLast AlgorithmState.step _ hs last hl
  · rw [hlen]
    rfl

/-- Loop invariant of the DP fill loops: the trace is not empty and numbered. -/
theorem fibonacciBody_stepped (initialState : AlgorithmState) (i : Int)
    (s : List Int × List AlgorithmState)
    (h : s.2 ≠ [] ∧ Stepped AlgorithmState.step s.2) :
    (fibonacciBody initialState i s).2 ≠ [] ∧
      Stepped AlgorithmState.step (fibonacciBody initialState i s).2 :=
  ⟨by simp [fibonacciBody], stepped_push _ _ _ h.2 rfl⟩

theorem knapsackBody_stepped (values weights : List Int) (initialState : AlgorithmState)
    (i w : Int) (s : List (List Int) × List AlgorithmState)
    (h : s.2 ≠ [] ∧ Stepped AlgorithmState.step s.2) :
    (knapsackBody values weights initialState i w s).2 ≠ [] ∧
      Stepped AlgorithmState.step (knapsackBody values weights initialState i w s).2 :=
  ⟨by simp [knapsackBody], stepped_push _ _ _ h.2 rfl⟩

theorem lcsBody_stepped (str1 str2 : CppString) (initialState : AlgorithmState)
    (i j : Int) (s : List (List Int) × List AlgorithmState)
    (h : s.2 ≠ [] ∧ Stepped AlgorithmState.step s.2) :
    (lcsBody str1 str2 initialState i j s).2 ≠ [] ∧
      Stepped AlgorithmState.step (lcsBody str1 str2 initialState i j s).2 :=
  ⟨by simp [lcsBody], stepped_push _ _ _ h.2 rfl⟩

theorem fibonacci_trace (dp : DynamicProgramming) (n : Nat) :
    ∃ states, dp.fibonacci n = finalize states ∧ states ≠ [] ∧
      Stepped AlgorithmState.step states := by
  refine ⟨_, rfl, ?_, ?_⟩
  · simp
  refine stepped_push _ _ _ ?_ rfl
  exact (forLoop_preserves (fibonacciBody _)
    (fun t : List Int × List AlgorithmState => t.2 ≠ [] ∧ Stepped AlgorithmState.step t.2)
    (fun j t ht => fibonacciBody_stepped _ j t ht) (n - 1) 2 _
    ⟨List.cons_ne_nil _ _, stepped_single AlgorithmState.step _ rfl⟩).2

theorem knapsack_trace (dp : DynamicProgramming) (values weights : List Int) (capacity : Nat)
    (hv : values ≠ []) (hw : weights ≠ []) (hl : values.length = weights.length) :
    ∃ states, dp.knapsack values weights capacity = finalize states ∧ states ≠ [] ∧
      Stepped AlgorithmState.step states := by
  have hc : (values.isEmpty || weights.isEmpty || values.length != weights.length) = false := by
    simp [hv, hw, hl]
  simp only [DynamicProgramming.knapsack, hc]
  refine ⟨_, rfl, ?_, ?_⟩
  · simp
  refine stepped_push _ _ _ ?_ rfl
  exact (forLoop_preserves (knapsackRow values weights capacity _)
    (fun t : List (List Int) × List AlgorithmState =>
      t.2 ≠ [] ∧ Stepped AlgorithmState.step t.2)
    (fun i t ht => forLoop_preserves (knapsackBody values weights _ i) _
      (fun w u hu => knapsackBody_stepped values weights _ i w u hu) (capacity + 1) 0 t ht)
    values.length 1 _ ⟨List.cons_ne_nil _ _, stepped_single AlgorithmState.step _ rfl⟩).2

theorem lcsWalk_terminates (str1 str2 : CppString) (dp : List (List Int)) (fuel : Nat)
    (s : LcsWalk) (h : (s.i + s.j).toNat ≤ fuel) :
    ∃ r, whileLoop lcsWalkCond (lcsWalkBody str1 str2 dp) fuel s = some r := by
  refine whileLoop_terminates lcsWalkCond (lcsWalkBody str1 str2 dp) (fun _ => True)
    (fun t => (t.i + t.j).toNat) ?_ fuel s trivial h
  intro t _ hc
  refine ⟨trivial, ?_⟩
  simp only [lcsWalkCond, Bool.and_eq_true, decide_eq_true_eq] at hc
  unfold lcsWalkBody
  split_ifs <;> simp only <;> omega

theorem lcs_trace (dp : DynamicProgramming) (str1 str2 : CppString)
    (h1 : str1 ≠ []) (h2 : str2 ≠ []) :
    ∃ states, dp.longestCommonSubsequence str1 str2 = some (finalize states) ∧
      states ≠ [] ∧ Stepped AlgorithmState.step states := by
  have e1 : str1 ≠ [] := h1
  have e2 : str2 ≠ [] := h2
  have hc : (str1.isEmpty || str2.isEmpty) = false := by simp [e1, e2]
  simp only [DynamicProgramming.longestCommonSubsequence, hc]
  obtain ⟨walk, hw⟩ := lcsWalk_terminates str1 str2
    (forLoop (lcsRow str1 str2
      { message := "Finding Longest Common Subsequence of \"" ++ showString str1 ++ "\" and \"" ++
          showString str2 ++ "\"",
        step := 1,
        cells := createGrid (List.replicate (str1.length + 1)
          (List.replicate (str2.length + 1) 0)) (-1) (-1) })
      str1.length 1 (List.replicate (str1.length + 1)
          (List.replicate (str2.length + 1) 0), [_])).1
    (str1.length + str2.length)
    { i := (str1.length : Int), j := (str2.length : Int), lcs := [] }
    (by simp only; omega)
  simp only [Bool.false_eq_true, if_false]
  rw [hw]
  refine ⟨_, rfl, ?_, ?_⟩
  · simp
  refine stepped_push _ _ _ ?_ rfl
  exact (forLoop_preserves (lcsRow str1 str2 _)
    (fun t : List (List Int) × List AlgorithmState =>
      t.2 ≠ [] ∧ Stepped AlgorithmState.step t.2)
    (fun i t ht => forLoop_preserves (lcsBody str1 str2 _ i) _
      (fun w u hu => lcsBody_stepped str1 str2 _ i w u hu) str2.length 1 t ht)
    str1.length 1 _ ⟨List.cons_ne_nil _ _, stepped_single AlgorithmState.step _ rfl⟩).2

end DpCpp

/-! ### Step numbering of the sorting traces -/

theorem forDownLoop_preserves {σ : Type} (body : Int → σ → Option σ) (P : σ → Prop)
    (hstep : ∀ j t t1, P t → body j t = some t1 → P t1) :
    ∀ (n : Nat) (a : Int) (s r : σ), P s → forDownLoop body n a s = some r → P r := by
  intro n
  induction n with
  | zero =>
    intro a s r h hr
    simp only [forDownLoop, Option.some.injEq] at hr
    exact hr ▸ h
  | succ n ih =>
    intro a s r h hr
    simp only [forDownLoop] at hr
    cases hb : body a s with
    | none => simp [hb] at hr
    | some t1 =>
      simp only [hb] at hr
      exact ih (a - 1) t1 r (hstep a s t1 h hb) hr

namespace SortCpp

theorem pushState_stepped (states : List AlgorithmState) (message : String)
    (elements : List ArrayElement) (h : Stepped AlgorithmState.step states) :
    Stepped AlgorithmState.step (pushState states message elements) :=
  stepped_push _ _ _ h rfl

theorem partitionBody_stepped (pivot high j : Int) (s : PartitionVars)
    (h : Stepped AlgorithmState.step s.states) :
    Stepped AlgorithmState.step (partitionBody pivot high j s).states := by
  unfold partitionBody
  split_ifs
  · exact pushState_stepped _ _ _ (pushState_stepped _ _ _ (pushState_stepped _ _ _ h))
  · exact pushState_stepped _ _ _ h

theorem partitionSteps_stepped (arr : List Int) (states : List AlgorithmState)
    (low high : Int) (h : Stepped AlgorithmState.step states) :
    Stepped AlgorithmState.step (partitionSteps arr states low high).states := by
  unfold partitionSteps
  refine pushState_stepped _ _ _ (pushState_stepped _ _ _ ?_)
  exact forLoop_preserves _ (fun t : PartitionVars => Stepped AlgorithmState.step t.states)
    (fun j t ht => partitionBody_stepped _ _ j t ht) _ _ _
    (pushState_stepped _ _ _ (pushState_stepped _ _ _ h))

theorem quickSortSteps_stepped : ∀ (fuel : Nat) (arr : List Int)
    (states : List AlgorithmState) (low high : Int) (r : List Int × List AlgorithmState),
    quickSortSteps fuel arr states low high = some r →
    Stepped AlgorithmState.step states → Stepped AlgorithmState.step r.2 := by
  intro fuel
  induction fuel with
  | zero =>
    intro arr states low high r hr h
    unfold quickSortSteps at hr
    split_ifs at hr
    simp only [Option.some.injEq] at hr
    exact hr ▸ h
  | succ fuel ih =>
    intro arr states low high r hr h
    unfold quickSortSteps at hr
    split_ifs at hr with hlt
    · simp only at hr
      split at hr
      · simp at hr
      · rename_i r1 h1
        exact ih _ _ _ _ r hr (ih _ _ _ _ r1 h1 (partitionSteps_stepped _ _ _ _ h))
    · simp only [Option.some.injEq] at hr
      exact hr ▸ h

theorem mergeBody_stepped (L R : List Int) (left mid : Int) (s : MergeVars)
    (h : Stepped AlgorithmState.step s.states) :
    Stepped AlgorithmState.step (mergeBody L R left mid s).states := by
  unfold mergeBody
  split_ifs
  · exact pushState_stepped _ _ _ (pushState_stepped _ _ _ h)
  · exact pushState_stepped _ _ _ (pushState_stepped _ _ _ h)

theorem mergeSteps_stepped (arr : List Int) (states : List AlgorithmState)
    (left mid right : Int) (r : List Int × List AlgorithmState)
    (hr : mergeSteps arr states left mid right = some r)
    (h : Stepped AlgorithmState.step states) : Stepped AlgorithmState.step r.2 := by
  unfold mergeSteps at hr
  simp only at hr
  split at hr
  · simp at hr
  · rename_i s1 h1
    split at hr
    · simp at hr
    · rename_i s2 h2
      split at hr
      · simp at hr
      · rename_i s3 h3
        simp only [Option.some.injEq] at hr
        subst hr
        have i1 := (whileLoop_invariant _ _
          (fun t : MergeVars => Stepped AlgorithmState.step t.states)
          (fun t ht _ => mergeBody_stepped _ _ _ _ t ht) _ _ s1
          (pushState_stepped _ _ _ h) h1).1
        have i2 := (whileLoop_invariant _ _
          (fun t : MergeVars => Stepped AlgorithmState.step t.states)
          (fun t ht _ => pushState_stepped _ _ _ ht) _ _ s2 i1 h2).1
        exact (whileLoop_invariant _ _
          (fun t : MergeVars => Stepped AlgorithmState.step t.states)
          (fun t ht _ => pushState_stepped _ _ _ ht) _ _ s3 i2 h3).1

theorem mergeSortSteps_stepped : ∀ (fuel : Nat) (arr : List Int)
    (states : List AlgorithmState) (left right : Int) (r : List Int × List AlgorithmState),
    mergeSortSteps fuel arr states left right = some r →
    Stepped AlgorithmState.step states → Stepped AlgorithmState.step r.2 := by
  intro fuel
  induction fuel with
  | zero =>
    intro arr states left right r hr h
    unfold mergeSortSteps at hr
    split_ifs at hr
    simp only [Option.some.injEq] at hr
    exact hr ▸ h
  | succ fuel ih =>
    intro arr states left right r hr h
    unfold mergeSortSteps at hr
    split_ifs at hr with hlt
    · simp only at hr
      split at hr
      · simp at hr
      · rename_i r1 h1
        split at hr
        · simp at hr
        · rename_i r2 h2
          have i1 := ih _ _ _ _ r1 h1 (pushState_stepped _ _ _ (pushState_stepped _ _ _ h))
          have i2 := ih _ _ _ _ r2 h2 i1
          exact mergeSteps_stepped _ _ _ _ _ r hr i2
    · simp only [Option.some.injEq] at hr
      exact hr ▸ h

theorem heapifyNode_stepped (arr : List Int) (states : List AlgorithmState) (n i : Int)
    (h : Stepped AlgorithmState.step states) :
    Stepped AlgorithmState.step (heapifyNode arr states n i).states := by
  have h1 := pushState_stepped states
    ("Heapifying subtree rooted at index " ++ toString i)
    (createArrayVisualization arr i (-1) false) h
  unfold heapifyNode
  simp only
  split_ifs <;>
    first
      | exact h1
      | exact pushState_stepped _ _ _ h1
      | exact pushState_stepped _ _ _ (pushState_stepped _ _ _ h1)
      | exact pushState_stepped _ _ _ (pushState_stepped _ _ _ (pushState_stepped _ _ _ h1))
      | exact pushState_stepped _ _ _ (pushState_stepped _ _ _
          (pushState_stepped _ _ _ (pushState_stepped _ _ _ h1)))

theorem heapifySteps_stepped : ∀ (fuel : Nat) (arr : List Int)
    (states : List AlgorithmState) (n i : Int) (r : List Int × List AlgorithmState),
    heapifySteps fuel arr states n i = some r →
    Stepped AlgorithmState.step states → Stepped AlgorithmState.step r.2 := by
  intro fuel
  induction fuel with
  | zero =>
    intro arr states n i r hr h
    unfold heapifySteps at hr
    simp only at hr
    split_ifs at hr
    simp only [Option.some.injEq] at hr
    exact hr ▸ heapifyNode_stepped _ _ _ _ h
  | succ fuel ih =>
    intro arr states n i r hr h
    unfold heapifySteps at hr
    simp only at hr
    split_ifs at hr
    · exact ih _ _ _ _ r hr (heapifyNode_stepped _ _ _ _ h)
    · simp only [Option.some.injEq] at hr
      exact hr ▸ heapifyNode_stepped _ _ _ _ h

theorem heapSortSteps_stepped (arr : List Int) (states : List AlgorithmState)
    (r : List Int × List AlgorithmState) (hr : heapSortSteps arr states = some r)
    (h : Stepped AlgorithmState.step states) : Stepped AlgorithmState.step r.2 := by
  unfold heapSortSteps at hr
  simp only at hr
  split at hr
  · simp at hr
  · rename_i r1 h1
    have i1 := forDownLoop_preserves _
      (fun t : List Int × List AlgorithmState => Stepped AlgorithmState.step t.2)
      (fun j t t1 ht hb => heapifySteps_stepped _ _ _ _ _ t1 hb ht) _ _ _ r1
      (pushState_stepped _ _ _ h) h1
    exact forDownLoop_preserves _
      (fun t : List Int × List AlgorithmState => Stepped AlgorithmState.step t.2)
      (fun j t t1 ht hb => heapifySteps_stepped _ _ _ _ _ t1 hb
        (pushState_stepped _ _ _ (pushState_stepped _ _ _ ht))) _ _ _ r
      (pushState_stepped _ _ _ i1) hr

end SortCpp

/-! ### Termination and step numbering of the graph traversals -/

namespace GraphCpp

theorem mapFind_cons {β : Type} (k k1 : Int) (v1 : β) (m : List (Int × β)) :
    mapFind k ((k1, v1) :: m) = if k1 = k then some v1 else mapFind k m := by
  unfold mapFind
  by_cases h : k1 = k
  · simp [List.find?, h]
  · have : (k1 == k) = false := by simpa using h
    simp [List.find?, this, h]

theorem mapFind_mem {β : Type} (k : Int) (v : β) (m : List (Int × β))
    (h : mapFind k m = some v) : (k, v) ∈ m := by
  induction m with
  | nil => simp [mapFind] at h
  | cons p m ih =>
    obtain ⟨k1, v1⟩ := p
    rw [mapFind_cons] at h
    by_cases hk : k1 = k
    · simp only [hk, if_true, Option.some.injEq] at h
      simp [hk, h]
    · simp only [hk, if_false] at h
      exact List.mem_cons_of_mem _ (ih h)

theorem mapGet_mem (adj : List (Int × List Edge)) (c : Int) (e : Edge)
    (h : e ∈ mapGet adj c []) : ∃ p ∈ adj, e ∈ p.2 := by
  unfold mapGet at h
  cases hf : mapFind c adj with
  | none => simp [hf] at h
  | some es =>
    simp only [hf, Option.getD_some] at h
    exact ⟨(c, es), mapFind_mem c es adj hf, h⟩

theorem unvisitedWeight_nil (adj : List (Int × List Edge)) :
    unvisitedWeight adj [] = edgeEntryCount adj := by
  simp [unvisitedWeight, edgeEntryCount]

theorem unvisitedWeight_mono (adj : List (Int × List Edge)) (visited : List Int) (c : Int) :
    unvisitedWeight adj (c :: visited) ≤ unvisitedWeight adj visited := by
  induction adj with
  | nil => simp [unvisitedWeight]
  | cons p adj ih =>
    unfold unvisitedWeight at ih ⊢
    simp only [List.filter_cons]
    by_cases h1 : p.1 ∈ visited
    · have h2 : p.1 ∈ c :: visited := List.mem_cons_of_mem _ h1
      simp only [h1, h2, not_true_eq_false, decide_False, Bool.false_eq_true, if_false]
      exact ih
    · by_cases h2 : p.1 = c
      · have h3 : p.1 ∈ c :: visited := by simp [h2]
        simp only [h1, h3, not_true_eq_false, not_false_eq_true, decide_False, decide_True,
          Bool.false_eq_true, if_false, if_true, List.map_cons, List.sum_cons]
        omega
      · have h3 : p.1 ∉ c :: visited := by simp [h1, h2]
        simp only [h1, h3, not_false_eq_true, decide_True, if_true, List.map_cons,
          List.sum_cons]
        omega

theorem unvisitedWeight_visit (adj : List (Int × List Edge)) (visited : List Int) (c : Int)
    (hc : c ∉ visited) :
    unvisitedWeight adj (c :: visited) + (mapGet adj c []).length ≤
      unvisitedWeight adj visited := by
  induction adj with
  | nil => simp [unvisitedWeight, mapGet, mapFind]
  | cons p adj ih =>
    obtain ⟨k, es⟩ := p
    have hm := unvisitedWeight_mono adj visited c
    unfold mapGet at ih ⊢
    rw [mapFind_cons]
    unfold unvisitedWeight at ih hm ⊢
    simp only [List.filter_cons]
    by_cases h2 : k = c
    · subst h2
      have h3 : k ∈ k :: visited := by simp
      simp only [hc, h3, not_true_eq_false, not_false_eq_true, decide_False, decide_True,
        Bool.false_eq_true, if_false, if_true, List.map_cons, List.sum_cons,
        Option.getD_some]
      omega
    · by_cases h1 : k ∈ visited
      · have h3 : k ∈ c :: visited := List.mem_cons_of_mem _ h1
        simp only [h1, h2, h3, not_true_eq_false, decide_False, Bool.false_eq_true, if_false]
        exact ih
      · have h3 : k ∉ c :: visited := by simp [h1, h2]
        simp only [h1, h2, h3, not_false_eq_true, decide_True, if_true, if_false,
          List.map_cons, List.sum_cons]
        omega

theorem unvisitedWeight_mapInsert (adj : List (Int × List Edge)) (visited : List Int)
    (c : Int) :
    unvisitedWeight (mapInsert c [] adj) visited ≤ unvisitedWeight adj visited := by
  induction adj with
  | nil =>
    unfold unvisitedWeight
    simp only [mapInsert, List.filter_cons]
    split_ifs <;> simp
  | cons p adj ih =>
    obtain ⟨k, es⟩ := p
    unfold unvisitedWeight at ih ⊢
    simp only [mapInsert]
    split_ifs with h1 h2
    · simp only [List.filter_cons]
      split_ifs <;> simp
    · subst h2
      simp only [List.filter_cons]
      split_ifs <;> simp
    · simp only [List.filter_cons]
      split_ifs
      · simp only [List.map_cons, List.sum_cons]
        omega
      · exact ih

theorem unvisitedWeight_mapTouch (adj : List (Int × List Edge)) (visited : List Int)
    (c : Int) :
    unvisitedWeight (mapTouch adj c []) visited ≤ unvisitedWeight adj visited := by
  unfold mapTouch
  split
  · exact le_refl _
  · exact unvisitedWeight_mapInsert adj visited c

theorem dfsPush_length (visited : List Int) (current : Int) (l : List Edge) :
    ∀ s : List Int × List (Int × Int),
      (l.foldl (dfsPush visited current) s).1.length ≤ s.1.length + l.length := by
  induction l with
  | nil => intro s; simp
  | cons e l ih =>
    intro s
    simp only [List.foldl_cons, List.length_cons]
    have := ih (dfsPush visited current s e)
    have h2 : (dfsPush visited current s e).1.length ≤ s.1.length + 1 := by
      unfold dfsPush
      split_ifs <;> simp
    omega

theorem dfsBody_decreases (initialState : AlgorithmState) (t : DfsVars)
    (hc : dfsCond t = true) :
    (dfsBody initialState t).nodeStack.length +
        unvisitedWeight (dfsBody initialState t).adjacencyList (dfsBody initialState t).visited <
      t.nodeStack.length + unvisitedWeight t.adjacencyList t.visited := by
  unfold dfsBody
  cases hs : t.nodeStack with
  | nil => simp [dfsCond, hs] at hc
  | cons current rest =>
    simp only
    split_ifs with hv
    · simp
    · simp only [List.length_cons]
      have h1 := dfsPush_length (current :: t.visited) current
        (mapGet t.adjacencyList current []).reverse (rest, t.traversalEdges)
      have h2 := unvisitedWeight_visit t.adjacencyList t.visited current hv
      have h3 := unvisitedWeight_mapTouch t.adjacencyList (current :: t.visited) current
      simp only [List.length_reverse] at h1
      omega

theorem dfsLoop_terminates (initialState : AlgorithmState) (fuel : Nat) (s : DfsVars)
    (h : s.nodeStack.length + unvisitedWeight s.adjacencyList s.visited ≤ fuel) :
    ∃ r, whileLoop dfsCond (dfsBody initialState) fuel s = some r :=
  whileLoop_terminates dfsCond (dfsBody initialState) (fun _ => True)
    (fun t => t.nodeStack.length + unvisitedWeight t.adjacencyList t.visited)
    (fun t _ hc => ⟨trivial, dfsBody_decreases initialState t hc⟩) fuel s trivial h

theorem visitState_step (initialState : AlgorithmState) (states : List AlgorithmState)
    (current : Int) (te : List (Int × Int)) :
    (visitState initialState states current te).step = (states.length : Int) + 1 := rfl

theorem dfsBody_stepped (initialState : AlgorithmState) (t : DfsVars)
    (h : t.states ≠ [] ∧ Stepped AlgorithmState.step t.states) :
    (dfsBody initialState t).states ≠ [] ∧
      Stepped AlgorithmState.step (dfsBody initialState t).states := by
  unfold dfsBody
  split
  · exact h
  · split_ifs
    · exact h
    · exact ⟨by simp, stepped_push _ _ _ h.2 (visitState_step _ _ _ _)⟩

theorem createInitialState_step (adj : List (Int × List Edge)) (message : String) :
    (createInitialState adj message).step = 1 := rfl

theorem graph_finalize_numbered (self : Graph) (adj : List (Int × List Edge))
    (states : List AlgorithmState) (h : Stepped AlgorithmState.step states) :
    Numbered (finalize self adj states) := by
  intro i h0 h1
  have hlen : (finalize self adj states).states.length = states.length := by simp [finalize]
  rw [hlen] at h1
  have hn : ¬ (i < 0 ∨ i ≥ ((finalize self adj states).states.length : Int)) := by
    rw [hlen]; omega
  simp only [Graph.getStep, if_neg hn]
  have hs : Stepped AlgorithmState.step (finalize self adj states).states := by
    unfold Stepped
    simp only [finalize, List.map_map]
    exact h
  exact stepped_getD AlgorithmState.step _ _ hs i h0 (by rw [hlen]; exact h1)

theorem graph_finalize_finalized (self : Graph) (adj : List (Int × List Edge))
    (states : List AlgorithmState) (hne : states ≠ [])
    (h : Stepped AlgorithmState.step states) :
    TraceFinalized AlgorithmState.step AlgorithmState.totalSteps
      (finalize self adj states).states (finalize self adj states).getStepCount := by
  have hlen : (finalize self adj states).states.length = states.length := by simp [finalize]
  have hs : Stepped AlgorithmState.step (finalize self adj states).states := by
    unfold Stepped
    simp only [finalize, List.map_map]
    exact h
  refine ⟨?_, ?_, ?_, ?_⟩
  · intro e
    have := congrArg List.length e
    rw [hlen] at this
    exact hne (List.length_eq_zero.mp (by simpa using this))
  · intro st hst
    rw [hlen]
    simp only [finalize, List.mem_map] at hst
    obtain ⟨a, _, rfl⟩ := hst
    rfl
  · intro last hl
    exact stepped_getLast AlgorithmState.step _ hs last hl
  · rw [hlen]
    rfl

theorem finalState_step (states : List AlgorithmState) (message : String) :
    (finalState states message).step = (states.length : Int) + 1 := rfl

theorem depthFirstSearch_trace (self : Graph) (startNode : Int) :
    ∃ adj states, self.depthFirstSearch startNode = some (finalize self adj states) ∧
      states ≠ [] ∧ Stepped AlgorithmState.step states := by
  unfold Graph.depthFirstSearch
  simp only
  obtain ⟨r, hr⟩ := dfsLoop_terminates
    (createInitialState self.adjacencyList ("Starting DFS from node " ++ toString startNode))
    (edgeEntryCount self.adjacencyList + 1)
    { adjacencyList := self.adjacencyList, visited := [], nodeStack := [startNode],
      traversalEdges := [],
      states := [createInitialState self.adjacencyList
        ("Starting DFS from node " ++ toString startNode)] }
    (by simp only [unvisitedWeight_nil, List.length_singleton]; omega)
  rw [hr]
  have hi := (whileLoop_invariant dfsCond (dfsBody _)
    (fun t : DfsVars => t.states ≠ [] ∧ Stepped AlgorithmState.step t.states)
    (fun t ht _ => dfsBody_stepped _ t ht) _ _ r
    ⟨List.cons_ne_nil _ _, stepped_single AlgorithmState.step _ rfl⟩ hr).1
  exact ⟨_, _, rfl, by simp, stepped_push _ _ _ hi.2 (finalState_step _ _)⟩

end GraphCpp

namespace GraphCpp

theorem unvisitedTargets_le (adj : List (Int × List Edge)) (visited : List Int) :
    unvisitedTargets adj visited ≤ edgeEntryCount adj := by
  induction adj with
  | nil => simp [unvisitedTargets, edgeEntryCount]
  | cons p adj ih =>
    unfold unvisitedTargets edgeEntryCount at *
    simp only [List.map_cons, List.sum_cons]
    have := List.length_filter_le (fun edge : Edge => decide (edge.target ∉ visited)) p.2
    omega

theorem filter_visit_le (es : List Edge) (visited : List Int) (c : Int) :
    (es.filter (fun edge => decide (edge.target ∉ c :: visited))).length ≤
      (es.filter (fun edge => decide (edge.target ∉ visited))).length := by
  induction es with
  | nil => simp
  | cons e es ih =>
    simp only [List.filter_cons]
    by_cases h1 : e.target ∈ visited
    · have h2 : e.target ∈ c :: visited := List.mem_cons_of_mem _ h1
      simp only [h1, h2, not_true_eq_false, decide_False, Bool.false_eq_true, if_false]
      exact ih
    · by_cases h2 : e.target = c
      · have h3 : e.target ∈ c :: visited := by simp [h2]
        simp only [h1, h3, not_true_eq_false, not_false_eq_true, decide_False, decide_True,
          Bool.false_eq_true, if_false, if_true, List.length_cons]
        omega
      · have h3 : e.target ∉ c :: visited := by simp [h1, h2]
        simp only [h1, h3, not_false_eq_true, decide_True, if_true, List.length_cons]
        omega

theorem filter_visit_lt (es : List Edge) (visited : List Int) (e : Edge) (he : e ∈ es)
    (hv : e.target ∉ visited) :
    (es.filter (fun edge => decide (edge.target ∉ e.target :: visited))).length + 1 ≤
      (es.filter (fun edge => decide (edge.target ∉ visited))).length := by
  induction es with
  | nil => simp at he
  | cons e1 es ih =>
    have hm := filter_visit_le es visited e.target
    simp only [List.filter_cons]
    rcases List.mem_cons.mp he with h | h
    · subst h
      have h3 : e.target ∈ e.target :: visited := by simp
      simp only [hv, h3, not_true_eq_false, not_false_eq_true, decide_False, decide_True,
        Bool.false_eq_true, if_false, if_true, List.length_cons]
      omega
    · have ih2 := ih h
      by_cases h1 : e1.target ∈ visited
      · have h2 : e1.target ∈ e.target :: visited := List.mem_cons_of_mem _ h1
        simp only [h1, h2, not_true_eq_false, decide_False, Bool.false_eq_true, if_false]
        exact ih2
      · by_cases h2 : e1.target = e.target
        · have h3 : e1.target ∈ e.target :: visited := by simp [h2]
          simp only [h1, h3, not_true_eq_false, not_false_eq_true, decide_False, decide_True,
            Bool.false_eq_true, if_false, if_true, List.length_cons]
          omega
        · have h3 : e1.target ∉ e.target :: visited := by simp [h1, h2]
          simp only [h1, h3, not_false_eq_true, decide_True, if_true, List.length_cons]
          omega

theorem unvisitedTargets_mono (adj : List (Int × List Edge)) (visited : List Int) (c : Int) :
    unvisitedTargets adj (c :: visited) ≤ unvisitedTargets adj visited := by
  induction adj with
  | nil => simp [unvisitedTargets]
  | cons p adj ih =>
    unfold unvisitedTargets at *
    simp only [List.map_cons, List.sum_cons]
    have := filter_visit_le p.2 visited c
    omega

theorem unvisitedTargets_visit (adj : List (Int × List Edge)) (visited : List Int)
    (e : Edge) (hv : e.target ∉ visited) (he : ∃ p ∈ adj, e ∈ p.2) :
    unvisitedTargets adj (e.target :: visited) + 1 ≤ unvisitedTargets adj visited := by
  induction adj with
  | nil =>
    obtain ⟨p, hp, _⟩ := he
    simp at hp
  | cons p adj ih =>
    have hm := unvisitedTargets_mono adj visited e.target
    have hl := filter_visit_le p.2 visited e.target
    unfold unvisitedTargets at *
    simp only [List.map_cons, List.sum_cons]
    obtain ⟨q, hq, heq⟩ := he
    rcases List.mem_cons.mp hq with h | h
    · subst h
      have := filter_visit_lt q.2 visited e heq hv
      omega
    · have := ih ⟨q, h, heq⟩
      omega

theorem unvisitedTargets_mapInsert (adj : List (Int × List Edge)) (visited : List Int)
    (c : Int) :
    unvisitedTargets (mapInsert c [] adj) visited ≤ unvisitedTargets adj visited := by
  induction adj with
  | nil => simp [unvisitedTargets, mapInsert]
  | cons p adj ih =>
    obtain ⟨k, es⟩ := p
    unfold unvisitedTargets at ih ⊢
    simp only [mapInsert]
    split_ifs with h1 h2
    · simp
    · simp
    · simp only [List.map_cons, List.sum_cons]
      omega

theorem unvisitedTargets_mapTouch (adj : List (Int × List Edge)) (visited : List Int)
    (c : Int) :
    unvisitedTargets (mapTouch adj c []) visited ≤ unvisitedTargets adj visited := by
  unfold mapTouch
  split
  · exact le_refl _
  · exact unvisitedTargets_mapInsert adj visited c

theorem bfsPush_potential (adj : List (Int × List Edge)) (current : Int) (l : List Edge)
    (hl : ∀ e ∈ l, ∃ p ∈ adj, e ∈ p.2) :
    ∀ s : List Int × List Int × List (Int × Int),
      (l.foldl (bfsPush current) s).2.1.length +
          unvisitedTargets adj (l.foldl (bfsPush current) s).1 ≤
        s.2.1.length + unvisitedTargets adj s.1 := by
  induction l with
  | nil => intro s; simp
  | cons e l ih =>
    intro s
    simp only [List.foldl_cons]
    have h1 := ih (fun e1 he1 => hl e1 (List.mem_cons_of_mem _ he1)) (bfsPush current s e)
    have h2 : (bfsPush current s e).2.1.length + unvisitedTargets adj (bfsPush current s e).1 ≤
        s.2.1.length + unvisitedTargets adj s.1 := by
      unfold bfsPush
      split_ifs with hv
      · exact le_refl _
      · have := unvisitedTargets_visit adj s.1 e hv (hl e (List.mem_cons_self _ _))
        simp only [List.length_append, List.length_singleton]
        omega
    omega

theorem bfsBody_decreases (initialState : AlgorithmState) (t : BfsVars)
    (hc : bfsCond t = true) :
    (bfsBody initialState t).nodeQueue.length +
        unvisitedTargets (bfsBody initialState t).adjacencyList (bfsBody initialState t).visited <
      t.nodeQueue.length + unvisitedTargets t.adjacencyList t.visited := by
  unfold bfsBody
  cases hs : t.nodeQueue with
  | nil => simp [bfsCond, hs] at hc
  | cons current rest =>
    simp only [List.length_cons]
    have h1 := bfsPush_potential t.adjacencyList current (mapGet t.adjacencyList current [])
      (fun e he => mapGet_mem t.adjacencyList current e he) (t.visited, rest, t.traversalEdges)
    have h3 := unvisitedTargets_mapTouch t.adjacencyList
      (List.foldl (bfsPush current) (t.visited, rest, t.traversalEdges)
        (mapGet t.adjacencyList current [])).1 current
    simp only at h1
    omega

theorem bfsLoop_terminates (initialState : AlgorithmState) (fuel : Nat) (s : BfsVars)
    (h : s.nodeQueue.length + unvisitedTargets s.adjacencyList s.visited ≤ fuel) :
    ∃ r, whileLoop bfsCond (bfsBody initialState) fuel s = some r :=
  whileLoop_terminates bfsCond (bfsBody initialState) (fun _ => True)
    (fun t => t.nodeQueue.length + unvisitedTargets t.adjacencyList t.visited)
    (fun t _ hc => ⟨trivial, bfsBody_decreases initialState t hc⟩) fuel s trivial h

theorem bfsBody_stepped (initialState : AlgorithmState) (t : BfsVars)
    (h : t.states ≠ [] ∧ Stepped AlgorithmState.step t.states) :
    (bfsBody initialState t).states ≠ [] ∧
      Stepped AlgorithmState.step (bfsBody initialState t).states := by
  unfold bfsBody
  split
  · exact h
  · exact ⟨by simp, stepped_push _ _ _ h.2 (visitState_step _ _ _ _)⟩

theorem breadthFirstSearch_trace (self : Graph) (startNode : Int) :
    ∃ adj states, self.breadthFirstSearch startNode = some (finalize self adj states) ∧
      states ≠ [] ∧ Stepped AlgorithmState.step states := by
  unfold Graph.breadthFirstSearch
  simp only
  obtain ⟨r, hr⟩ := bfsLoop_terminates
    (createInitialState self.adjacencyList ("Starting BFS from node " ++ toString startNode))
    (edgeEntryCount self.adjacencyList + 1)
    { adjacencyList := self.adjacencyList, visited := [startNode], nodeQueue := [startNode],
      traversalEdges := [],
      states := [createInitialState self.adjacencyList
        ("Starting BFS from node " ++ toString startNode)] }
    (by
      have := unvisitedTargets_le self.adjacencyList [startNode]
      simp only [List.length_singleton]
      omega)
  rw [hr]
  have hi := (whileLoop_invariant bfsCond (bfsBody _)
    (fun t : BfsVars => t.states ≠ [] ∧ Stepped AlgorithmState.step t.states)
    (fun t ht _ => bfsBody_stepped _ t ht) _ _ r
    ⟨List.cons_ne_nil _ _, stepped_single AlgorithmState.step _ rfl⟩ hr).1
  exact ⟨_, _, rfl, by simp, stepped_push _ _ _ hi.2 (finalState_step _ _)⟩

theorem scan_mem (distances : List (Int × Int)) (all : List Int) :
    ∀ (l : List Int) (cur : Int), cur ∈ all → (∀ x ∈ l, x ∈ all) →
      l.foldl (fun current node =>
        if mapGet distances node 0 < mapGet distances current 0 then node else current)
        cur ∈ all := by
  intro l
  induction l with
  | nil => intro cur hc _; simpa using hc
  | cons x l ih =>
    intro cur hc hl
    simp only [List.foldl_cons]
    apply ih
    · split_ifs
      · exact hl x (List.mem_cons_self _ _)
      · exact hc
    · exact fun y hy => hl y (List.mem_cons_of_mem _ hy)

theorem selectCurrent_mem (distances : List (Int × Int)) (unvisited : List Int) (c : Int)
    (h : selectCurrent distances unvisited = some c) : c ∈ unvisited := by
  unfold selectCurrent at h
  cases unvisited with
  | nil => simp at h
  | cons first rest =>
    simp only [Option.some.injEq] at h
    subst h
    exact scan_mem _ (first :: rest) (first :: rest) first (List.mem_cons_self _ _)
      (fun x hx => hx)

theorem dijkstraBody_decreases (initialState : AlgorithmState) (t : DijkstraVars)
    (hc : dijkstraCond t = true) :
    (dijkstraBody initialState t).unvisited.length < t.unvisited.length := by
  unfold dijkstraCond at hc
  unfold dijkstraBody
  cases hs : selectCurrent t.distances t.unvisited with
  | none => simp [hs] at hc
  | some current =>
    simp only
    have hm := selectCurrent_mem _ _ _ hs
    rw [List.length_erase_of_mem hm]
    have := List.length_pos_of_mem hm
    omega

theorem relaxEdge_stepped (state : AlgorithmState) (current : Int) (s : RelaxVars)
    (edge : Edge) (h : s.states ≠ [] ∧ Stepped AlgorithmState.step s.states) :
    (relaxEdge state current s edge).states ≠ [] ∧
      Stepped AlgorithmState.step (relaxEdge state current s edge).states := by
  unfold relaxEdge
  simp only
  split_ifs
  · exact ⟨by simp, stepped_push _ _ _ h.2 rfl⟩
  · exact h

theorem dijkstraBody_stepped (initialState : AlgorithmState) (t : DijkstraVars)
    (h : t.states ≠ [] ∧ Stepped AlgorithmState.step t.states) :
    (dijkstraBody initialState t).states ≠ [] ∧
      Stepped AlgorithmState.step (dijkstraBody initialState t).states := by
  unfold dijkstraBody
  split
  · exact h
  · simp only
    exact foldl_preserves _
      (fun u : RelaxVars => u.states ≠ [] ∧ Stepped AlgorithmState.step u.states)
      (fun u e hu => relaxEdge_stepped _ _ u e hu) _ _
      ⟨by simp, stepped_push _ _ _ h.2 rfl⟩

theorem dijkstraAlgorithm_trace (self : Graph) (startNode : Int) :
    ∃ adj states, self.dijkstraAlgorithm startNode = some (finalize self adj states) ∧
      states ≠ [] ∧ Stepped AlgorithmState.step states := by
  unfold Graph.dijkstraAlgorithm
  simp only
  obtain ⟨r, hr⟩ := whileLoop_terminates dijkstraCond
    (dijkstraBody (createInitialState self.adjacencyList
      ("Starting Dijkstra's algorithm from node " ++ toString startNode)))
    (fun _ => True) (fun t => t.unvisited.length)
    (fun t _ hc => ⟨trivial, dijkstraBody_decreases _ t hc⟩) self.adjacencyList.length
    { adjacencyList := self.adjacencyList,
      distances := mapInsert startNode 0 (self.adjacencyList.foldl
        (fun (d : List (Int × Int)) node => mapInsert node.1 INT_MAX d) []),
      previous := [], unvisited := self.adjacencyList.map Prod.fst,
      states := [createInitialState self.adjacencyList
        ("Starting Dijkstra's algorithm from node " ++ toString startNode)] }
    trivial (by simp)
  rw [hr]
  have hi := (whileLoop_invariant dijkstraCond (dijkstraBody _)
    (fun t : DijkstraVars => t.states ≠ [] ∧ Stepped AlgorithmState.step t.states)
    (fun t ht _ => dijkstraBody_stepped _ t ht) _ _ r
    ⟨List.cons_ne_nil _ _, stepped_single AlgorithmState.step _ rfl⟩ hr).1
  exact ⟨_, _, rfl, by simp, stepped_push _ _ _ hi.2 rfl⟩

end GraphCpp

/-! ### Step numbering of the tree traces, finished sorting traces -/

namespace TreeCpp

theorem tree_finalize_numbered (self : BinarySearchTree) (states : List AlgorithmState)
    (h : Stepped AlgorithmState.step states) : Numbered (finalize self states) := by
  intro i h0 h1
  have hlen : (finalize self states).states.length = states.length := by simp [finalize]
  rw [hlen] at h1
  have hn : ¬ (i < 0 ∨ i ≥ ((finalize self states).states.length : Int)) := by
    rw [hlen]; omega
  simp only [BinarySearchTree.getStep, if_neg hn]
  have hs : Stepped AlgorithmState.step (finalize self states).states := by
    unfold Stepped
    simp only [finalize, List.map_map]
    exact h
  exact stepped_getD AlgorithmState.step _ _ hs i h0 (by rw [hlen]; exact h1)

theorem tree_finalize_finalized (self : BinarySearchTree) (states : List AlgorithmState)
    (hne : states ≠ []) (h : Stepped AlgorithmState.step states) :
    TraceFinalized AlgorithmState.step AlgorithmState.totalSteps
      (finalize self states).states (finalize self states).getStepCount := by
  have hlen : (finalize self states).states.length = states.length := by simp [finalize]
  have hs : Stepped AlgorithmState.step (finalize self states).states := by
    unfold Stepped
    simp only [finalize, List.map_map]
    exact h
  refine ⟨?_, ?_, ?_, ?_⟩
  · intro e
    have := congrArg List.length e
    rw [hlen] at this
    exact hne (List.length_eq_zero.mp (by simpa using this))
  · intro st hst
    rw [hlen]
    simp only [finalize, List.mem_map] at hst
    obtain ⟨a, _, rfl⟩ := hst
    rfl
  · intro last hl
    exact stepped_getLast AlgorithmState.step _ hs last hl
  · rw [hlen]
    rfl

/-- Invariant of the replay loops: before round `j` the trace has `j + 1` numbered
snapshots. -/
theorem pathLoop_stepped (body : Int → List AlgorithmState → List AlgorithmState)
    (hbody : ∀ j st, ∃ x : AlgorithmState, body j st = st ++ [x] ∧ x.step = j + 2)
    (n : Nat) (initialState : AlgorithmState) (h1 : initialState.step = 1) :
    ((forLoop body n 0 [initialState]).length : Int) = (n : Int) + 1 ∧
      Stepped AlgorithmState.step (forLoop body n 0 [initialState]) := by
  have h := forLoop_invariant body
    (fun j st => ((st.length : Int) = j + 1) ∧ Stepped AlgorithmState.step st) n 0
    [initialState] ⟨by simp, stepped_single AlgorithmState.step _ h1⟩
    (fun j st _ _ hI => by
      obtain ⟨x, hx, hs⟩ := hbody j st
      rw [hx]
      refine ⟨by simp only [List.length_append, List.length_singleton]; push_cast; omega, ?_⟩
      exact stepped_push _ _ _ hI.2 (by rw [hs]; omega))
  simpa using h

theorem pathLoop_push (body : Int → List AlgorithmState → List AlgorithmState)
    (hbody : ∀ j st, ∃ x : AlgorithmState, body j st = st ++ [x] ∧ x.step = j + 2)
    (n : Nat) (initialState : AlgorithmState) (h1 : initialState.step = 1)
    (final : AlgorithmState) (hf : final.step = (n : Int) + 2) :
    Stepped AlgorithmState.step (forLoop body n 0 [initialState] ++ [final]) := by
  have h := pathLoop_stepped body hbody n initialState h1
  exact stepped_push _ _ _ h.2 (by rw [hf]; omega)

theorem createInsertionStates_trace (self : BinarySearchTree) (value : Int) :
    ∃ self1 states, createInsertionStates self value = finalize self1 states ∧
      states ≠ [] ∧ Stepped AlgorithmState.step states := by
  unfold createInsertionStates
  simp only
  refine ⟨_, _, rfl, by simp, ?_⟩
  exact pathLoop_push _ (fun j st => ⟨_, rfl, rfl⟩) _ _ rfl _ rfl

theorem createSearchStates_trace (self : BinarySearchTree) (value : Int) :
    ∃ self1 states, createSearchStates self value = finalize self1 states ∧
      states ≠ [] ∧ Stepped AlgorithmState.step states := by
  unfold createSearchStates
  simp only
  refine ⟨_, _, rfl, by simp, ?_⟩
  exact pathLoop_push _ (fun j st => ⟨_, rfl, rfl⟩) _ _ rfl _ rfl

end TreeCpp

namespace SortCpp

theorem sort_finalize_numbered (states : List AlgorithmState)
    (h : Stepped AlgorithmState.step states) : Numbered (finalize states) := by
  intro i h0 h1
  have hlen : (finalize states).states.length = states.length := by simp [finalize]
  rw [hlen] at h1
  have hn : ¬ (i < 0 ∨ i ≥ ((finalize states).states.length : Int)) := by rw [hlen]; omega
  simp only [SortingAlgorithms.getStep, if_neg hn]
  have hs : Stepped AlgorithmState.step (finalize states).states := by
    unfold Stepped
    simp only [finalize, List.map_map]
    exact h
  exact stepped_getD AlgorithmState.step _ _ hs i h0 (by rw [hlen]; exact h1)

theorem sort_finalize_finalized (states : List AlgorithmState) (hne : states ≠ [])
    (h : Stepped AlgorithmState.step states) :
    TraceFinalized AlgorithmState.step AlgorithmState.totalSteps (finalize states).states
      (finalize states).getStepCount := by
  have hlen : (finalize states).states.length = states.length := by simp [finalize]
  have hs : Stepped AlgorithmState.step (finalize states).states := by
    unfold Stepped
    simp only [finalize, List.map_map]
    exact h
  refine ⟨?_, ?_, ?_, ?_⟩
  · intro e
    have := congrArg List.length e
    rw [hlen] at this
    exact hne (List.length_eq_zero.mp (by simpa using this))
  · intro st hst
    rw [hlen]
    simp only [finalize, List.mem_map] at hst
    obtain ⟨a, _, rfl⟩ := hst
    rfl
  · intro last hl
    exact stepped_getLast AlgorithmState.step _ hs last hl
  · rw [hlen]
    rfl

theorem finishSort_trace (message : String) (r : List Int × List AlgorithmState)
    (h : Stepped AlgorithmState.step r.2) :
    Numbered (finishSort message r).1 ∧
      TraceFinalized AlgorithmState.step AlgorithmState.totalSteps
        (finishSort message r).1.states (finishSort message r).1.getStepCount := by
  unfold finishSort
  exact ⟨sort_finalize_numbered _ (pushState_stepped _ _ _ h),
    sort_finalize_finalized _ (by simp [pushState]) (pushState_stepped _ _ _ h)⟩

theorem quickSort_trace (self : SortingAlgorithms) (arr : List Int)
    (r : SortingAlgorithms × List Int) (hr : self.quickSort arr = some r) :
    Numbered r.1 ∧ TraceFinalized AlgorithmState.step AlgorithmState.totalSteps
      r.1.states r.1.getStepCount := by
  unfold SortingAlgorithms.quickSort at hr
  simp only [Option.map_eq_some'] at hr
  obtain ⟨a, ha, rfl⟩ := hr
  exact finishSort_trace _ a (quickSortSteps_stepped _ _ _ _ _ a ha
    (pushState_stepped _ _ _ (stepped_nil _)))

theorem mergeSort_trace (self : SortingAlgorithms) (arr : List Int)
    (r : SortingAlgorithms × List Int) (hr : self.mergeSort arr = some r) :
    Numbered r.1 ∧ TraceFinalized AlgorithmState.step AlgorithmState.totalSteps
      r.1.states r.1.getStepCount := by
  unfold SortingAlgorithms.mergeSort at hr
  simp only [Option.map_eq_some'] at hr
  obtain ⟨a, ha, rfl⟩ := hr
  exact finishSort_trace _ a (mergeSortSteps_stepped _ _ _ _ _ a ha
    (pushState_stepped _ _ _ (stepped_nil _)))

theorem heapSort_trace (self : SortingAlgorithms) (arr : List Int)
    (r : SortingAlgorithms × List Int) (hr : self.heapSort arr = some r) :
    Numbered r.1 ∧ TraceFinalized AlgorithmState.step AlgorithmState.totalSteps
      r.1.states r.1.getStepCount := by
  unfold SortingAlgorithms.heapSort at hr
  simp only [Option.map_eq_some'] at hr
  obtain ⟨a, ha, rfl⟩ := hr
  exact finishSort_trace _ a (heapSortSteps_stepped _ _ a ha
    (pushState_stepped _ _ _ (stepped_nil _)))

end SortCpp

/-! ### Correctness of the three sorts and of the knapsack table -/

theorem getAt_eq_getElem {α : Type} (l : List α) (i : Int) (d : α) (h0 : 0 ≤ i)
    (h1 : i < (l.length : Int)) : ∃ h : i.toNat < l.length, getAt l i d = l[i.toNat] := by
  have h : i.toNat < l.length := by omega
  refine ⟨h, ?_⟩
  unfold getAt
  rw [if_neg (by omega), List.getD_eq_getElem l d h]

theorem getAt_natCast {α : Type} (l : List α) (n : Nat) (d : α) (h : n < l.length) :
    getAt l (n : Int) d = l[n] := by
  unfold getAt
  rw [if_neg (by omega)]
  simp only [Int.toNat_ofNat]
  exact List.getD_eq_getElem l d h

theorem length_setAt {α : Type} (l : List α) (i : Int) (x : α) :
    (setAt l i x).length = l.length := by
  unfold setAt
  split_ifs <;> simp

theorem getAt_setAt {α : Type} (l : List α) (i k : Int) (x d : α) (h0 : 0 ≤ i)
    (h1 : i < (l.length : Int)) :
    getAt (setAt l i x) k d = if k = i then x else getAt l k d := by
  unfold getAt setAt
  rw [if_neg (by omega : ¬ i < 0)]
  by_cases hk : k < 0
  · rw [if_pos hk, if_pos hk, if_neg (by omega)]
  · rw [if_neg hk, if_neg hk]
    by_cases e : k = i
    · subst e
      rw [if_pos rfl, List.getD_eq_getElem _ d (by simp; omega)]
      simp
    · rw [if_neg e]
      simp only [List.getD_eq_getElem?_getD, List.getElem?_set]
      rw [if_neg (by omega)]

theorem getAt_setAt_ne {α : Type} (l : List α) (i k : Int) (x d : α) (h : k ≠ i) :
    getAt (setAt l i x) k d = getAt l k d := by
  unfold getAt setAt
  by_cases hi : i < 0
  · rw [if_pos hi]
  · rw [if_neg hi]
    by_cases hk : k < 0
    · rw [if_pos hk, if_pos hk]
    · rw [if_neg hk, if_neg hk]
      simp only [List.getD_eq_getElem?_getD, List.getElem?_set]
      rw [if_neg (by omega)]

namespace SortCpp

theorem length_swapAt (a : List Int) (i j : Int) : (swapAt a i j).length = a.length := by
  unfold swapAt
  rw [length_setAt, length_setAt]

theorem getAt_swapAt (a : List Int) (i j k : Int) (hi0 : 0 ≤ i) (hi1 : i < (a.length : Int))
    (hj0 : 0 ≤ j) (hj1 : j < (a.length : Int)) :
    getAt (swapAt a i j) k 0 =
      if k = j then getAt a i 0 else if k = i then getAt a j 0 else getAt a k 0 := by
  unfold swapAt
  rw [getAt_setAt _ j k _ _ hj0 (by rw [length_setAt]; exact hj1)]
  by_cases e : k = j
  · rw [if_pos e, if_pos e]
  · rw [if_neg e, if_neg e, getAt_setAt _ i k _ _ hi0 hi1]

theorem swapAt_perm (a : List Int) (i j : Int) (hi0 : 0 ≤ i) (hi1 : i < (a.length : Int))
    (hj0 : 0 ≤ j) (hj1 : j < (a.length : Int)) : (swapAt a i j).Perm a := by
  obtain ⟨hi, ei⟩ := getAt_eq_getElem a i 0 hi0 hi1
  obtain ⟨hj, ej⟩ := getAt_eq_getElem a j 0 hj0 hj1
  unfold swapAt setAt
  rw [if_neg (by omega), if_neg (by omega), ei, ej]
  rw [List.perm_iff_count]
  intro x
  rw [List.count_set _ _ _ _ (by simp; exact hj), List.count_set _ _ _ _ hi]
  simp only [List.getElem_set]
  have c1 : 0 < List.count a[i.toNat] a := List.count_pos_iff.mpr (List.getElem_mem _)
  have c2 : 0 < List.count a[j.toNat] a := List.count_pos_iff.mpr (List.getElem_mem _)
  by_cases e : i.toNat = j.toNat
  · simp only [e, if_true]
    by_cases ex : a[j.toNat] = x
    · subst ex
      simp
    · simp [ex]
  · simp only [e, if_false]
    by_cases e1 : a[i.toNat] = x <;> by_cases e2 : a[j.toNat] = x
    · subst e1
      simp [e2]
    · subst e1
      simp [e2]
    · subst e2
      simp [e1]
    · simp [e1, e2]

theorem SwapReach.length_eq {lo hi : Int} {a b : List Int} (h : SwapReach lo hi a b) :
    b.length = a.length := by
  induction h with
  | refl => rfl
  | step b i j _ _ _ _ _ ih => rw [length_swapAt, ih]

theorem SwapReach.perm {lo hi : Int} {a b : List Int} (h : SwapReach lo hi a b)
    (h0 : 0 ≤ lo) (h1 : hi < (a.length : Int)) : b.Perm a := by
  induction h with
  | refl => exact List.Perm.refl _
  | step b i j hab hi1 hi2 hj1 hj2 ih =>
    have hl := hab.length_eq
    exact (swapAt_perm b i j (by omega) (by omega) (by omega) (by omega)).trans ih

theorem SwapReach.outside {lo hi : Int} {a b : List Int} (h : SwapReach lo hi a b)
    (h0 : 0 ≤ lo) (h1 : hi < (a.length : Int)) (k : Int) (hk : k < lo ∨ hi < k) :
    getAt b k 0 = getAt a k 0 := by
  induction h with
  | refl => rfl
  | step b i j hab hi1 hi2 hj1 hj2 ih =>
    have hl := hab.length_eq
    rw [getAt_swapAt b i j k (by omega) (by omega) (by omega) (by omega),
      if_neg (by omega), if_neg (by omega), ih]

theorem SwapReach.all {lo hi : Int} {a b : List Int} (h : SwapReach lo hi a b)
    (h0 : 0 ≤ lo) (h1 : hi < (a.length : Int)) (P : Int → Prop)
    (hP : ∀ k, lo ≤ k → k ≤ hi → P (getAt a k 0)) :
    ∀ k, lo ≤ k → k ≤ hi → P (getAt b k 0) := by
  induction h with
  | refl => exact hP
  | step b i j hab hi1 hi2 hj1 hj2 ih =>
    have hl := hab.length_eq
    intro k hk1 hk2
    rw [getAt_swapAt b i j k (by omega) (by omega) (by omega) (by omega)]
    split_ifs
    · exact ih i hi1 hi2
    · exact ih j hj1 hj2
    · exact ih k hk1 hk2

theorem SwapReach.mono {lo hi lo2 hi2 : Int} {a b : List Int} (h : SwapReach lo hi a b)
    (hlo : lo2 ≤ lo) (hhi : hi ≤ hi2) : SwapReach lo2 hi2 a b := by
  induction h with
  | refl => exact SwapReach.refl _
  | step b i j _ hi1 hi2 hj1 hj2 ih =>
    exact SwapReach.step _ b i j ih (by omega) (by omega) (by omega) (by omega)

theorem SwapReach.trans {lo hi : Int} {a b c : List Int} (h1 : SwapReach lo hi a b)
    (h2 : SwapReach lo hi b c) : SwapReach lo hi a c := by
  induction h2 with
  | refl => exact h1
  | step c i j _ hi1 hi2 hj1 hj2 ih => exact SwapReach.step _ c i j ih hi1 hi2 hj1 hj2

theorem partitionBody_inv (arr : List Int) (low high v j : Int) (s : PartitionVars)
    (h0 : 0 ≤ low) (h1 : high < (arr.length : Int)) (hj1 : low ≤ j) (hj2 : j < high)
    (h : PartitionInv arr low high v j s) :
    PartitionInv arr low high v (j + 1) (partitionBody v high j s) := by
  obtain ⟨hr, hi1, hi2, hlt, hge, hp⟩ := h
  have hl := hr.length_eq
  unfold partitionBody
  simp only
  split_ifs with hc
  · have sw := fun k => getAt_swapAt s.arr (s.i + 1) j k (by omega) (by omega) (by omega)
      (by omega)
    refine ⟨SwapReach.step _ _ _ _ hr (by omega) (by omega) (by omega) (by omega),
      by simp only; omega, by simp only; omega, ?_, ?_, ?_⟩
    · intro k hk1 hk2
      simp only at hk2 ⊢
      rw [sw k]
      split_ifs with e1 e2
      · subst e1
        have : s.i + 1 = k := by omega
        rw [this]
        exact hc
      · exact hc
      · exact hlt k hk1 (by omega)
    · intro k hk1 hk2
      simp only at hk1 ⊢
      rw [sw k]
      split_ifs with e1 e2
      · exact hge (s.i + 1) (by omega) (by omega)
      · omega
      · exact hge k (by omega) (by omega)
    · simp only
      rw [sw high, if_neg (by omega), if_neg (by omega)]
      exact hp
  · refine ⟨hr, hi1, by simp only; omega, hlt, ?_, hp⟩
    intro k hk1 hk2
    simp only at hk1 ⊢
    by_cases e : k = j
    · subst e
      omega
    · exact hge k hk1 (by omega)

theorem partition_finish (arr : List Int) (low high v : Int) (p : PartitionVars)
    (h0 : 0 ≤ low) (h1 : high < (arr.length : Int)) (hlt : low < high)
    (hI : PartitionInv arr low high v high p) :
    SwapReach low high arr (swapAt p.arr (p.i + 1) high) ∧ low - 1 ≤ p.i ∧ p.i < high ∧
    (∀ k, low ≤ k → k ≤ p.i →
      getAt (swapAt p.arr (p.i + 1) high) k 0 <
        getAt (swapAt p.arr (p.i + 1) high) (p.i + 1) 0) ∧
    (∀ k, p.i + 1 < k → k ≤ high →
      getAt (swapAt p.arr (p.i + 1) high) (p.i + 1) 0 ≤
        getAt (swapAt p.arr (p.i + 1) high) k 0) := by
  obtain ⟨hr, hi1, hi2, hl, hge, hp⟩ := hI
  have hlen := hr.length_eq
  have sw := fun k => getAt_swapAt p.arr (p.i + 1) high k (by omega) (by omega) (by omega)
    (by omega)
  have hpv : getAt (swapAt p.arr (p.i + 1) high) (p.i + 1) 0 = v := by
    rw [sw]
    by_cases e : p.i + 1 = high
    · rw [if_pos e, e, hp]
    · rw [if_neg e, if_pos rfl, hp]
  refine ⟨SwapReach.step _ _ _ _ hr (by omega) (by omega) (by omega) (by omega),
    hi1, hi2, ?_, ?_⟩
  · intro k hk1 hk2
    rw [hpv, sw k, if_neg (by omega), if_neg (by omega)]
    exact hl k hk1 hk2
  · intro k hk1 hk2
    rw [hpv, sw k]
    by_cases e : k = high
    · rw [if_pos e]
      exact hge _ (by omega) (by omega)
    · rw [if_neg e, if_neg (by omega)]
      exact hge _ (by omega) (by omega)

/-- What `partitionSteps` establishes on the segment `[low, high]`. -/
theorem partitionSteps_spec (arr : List Int) (states : List AlgorithmState) (low high : Int)
    (h0 : 0 ≤ low) (h1 : high < (arr.length : Int)) (hlt : low < high) :
    SwapReach low high arr (partitionSteps arr states low high).arr ∧
    low - 1 ≤ (partitionSteps arr states low high).i ∧
    (partitionSteps arr states low high).i < high ∧
    (∀ k, low ≤ k → k ≤ (partitionSteps arr states low high).i →
      getAt (partitionSteps arr states low high).arr k 0 <
        getAt (partitionSteps arr states low high).arr
          ((partitionSteps arr states low high).i + 1) 0) ∧
    (∀ k, (partitionSteps arr states low high).i + 1 < k → k ≤ high →
      getAt (partitionSteps arr states low high).arr
          ((partitionSteps arr states low high).i + 1) 0 ≤
        getAt (partitionSteps arr states low high).arr k 0) := by
  have hinv := forLoop_invariant (partitionBody (getAt arr high 0) high)
    (fun j s => j ≤ high → PartitionInv arr low high (getAt arr high 0) j s)
    (high - low).toNat low
    { arr := arr, i := low - 1,
      states := pushState (pushState states
        ("Sorting segment [" ++ toString low ++ " to " ++ toString high ++ "]")
        (createArrayVisualization arr low high false))
        ("Pivot: " ++ toString (getAt arr high 0) ++ " (index " ++ toString high ++ ")")
        (createArrayVisualization arr high (-1) false) }
    (fun _ => ⟨SwapReach.refl _, by simp, by simp only; omega,
      fun k hk1 hk2 => by simp only at hk2; omega,
      fun k hk1 hk2 => by simp only at hk1; omega, rfl⟩)
    (fun j t hj1 hj2 hI hj3 =>
      partitionBody_inv arr low high _ j t h0 h1 hj1 (by omega) (hI (by omega)))
  have e : low + ((high - low).toNat : Int) = high := by omega
  rw [e] at hinv
  exact partition_finish arr low high _ _ h0 h1 hlt (hinv (le_refl _))

theorem sortedOn_of_ge (lo hi : Int) (a : List Int) (h : hi ≤ lo) : SortedOn lo hi a := by
  intro i j h1 h2 h3
  have : i = j := by omega
  rw [this]

theorem quickSortSteps_correct : ∀ (fuel : Nat) (arr : List Int)
    (states : List AlgorithmState) (low high : Int),
    0 ≤ low → high < (arr.length : Int) → high - low ≤ (fuel : Int) →
    ∃ r, quickSortSteps fuel arr states low high = some r ∧
      SwapReach low high arr r.1 ∧ SortedOn low high r.1 := by
  intro fuel
  induction fuel with
  | zero =>
    intro arr states low high h0 h1 hf
    have hn : ¬ low < high := by
      simp only [Nat.cast_zero] at hf
      omega
    refine ⟨(arr, states), ?_, SwapReach.refl _, sortedOn_of_ge _ _ _ (by omega)⟩
    unfold quickSortSteps
    rw [if_neg hn]
  | succ fuel ih =>
    intro arr states low high h0 h1 hf
    by_cases hlt : low < high
    · obtain ⟨hr, hi1, hi2, hl, hge⟩ := partitionSteps_spec arr states low high h0 h1 hlt
      have hlen := hr.length_eq
      generalize hp : partitionSteps arr states low high = p at hr hi1 hi2 hl hge hlen
      obtain ⟨r1, hr1, hs1, hsort1⟩ := ih p.arr p.states low (p.i + 1 - 1) h0 (by omega)
        (by push_cast at hf; omega)
      have hlen1 := hs1.length_eq
      obtain ⟨r2, hr2, hs2, hsort2⟩ := ih r1.1 r1.2 (p.i + 1 + 1) high (by omega) (by omega)
        (by push_cast at hf; omega)
      have A1 := hs1.all h0 (by omega) (fun x => x < getAt p.arr (p.i + 1) 0)
        (fun k hk1 hk2 => hl k hk1 (by omega))
      have A2 := hs1.outside h0 (by omega)
      have B1 := hs2.all (by omega) (by omega) (fun x => getAt p.arr (p.i + 1) 0 ≤ x)
        (fun k hk1 hk2 => by
          rw [A2 k (by omega)]
          exact hge k (by omega) hk2)
      have B2 := hs2.outside (by omega) (by omega)
      refine ⟨r2, ?_, ?_, ?_⟩
      · unfold quickSortSteps
        rw [if_pos hlt]
        simp only [hp, hr1]
        exact hr2
      · exact hr.trans ((hs1.mono (le_refl _) (by omega)).trans
          (hs2.mono (by omega) (le_refl _)))
      · intro i j hi hij hj
        by_cases c1 : j < p.i + 1
        · rw [B2 i (by omega), B2 j (by omega)]
          exact hsort1 i j hi hij (by omega)
        · by_cases c2 : p.i + 1 < i
          · exact hsort2 i j (by omega) hij hj
          · have hjv : getAt p.arr (p.i + 1) 0 ≤ getAt r2.1 j 0 := by
              by_cases c3 : j = p.i + 1
              · rw [c3, B2 _ (by omega), A2 _ (by omega)]
              · exact B1 j (by omega) hj
            have hiv : getAt r2.1 i 0 ≤ getAt p.arr (p.i + 1) 0 := by
              by_cases c4 : i = p.i + 1
              · rw [c4, B2 _ (by omega), A2 _ (by omega)]
              · rw [B2 i (by omega)]
                exact le_of_lt (A1 i hi (by omega))
            exact le_trans hiv hjv
    · refine ⟨(arr, states), ?_, SwapReach.refl _, sortedOn_of_ge _ _ _ (by omega)⟩
      unfold quickSortSteps
      rw [if_neg hlt]

theorem sorted_of_sortedOn (a : List Int) (h : SortedOn 0 ((a.length : Int) - 1) a) :
    a.Sorted (fun x y => x ≤ y) := by
  unfold List.Sorted
  rw [List.pairwise_iff_getElem]
  intro i j hi hj hij
  have := h (i : Int) (j : Int) (by omega) (by omega) (by omega)
  rwa [getAt_natCast a i 0 hi, getAt_natCast a j 0 hj] at this

theorem createArrayVisualizationFrom_value (h1 h2 : Int) (sw : Bool) (arr : List Int) :
    ∀ i : Int, (createArrayVisualizationFrom h1 h2 sw arr i).map ArrayElement.value = arr := by
  induction arr with
  | nil => intro i; rfl
  | cons v rest ih =>
    intro i
    simp only [createArrayVisualizationFrom, List.map_cons, ih]

theorem createArrayVisualizationFrom_id (h1 h2 : Int) (sw : Bool) (arr : List Int) :
    ∀ i : Int, (createArrayVisualizationFrom h1 h2 sw arr i).map ArrayElement.id =
      (List.range arr.length).map (fun k : Nat => i + (k : Int)) := by
  induction arr with
  | nil => intro i; rfl
  | cons v rest ih =>
    intro i
    simp only [createArrayVisualizationFrom, List.map_cons, ih, List.length_cons,
      List.range_succ_eq_map, List.map_map]
    simp only [Nat.cast_zero, add_zero, List.cons.injEq, true_and]
    apply List.map_congr_left
    intro k _
    simp only [Function.comp, Nat.cast_succ]
    ring

theorem finishSort_last (message : String) (r : List Int × List AlgorithmState) :
    ∃ last, (finishSort message r).1.states.getLast? = some last ∧
      last.message = message ∧
      last.elements.map ArrayElement.id = (List.range r.1.length).map (fun k : Nat => (k : Int)) ∧
      last.elements.map ArrayElement.value = r.1 := by
  unfold finishSort finalize pushState
  simp only [List.map_append, List.map_cons, List.map_nil, List.getLast?_concat]
  refine ⟨_, rfl, rfl, ?_, ?_⟩
  · simp only [createArrayVisualization, createArrayVisualizationFrom_id]
    apply List.map_congr_left
    intro k _
    simp
  · simp only [createArrayVisualization, createArrayVisualizationFrom_value]

theorem sortsTo_of_steps (message : String) (arr : List Int)
    (run : Option (List Int × List AlgorithmState)) (r : List Int × List AlgorithmState)
    (hr : run = some r) (hperm : r.1.Perm arr) (hs : r.1.Sorted (fun x y => x ≤ y)) :
    SortsTo (run.map (finishSort message)) arr := by
  obtain ⟨last, hl, _, hid, hv⟩ := finishSort_last message r
  refine ⟨finishSort message r, last, by rw [hr]; rfl, hl, ?_, ?_, ?_⟩
  · rw [hid, hperm.length_eq]
  · rw [hv]; exact hperm
  · rw [hv]; exact hs

theorem sortsTo_demo (run : Option (SortingAlgorithms × List Int)) (arr : List Int)
    (h : SortsTo run arr) (hp : arr.Perm [64, 34, 25, 12, 22, 11, 90]) :
    ∃ r last, run = some r ∧ r.1.states.getLast? = some last ∧
      last.elements.map ArrayElement.value = [11, 12, 22, 25, 34, 64, 90] := by
  obtain ⟨r, last, hr, hl, _, hperm, hs⟩ := h
  refine ⟨r, last, hr, hl, ?_⟩
  refine List.eq_of_perm_of_sorted (r := fun x y : Int => x ≤ y) ?_ hs (by decide)
  exact hperm.trans (hp.trans (by decide))

theorem quickSort_sortsTo (self : SortingAlgorithms) (arr : List Int) :
    SortsTo (self.quickSort arr) arr := by
  obtain ⟨r, hr, hs, hsort⟩ := quickSortSteps_correct arr.length arr
    (pushState [] "Initial array for QuickSort" (createArrayVisualization arr (-1) (-1) false))
    0 ((arr.length : Int) - 1) (le_refl _) (by omega) (by omega)
  have hlen := hs.length_eq
  unfold SortingAlgorithms.quickSort
  exact sortsTo_of_steps _ arr _ r hr (hs.perm (le_refl _) (by omega))
    (sorted_of_sortedOn _ (by rw [hlen]; exact hsort))

theorem copyLoop_eq (arr : List Int) (off : Int) (n : Nat) (h0 : 0 ≤ off)
    (h1 : off + (n : Int) ≤ (arr.length : Int)) :
    forLoop (fun i (L : List Int) => setAt L i (getAt arr (off + i) 0)) n 0
      (List.replicate n 0) = (arr.drop off.toNat).take n := by
  have hinv := forLoop_invariant (fun i (L : List Int) => setAt L i (getAt arr (off + i) 0))
    (fun j L => L.length = n ∧ ∀ t : Nat, (t : Int) < j → L[t]? = arr[off.toNat + t]?)
    n 0 (List.replicate n 0) ⟨by simp, fun t ht => by omega⟩
    (fun j L hj1 hj2 hI => by
      refine ⟨by rw [length_setAt]; exact hI.1, ?_⟩
      intro t ht
      have hjn : j.toNat < L.length := by rw [hI.1]; omega
      show (setAt L j (getAt arr (off + j) 0))[t]? = arr[off.toNat + t]?
      unfold setAt
      rw [if_neg (by omega), List.getElem?_set]
      by_cases e : j.toNat = t
      · rw [if_pos e, if_pos hjn]
        obtain ⟨hx, ex⟩ := getAt_eq_getElem arr (off + j) 0 (by omega) (by omega)
        rw [ex, List.getElem?_eq_getElem (by omega)]
        congr 2
        omega
      · rw [if_neg e]
        exact hI.2 t (by omega))
  simp only [zero_add] at hinv
  apply List.ext_getElem?
  intro t
  by_cases ht : t < n
  · rw [hinv.2 t (by omega), List.getElem?_take_of_lt ht, List.getElem?_drop]
  · rw [List.getElem?_eq_none (by rw [hinv.1]; omega),
      List.getElem?_eq_none (by simp; omega)]

theorem set_middle (P W Y : List Int) (x a : Int) :
    (P ++ W ++ x :: Y).set (P.length + W.length) a = P ++ W ++ a :: Y := by
  rw [← List.length_append, List.set_append_right _ _ (le_refl _)]
  simp

theorem mergeInv_write (P A B S : List Int) (t : MergeVars) (a : Int) (i1 j1 : Int)
    (h : MergeInv P A B S t) (hd : i1 + j1 = t.i + t.j + 1) (hdi : t.i ≤ i1) (hdj : t.j ≤ j1)
    (hi : i1 ≤ (A.length : Int)) (hj : j1 ≤ (B.length : Int))
    (hm : List.merge (A.drop t.i.toNat) (B.drop t.j.toNat) (fun x y => decide (x ≤ y)) =
      a :: List.merge (A.drop i1.toNat) (B.drop j1.toNat) (fun x y => decide (x ≤ y)))
    (states : List AlgorithmState) :
    MergeInv P A B S
      { arr := setAt t.arr t.k a, i := i1, j := j1, k := t.k + 1, states := states } := by
  obtain ⟨W, X, harr, hlen, hi0, hi1, hj0, hj1, hw, hk, hmerge⟩ := h
  cases X with
  | nil =>
    simp only [List.length_nil, add_zero] at hlen
    omega
  | cons x X =>
    refine ⟨W ++ [a], X, ?_, ?_, by simp only; omega, hi, by simp only; omega, hj, ?_, ?_, ?_⟩
    · simp only
      unfold setAt
      rw [if_neg (by omega), harr]
      have e : t.k.toNat = P.length + W.length := by omega
      rw [e, List.append_assoc (P ++ W), List.cons_append, set_middle]
      simp
    · simp only [List.length_append, List.length_singleton, List.length_cons,
        List.length_nil] at hlen ⊢
      omega
    · simp only [List.length_append, List.length_singleton]
      push_cast
      omega
    · simp only
      omega
    · simp only
      rw [List.append_assoc, List.singleton_append, ← hm]
      exact hmerge

theorem drop_eq_cons (l : List Int) (i : Int) (h0 : 0 ≤ i) (h1 : i < (l.length : Int)) :
    l.drop i.toNat = getAt l i 0 :: l.drop (i + 1).toNat := by
  obtain ⟨hx, ex⟩ := getAt_eq_getElem l i 0 h0 h1
  rw [ex]
  have e : (i + 1).toNat = i.toNat + 1 := by omega
  rw [e]
  exact List.drop_eq_getElem_cons hx

theorem mergeBody_inv (P A B S : List Int) (left mid : Int) (t : MergeVars)
    (h : MergeInv P A B S t) (hc : mergeCond (A.length : Int) (B.length : Int) t = true) :
    MergeInv P A B S (mergeBody A B left mid t) := by
  simp only [mergeCond, Bool.and_eq_true, decide_eq_true_eq] at hc
  have h' := h
  obtain ⟨W, X, harr, hlen, hi0, hi1, hj0, hj1, hw, hk, hmerge⟩ := h'
  have eA := drop_eq_cons A t.i hi0 hc.1
  have eB := drop_eq_cons B t.j hj0 hc.2
  unfold mergeBody
  simp only
  split_ifs with hle
  · refine mergeInv_write P A B S t _ (t.i + 1) t.j h (by omega) (by omega) (by omega)
      (by omega) (by omega) ?_ _
    rw [eA, eB, List.merge]
    simp only [decide_eq_true_eq, hle, if_true, ← eB]
  · refine mergeInv_write P A B S t _ t.i (t.j + 1) h (by omega) (by omega) (by omega)
      (by omega) (by omega) ?_ _
    rw [eA, eB, List.merge]
    simp only [decide_eq_true_eq, hle, if_false, ← eA]

theorem copyLeftBody_inv (P A B S : List Int) (t : MergeVars)
    (h : MergeInv P A B S t ∧ (t.i < (A.length : Int) → t.j = (B.length : Int)))
    (hc : copyLeftCond (A.length : Int) t = true) :
    MergeInv P A B S (copyLeftBody A t) ∧
      ((copyLeftBody A t).i < (A.length : Int) → (copyLeftBody A t).j = (B.length : Int)) := by
  simp only [copyLeftCond, decide_eq_true_eq] at hc
  have hj := h.2 hc
  have h' := h.1
  obtain ⟨W, X, harr, hlen, hi0, hi1, hj0, hj1, hw, hk, hmerge⟩ := h'
  have eA := drop_eq_cons A t.i hi0 hc
  unfold copyLeftBody
  simp only
  refine ⟨?_, fun _ => hj⟩
  refine mergeInv_write P A B S t _ (t.i + 1) t.j h.1 (by omega) (by omega) (by omega)
    (by omega) (by omega) ?_ _
  have eB : List.drop t.j.toNat B = [] := by
    rw [hj]
    simp
  rw [eB, List.merge_right, List.merge_right]
  exact eA

theorem copyRightBody_inv (P A B S : List Int) (t : MergeVars)
    (h : MergeInv P A B S t ∧ t.i = (A.length : Int))
    (hc : copyRightCond (B.length : Int) t = true) :
    MergeInv P A B S (copyRightBody B t) ∧ (copyRightBody B t).i = (A.length : Int) := by
  simp only [copyRightCond, decide_eq_true_eq] at hc
  have hi := h.2
  have h' := h.1
  obtain ⟨W, X, harr, hlen, hi0, hi1, hj0, hj1, hw, hk, hmerge⟩ := h'
  have eB := drop_eq_cons B t.j hj0 hc
  unfold copyRightBody
  simp only
  refine ⟨?_, hi⟩
  refine mergeInv_write P A B S t _ t.i (t.j + 1) h.1 (by omega) (by omega) (by omega)
    (by omega) (by omega) ?_ _
  have eA : List.drop t.i.toNat A = [] := by
    rw [hi]
    simp
  rw [eA, List.nil_merge, List.nil_merge]
  exact eB

end SortCpp

theorem whileLoop_total {σ : Type} (cond : σ → Bool) (body : σ → σ) (Inv : σ → Prop)
    (μ : σ → Nat) (hstep : ∀ t, Inv t → cond t = true → Inv (body t) ∧ μ (body t) < μ t)
    (fuel : Nat) (s : σ) (h : Inv s) (hμ : μ s ≤ fuel) :
    ∃ r, whileLoop cond body fuel s = some r ∧ Inv r ∧ cond r = false := by
  obtain ⟨r, hr⟩ := whileLoop_terminates cond body Inv μ hstep fuel s h hμ
  exact ⟨r, hr, whileLoop_invariant cond body Inv (fun t ht hc => (hstep t ht hc).1) fuel s r h hr⟩

namespace SortCpp

theorem mergeSteps_spec (P A B S : List Int) (states : List AlgorithmState)
    (left mid right : Int) (hl : left = (P.length : Int))
    (hm : mid = (P.length : Int) + (A.length : Int) - 1)
    (hr : right = (P.length : Int) + (A.length : Int) + (B.length : Int) - 1) :
    ∃ r, mergeSteps (P ++ A ++ B ++ S) states left mid right = some r ∧
      r.1 = P ++ List.merge A B (fun x y => decide (x ≤ y)) ++ S := by
  have e1 : mid - left + 1 = (A.length : Int) := by omega
  have e2 : right - mid = (B.length : Int) := by omega
  have eL : forLoop (fun i (L : List Int) => setAt L i (getAt (P ++ A ++ B ++ S) (left + i) 0))
      A.length 0 (List.replicate A.length 0) = A := by
    rw [copyLoop_eq _ _ _ (by omega) (by simp; omega)]
    have : left.toNat = P.length := by omega
    rw [this]
    simp [List.append_assoc]
  have eR : forLoop
      (fun j (R : List Int) => setAt R j (getAt (P ++ A ++ B ++ S) (mid + 1 + j) 0))
      B.length 0 (List.replicate B.length 0) = B := by
    rw [copyLoop_eq _ _ _ (by omega) (by simp; omega)]
    have : (mid + 1).toNat = (P ++ A).length := by simp; omega
    rw [this, List.append_assoc (P ++ A), List.drop_left]
    simp
  unfold mergeSteps
  simp only [e1, e2, Int.toNat_ofNat, eL, eR]
  have hfuel : ((A.length : Int) + (B.length : Int)).toNat = A.length + B.length := by omega
  rw [hfuel]
  obtain ⟨s1, hs1, hI1, hc1⟩ := whileLoop_total
    (mergeCond (A.length : Int) (B.length : Int)) (mergeBody A B left mid)
    (MergeInv P A B S)
    (fun t => ((A.length : Int) - t.i).toNat + ((B.length : Int) - t.j).toNat)
    (fun t ht hc => by
      refine ⟨mergeBody_inv P A B S left mid t ht hc, ?_⟩
      simp only [mergeCond, Bool.and_eq_true, decide_eq_true_eq] at hc
      unfold mergeBody
      simp only
      split_ifs <;> simp only <;> omega)
    (A.length + B.length)
    { arr := P ++ A ++ B ++ S, i := 0, j := 0, k := left,
      states := pushState states "Copying elements to temporary arrays"
        (createArrayVisualization (P ++ A ++ B ++ S) left right false) }
    ⟨[], A ++ B, by simp, by simp, le_refl _, by simp, le_refl _, by simp, by simp,
      by simp only; omega, by simp⟩
    (by simp only; omega)
  rw [hs1]
  simp only
  have hc1' : ¬ (s1.i < (A.length : Int) ∧ s1.j < (B.length : Int)) := by
    simpa [mergeCond] using hc1
  obtain ⟨s2, hs2, hI2, hc2⟩ := whileLoop_total
    (copyLeftCond (A.length : Int)) (copyLeftBody A)
    (fun t => MergeInv P A B S t ∧ (t.i < (A.length : Int) → t.j = (B.length : Int)))
    (fun t => ((A.length : Int) - t.i).toNat)
    (fun t ht hc => by
      refine ⟨copyLeftBody_inv P A B S t ht hc, ?_⟩
      simp only [copyLeftCond, decide_eq_true_eq] at hc
      unfold copyLeftBody
      simp only
      omega)
    (A.length + B.length) s1
    ⟨hI1, fun hi => by
      obtain ⟨W, X, _, _, _, _, _, hj1, _⟩ := hI1
      omega⟩
    (by
      obtain ⟨W, X, _, _, hi0, _⟩ := hI1
      simp only
      omega)
  rw [hs2]
  simp only
  have hc2' : ¬ s2.i < (A.length : Int) := by simpa [copyLeftCond] using hc2
  obtain ⟨s3, hs3, hI3, hc3⟩ := whileLoop_total
    (copyRightCond (B.length : Int)) (copyRightBody B)
    (fun t => MergeInv P A B S t ∧ t.i = (A.length : Int))
    (fun t => ((B.length : Int) - t.j).toNat)
    (fun t ht hc => by
      refine ⟨copyRightBody_inv P A B S t ht hc, ?_⟩
      simp only [copyRightCond, decide_eq_true_eq] at hc
      unfold copyRightBody
      simp only
      omega)
    (A.length + B.length) s2
    ⟨hI2.1, by
      obtain ⟨W, X, _, _, _, hi1, _⟩ := hI2.1
      omega⟩
    (by
      obtain ⟨W, X, _, _, _, _, hj0, _⟩ := hI2.1
      simp only
      omega)
  rw [hs3]
  refine ⟨_, rfl, ?_⟩
  have hc3' : ¬ s3.j < (B.length : Int) := by simpa [copyRightCond] using hc3
  obtain ⟨⟨W, X, harr, hlen, hi0, hi1, hj0, hj1, hw, hk, hmerge⟩, hi3⟩ := hI3
  have hj3 : s3.j = (B.length : Int) := by omega
  have hX : X = [] := by
    apply List.length_eq_zero.mp
    omega
  have hW : W = List.merge A B (fun x y => decide (x ≤ y)) := by
    rw [← hmerge, hi3, hj3]
    simp
  simp only
  rw [harr, hX, hW]
  simp

theorem take_seg_drop (arr : List Int) (l h : Nat) (hlh : l ≤ h) :
    arr = arr.take l ++ (arr.drop l).take (h - l) ++ arr.drop h := by
  have e : arr.drop h = (arr.drop l).drop (h - l) := by
    rw [List.drop_drop]
    congr 1
    omega
  rw [e, List.append_assoc, List.take_append_drop, List.take_append_drop]

theorem seg_split (arr : List Int) (l m h : Nat) (hlm : l ≤ m) (hmh : m ≤ h) :
    (arr.drop l).take (h - l) = (arr.drop l).take (m - l) ++ (arr.drop m).take (h - m) := by
  have e : h - l = (m - l) + (h - m) := by omega
  rw [e, List.take_add, List.drop_drop]
  congr 3
  omega

theorem sorted_of_length_le_one (M : List Int) (h : M.length ≤ 1) :
    M.Sorted (fun x y => x ≤ y) := by
  cases M with
  | nil => exact List.sorted_nil
  | cons a M =>
    cases M with
    | nil => exact List.sorted_singleton a
    | cons b M => simp at h

theorem mergeSortSteps_correct : ∀ (fuel : Nat) (arr : List Int)
    (states : List AlgorithmState) (l h : Nat),
    l ≤ h → h ≤ arr.length → h - l ≤ fuel + 1 →
    ∃ r M, mergeSortSteps fuel arr states (l : Int) ((h : Int) - 1) = some r ∧
      r.1 = arr.take l ++ M ++ arr.drop h ∧ M.Sorted (fun x y => x ≤ y) ∧
      M.Perm ((arr.drop l).take (h - l)) := by
  intro fuel
  induction fuel with
  | zero =>
    intro arr states l h hlh hh hf
    have hn : ¬ (l : Int) < (h : Int) - 1 := by omega
    refine ⟨(arr, states), (arr.drop l).take (h - l), ?_, take_seg_drop arr l h hlh,
      sorted_of_length_le_one _ (by simp; omega), List.Perm.refl _⟩
    unfold mergeSortSteps
    rw [if_neg hn]
  | succ fuel ih =>
    intro arr states l h hlh hh hf
    by_cases hlt : (l : Int) < (h : Int) - 1
    · obtain ⟨m, hm⟩ : ∃ m : Nat, (m : Int) = (l : Int) + ((h : Int) - 1 - (l : Int)) / 2 + 1 :=
        ⟨((l : Int) + ((h : Int) - 1 - (l : Int)) / 2 + 1).toNat, by omega⟩
      have hlm : l < m := by omega
      have hmh : m < h := by omega
      have emid : (l : Int) + ((h : Int) - 1 - (l : Int)) / 2 = (m : Int) - 1 := by omega
      unfold mergeSortSteps
      rw [if_pos hlt]
      simp only [emid]
      obtain ⟨r1, M1, hr1, ha1, hs1, hp1⟩ := ih arr
        (pushState (pushState states
          ("Sorting segment [" ++ toString (l : Int) ++ " to " ++ toString ((h : Int) - 1) ++ "]")
          (createArrayVisualization arr (l : Int) ((h : Int) - 1) false))
          ("Split into [" ++ toString (l : Int) ++ " to " ++ toString ((m : Int) - 1) ++
            "] and [" ++ toString ((m : Int) - 1 + 1) ++ " to " ++ toString ((h : Int) - 1) ++ "]")
          (createArrayVisualization arr (-1) (-1) false))
        l m (by omega) (by omega) (by omega)
      rw [hr1]
      simp only
      have hM1 : M1.length = m - l := by
        rw [hp1.length_eq]
        simp
        omega
      have hlen1 : r1.1.length = arr.length := by
        rw [ha1]
        simp
        omega
      have e3 : (m : Int) - 1 + 1 = (m : Int) := by omega
      rw [e3]
      obtain ⟨r2, M2, hr2, ha2, hs2, hp2⟩ := ih r1.1 r1.2 m h (by omega) (by omega) (by omega)
      rw [hr2]
      simp only
      have htake : r1.1.take m = arr.take l ++ M1 := by
        rw [ha1]
        have : m = (arr.take l ++ M1).length := by simp; omega
        rw [this, List.take_left]
      have hdropm : r1.1.drop m = arr.drop m := by
        rw [ha1]
        have : m = (arr.take l ++ M1).length := by simp; omega
        rw [this, List.drop_left]
      have hdroph : r1.1.drop h = arr.drop h := by
        have e : r1.1.drop h = (r1.1.drop m).drop (h - m) := by
          rw [List.drop_drop]
          congr 1
          omega
        rw [e, hdropm, List.drop_drop]
        congr 1
        omega
      rw [htake, hdroph] at ha2
      rw [hdropm] at hp2
      have hM2 : M2.length = h - m := by
        rw [hp2.length_eq]
        simp
        omega
      obtain ⟨r, hr, ha⟩ := mergeSteps_spec (arr.take l) M1 M2 (arr.drop h) r2.2 (l : Int)
        ((m : Int) - 1) ((h : Int) - 1) (by simp; omega) (by simp; omega) (by simp; omega)
      rw [ha2, hr]
      refine ⟨r, _, rfl, ha, hs1.merge hs2, ?_⟩
      rw [seg_split arr l m h (by omega) (by omega)]
      exact (List.perm_merge _ _ _).trans (hp1.append hp2)
    · refine ⟨(arr, states), (arr.drop l).take (h - l), ?_, take_seg_drop arr l h hlh,
        sorted_of_length_le_one _ (by simp; omega), List.Perm.refl _⟩
      unfold mergeSortSteps
      rw [if_neg hlt]

theorem mergeSort_sortsTo (self : SortingAlgorithms) (arr : List Int) :
    SortsTo (self.mergeSort arr) arr := by
  obtain ⟨r, M, hr, ha, hs, hp⟩ := mergeSortSteps_correct arr.length arr
    (pushState [] "Initial array for MergeSort" (createArrayVisualization arr (-1) (-1) false))
    0 arr.length (Nat.zero_le _) (le_refl _) (by omega)
  have e : r.1 = M := by
    rw [ha]
    simp
  have hp2 : M.Perm arr := by
    have := hp
    simpa using this
  unfold SortingAlgorithms.mergeSort
  refine sortsTo_of_steps _ arr _ r ?_ (e ▸ hp2) (e ▸ hs)
  simpa using hr

theorem heapifyNode_largest (a : List Int) (states : List AlgorithmState) (n i : Int) :
    (heapifyNode a states n i).largest =
      (if 2 * i + 2 < n ∧ getAt a (2 * i + 2) 0 >
          getAt a (if 2 * i + 1 < n ∧ getAt a (2 * i + 1) 0 > getAt a i 0 then 2 * i + 1
            else i) 0
        then 2 * i + 2
        else (if 2 * i + 1 < n ∧ getAt a (2 * i + 1) 0 > getAt a i 0 then 2 * i + 1 else i)) := by
  unfold heapifyNode
  simp only
  split_ifs <;> rfl

theorem heapifyNode_arr (a : List Int) (states : List AlgorithmState) (n i : Int) :
    (heapifyNode a states n i).arr =
      (if (heapifyNode a states n i).largest ≠ i
        then swapAt a i (heapifyNode a states n i).largest else a) := by
  rw [heapifyNode_largest]
  unfold heapifyNode
  simp only
  split_ifs <;> rfl

theorem heapifyNode_spec (a : List Int) (states : List AlgorithmState) (n i : Int) :
    ((heapifyNode a states n i).largest = i ∨
      ((heapifyNode a states n i).largest = 2 * i + 1 ∧ 2 * i + 1 < n) ∨
      ((heapifyNode a states n i).largest = 2 * i + 2 ∧ 2 * i + 2 < n)) ∧
    getAt a i 0 ≤ getAt a (heapifyNode a states n i).largest 0 ∧
    (2 * i + 1 < n → getAt a (2 * i + 1) 0 ≤ getAt a (heapifyNode a states n i).largest 0) ∧
    (2 * i + 2 < n → getAt a (2 * i + 2) 0 ≤ getAt a (heapifyNode a states n i).largest 0) := by
  rw [heapifyNode_largest]
  by_cases c1 : 2 * i + 1 < n ∧ getAt a (2 * i + 1) 0 > getAt a i 0
  · rw [if_pos c1]
    by_cases c2 : 2 * i + 2 < n ∧ getAt a (2 * i + 2) 0 > getAt a (2 * i + 1) 0
    · rw [if_pos c2]
      refine ⟨Or.inr (Or.inr ⟨rfl, c2.1⟩), ?_, ?_, ?_⟩
      · have := c1.2
        have := c2.2
        omega
      · intro _
        have := c2.2
        omega
      · intro _
        exact le_refl _
    · rw [if_neg c2]
      refine ⟨Or.inr (Or.inl ⟨rfl, c1.1⟩), ?_, ?_, ?_⟩
      · have := c1.2
        omega
      · intro _
        exact le_refl _
      · intro hlt
        have : ¬ getAt a (2 * i + 2) 0 > getAt a (2 * i + 1) 0 := fun hgt => c2 ⟨hlt, hgt⟩
        omega
  · rw [if_neg c1]
    by_cases c2 : 2 * i + 2 < n ∧ getAt a (2 * i + 2) 0 > getAt a i 0
    · rw [if_pos c2]
      refine ⟨Or.inr (Or.inr ⟨rfl, c2.1⟩), ?_, ?_, ?_⟩
      · have := c2.2
        omega
      · intro hlt
        have := c2.2
        have : ¬ getAt a (2 * i + 1) 0 > getAt a i 0 := fun hgt => c1 ⟨hlt, hgt⟩
        omega
      · intro _
        exact le_refl _
    · rw [if_neg c2]
      refine ⟨Or.inl rfl, le_refl _, ?_, ?_⟩
      · intro hlt
        have : ¬ getAt a (2 * i + 1) 0 > getAt a i 0 := fun hgt => c1 ⟨hlt, hgt⟩
        omega
      · intro hlt
        have : ¬ getAt a (2 * i + 2) 0 > getAt a i 0 := fun hgt => c2 ⟨hlt, hgt⟩
        omega

theorem heapExcept_after_swap (a : List Int) (n s i c : Int) (h0 : 0 ≤ s) (hsi : s ≤ i)
    (hn : n ≤ (a.length : Int)) (hc : (c = 2 * i + 1 ∨ c = 2 * i + 2) ∧ c < n)
    (hpre : HeapExcept a n s i)
    (hi : getAt a i 0 ≤ getAt a c 0)
    (hl : 2 * i + 1 < n → getAt a (2 * i + 1) 0 ≤ getAt a c 0)
    (hr : 2 * i + 2 < n → getAt a (2 * i + 2) 0 ≤ getAt a c 0) :
    HeapExcept (swapAt a i c) n s c := by
  have sw := fun k => getAt_swapAt a i c k (by omega) (by omega) (by omega) (by omega)
  have swi : getAt (swapAt a i c) i 0 = getAt a c 0 := by
    rw [sw, if_neg (by omega), if_pos rfl]
  have swc : getAt (swapAt a i c) c 0 = getAt a i 0 := by
    rw [sw, if_pos rfl]
  have swo : ∀ k, k ≠ i → k ≠ c → getAt (swapAt a i c) k 0 = getAt a k 0 := by
    intro k hk1 hk2
    rw [sw, if_neg hk2, if_neg hk1]
  constructor
  · intro k hk1 hk2 hk3
    by_cases hki : k = i
    · subst hki
      constructor
      · intro hlt
        rw [swi]
        by_cases e : c = 2 * k + 1
        · rw [← e, swc]
          exact hi
        · rw [swo _ (by omega) (by omega)]
          exact hl hlt
      · intro hlt
        rw [swi]
        by_cases e : c = 2 * k + 2
        · rw [← e, swc]
          exact hi
        · rw [swo _ (by omega) (by omega)]
          exact hr hlt
    · have hk := hpre.1 k hk1 hk2 hki
      rw [ChildrenLe, swo k hki hk3]
      constructor
      · intro hlt
        by_cases e : 2 * k + 1 = i
        · rw [e, swi]
          have := hpre.2 k hk1 hk2 (Or.inl e)
          rcases hc.1 with e2 | e2
          · rw [e2]
            exact this.1 (by omega)
          · rw [e2]
            exact this.2 (by omega)
        · rw [swo _ e (by omega)]
          exact hk.1 hlt
      · intro hlt
        by_cases e : 2 * k + 2 = i
        · rw [e, swi]
          have := hpre.2 k hk1 hk2 (Or.inr e)
          rcases hc.1 with e2 | e2
          · rw [e2]
            exact this.1 (by omega)
          · rw [e2]
            exact this.2 (by omega)
        · rw [swo _ e (by omega)]
          exact hk.2 hlt
  · intro k hk1 hk2 hk3
    have hki : k = i := by omega
    subst hki
    have hcc := hpre.1 c (by omega) hc.2 (by omega)
    rw [swi]
    constructor
    · intro hlt
      rw [swo _ (by omega) (by omega)]
      exact hcc.1 hlt
    · intro hlt
      rw [swo _ (by omega) (by omega)]
      exact hcc.2 hlt

theorem heapifySteps_correct : ∀ (fuel : Nat) (a : List Int) (states : List AlgorithmState)
    (n s i : Int), 0 ≤ s → s ≤ i → i < n → n ≤ (a.length : Int) → n - i ≤ (fuel : Int) + 1 →
    HeapExcept a n s i →
    ∃ r, heapifySteps fuel a states n i = some r ∧ HeapFrom r.1 n s ∧
      SwapReach i (n - 1) a r.1 := by
  intro fuel
  induction fuel with
  | zero =>
    intro a states n s i h0 hsi hin hn hf hpre
    obtain ⟨hcase, hi, hl, hr⟩ := heapifyNode_spec a states n i
    have harr := heapifyNode_arr a states n i
    have hlarge : (heapifyNode a states n i).largest = i := by
      simp only [Nat.cast_zero, zero_add] at hf
      omega
    rw [hlarge] at hi hl hr
    simp only [hlarge, ne_eq, not_true_eq_false, if_false] at harr
    refine ⟨((heapifyNode a states n i).arr, (heapifyNode a states n i).states), ?_, ?_, ?_⟩
    · unfold heapifySteps
      simp only [hlarge, ne_eq, not_true_eq_false, if_false]
    · simp only [harr]
      intro k hk1 hk2
      by_cases e : k = i
      · subst e
        exact ⟨hl, hr⟩
      · exact hpre.1 k hk1 hk2 e
    · simp only [harr]
      exact SwapReach.refl _
  | succ fuel ih =>
    intro a states n s i h0 hsi hin hn hf hpre
    obtain ⟨hcase, hi, hl, hr⟩ := heapifyNode_spec a states n i
    have harr := heapifyNode_arr a states n i
    by_cases hlarge : (heapifyNode a states n i).largest = i
    · rw [hlarge] at hi hl hr
      simp only [hlarge, ne_eq, not_true_eq_false, if_false] at harr
      refine ⟨((heapifyNode a states n i).arr, (heapifyNode a states n i).states), ?_, ?_, ?_⟩
      · unfold heapifySteps
        simp only [hlarge, ne_eq, not_true_eq_false, if_false]
      · simp only [harr]
        intro k hk1 hk2
        by_cases e : k = i
        · subst e
          exact ⟨hl, hr⟩
        · exact hpre.1 k hk1 hk2 e
      · simp only [harr]
        exact SwapReach.refl _
    · have hc : ((heapifyNode a states n i).largest = 2 * i + 1 ∨
          (heapifyNode a states n i).largest = 2 * i + 2) ∧
          (heapifyNode a states n i).largest < n := by
        rcases hcase with h | h | h
        · exact absurd h hlarge
        · exact ⟨Or.inl h.1, by omega⟩
        · exact ⟨Or.inr h.1, by omega⟩
      rw [if_pos hlarge] at harr
      have hpre2 := heapExcept_after_swap a n s i _ h0 hsi hn hc hpre hi hl hr
      obtain ⟨r, hr1, hr2, hr3⟩ := ih (heapifyNode a states n i).arr
        (heapifyNode a states n i).states n s (heapifyNode a states n i).largest h0
        (by omega) hc.2 (by rw [harr, length_swapAt]; exact hn) (by push_cast at hf; omega)
        (by rw [harr]; exact hpre2)
      refine ⟨r, ?_, hr2, ?_⟩
      · unfold heapifySteps
        simp only [ne_eq, hlarge, not_false_eq_true, if_true]
        exact hr1
      · have step1 : SwapReach i (n - 1) a (heapifyNode a states n i).arr := by
          rw [harr]
          exact SwapReach.step _ _ _ _ (SwapReach.refl a) (le_refl _) (by omega) (by omega)
            (by omega)
        exact step1.trans (hr3.mono (by omega) (le_refl _))

theorem heap_root_max (a : List Int) (m : Int) (h : HeapFrom a m 0) :
    ∀ k : Nat, (k : Int) < m → getAt a (k : Int) 0 ≤ getAt a 0 0 := by
  intro k
  induction k using Nat.strong_induction_on with
  | _ k ih =>
    intro hk
    by_cases h0 : k = 0
    · subst h0
      exact le_refl _
    · have hp := h (((k - 1) / 2 : Nat) : Int) (by omega) (by omega)
      have ihp := ih ((k - 1) / 2) (by omega) (by omega)
      rcases Nat.even_or_odd k with he | ho
      · obtain ⟨q, hq⟩ := he
        have e : (k : Int) = 2 * (((k - 1) / 2 : Nat) : Int) + 2 := by omega
        have := hp.2 (by omega)
        rw [← e] at this
        exact le_trans this ihp
      · obtain ⟨q, hq⟩ := ho
        have e : (k : Int) = 2 * (((k - 1) / 2 : Nat) : Int) + 1 := by omega
        have := hp.1 (by omega)
        rw [← e] at this
        exact le_trans this ihp

theorem heap_root_max_int (a : List Int) (m : Int) (h : HeapFrom a m 0) (k : Int)
    (h0 : 0 ≤ k) (hk : k < m) : getAt a k 0 ≤ getAt a 0 0 := by
  have := heap_root_max a m h k.toNat (by omega)
  rwa [Int.toNat_of_nonneg h0] at this

theorem buildHeap_correct (arr : List Int) (states : List AlgorithmState) :
    ∃ r, forDownLoop (buildHeapBody (arr.length : Int)) ((arr.length : Int) / 2).toNat
        ((arr.length : Int) / 2 - 1) (arr, states) = some r ∧
      HeapFrom r.1 (arr.length : Int) 0 ∧ SwapReach 0 ((arr.length : Int) - 1) arr r.1 := by
  obtain ⟨r, hr, hI⟩ := forDownLoop_invariant (buildHeapBody (arr.length : Int))
    (fun j t => HeapFrom t.1 (arr.length : Int) (j + 1) ∧
      SwapReach 0 ((arr.length : Int) - 1) arr t.1)
    ((arr.length : Int) / 2).toNat ((arr.length : Int) / 2 - 1) (arr, states)
    ⟨fun k hk1 hk2 => ⟨fun h => by omega, fun h => by omega⟩, SwapReach.refl _⟩
    (fun j t hj1 hj2 hI => by
      have hlen := hI.2.length_eq
      obtain ⟨r, hr1, hr2, hr3⟩ := heapifySteps_correct (arr.length : Int).toNat t.1 t.2
        (arr.length : Int) j j (by omega) (le_refl _) (by omega) (by omega) (by omega)
        ⟨fun k hk1 hk2 hk3 => hI.1 k (by omega) hk2, fun k hk1 hk2 hk3 => by omega⟩
      refine ⟨r, hr1, ?_, hI.2.trans (hr3.mono (by omega) (le_refl _))⟩
      have e : j - 1 + 1 = j := by omega
      rw [e]
      exact hr2)
  refine ⟨r, hr, ?_, hI.2⟩
  have e : (arr.length : Int) / 2 - 1 - (((arr.length : Int) / 2).toNat : Int) + 1 = 0 := by
    omega
  have := hI.1
  rwa [e] at this

theorem extractBody_correct (arr : List Int) (j : Int) (t : List Int × List AlgorithmState)
    (hj1 : 0 < j) (hj2 : j ≤ (arr.length : Int) - 1) (hI : ExtractInv arr j t) :
    ∃ t1, extractBody (arr.length : Int) j t = some t1 ∧ ExtractInv arr (j - 1) t1 := by
  obtain ⟨hheap, hsorted, hsep, hreach⟩ := hI
  have hlen := hreach.length_eq
  have sw := fun k => getAt_swapAt t.1 0 j k (le_refl _) (by omega) (by omega) (by omega)
  have sw0 : getAt (swapAt t.1 0 j) 0 0 = getAt t.1 j 0 := by
    rw [sw, if_neg (by omega), if_pos rfl]
  have swj : getAt (swapAt t.1 0 j) j 0 = getAt t.1 0 0 := by
    rw [sw, if_pos rfl]
  have swo : ∀ k, k ≠ 0 → k ≠ j → getAt (swapAt t.1 0 j) k 0 = getAt t.1 k 0 := by
    intro k hk1 hk2
    rw [sw, if_neg hk2, if_neg hk1]
  obtain ⟨r, hr1, hr2, hr3⟩ := heapifySteps_correct (arr.length : Int).toNat
    (swapAt t.1 0 j)
    (pushState (pushState t.2 ("Move root " ++ toString (getAt t.1 0 0) ++ " to end")
      (createArrayVisualization t.1 0 j true)) "After moving root, re-heapify remaining heap"
      (createArrayVisualization (swapAt t.1 0 j) 0 j false))
    j 0 0 (le_refl _) (le_refl _) hj1 (by rw [length_swapAt]; omega) (by omega)
    ⟨fun k hk1 hk2 hk3 => by
      have hk := hheap k hk1 (by omega)
      rw [ChildrenLe, swo k hk3 (by omega)]
      constructor
      · intro hlt
        rw [swo _ (by omega) (by omega)]
        exact hk.1 (by omega)
      · intro hlt
        rw [swo _ (by omega) (by omega)]
        exact hk.2 (by omega),
     fun k hk1 hk2 hk3 => by omega⟩
  have hout := hr3.outside (le_refl _) (by rw [length_swapAt]; omega)
  refine ⟨r, hr1, ?_, ?_, ?_, ?_⟩
  · have e : j - 1 + 1 = j := by omega
    rw [e]
    exact hr2
  · have e : j - 1 + 1 = j := by omega
    rw [e]
    intro x y hx hxy hy
    rw [hout x (by omega), hout y (by omega)]
    by_cases e1 : x = y
    · rw [e1]
    · by_cases e2 : x = j
      · rw [e2, swj, swo y (by omega) (by omega)]
        exact hsep 0 y (le_refl _) (by omega) (by omega) hy
      · rw [swo x (by omega) e2, swo y (by omega) (by omega)]
        exact hsorted x y (by omega) hxy hy
  · intro k m hk1 hk2 hm1 hm2
    rw [hout m (by omega)]
    refine hr3.all (le_refl _) (by rw [length_swapAt]; omega)
      (fun x => x ≤ getAt (swapAt t.1 0 j) m 0) ?_ k hk1 (by omega)
    intro q hq1 hq2
    by_cases em : m = j
    · rw [em, swj]
      by_cases eq : q = 0
      · rw [eq, sw0]
        exact heap_root_max_int t.1 (j + 1) hheap j (by omega) (by omega)
      · rw [swo q eq (by omega)]
        exact heap_root_max_int t.1 (j + 1) hheap q hq1 (by omega)
    · rw [swo m (by omega) em]
      by_cases eq : q = 0
      · rw [eq, sw0]
        exact hsep j m (by omega) (le_refl _) (by omega) hm2
      · rw [swo q eq (by omega)]
        exact hsep q m hq1 (by omega) (by omega) hm2
  · exact (SwapReach.step _ _ _ _ hreach (le_refl _) (by omega) (by omega) (by omega)).trans
      (hr3.mono (le_refl _) (by omega))

theorem heapSortSteps_correct (arr : List Int) (states : List AlgorithmState) :
    ∃ r, heapSortSteps arr states = some r ∧
      SwapReach 0 ((arr.length : Int) - 1) arr r.1 ∧
      SortedOn 0 ((arr.length : Int) - 1) r.1 := by
  obtain ⟨r1, hr1, hheap, hreach⟩ := buildHeap_correct arr
    (pushState states "Building heap (rearranging array)"
      (createArrayVisualization arr (-1) (-1) false))
  obtain ⟨r, hr, hI⟩ := forDownLoop_invariant (extractBody (arr.length : Int))
    (ExtractInv arr) ((arr.length : Int) - 1).toNat ((arr.length : Int) - 1)
    (r1.1, pushState r1.2 "Heap built successfully"
      (createArrayVisualization r1.1 (-1) (-1) false))
    ⟨by
      have e : (arr.length : Int) - 1 + 1 = (arr.length : Int) := by omega
      rw [e]
      exact hheap,
     sortedOn_of_ge _ _ _ (by omega), fun k m _ _ hm1 hm2 => by omega, hreach⟩
    (fun j t hj1 hj2 hI => extractBody_correct arr j t (by omega) hj2 hI)
  refine ⟨r, ?_, hI.2.2.2, ?_⟩
  · unfold heapSortSteps
    simp only [hr1]
    exact hr
  · by_cases hn : (arr.length : Int) ≤ 1
    · exact sortedOn_of_ge _ _ _ (by omega)
    · have e : (arr.length : Int) - 1 - ((((arr.length : Int) - 1).toNat : Nat) : Int) = 0 := by
        omega
      rw [e] at hI
      intro x y hx hxy hy
      by_cases e1 : x = y
      · rw [e1]
      · by_cases e2 : x = 0
        · rw [e2]
          exact hI.2.2.1 0 y (le_refl _) (le_refl _) (by omega) hy
        · exact hI.2.1 x y (by omega) hxy hy

theorem heapSort_sortsTo (self : SortingAlgorithms) (arr : List Int) :
    SortsTo (self.heapSort arr) arr := by
  obtain ⟨r, hr, hs, hsort⟩ := heapSortSteps_correct arr
    (pushState [] "Initial array for HeapSort" (createArrayVisualization arr (-1) (-1) false))
  have hlen := hs.length_eq
  unfold SortingAlgorithms.heapSort
  exact sortsTo_of_steps _ arr _ r hr (hs.perm (le_refl _) (by omega))
    (sorted_of_sortedOn _ (by rw [hlen]; exact hsort))

end SortCpp

namespace DpCpp

theorem totalWeight_nonneg (s : List (Int × Int)) (h : ∀ p ∈ s, 0 ≤ p.2) :
    0 ≤ totalWeight s := by
  induction s with
  | nil => simp [totalWeight]
  | cons p s ih =>
    have h1 := h p (List.mem_cons_self _ _)
    have h2 := ih (fun q hq => h q (List.mem_cons_of_mem _ hq))
    simp only [totalWeight, List.map_cons, List.sum_cons] at h2 ⊢
    omega

theorem knapBest_upper (l : List (Int × Int)) (hw : ∀ p ∈ l, 0 ≤ p.2) :
    ∀ (w : Int) (s : List (Int × Int)), s.Sublist l → totalWeight s ≤ w →
      totalValue s ≤ knapBest l w := by
  induction l with
  | nil =>
    intro w s hs _
    have : s = [] := List.eq_nil_of_sublist_nil hs
    subst this
    simp [totalValue, knapBest]
  | cons p l ih =>
    obtain ⟨v, wt⟩ := p
    have ih2 := ih (fun q hq => hw q (List.mem_cons_of_mem _ hq))
    intro w s hs hws
    rw [List.sublist_cons_iff] at hs
    unfold knapBest
    rcases hs with hs | ⟨r, rfl, hr⟩
    · have := ih2 w s hs hws
      split_ifs
      · exact this
      · exact le_trans this (le_max_left _ _)
    · have hr0 : 0 ≤ totalWeight r :=
        totalWeight_nonneg r (fun q hq => hw q (List.mem_cons_of_mem _ (hr.subset hq)))
      simp only [totalWeight, List.map_cons, List.sum_cons] at hws hr0
      have := ih2 (w - wt) r hr (by simp only [totalWeight]; omega)
      rw [if_neg (by omega)]
      simp only [totalValue, List.map_cons, List.sum_cons] at this ⊢
      exact le_trans (by omega) (le_max_right _ _)

theorem knapBest_attained (l : List (Int × Int)) :
    ∀ (w : Int), 0 ≤ w → ∃ s, s.Sublist l ∧ totalWeight s ≤ w ∧ totalValue s = knapBest l w := by
  induction l with
  | nil =>
    intro w hw
    exact ⟨[], List.Sublist.refl _, by simpa [totalWeight] using hw, by simp [totalValue, knapBest]⟩
  | cons p l ih =>
    obtain ⟨v, wt⟩ := p
    intro w hw
    unfold knapBest
    split_ifs with hgt
    · obtain ⟨s, hs1, hs2, hs3⟩ := ih w hw
      exact ⟨s, hs1.cons _, hs2, hs3⟩
    · rcases max_cases (knapBest l w) (v + knapBest l (w - wt)) with ⟨e, _⟩ | ⟨e, _⟩
      · obtain ⟨s, hs1, hs2, hs3⟩ := ih w hw
        exact ⟨s, hs1.cons _, hs2, by rw [e]; exact hs3⟩
      · obtain ⟨s, hs1, hs2, hs3⟩ := ih (w - wt) (by omega)
        refine ⟨(v, wt) :: s, hs1.cons₂ _, ?_, ?_⟩
        · simp only [totalWeight, List.map_cons, List.sum_cons] at hs2 ⊢
          omega
        · rw [e]
          simp only [totalValue, List.map_cons, List.sum_cons] at hs3 ⊢
          omega

theorem wrapInt32_of_range (x : Int) (h1 : -2147483648 ≤ x) (h2 : x ≤ 2147483647) :
    wrapInt32 x = x := by
  unfold wrapInt32
  omega

theorem tableDims_row (dp : List (List Int)) (rows cols : Nat) (hd : TableDims dp rows cols)
    (i : Int) (h0 : 0 ≤ i) (h1 : i < (rows : Int)) : (getAt dp i []).length = cols := by
  obtain ⟨hx, ex⟩ := getAt_eq_getElem dp i [] h0 (by rw [hd.1]; exact h1)
  rw [ex]
  exact hd.2 _ (List.getElem_mem _)

theorem setCell_dims (dp : List (List Int)) (rows cols : Nat) (hd : TableDims dp rows cols)
    (i j : Int) (v : Int) (h0 : 0 ≤ i) (h1 : i < (rows : Int)) :
    TableDims (setCell dp i j v) rows cols := by
  unfold setCell
  refine ⟨by rw [length_setAt]; exact hd.1, ?_⟩
  intro row hrow
  unfold setAt at hrow
  rw [if_neg (by omega)] at hrow
  rcases List.mem_or_eq_of_mem_set hrow with h | h
  · exact hd.2 row h
  · rw [h]
    have := tableDims_row dp rows cols hd i h0 h1
    by_cases hj : j < 0
    · rw [if_pos hj]
      exact this
    · rw [if_neg hj, List.length_set]
      exact this

theorem getCell_setCell (dp : List (List Int)) (rows cols : Nat) (hd : TableDims dp rows cols)
    (i j : Int) (v : Int) (h0 : 0 ≤ i) (h1 : i < (rows : Int)) (hj0 : 0 ≤ j)
    (hj1 : j < (cols : Int)) (i1 j1 : Int) :
    getCell (setCell dp i j v) i1 j1 = if i1 = i ∧ j1 = j then v else getCell dp i1 j1 := by
  unfold getCell setCell
  rw [getAt_setAt dp i i1 _ _ h0 (by rw [hd.1]; exact h1)]
  by_cases e : i1 = i
  · subst e
    rw [if_pos rfl, getAt_setAt _ j j1 _ _ hj0
      (by rw [tableDims_row dp rows cols hd i1 h0 h1]; exact hj1)]
    by_cases e2 : j1 = j
    · rw [if_pos e2, if_pos ⟨rfl, e2⟩]
    · rw [if_neg e2, if_neg (fun h => e2 h.2)]
  · rw [if_neg e, if_neg (fun h => e h.1)]

theorem take_reverse_succ (items : List (Int × Int)) (k : Nat) (h : k < items.length) :
    (items.take (k + 1)).reverse = items[k] :: (items.take k).reverse := by
  rw [List.take_succ, List.getElem?_eq_getElem h]
  simp

theorem map_fst_zip_sublist (a b : List Int) : ((a.zip b).map Prod.fst).Sublist a := by
  induction a generalizing b with
  | nil => simp
  | cons x a ih =>
    cases b with
    | nil => simp
    | cons y b =>
      simp only [List.zip_cons_cons, List.map_cons]
      exact (ih b).cons₂ _

theorem include_in_range (values weights : List Int) (hr : ValuesInRange values) (k : Nat)
    (hk : k < (values.zip weights).length) (w : Int) (hw : 0 ≤ w) :
    -2147483648 ≤ (values.zip weights)[k].1 +
        knapBest ((values.zip weights).take k).reverse w ∧
      (values.zip weights)[k].1 + knapBest ((values.zip weights).take k).reverse w ≤
        2147483647 := by
  obtain ⟨s, hs1, _, hs3⟩ := knapBest_attained ((values.zip weights).take k).reverse w hw
  have hsub : ((values.zip weights)[k] :: s).Sublist ((values.zip weights).take (k + 1)).reverse := by
    rw [take_reverse_succ _ k hk]
    exact hs1.cons₂ _
  have hsub2 : ((values.zip weights)[k] :: s).reverse.Sublist (values.zip weights) := by
    have := List.reverse_sublist.mpr hsub
    rw [List.reverse_reverse] at this
    exact this.trans (List.take_sublist _ _)
  have hsub3 : (((values.zip weights)[k] :: s).reverse.map Prod.fst).Sublist values := by
    have h1 := hsub2.map Prod.fst
    exact h1.trans (map_fst_zip_sublist values weights)
  have := hr _ hsub3
  rw [List.map_reverse, List.sum_reverse] at this
  simp only [List.map_cons, List.sum_cons] at this
  simp only [totalValue] at hs3
  rw [hs3] at this
  exact this

theorem knapsackBody_fst (values weights : List Int) (capacity : Nat)
    (initialState : AlgorithmState) (i w : Int) (s : List (List Int) × List AlgorithmState)
    (hlen : values.length = weights.length) (hw : ∀ x ∈ weights, 0 ≤ x)
    (hr : ValuesInRange values) (hi1 : 1 ≤ i) (hi2 : i ≤ ((values.zip weights).length : Int))
    (hw0 : 0 ≤ w) (hw1 : w ≤ (capacity : Int))
    (hdone : RowsDone (values.zip weights) capacity s.1 i) :
    (knapsackBody values weights initialState i w s).1 =
      setCell s.1 i w (knapBest (((values.zip weights).take i.toNat).reverse) w) := by
  have hzl : (values.zip weights).length = values.length := by simp [hlen]
  have hk : (i - 1).toNat < (values.zip weights).length := by omega
  obtain ⟨hx1, ev⟩ := getAt_eq_getElem values (i - 1) 0 (by omega) (by omega)
  obtain ⟨hx2, ew⟩ := getAt_eq_getElem weights (i - 1) 0 (by omega) (by omega)
  have ez : (values.zip weights)[(i - 1).toNat] =
      (getAt values (i - 1) 0, getAt weights (i - 1) 0) := by
    rw [ev, ew, List.getElem_zip]
  have ecur : ((values.zip weights).take i.toNat).reverse =
      (getAt values (i - 1) 0, getAt weights (i - 1) 0) ::
        ((values.zip weights).take (i - 1).toNat).reverse := by
    have e : i.toNat = (i - 1).toNat + 1 := by omega
    rw [e, take_reverse_succ _ _ hk, ez]
  have hwi : 0 ≤ getAt weights (i - 1) 0 := by
    rw [ew]
    exact hw _ (List.getElem_mem _)
  rw [ecur]
  unfold knapsackBody knapBest
  simp only
  by_cases hgt : getAt weights (i - 1) 0 > w
  · rw [if_pos hgt, if_pos hgt, hdone (i - 1) w (by omega) (by omega) hw0 hw1]
  · rw [if_neg hgt, if_neg hgt, hdone (i - 1) w (by omega) (by omega) hw0 hw1,
      hdone (i - 1) (w - getAt weights (i - 1) 0) (by omega) (by omega) (by omega) (by omega)]
    have hrange := include_in_range values weights hr (i - 1).toNat hk
      (w - getAt weights (i - 1) 0) (by omega)
    rw [ez] at hrange
    rw [wrapInt32_of_range _ hrange.1 hrange.2]

theorem knapsackBody_inv (values weights : List Int) (capacity : Nat)
    (initialState : AlgorithmState) (i w : Int) (s : List (List Int) × List AlgorithmState)
    (hlen : values.length = weights.length) (hw : ∀ x ∈ weights, 0 ≤ x)
    (hr : ValuesInRange values) (hi1 : 1 ≤ i) (hi2 : i ≤ ((values.zip weights).length : Int))
    (hw0 : 0 ≤ w) (hw1 : w ≤ (capacity : Int))
    (h : RowInv (values.zip weights) capacity i w s) :
    RowInv (values.zip weights) capacity i (w + 1)
      (knapsackBody values weights initialState i w s) := by
  obtain ⟨hd, hdone, hrow⟩ := h
  have e := knapsackBody_fst values weights capacity initialState i w s hlen hw hr hi1 hi2
    hw0 hw1 hdone
  have gs := getCell_setCell s.1 _ _ hd i w
    (knapBest (((values.zip weights).take i.toNat).reverse) w) (by omega)
    (by push_cast; omega) hw0 (by push_cast; omega)
  refine ⟨?_, ?_, ?_⟩
  · rw [e]
    exact setCell_dims _ _ _ hd _ _ _ (by omega) (by push_cast; omega)
  · intro r w1 hr0 hr1 hw10 hw11
    rw [e, gs, if_neg (by omega)]
    exact hdone r w1 hr0 hr1 hw10 hw11
  · intro w1 hw10 hw11
    rw [e, gs]
    by_cases ew : w1 = w
    · rw [if_pos ⟨rfl, ew⟩, ew]
    · rw [if_neg (fun h => ew h.2)]
      exact hrow w1 hw10 (by omega)

theorem knapsackRow_inv (values weights : List Int) (capacity : Nat)
    (initialState : AlgorithmState) (i : Int) (s : List (List Int) × List AlgorithmState)
    (hlen : values.length = weights.length) (hw : ∀ x ∈ weights, 0 ≤ x)
    (hr : ValuesInRange values) (hi1 : 1 ≤ i) (hi2 : i ≤ ((values.zip weights).length : Int))
    (h : TableDims s.1 ((values.zip weights).length + 1) (capacity + 1) ∧
      RowsDone (values.zip weights) capacity s.1 i) :
    TableDims (knapsackRow values weights capacity initialState i s).1
        ((values.zip weights).length + 1) (capacity + 1) ∧
      RowsDone (values.zip weights) capacity
        (knapsackRow values weights capacity initialState i s).1 (i + 1) := by
  have hinv := forLoop_invariant (knapsackBody values weights initialState i)
    (fun w t => RowInv (values.zip weights) capacity i w t) (capacity + 1) 0 s
    ⟨h.1, h.2, fun w1 h0 h1 => by omega⟩
    (fun w t hw0 hw1 hI =>
      knapsackBody_inv values weights capacity initialState i w t hlen hw hr hi1 hi2 hw0
        (by push_cast at hw1; omega) hI)
  obtain ⟨hd, hdone, hrow⟩ := hinv
  refine ⟨hd, ?_⟩
  intro r w1 hr0 hr1 hw10 hw11
  by_cases e : r = i
  · rw [e]
    exact hrow w1 hw10 (by push_cast; omega)
  · exact hdone r w1 hr0 (by omega) hw10 hw11

theorem getAt_replicate {α : Type} (n : Nat) (x d : α) (i : Int) (h0 : 0 ≤ i)
    (h1 : i < (n : Int)) : getAt (List.replicate n x) i d = x := by
  obtain ⟨hx, e⟩ := getAt_eq_getElem (List.replicate n x) i d h0 (by simpa using h1)
  rw [e]
  simp

theorem knapsack_table (values weights : List Int) (capacity : Nat)
    (initialState : AlgorithmState) (states : List AlgorithmState)
    (hlen : values.length = weights.length) (hw : ∀ x ∈ weights, 0 ≤ x)
    (hr : ValuesInRange values) :
    getCell (forLoop (knapsackRow values weights capacity initialState) values.length 1
        (List.replicate (values.length + 1) (List.replicate (capacity + 1) 0), states)).1
      (values.length : Int) (capacity : Int) =
    knapBest (values.zip weights).reverse (capacity : Int) := by
  have hzl : (values.zip weights).length = values.length := by simp [hlen]
  have hinv := forLoop_invariant (knapsackRow values weights capacity initialState)
    (fun i t => TableDims t.1 ((values.zip weights).length + 1) (capacity + 1) ∧
      RowsDone (values.zip weights) capacity t.1 i) values.length 1
    (List.replicate (values.length + 1) (List.replicate (capacity + 1) 0), states)
    ⟨⟨by simp [hzl], fun row hrow => by
        rw [List.eq_of_mem_replicate hrow]
        simp⟩,
      fun r w hr0 hr1 hw0 hw1 => by
        have e : r = 0 := by omega
        subst e
        simp only [Int.toNat_zero, List.take_zero, List.reverse_nil, knapBest]
        unfold getCell
        rw [getAt_replicate _ _ _ _ (le_refl _) (by push_cast; omega),
          getAt_replicate _ _ _ _ hw0 (by push_cast; omega)]⟩
    (fun i t hi1 hi2 hI =>
      knapsackRow_inv values weights capacity initialState i t hlen hw hr hi1
        (by rw [hzl]; omega) hI)
  have := hinv.2 (values.length : Int) (capacity : Int) (by omega) (by omega) (by omega)
    (le_refl _)
  rw [this, Int.toNat_ofNat, ← hzl, List.take_length]

theorem knapBest_optimum (values weights : List Int) (capacity : Nat)
    (hw : ∀ x ∈ weights, 0 ≤ x) :
    IsKnapsackOptimum values weights (capacity : Int)
      (knapBest (values.zip weights).reverse (capacity : Int)) := by
  have hw2 : ∀ p ∈ (values.zip weights).reverse, 0 ≤ p.2 := by
    intro p hp
    rw [List.mem_reverse] at hp
    exact hw _ (List.of_mem_zip hp).2
  have sumrev : ∀ s : List (Int × Int),
      totalWeight s.reverse = totalWeight s ∧ totalValue s.reverse = totalValue s := by
    intro s
    simp [totalWeight, totalValue, List.map_reverse, List.sum_reverse]
  constructor
  · obtain ⟨s, hs1, hs2, hs3⟩ := knapBest_attained (values.zip weights).reverse
      (capacity : Int) (by omega)
    refine ⟨s.reverse, ?_, ?_, ?_⟩
    · have := List.reverse_sublist.mpr hs1
      rwa [List.reverse_reverse] at this
    · rw [(sumrev s).1]
      exact hs2
    · rw [(sumrev s).2]
      exact hs3
  · intro s hs hws
    have := knapBest_upper (values.zip weights).reverse hw2 (capacity : Int) s.reverse
      (List.reverse_sublist.mpr hs) (by rw [(sumrev s).1]; exact hws)
    rwa [(sumrev s).2] at this

theorem knapsack_final_message (dp : DynamicProgramming) (values weights : List Int)
    (capacity : Nat) (hne : values ≠ []) (hlen : values.length = weights.length)
    (hw : ∀ x ∈ weights, 0 ≤ x) (hr : ValuesInRange values) :
    ∃ last, (dp.knapsack values weights capacity).states.getLast? = some last ∧
      last.message = "Maximum value: " ++
        toString (knapBest (values.zip weights).reverse (capacity : Int)) := by
  have hwne : weights ≠ [] := by
    intro e
    rw [e] at hlen
    exact hne (List.length_eq_zero.mp hlen)
  have hc : (values.isEmpty || weights.isEmpty || values.length != weights.length) = false := by
    simp [hne, hwne, hlen]
  simp only [DynamicProgramming.knapsack, hc, Bool.false_eq_true, if_false, finalize,
    List.map_append, List.map_cons, List.map_nil, List.getLast?_concat]
  refine ⟨_, rfl, ?_⟩
  simp only
  rw [knapsack_table values weights capacity _ _ hlen hw hr]

end DpCpp

/-! ### The step accessor and invalid inputs -/

theorem getD_toNat_eq {α : Type} (l : List α) (d : α) (i : Int) (h0 : 0 ≤ i)
    (h1 : i < (l.length : Int)) : l[i.toNat]? = some (l.getD i.toNat d) := by
  have h : i.toNat < l.length := by omega
  rw [List.getD_eq_getElem l d h, List.getElem?_eq_getElem h]

/-- C3: in each of the four families `getStep(index)` is total; for an index that is
negative or not below the number of stored snapshots it returns the default snapshot (no
entities, empty message, `step` 0, `totalSteps` 0), and for an index inside the range it
returns the snapshot stored at that position. -/
theorem getStep_never_fails (dp : DpCpp.DynamicProgramming) (sorting : SortCpp.SortingAlgorithms)
    (graph : GraphCpp.Graph) (bst : TreeCpp.BinarySearchTree) (index : Int) :
    ((index < 0 ∨ index ≥ (dp.states.length : Int)) → dp.getStep index =
      { cells := [], memoTable := [], message := "", step := 0, totalSteps := 0 }) ∧
    ((0 ≤ index ∧ index < (dp.states.length : Int)) →
      dp.states[index.toNat]? = some (dp.getStep index)) ∧
    ((index < 0 ∨ index ≥ (sorting.states.length : Int)) → sorting.getStep index =
      { elements := [], message := "", step := 0, totalSteps := 0 }) ∧
    ((0 ≤ index ∧ index < (sorting.states.length : Int)) →
      sorting.states[index.toNat]? = some (sorting.getStep index)) ∧
    ((index < 0 ∨ index ≥ (graph.states.length : Int)) → graph.getStep index =
      { nodes := [], edges := [], message := "", step := 0, totalSteps := 0 }) ∧
    ((0 ≤ index ∧ index < (graph.states.length : Int)) →
      graph.states[index.toNat]? = some (graph.getStep index)) ∧
    ((index < 0 ∨ index ≥ (bst.states.length : Int)) → bst.getStep index =
      { nodes := [], edges := [], message := "", step := 0, totalSteps := 0 }) ∧
    ((0 ≤ index ∧ index < (bst.states.length : Int)) →
      bst.states[index.toNat]? = some (bst.getStep index)) := by
  refine ⟨?_, ?_, ?_, ?_, ?_, ?_, ?_, ?_⟩
  · intro h
    simp [DpCpp.DynamicProgramming.getStep, h]
  · intro h
    have hn : ¬ (index < 0 ∨ index ≥ (dp.states.length : Int)) := by omega
    simp only [DpCpp.DynamicProgramming.getStep, if_neg hn]
    exact getD_toNat_eq _ _ _ h.1 h.2
  · intro h
    simp [SortCpp.SortingAlgorithms.getStep, h]
  · intro h
    have hn : ¬ (index < 0 ∨ index ≥ (sorting.states.length : Int)) := by omega
    simp only [SortCpp.SortingAlgorithms.getStep, if_neg hn]
    exact getD_toNat_eq _ _ _ h.1 h.2
  · intro h
    simp [GraphCpp.Graph.getStep, h]
  · intro h
    have hn : ¬ (index < 0 ∨ index ≥ (graph.states.length : Int)) := by omega
    simp only [GraphCpp.Graph.getStep, if_neg hn]
    exact getD_toNat_eq _ _ _ h.1 h.2
  · intro h
    simp [TreeCpp.BinarySearchTree.getStep, h]
  · intro h
    have hn : ¬ (index < 0 ∨ index ≥ (bst.states.length : Int)) := by omega
    simp only [TreeCpp.BinarySearchTree.getStep, if_neg hn]
    exact getD_toNat_eq _ _ _ h.1 h.2

/-- Instance of C3 on the trace of `fibonacci(3)` (4 snapshots): index 7 is outside,
index 2 is inside. -/
theorem getStep_never_fails_witness :
    (({} : DpCpp.DynamicProgramming).fibonacci 3).getStep 7 =
      { cells := [], memoTable := [], message := "", step := 0, totalSteps := 0 } ∧
    (({} : DpCpp.DynamicProgramming).fibonacci 3).states[(2 : Int).toNat]? =
      some ((({} : DpCpp.DynamicProgramming).fibonacci 3).getStep 2) :=
  ⟨(getStep_never_fails (({} : DpCpp.DynamicProgramming).fibonacci 3) {} {} {} 7).1
      (Or.inr (by decide)),
    (getStep_never_fails (({} : DpCpp.DynamicProgramming).fibonacci 3) {} {} {} 2).2.1
      ⟨by decide, by decide⟩⟩

namespace DpCpp

theorem knapsack_invalid_states (dp : DynamicProgramming) (values weights : List Int)
    (capacity : Nat)
    (h : values = [] ∨ weights = [] ∨ values.length ≠ weights.length) :
    dp.knapsack values weights capacity = { dp with states := [] } := by
  have hc : (values.isEmpty || weights.isEmpty || values.length != weights.length) = true := by
    rcases h with h | h | h
    · simp [h]
    · simp [h]
    · simp [h]
  simp only [DynamicProgramming.knapsack, hc, if_true]

theorem lcs_invalid_states (dp : DynamicProgramming) (str1 str2 : CppString)
    (h : str1 = [] ∨ str2 = []) :
    dp.longestCommonSubsequence str1 str2 = some { dp with states := [] } := by
  have hc : (str1.isEmpty || str2.isEmpty) = true := by
    rcases h with h | h
    · simp [h]
    · simp [h]
  simp only [DynamicProgramming.longestCommonSubsequence, hc, if_true]

/-- C5: `knapsack` called with `values` and `weights` of different lengths or with either
of them empty, and `longestCommonSubsequence` called with either string empty, leave no
snapshot at all, whatever trace was stored before: afterwards `getStep(i)` is the default
snapshot for every index `i`. -/
theorem invalid_input_discards_trace (dp : DynamicProgramming) :
    (∀ (values weights : List Int) (capacity : Nat),
      (values = [] ∨ weights = [] ∨ values.length ≠ weights.length) →
      (dp.knapsack values weights capacity).states = [] ∧
      ∀ i : Int, (dp.knapsack values weights capacity).getStep i =
        { cells := [], memoTable := [], message := "", step := 0, totalSteps := 0 }) ∧
    (∀ str1 str2 : CppString, (str1 = [] ∨ str2 = []) →
      ∃ dp1, dp.longestCommonSubsequence str1 str2 = some dp1 ∧ dp1.states = [] ∧
      ∀ i : Int, dp1.getStep i =
        { cells := [], memoTable := [], message := "", step := 0, totalSteps := 0 }) := by
  constructor
  · intro values weights capacity h
    rw [knapsack_invalid_states dp values weights capacity h]
    refine ⟨rfl, ?_⟩
    intro i
    have : i < 0 ∨ i ≥ 0 := by omega
    simp [DynamicProgramming.getStep, this]
  · intro str1 str2 h
    refine ⟨_, lcs_invalid_states dp str1 str2 h, rfl, ?_⟩
    intro i
    have : i < 0 ∨ i ≥ 0 := by omega
    simp [DynamicProgramming.getStep, this]

/-- Instance of C5 after `fibonacci(3)`: arrays of lengths 2 and 1, and an empty first
string. -/
theorem invalid_input_discards_trace_witness :
    ((({} : DynamicProgramming).fibonacci 3).knapsack [1, 2] [5] 4).states = [] ∧
    (∃ dp1, (({} : DynamicProgramming).fibonacci 3).longestCommonSubsequence []
        (cppString "AB") = some dp1 ∧
      dp1.states = []) :=
  ⟨((invalid_input_discards_trace (({} : DynamicProgramming).fibonacci 3)).1 [1, 2] [5] 4
      (Or.inr (Or.inr (by decide)))).1,
    let ⟨dp1, h1, h2, _⟩ := (invalid_input_discards_trace
      (({} : DynamicProgramming).fibonacci 3)).2 [] (cppString "AB") (Or.inl rfl)
    ⟨dp1, h1, h2⟩⟩

/-- C4, the failing run: after `fibonacci(10)` the invalid call `knapsack({}, {}, 0)`
empties the trace, yet `getStepCount()` still answers 11, the length of the trace that
was discarded; the same happens for `longestCommonSubsequence("", "A")`. -/
theorem stale_step_count_after_invalid_knapsack :
    ((({} : DynamicProgramming).fibonacci 10).knapsack [] [] 0).getStepCount = 11 ∧
    ((({} : DynamicProgramming).fibonacci 10).knapsack [] [] 0).states.length = 0 ∧
    (∃ dp1, (({} : DynamicProgramming).fibonacci 10).longestCommonSubsequence []
        (cppString "A") = some dp1 ∧
      dp1.getStepCount = 11 ∧ dp1.states.length = 0) := by
  refine ⟨by decide, by decide, ⟨_, rfl, by decide, by decide⟩⟩

end DpCpp

/-! ### Step numbering, finished traces and operation selectors -/

namespace GraphCpp

theorem addNode_trace (g : Graph) :
    g.addNode.1.states = g.states ∧ g.addNode.1.totalSteps = g.totalSteps := ⟨rfl, rfl⟩

end GraphCpp

/-- C1: in every trace produced by one of the eleven drivers the accessor `getStep` finds
the step numbers `1, 2, ..., k` in this order, `getStep(i).step = i + 1` for every index
`i` inside the trace (`Numbered`); the drivers with loops of unknown length are shown to
finish. -/
theorem trace_steps_contiguous :
    (∀ (dp : DpCpp.DynamicProgramming) (n : Nat), DpCpp.Numbered (dp.fibonacci n)) ∧
    (∀ (dp : DpCpp.DynamicProgramming) (values weights : List Int) (capacity : Nat),
      DpCpp.Numbered (dp.knapsack values weights capacity)) ∧
    (∀ (dp : DpCpp.DynamicProgramming) (str1 str2 : CppString),
      ∃ dp1, dp.longestCommonSubsequence str1 str2 = some dp1 ∧ DpCpp.Numbered dp1) ∧
    (∀ (graph : GraphCpp.Graph) (startNode : Int),
      (∃ g1, graph.depthFirstSearch startNode = some g1 ∧ GraphCpp.Numbered g1) ∧
      (∃ g1, graph.breadthFirstSearch startNode = some g1 ∧ GraphCpp.Numbered g1) ∧
      (∃ g1, graph.dijkstraAlgorithm startNode = some g1 ∧ GraphCpp.Numbered g1)) ∧
    (∀ (sorting : SortCpp.SortingAlgorithms) (arr : List Int),
      (∃ r, sorting.quickSort arr = some r ∧ SortCpp.Numbered r.1) ∧
      (∃ r, sorting.mergeSort arr = some r ∧ SortCpp.Numbered r.1) ∧
      (∃ r, sorting.heapSort arr = some r ∧ SortCpp.Numbered r.1)) ∧
    (∀ (bst : TreeCpp.BinarySearchTree) (value : Int),
      TreeCpp.Numbered (bst.insert value) ∧ TreeCpp.Numbered (bst.search value).1) := by
  refine ⟨?_, ?_, ?_, ?_, ?_, ?_⟩
  · intro dp n
    obtain ⟨states, e, _, hs⟩ := DpCpp.fibonacci_trace dp n
    rw [e]
    exact DpCpp.dp_finalize_numbered states hs
  · intro dp values weights capacity
    by_cases h : values = [] ∨ weights = [] ∨ values.length ≠ weights.length
    · rw [DpCpp.knapsack_invalid_states dp values weights capacity h]
      intro i h0 h1
      simp only [List.length_nil, Nat.cast_zero] at h1
      omega
    · simp only [not_or, not_not] at h
      obtain ⟨states, e, _, hs⟩ := DpCpp.knapsack_trace dp values weights capacity h.1 h.2.1 h.2.2
      rw [e]
      exact DpCpp.dp_finalize_numbered states hs
  · intro dp str1 str2
    by_cases h : str1 = [] ∨ str2 = []
    · refine ⟨_, DpCpp.lcs_invalid_states dp str1 str2 h, ?_⟩
      intro i h0 h1
      simp only [List.length_nil, Nat.cast_zero] at h1
      omega
    · simp only [not_or] at h
      obtain ⟨states, e, _, hs⟩ := DpCpp.lcs_trace dp str1 str2 h.1 h.2
      exact ⟨_, e, DpCpp.dp_finalize_numbered states hs⟩
  · intro graph startNode
    refine ⟨?_, ?_, ?_⟩
    · obtain ⟨adj, states, e, _, hs⟩ := GraphCpp.depthFirstSearch_trace graph startNode
      exact ⟨_, e, GraphCpp.graph_finalize_numbered graph adj states hs⟩
    · obtain ⟨adj, states, e, _, hs⟩ := GraphCpp.breadthFirstSearch_trace graph startNode
      exact ⟨_, e, GraphCpp.graph_finalize_numbered graph adj states hs⟩
    · obtain ⟨adj, states, e, _, hs⟩ := GraphCpp.dijkstraAlgorithm_trace graph startNode
      exact ⟨_, e, GraphCpp.graph_finalize_numbered graph adj states hs⟩
  · intro sorting arr
    refine ⟨?_, ?_, ?_⟩
    · obtain ⟨r, _, hr, _⟩ := SortCpp.quickSort_sortsTo sorting arr
      exact ⟨r, hr, (SortCpp.quickSort_trace sorting arr r hr).1⟩
    · obtain ⟨r, _, hr, _⟩ := SortCpp.mergeSort_sortsTo sorting arr
      exact ⟨r, hr, (SortCpp.mergeSort_trace sorting arr r hr).1⟩
    · obtain ⟨r, _, hr, _⟩ := SortCpp.heapSort_sortsTo sorting arr
      exact ⟨r, hr, (SortCpp.heapSort_trace sorting arr r hr).1⟩
  · intro bst value
    constructor
    · obtain ⟨self1, states, e, _, hs⟩ := TreeCpp.createInsertionStates_trace bst value
      unfold TreeCpp.BinarySearchTree.insert
      rw [e]
      exact TreeCpp.tree_finalize_numbered self1 states hs
    · obtain ⟨self1, states, e, _, hs⟩ := TreeCpp.createSearchStates_trace bst value
      unfold TreeCpp.BinarySearchTree.search
      simp only
      rw [e]
      exact TreeCpp.tree_finalize_numbered self1 states hs

/-- Instance of C1: snapshot 2 of the trace of `fibonacci(3)` has `step` 3. -/
theorem trace_steps_contiguous_witness :
    ((({} : DpCpp.DynamicProgramming).fibonacci 3).getStep 2).step = 2 + 1 :=
  trace_steps_contiguous.1 {} 3 2 (by decide) (by decide)

/-- C2: after every driver run that records a snapshot the trace is finished
(`TraceFinalized`): every snapshot carries the number of snapshots as `totalSteps`, the
last snapshot has that number as its `step`, and `getStepCount()` returns it. -/
theorem trace_total_steps_backfilled :
    (∀ (dp : DpCpp.DynamicProgramming) (n : Nat),
      TraceFinalized DpCpp.AlgorithmState.step DpCpp.AlgorithmState.totalSteps
        (dp.fibonacci n).states (dp.fibonacci n).getStepCount) ∧
    (∀ (dp : DpCpp.DynamicProgramming) (values weights : List Int) (capacity : Nat),
      (dp.knapsack values weights capacity).states ≠ [] →
      TraceFinalized DpCpp.AlgorithmState.step DpCpp.AlgorithmState.totalSteps
        (dp.knapsack values weights capacity).states
        (dp.knapsack values weights capacity).getStepCount) ∧
    (∀ (dp : DpCpp.DynamicProgramming) (str1 str2 : CppString),
      ∃ dp1, dp.longestCommonSubsequence str1 str2 = some dp1 ∧
        (dp1.states ≠ [] →
          TraceFinalized DpCpp.AlgorithmState.step DpCpp.AlgorithmState.totalSteps
            dp1.states dp1.getStepCount)) ∧
    (∀ (graph : GraphCpp.Graph) (startNode : Int),
      (∃ g1, graph.depthFirstSearch startNode = some g1 ∧
        TraceFinalized GraphCpp.AlgorithmState.step GraphCpp.AlgorithmState.totalSteps
          g1.states g1.getStepCount) ∧
      (∃ g1, graph.breadthFirstSearch startNode = some g1 ∧
        TraceFinalized GraphCpp.AlgorithmState.step GraphCpp.AlgorithmState.totalSteps
          g1.states g1.getStepCount) ∧
      (∃ g1, graph.dijkstraAlgorithm startNode = some g1 ∧
        TraceFinalized GraphCpp.AlgorithmState.step GraphCpp.AlgorithmState.totalSteps
          g1.states g1.getStepCount)) ∧
    (∀ (sorting : SortCpp.SortingAlgorithms) (arr : List Int),
      (∃ r, sorting.quickSort arr = some r ∧
        TraceFinalized SortCpp.AlgorithmState.step SortCpp.AlgorithmState.totalSteps
          r.1.states r.1.getStepCount) ∧
      (∃ r, sorting.mergeSort arr = some r ∧
        TraceFinalized SortCpp.AlgorithmState.step SortCpp.AlgorithmState.totalSteps
          r.1.states r.1.getStepCount) ∧
      (∃ r, sorting.heapSort arr = some r ∧
        TraceFinalized SortCpp.AlgorithmState.step SortCpp.AlgorithmState.totalSteps
          r.1.states r.1.getStepCount)) ∧
    (∀ (bst : TreeCpp.BinarySearchTree) (value : Int),
      TraceFinalized TreeCpp.AlgorithmState.step TreeCpp.AlgorithmState.totalSteps
        (bst.insert value).states (bst.insert value).getStepCount ∧
      TraceFinalized TreeCpp.AlgorithmState.step TreeCpp.AlgorithmState.totalSteps
        (bst.search value).1.states (bst.search value).1.getStepCount) := by
  refine ⟨?_, ?_, ?_, ?_, ?_, ?_⟩
  · intro dp n
    obtain ⟨states, e, hne, hs⟩ := DpCpp.fibonacci_trace dp n
    rw [e]
    exact DpCpp.dp_finalize_finalized states hne hs
  · intro dp values weights capacity hrec
    by_cases h : values = [] ∨ weights = [] ∨ values.length ≠ weights.length
    · rw [DpCpp.knapsack_invalid_states dp values weights capacity h] at hrec
      exact absurd rfl hrec
    · simp only [not_or, not_not] at h
      obtain ⟨states, e, hne, hs⟩ :=
        DpCpp.knapsack_trace dp values weights capacity h.1 h.2.1 h.2.2
      rw [e]
      exact DpCpp.dp_finalize_finalized states hne hs
  · intro dp str1 str2
    by_cases h : str1 = [] ∨ str2 = []
    · exact ⟨_, DpCpp.lcs_invalid_states dp str1 str2 h, fun hrec => absurd rfl hrec⟩
    · simp only [not_or] at h
      obtain ⟨states, e, hne, hs⟩ := DpCpp.lcs_trace dp str1 str2 h.1 h.2
      exact ⟨_, e, fun _ => DpCpp.dp_finalize_finalized states hne hs⟩
  · intro graph startNode
    refine ⟨?_, ?_, ?_⟩
    · obtain ⟨adj, states, e, hne, hs⟩ := GraphCpp.depthFirstSearch_trace graph startNode
      exact ⟨_, e, GraphCpp.graph_finalize_finalized graph adj states hne hs⟩
    · obtain ⟨adj, states, e, hne, hs⟩ := GraphCpp.breadthFirstSearch_trace graph startNode
      exact ⟨_, e, GraphCpp.graph_finalize_finalized graph adj states hne hs⟩
    · obtain ⟨adj, states, e, hne, hs⟩ := GraphCpp.dijkstraAlgorithm_trace graph startNode
      exact ⟨_, e, GraphCpp.graph_finalize_finalized graph adj states hne hs⟩
  · intro sorting arr
    refine ⟨?_, ?_, ?_⟩
    · obtain ⟨r, _, hr, _⟩ := SortCpp.quickSort_sortsTo sorting arr
      exact ⟨r, hr, (SortCpp.quickSort_trace sorting arr r hr).2⟩
    · obtain ⟨r, _, hr, _⟩ := SortCpp.mergeSort_sortsTo sorting arr
      exact ⟨r, hr, (SortCpp.mergeSort_trace sorting arr r hr).2⟩
    · obtain ⟨r, _, hr, _⟩ := SortCpp.heapSort_sortsTo sorting arr
      exact ⟨r, hr, (SortCpp.heapSort_trace sorting arr r hr).2⟩
  · intro bst value
    constructor
    · obtain ⟨self1, states, e, hne, hs⟩ := TreeCpp.createInsertionStates_trace bst value
      unfold TreeCpp.BinarySearchTree.insert
      rw [e]
      exact TreeCpp.tree_finalize_finalized self1 states hne hs
    · obtain ⟨self1, states, e, hne, hs⟩ := TreeCpp.createSearchStates_trace bst value
      unfold TreeCpp.BinarySearchTree.search
      simp only
      rw [e]
      exact TreeCpp.tree_finalize_finalized self1 states hne hs

/-- Instance of C2: the valid run `knapsack([60, 100, 120], [10, 20, 30], 1)` records
snapshots, so its trace is finished. -/
theorem trace_total_steps_backfilled_witness :
    TraceFinalized DpCpp.AlgorithmState.step DpCpp.AlgorithmState.totalSteps
      ((({} : DpCpp.DynamicProgramming).knapsack [60, 100, 120] [10, 20, 30] 1).states)
      ((({} : DpCpp.DynamicProgramming).knapsack [60, 100, 120] [10, 20, 30] 1).getStepCount) :=
  trace_total_steps_backfilled.2.1 {} [60, 100, 120] [10, 20, 30] 1 (by decide)

namespace SortCpp

/-- C7: for every integer array `arr` the run `quickSort(arr)` finishes and its final
snapshot lists the ids `0, 1, ..., n-1` in order with values that are a permutation of
the input in non-decreasing order (`SortsTo`); for a permutation of
`64, 34, 25, 12, 22, 11, 90` the final values are `11, 12, 22, 25, 34, 64, 90`. -/
theorem quickSort_final_snapshot_sorted (self : SortingAlgorithms) (arr : List Int) :
    SortsTo (self.quickSort arr) arr ∧
    (arr.Perm [64, 34, 25, 12, 22, 11, 90] →
      ∃ r last, self.quickSort arr = some r ∧ r.1.states.getLast? = some last ∧
        last.elements.map ArrayElement.value = [11, 12, 22, 25, 34, 64, 90]) :=
  ⟨quickSort_sortsTo self arr, sortsTo_demo _ arr (quickSort_sortsTo self arr)⟩

/-- Instance of C7 on the array of `main`. -/
theorem quickSort_final_snapshot_sorted_witness :
    ∃ r last, ({} : SortingAlgorithms).quickSort [64, 34, 25, 12, 22, 11, 90] = some r ∧
      r.1.states.getLast? = some last ∧
      last.elements.map ArrayElement.value = [11, 12, 22, 25, 34, 64, 90] :=
  (quickSort_final_snapshot_sorted {} [64, 34, 25, 12, 22, 11, 90]).2 (List.Perm.refl _)

/-- C8: for every integer array `arr` the run `mergeSort(arr)` finishes and its final
snapshot lists the ids `0, 1, ..., n-1` in order with values that are a permutation of
the input in non-decreasing order (`SortsTo`); for a permutation of
`64, 34, 25, 12, 22, 11, 90` the final values are `11, 12, 22, 25, 34, 64, 90`. -/
theorem mergeSort_final_snapshot_sorted (self : SortingAlgorithms) (arr : List Int) :
    SortsTo (self.mergeSort arr) arr ∧
    (arr.Perm [64, 34, 25, 12, 22, 11, 90] →
      ∃ r last, self.mergeSort arr = some r ∧ r.1.states.getLast? = some last ∧
        last.elements.map ArrayElement.value = [11, 12, 22, 25, 34, 64, 90]) :=
  ⟨mergeSort_sortsTo self arr, sortsTo_demo _ arr (mergeSort_sortsTo self arr)⟩

/-- Instance of C8 on a reversed arrangement of the seven values. -/
theorem mergeSort_final_snapshot_sorted_witness :
    ∃ r last, ({} : SortingAlgorithms).mergeSort [90, 64, 34, 25, 22, 12, 11] = some r ∧
      r.1.states.getLast? = some last ∧
      last.elements.map ArrayElement.value = [11, 12, 22, 25, 34, 64, 90] :=
  (mergeSort_final_snapshot_sorted {} [90, 64, 34, 25, 22, 12, 11]).2 (by decide)

/-- C9: for every integer array `arr` the run `heapSort(arr)` finishes and its final
snapshot lists the ids `0, 1, ..., n-1` in order with values that are a permutation of
the input in non-decreasing order (`SortsTo`); for a permutation of
`64, 34, 25, 12, 22, 11, 90` the final values are `11, 12, 22, 25, 34, 64, 90`. -/
theorem heapSort_final_snapshot_sorted (self : SortingAlgorithms) (arr : List Int) :
    SortsTo (self.heapSort arr) arr ∧
    (arr.Perm [64, 34, 25, 12, 22, 11, 90] →
      ∃ r last, self.heapSort arr = some r ∧ r.1.states.getLast? = some last ∧
        last.elements.map ArrayElement.value = [11, 12, 22, 25, 34, 64, 90]) :=
  ⟨heapSort_sortsTo self arr, sortsTo_demo _ arr (heapSort_sortsTo self arr)⟩

/-- Instance of C9 on an arrangement of the seven values that starts with the least. -/
theorem heapSort_final_snapshot_sorted_witness :
    ∃ r last, ({} : SortingAlgorithms).heapSort [11, 90, 12, 64, 22, 34, 25] = some r ∧
      r.1.states.getLast? = some last ∧
      last.elements.map ArrayElement.value = [11, 12, 22, 25, 34, 64, 90] :=
  (heapSort_final_snapshot_sorted {} [11, 90, 12, 64, 22, 34, 25]).2 (by decide)

end SortCpp

namespace DpCpp

set_option maxRecDepth 100000

/-- C10: for non-empty `values` and `weights` of equal length, all weights `>= 0`, every
capacity `>= 0` and value sums inside the `int` range, the final snapshot of the
`knapsack` trace has the message `"Maximum value: V"` where `V` is the largest total value
of a selection of the items with total weight at most the capacity; for the values
`60, 100, 120`, the weights `10, 20, 30` and capacity 50 the message is
`"Maximum value: 220"`. -/
theorem knapsack_reports_optimum (dp : DynamicProgramming) (values weights : List Int)
    (capacity : Nat) (hne : values ≠ []) (hlen : values.length = weights.length)
    (hw : ∀ x ∈ weights, 0 ≤ x) (hr : ValuesInRange values) :
    (∃ V last, (dp.knapsack values weights capacity).states.getLast? = some last ∧
      last.message = "Maximum value: " ++ toString V ∧
      IsKnapsackOptimum values weights (capacity : Int) V) ∧
    ((dp.knapsack [60, 100, 120] [10, 20, 30] 50).states.getLast?.map
      AlgorithmState.message) = some "Maximum value: 220" := by
  constructor
  · obtain ⟨last, h1, h2⟩ := knapsack_final_message dp values weights capacity hne hlen hw hr
    exact ⟨_, last, h1, h2, knapBest_optimum values weights capacity hw⟩
  · rfl

/-- Instance of C10 on the three items of `performDPOperation` with capacity 50: the
optimum reported is 220. -/
theorem knapsack_reports_optimum_witness :
    (∃ V last, (({} : DynamicProgramming).knapsack [60, 100, 120] [10, 20, 30] 50).states.getLast?
        = some last ∧
      last.message = "Maximum value: " ++ toString V ∧
      IsKnapsackOptimum [60, 100, 120] [10, 20, 30] 50 V) ∧
    ((({} : DynamicProgramming).knapsack [60, 100, 120] [10, 20, 30] 50).states.getLast?.map
      AlgorithmState.message) = some "Maximum value: 220" :=
  knapsack_reports_optimum {} [60, 100, 120] [10, 20, 30] 50 (by decide) rfl (by decide)
    (fun s hs =>
      (by decide : ∀ s ∈ ([60, 100, 120] : List Int).sublists,
        -2147483648 ≤ s.sum ∧ s.sum ≤ 2147483647) s (List.mem_sublists.mpr hs))

end DpCpp

/-! ### Fibonacci values, the Dijkstra demo run, search and insert on the tree -/

set_option maxRecDepth 100000

namespace DpCpp

theorem fib_le_of_le_46 (k : Nat) (h : k ≤ 46) : Nat.fib k ≤ 1836311903 := by
  have h46 : Nat.fib 46 = 1836311903 := by norm_num
  rw [← h46]
  exact Nat.fib_mono h

theorem fibonacciBody_inv (n : Nat) (hn : n ≤ 46) (initialState : AlgorithmState) (i : Int)
    (s : List Int × List AlgorithmState) (hi1 : 2 ≤ i) (hi2 : i ≤ (n : Int))
    (h : FibInv n i s) : FibInv n (i + 1) (fibonacciBody initialState i s) := by
  obtain ⟨hlen, hval⟩ := h
  obtain ⟨j, rfl⟩ : ∃ j : Nat, i = ((j + 2 : Nat) : Int) := ⟨(i - 2).toNat, by omega⟩
  have h1 := hval (j + 1) (by push_cast; omega) (by omega)
  have h0 := hval j (by push_cast; omega) (by omega)
  have e1 : ((j + 2 : Nat) : Int) - 1 = ((j + 1 : Nat) : Int) := by push_cast; omega
  have e2 : ((j + 2 : Nat) : Int) - 2 = (j : Int) := by push_cast; omega
  have hb := fib_le_of_le_46 (j + 2) (by omega)
  have hnew : wrapInt32 (getAt s.1 (((j + 2 : Nat) : Int) - 1) 0 +
      getAt s.1 (((j + 2 : Nat) : Int) - 2) 0) = (Nat.fib (j + 2) : Int) := by
    rw [e1, e2, h1, h0, Nat.fib_add_two]
    have hb2 : Nat.fib j + Nat.fib (j + 1) ≤ 1836311903 := by
      rw [← Nat.fib_add_two]; exact hb
    rw [wrapInt32_of_range _ (by omega) (by omega)]
    push_cast
    ring
  unfold fibonacciBody
  simp only
  rw [hnew]
  refine ⟨by rw [length_setAt]; exact hlen, ?_⟩
  intro k hk1 hk2
  rw [getAt_setAt _ _ _ _ _ (by omega) (by rw [hlen]; omega)]
  by_cases e : (k : Int) = ((j + 2 : Nat) : Int)
  · rw [if_pos e]
    have : k = j + 2 := by exact_mod_cast e
    rw [this]
  · rw [if_neg e]
    exact hval k (by omega) hk2

theorem fibonacci_final_value (n : Nat) (hn : n ≤ 46) (initialState : AlgorithmState) :
    getAt (forLoop (fibonacciBody initialState) (n - 1) 2
      (if n ≥ 1 then setAt (List.replicate (n + 1) 0) 1 1 else List.replicate (n + 1) 0,
        [initialState])).1 (n : Int) 0 = (Nat.fib n : Int) := by
  have hinv := forLoop_invariant (fibonacciBody initialState) (FibInv n) (n - 1) 2
    (if n ≥ 1 then setAt (List.replicate (n + 1) 0) 1 1 else List.replicate (n + 1) 0,
      [initialState])
    ⟨by split_ifs <;> simp [length_setAt], by
      intro k hk1 hk2
      simp only
      by_cases h1 : n ≥ 1
      · rw [if_pos h1, getAt_setAt _ _ _ _ _ (by omega) (by simp; omega)]
        by_cases e : (k : Int) = 1
        · rw [if_pos e]
          have : k = 1 := by omega
          rw [this]
          simp
        · rw [if_neg e, getAt_replicate _ _ _ _ (by omega) (by push_cast; omega)]
          have : k = 0 := by omega
          rw [this]
          simp
      · rw [if_neg h1, getAt_replicate _ _ _ _ (by omega) (by push_cast; omega)]
        have : k = 0 := by omega
        rw [this]
        simp⟩
    (fun j t hj1 hj2 hI => fibonacciBody_inv n hn initialState j t hj1 (by omega) hI)
  exact hinv.2 n (by omega) (le_refl _)

theorem fibonacci_final_message (dp : DynamicProgramming) (n : Nat) (hn : n ≤ 46) :
    ∃ last, (dp.fibonacci n).states.getLast? = some last ∧
      last.message = "Fibonacci(" ++ toString n ++ ") = " ++ toString (Nat.fib n : Int) := by
  simp only [DynamicProgramming.fibonacci, finalize, List.map_append, List.map_cons,
    List.map_nil, List.getLast?_concat]
  refine ⟨_, rfl, ?_⟩
  simp only
  rw [fibonacci_final_value n hn]

/-- C13 as stated fails at `n = 47`: the 32-bit sum wraps and the final message reports
`-1323752223`, not the Fibonacci number `2971215073`. -/
theorem fibonacci_47_wraps :
    Nat.fib 47 = 2971215073 ∧
    (({} : DynamicProgramming).fibonacci 47).states.getLast?.map AlgorithmState.message =
      some "Fibonacci(47) = -1323752223" ∧
    (({} : DynamicProgramming).fibonacci 47).states.getLast?.map AlgorithmState.message ≠
      some ("Fibonacci(47) = " ++ toString (Nat.fib 47 : Int)) := by
  refine ⟨by norm_num, by rfl, by decide⟩

/-- C13 (amended): for every `n` with `0 <= n <= 46` the final snapshot of the
`fibonacci(n)` trace has the message `"Fibonacci(n) = F"` where `F` is the `n`-th Fibonacci
number; for `n = 10` the message is `"Fibonacci(10) = 55"`. -/
theorem fibonacci_reports_fib (dp : DynamicProgramming) (n : Nat) (hn : n ≤ 46) :
    (∃ last, (dp.fibonacci n).states.getLast? = some last ∧
      last.message = "Fibonacci(" ++ toString n ++ ") = " ++ toString (Nat.fib n : Int)) ∧
    (dp.fibonacci 10).states.getLast?.map AlgorithmState.message =
      some "Fibonacci(10) = 55" :=
  ⟨fibonacci_final_message dp n hn, by rfl⟩

/-- Instance of C13 (amended) at the largest admitted input, `n = 46`. -/
theorem fibonacci_reports_fib_witness :
    (∃ last, (({} : DynamicProgramming).fibonacci 46).states.getLast? = some last ∧
      last.message = "Fibonacci(" ++ toString 46 ++ ") = " ++ toString (Nat.fib 46 : Int)) ∧
    (({} : DynamicProgramming).fibonacci 10).states.getLast?.map AlgorithmState.message =
      some "Fibonacci(10) = 55" :=
  fibonacci_reports_fib {} 46 (by decide)

end DpCpp

namespace GraphCpp

/-- C14 as stated fails: the Dijkstra trace from node 0 on the demo graph has no snapshot
`"Processing node 5 with distance 9"`. -/
theorem dijkstra_demo_not_distance_9 :
    ∃ g, ({} : Graph).createDemoGraph.dijkstraAlgorithm 0 = some g ∧
      "Processing node 5 with distance 9" ∉ g.states.map AlgorithmState.message :=
  ⟨_, rfl, by decide⟩

/-- C14 (amended): Dijkstra from node 0 on the fixed demo graph settles node 5 with total
distance 10: the trace contains the snapshot `"Processing node 5 with distance 10"`, the
last node processed before the closing snapshot. -/
theorem dijkstra_demo_distance_10 :
    ∃ g, ({} : Graph).createDemoGraph.dijkstraAlgorithm 0 = some g ∧
      "Processing node 5 with distance 10" ∈ g.states.map AlgorithmState.message ∧
      g.states.map AlgorithmState.message =
        ["Starting Dijkstra's algorithm from node 0", "Processing node 0 with distance 0",
          "Updated distance to node 1 to 4", "Updated distance to node 2 to 2",
          "Processing node 2 with distance 2", "Updated distance to node 3 to 5",
          "Updated distance to node 4 to 9", "Processing node 1 with distance 4",
          "Processing node 3 with distance 5", "Updated distance to node 5 to 11",
          "Processing node 4 with distance 9", "Updated distance to node 5 to 10",
          "Processing node 5 with distance 10", "Dijkstra's algorithm complete"] :=
  ⟨_, rfl, by decide, by rfl⟩

end GraphCpp

namespace TreeCpp

/-- C18: `search(v)` leaves the tree as it was, found or not: the root pointer and with it
every node, value and left/right link are unchanged. -/
theorem search_preserves_tree (bst : BinarySearchTree) (v : Int) :
    (bst.search v).1.root = bst.root := rfl

/-- C19, the failing run: on the tree built by `insert(50); insert(25)`, the trace of
`insert(75)` starts with a snapshot of 2 edge entities, but after `search(25)` the trace
of `insert(75)` starts with a snapshot of 3 edge entities; the resulting trees agree. -/
theorem insert_trace_depends_on_search :
    ((((({} : BinarySearchTree).insert 50).insert 25).insert 75).getStep 0).edges.length = 2 ∧
    (((((({} : BinarySearchTree).insert 50).insert 25).search 25).1.insert 75).getStep
      0).edges.length = 3 ∧
    (((({} : BinarySearchTree).insert 50).insert 25).insert 75).root =
      ((((({} : BinarySearchTree).insert 50).insert 25).search 25).1.insert 75).root := by
  refine ⟨by decide, by decide, by decide⟩

end TreeCpp

/-! ### Binary search tree: membership, order and the final snapshot of an insertion -/

theorem mapInsert_mem {β : Type} (k : Int) (v : β) (m : List (Int × β)) (p : Int × β)
    (h : p ∈ mapInsert k v m) : p = (k, v) ∨ p ∈ m := by
  induction m with
  | nil => simp [mapInsert] at h; exact Or.inl h
  | cons hd tl ih =>
    obtain ⟨k1, v1⟩ := hd
    unfold mapInsert at h
    split_ifs at h with h1 h2
    · simp only [List.mem_cons] at h ⊢
      tauto
    · simp only [List.mem_cons] at h ⊢
      tauto
    · simp only [List.mem_cons] at h ⊢
      rcases h with h | h
      · tauto
      · rcases ih h with h | h <;> tauto

theorem mapInsert_keys {β : Type} (k : Int) (v : β) (m : List (Int × β)) (x : Int) :
    x ∈ (mapInsert k v m).map Prod.fst ↔ x = k ∨ x ∈ m.map Prod.fst := by
  induction m with
  | nil => simp [mapInsert]
  | cons hd tl ih =>
    obtain ⟨k1, v1⟩ := hd
    unfold mapInsert
    split_ifs with h1 h2
    · simp
    · subst h2; simp
    · simp only [List.map_cons, List.mem_cons, ih]
      tauto

theorem mapInsert_sorted {β : Type} (k : Int) (v : β) (m : List (Int × β))
    (h : (m.map Prod.fst).Pairwise (fun a b => a < b)) :
    ((mapInsert k v m).map Prod.fst).Pairwise (fun a b => a < b) := by
  induction m with
  | nil => simp [mapInsert]
  | cons hd tl ih =>
    obtain ⟨k1, v1⟩ := hd
    simp only [List.map_cons, List.pairwise_cons] at h
    unfold mapInsert
    split_ifs with h1 h2
    · simp only [List.map_cons, List.pairwise_cons, List.mem_cons]
      refine ⟨?_, h.1, h.2⟩
      intro a ha
      rcases ha with ha | ha
      · omega
      · have := h.1 a ha
        omega
    · subst h2
      simp only [List.map_cons, List.pairwise_cons]
      exact h
    · simp only [List.map_cons, List.pairwise_cons]
      refine ⟨?_, ih h.2⟩
      intro a ha
      rcases (mapInsert_keys k v tl a).mp ha with ha | ha
      · omega
      · exact h.1 a ha

namespace TreeCpp

theorem pushChildEdge_positions (id : Int) (child : Node) (s : LayoutVars) :
    (pushChildEdge id child s).positions = s.positions := by
  cases child <;> rfl

theorem calculatePositions_layoutOk (t : Node) (s : LayoutVars) (h : LayoutOk s.positions) :
    LayoutOk (calculatePositions t s).positions := by
  induction t generalizing s with
  | null => exact h
  | mk data left right ihl ihr =>
    unfold calculatePositions
    simp only [pushChildEdge_positions]
    apply ihr
    rw [pushChildEdge_positions]
    apply ihl
    refine ⟨mapInsert_sorted _ _ _ h.1, ?_⟩
    intro p hp
    rcases mapInsert_mem _ _ _ _ hp with hp | hp
    · subst hp; exact ⟨rfl, rfl⟩
    · exact h.2 p hp

theorem calculatePositions_keys (t : Node) (s : LayoutVars) (x : Int) :
    x ∈ (calculatePositions t s).positions.map Prod.fst ↔
      x ∈ s.positions.map Prod.fst ∨ Node.Contains x t := by
  induction t generalizing s with
  | null => simp [calculatePositions, Node.Contains]
  | mk data left right ihl ihr =>
    unfold calculatePositions
    simp only [pushChildEdge_positions]
    rw [ihr, pushChildEdge_positions, ihl, mapInsert_keys]
    simp only [Node.Contains]
    tauto

theorem insertRecursive_contains (t : Node) (v : Int) (path : List Int) (x : Int) :
    Node.Contains x (insertRecursive t v path).1 ↔ x = v ∨ Node.Contains x t := by
  induction t generalizing path with
  | null => simp [insertRecursive, Node.Contains]
  | mk data left right ihl ihr =>
    unfold insertRecursive
    split_ifs with h1 h2
    · simp only [Node.Contains, ihl]
      tauto
    · simp only [Node.Contains, ihr]
      tauto
    · have : v = data := by omega
      subst this
      simp only [Node.Contains]
      tauto

theorem insertRecursive_ordered (t : Node) (v : Int) (path : List Int) (h : Node.Ordered t) :
    Node.Ordered (insertRecursive t v path).1 := by
  induction t generalizing path with
  | null => simp [insertRecursive, Node.Ordered, Node.Contains]
  | mk data left right ihl ihr =>
    obtain ⟨hl, hr, ol, or_⟩ := h
    unfold insertRecursive
    split_ifs with h1 h2
    · refine ⟨?_, hr, ihl _ ol, or_⟩
      intro x hx
      rcases (insertRecursive_contains _ _ _ _).mp hx with hx | hx
      · omega
      · exact hl x hx
    · refine ⟨hl, ?_, ol, ihr _ or_⟩
      intro x hx
      rcases (insertRecursive_contains _ _ _ _).mp hx with hx | hx
      · omega
      · exact hr x hx
    · exact ⟨hl, hr, ol, or_⟩

theorem findNode_found_iff (t : Node) (v : Int) (path : List Int) (h : Node.Ordered t) :
    (findNode t v path).1 ≠ Node.null ↔ Node.Contains v t := by
  induction t generalizing path with
  | null => simp [findNode, Node.Contains]
  | mk data left right ihl ihr =>
    obtain ⟨hl, hr, ol, or_⟩ := h
    unfold findNode
    split_ifs with h1 h2
    · subst h1
      simp [Node.Contains]
    · rw [ihl _ ol]
      simp only [Node.Contains]
      constructor
      · tauto
      · rintro (h | h | h)
        · exact absurd h.symm h1
        · exact h
        · have := hr v h
          omega
    · rw [ihr _ or_]
      simp only [Node.Contains]
      constructor
      · tauto
      · rintro (h | h | h)
        · exact absurd h.symm h1
        · have := hl v h
          omega
        · exact h

theorem insert_root (bst : BinarySearchTree) (x : Int) :
    (bst.insert x).root = (insertRecursive bst.root x []).1 := rfl

theorem insertAll_snoc (xs : List Int) (x : Int) :
    insertAll (xs ++ [x]) = (insertAll xs).insert x := by
  simp [insertAll, List.foldl_append]

theorem insertAll_root (xs : List Int) :
    Node.Ordered (insertAll xs).root ∧ ∀ x, Node.Contains x (insertAll xs).root ↔ x ∈ xs := by
  induction xs using List.reverseRecOn with
  | nil => exact ⟨trivial, fun x => by simp [insertAll, Node.Contains]⟩
  | append_singleton xs a ih =>
    rw [insertAll_snoc, insert_root]
    refine ⟨insertRecursive_ordered _ _ _ ih.1, ?_⟩
    intro x
    rw [insertRecursive_contains, ih.2, List.mem_append, List.mem_singleton]
    tauto

end TreeCpp

namespace TreeCpp

theorem highlight_filter_none (positions : List (Int × NodePosition)) (v : Int)
    (hok : ∀ p ∈ positions, p.2.value = p.1 ∧ p.2.highlighted = false)
    (hv : v ∉ positions.map Prod.fst) :
    (positions.map (fun pair =>
      if pair.2.value = v then { pair.2 with highlighted := true } else pair.2)).filter
        (fun n => n.highlighted) = [] := by
  induction positions with
  | nil => rfl
  | cons p tl ih =>
    simp only [List.map_cons, List.mem_cons, not_or] at hv
    have hp := hok p (List.mem_cons_self _ _)
    have hne : ¬ p.2.value = v := by rw [hp.1]; exact fun e => hv.1 e.symm
    rw [List.map_cons, if_neg hne, List.filter_cons, hp.2]
    simp only [Bool.false_eq_true, if_false]
    exact ih (fun q hq => hok q (List.mem_cons_of_mem _ hq)) hv.2

theorem highlight_filter_one (positions : List (Int × NodePosition)) (v : Int)
    (hok : LayoutOk positions) (hv : v ∈ positions.map Prod.fst) :
    ∃ node, (positions.map (fun pair =>
      if pair.2.value = v then { pair.2 with highlighted := true } else pair.2)).filter
        (fun n => n.highlighted) = [node] ∧ node.value = v := by
  induction positions with
  | nil => simp at hv
  | cons p tl ih =>
    obtain ⟨hs, hval⟩ := hok
    simp only [List.map_cons, List.pairwise_cons] at hs
    have hp := hval p (List.mem_cons_self _ _)
    have htl : ∀ q ∈ tl, q.2.value = q.1 ∧ q.2.highlighted = false :=
      fun q hq => hval q (List.mem_cons_of_mem _ hq)
    by_cases e : p.1 = v
    · have hnot : v ∉ tl.map Prod.fst := by
        intro hmem
        have := hs.1 v hmem
        omega
      have he : p.2.value = v := by rw [hp.1]; exact e
      refine ⟨{ p.2 with highlighted := true }, ?_, he⟩
      rw [List.map_cons, if_pos he, List.filter_cons]
      simp only [if_true]
      rw [highlight_filter_none tl v htl hnot]
    · have hne : ¬ p.2.value = v := by rw [hp.1]; exact e
      have hmem : v ∈ tl.map Prod.fst := by
        simp only [List.map_cons, List.mem_cons] at hv
        rcases hv with hv | hv
        · exact absurd hv.symm e
        · exact hv
      obtain ⟨node, h1, h2⟩ := ih ⟨hs.2, htl⟩ hmem
      refine ⟨node, ?_, h2⟩
      rw [List.map_cons, if_neg hne, List.filter_cons, hp.2]
      simp only [Bool.false_eq_true, if_false]
      exact h1

/-- C20: the final snapshot of the `insert(v)` trace has the message
`"Inserted v into the tree"`, contains a node entity whose value is `v`, and that entity is
the only highlighted node of the snapshot. -/
theorem insert_final_snapshot_highlights (bst : BinarySearchTree) (v : Int) :
    ∃ last node, (bst.insert v).states.getLast? = some last ∧
      last.message = "Inserted " ++ toString v ++ " into the tree" ∧
      node ∈ last.nodes ∧ node.value = v ∧ node.highlighted = true ∧
      last.nodes.filter (fun n => n.highlighted) = [node] := by
  have hok : LayoutOk (calculatePositions (insertRecursive bst.root v []).1
      { positions := [], nextId := 0, edges := [] }).positions :=
    calculatePositions_layoutOk _ _ ⟨by simp, by simp⟩
  have hv : v ∈ (calculatePositions (insertRecursive bst.root v []).1
      { positions := [], nextId := 0, edges := [] }).positions.map Prod.fst :=
    (calculatePositions_keys _ _ _).mpr
      (Or.inr ((insertRecursive_contains _ _ _ _).mpr (Or.inl rfl)))
  obtain ⟨node, h1, h2⟩ := highlight_filter_one _ v hok hv
  have hmem := List.mem_singleton_self node
  rw [← h1, List.mem_filter] at hmem
  have hlast : ∃ last, (bst.insert v).states.getLast? = some last ∧
      last.message = "Inserted " ++ toString v ++ " into the tree" ∧
      last.nodes = (calculatePositions (insertRecursive bst.root v []).1
        { positions := [], nextId := 0, edges := [] }).positions.map (fun pair =>
          if pair.2.value = v then { pair.2 with highlighted := true } else pair.2) := by
    simp only [BinarySearchTree.insert, createInsertionStates, finalize, List.map_append,
      List.map_cons, List.map_nil, List.getLast?_concat]
    exact ⟨_, rfl, rfl, rfl⟩
  obtain ⟨last, hl1, hl2, hl3⟩ := hlast
  refine ⟨last, node, hl1, hl2, ?_, h2, hmem.2, ?_⟩
  · rw [hl3]; exact hmem.1
  · rw [hl3]; exact h1

theorem search_result (bst : BinarySearchTree) (v : Int) :
    (bst.search v).2 = decide ((findNode bst.root v []).1 ≠ Node.null) := rfl

theorem search_final_message (bst : BinarySearchTree) (v : Int) :
    ∃ last, (bst.search v).1.states.getLast? = some last ∧
      last.message =
        if (findNode bst.root v []).1 ≠ Node.null then
          "Value " ++ toString v ++ " found in the tree"
        else "Value " ++ toString v ++ " not found in the tree" := by
  simp only [BinarySearchTree.search, createSearchStates, finalize, List.map_append,
    List.map_cons, List.map_nil, List.getLast?_concat]
  exact ⟨_, rfl, rfl⟩

/-- C17: on the tree built from the empty tree by inserting the values `xs` in order,
`search(v)` returns `true` with final message `"Value v found in the tree"` exactly when
`v` is among `xs`, and otherwise returns `false` with final message
`"Value v not found in the tree"`; after inserting 50, 25, 75, 15 the value 15 is found and
99 is not. -/
theorem search_finds_exactly_inserted (xs : List Int) (v : Int) :
    (((insertAll xs).search v).2 = true ↔ v ∈ xs) ∧
    (∃ last, ((insertAll xs).search v).1.states.getLast? = some last ∧
      last.message =
        if v ∈ xs then "Value " ++ toString v ++ " found in the tree"
        else "Value " ++ toString v ++ " not found in the tree") ∧
    ((insertAll [50, 25, 75, 15]).search 15).2 = true ∧
    ((insertAll [50, 25, 75, 15]).search 15).1.states.getLast?.map AlgorithmState.message =
      some "Value 15 found in the tree" ∧
    ((insertAll [50, 25, 75, 15]).search 99).2 = false ∧
    ((insertAll [50, 25, 75, 15]).search 99).1.states.getLast?.map AlgorithmState.message =
      some "Value 99 not found in the tree" := by
  have hroot := insertAll_root xs
  have hiff : (findNode (insertAll xs).root v []).1 ≠ Node.null ↔ v ∈ xs := by
    rw [findNode_found_iff _ _ _ hroot.1, hroot.2]
  refine ⟨?_, ?_, by decide, by rfl, by decide, by rfl⟩
  · rw [search_result, decide_eq_true_iff]
    exact hiff
  · obtain ⟨last, h1, h2⟩ := search_final_message (insertAll xs) v
    refine ⟨last, h1, ?_⟩
    rw [h2]
    by_cases hm : v ∈ xs
    · rw [if_pos hm, if_pos (hiff.mpr hm)]
    · rw [if_neg hm, if_neg (fun h => hm (hiff.mp h))]

end TreeCpp

/-! ### Longest common subsequence: the table and the reconstruction -/

namespace DpCpp

theorem lcsLen_nil_right (s : CppString) : lcsLen s [] = 0 := by
  cases s <;> simp [lcsLen]

theorem lcsLen_nil_left (s : CppString) : lcsLen [] s = 0 := by
  simp [lcsLen]

theorem lcsLen_cons_eq (a : CppChar) (s1 s2 : CppString) :
    lcsLen (a :: s1) (a :: s2) = lcsLen s1 s2 + 1 := by
  rw [lcsLen, if_pos rfl]

theorem lcsLen_cons_ne (a b : CppChar) (s1 s2 : CppString) (h : a ≠ b) :
    lcsLen (a :: s1) (b :: s2) = max (lcsLen s1 (b :: s2)) (lcsLen (a :: s1) s2) := by
  rw [lcsLen, if_neg h]

theorem lcsLen_le_left (s1 s2 : CppString) : lcsLen s1 s2 ≤ s1.length := by
  induction s1 generalizing s2 with
  | nil => simp [lcsLen]
  | cons a s1 ih =>
    induction s2 with
    | nil => simp [lcsLen]
    | cons b s2 ih2 =>
      by_cases e : a = b
      · subst e
        rw [lcsLen_cons_eq]
        have := ih s2
        simp only [List.length_cons]
        omega
      · rw [lcsLen_cons_ne a b s1 s2 e]
        have := ih (b :: s2)
        simp only [List.length_cons] at ih2 ⊢
        omega

theorem sublist_tail_of_cons {x a : CppChar} {c s : CppString} (h : (x :: c).Sublist (a :: s)) :
    c.Sublist s := by
  cases h with
  | cons _ h1 => exact (List.sublist_cons_self x c).trans h1
  | cons₂ _ h1 => exact h1

theorem lcsLen_upper (s1 s2 c : CppString) (h1 : c.Sublist s1) (h2 : c.Sublist s2) :
    c.length ≤ lcsLen s1 s2 := by
  induction s1 generalizing s2 c with
  | nil =>
    rw [List.sublist_nil] at h1
    simp [h1]
  | cons a s1 ih =>
    induction s2 generalizing c with
    | nil =>
      rw [List.sublist_nil] at h2
      simp [h2]
    | cons b s2 ih2 =>
      by_cases e : a = b
      · subst e
        rw [lcsLen_cons_eq]
        cases c with
        | nil => simp
        | cons x c =>
          have := ih s2 c (sublist_tail_of_cons h1) (sublist_tail_of_cons h2)
          simp only [List.length_cons]
          omega
      · rw [lcsLen_cons_ne a b s1 s2 e]
        cases h1 with
        | cons _ h1 =>
          have := ih (b :: s2) c h1 h2
          omega
        | cons₂ _ h1 =>
          cases h2 with
          | cons _ h2 =>
            have := ih2 _ (List.Sublist.cons₂ a h1) h2
            omega
          | cons₂ _ h2 => exact absurd rfl e

theorem lcsLen_attained (s1 s2 : CppString) :
    ∃ c : CppString, c.Sublist s1 ∧ c.Sublist s2 ∧ c.length = lcsLen s1 s2 := by
  induction s1 generalizing s2 with
  | nil => exact ⟨[], List.Sublist.slnil, List.nil_sublist _, by simp [lcsLen]⟩
  | cons a s1 ih =>
    induction s2 with
    | nil => exact ⟨[], List.nil_sublist _, List.Sublist.slnil, by simp [lcsLen]⟩
    | cons b s2 ih2 =>
      by_cases e : a = b
      · subst e
        obtain ⟨c, h1, h2, h3⟩ := ih s2
        exact ⟨a :: c, List.Sublist.cons₂ a h1, List.Sublist.cons₂ a h2, by
          rw [lcsLen_cons_eq, List.length_cons, h3]⟩
      · rw [lcsLen_cons_ne a b s1 s2 e]
        by_cases hm : lcsLen (a :: s1) s2 ≤ lcsLen s1 (b :: s2)
        · obtain ⟨c, h1, h2, h3⟩ := ih (b :: s2)
          exact ⟨c, List.Sublist.cons a h1, h2, by rw [h3, max_eq_left hm]⟩
        · obtain ⟨c, h1, h2, h3⟩ := ih2
          exact ⟨c, h1, List.Sublist.cons b h2, by rw [h3, max_eq_right (by omega)]⟩

theorem lcsLen_reverse_optimum (s1 s2 : CppString) :
    IsLcsLength s1 s2 (lcsLen s1.reverse s2.reverse : Nat) := by
  constructor
  · obtain ⟨c, h1, h2, h3⟩ := lcsLen_attained s1.reverse s2.reverse
    refine ⟨c.reverse, ?_, ?_, ?_⟩
    · rw [← List.reverse_sublist, List.reverse_reverse]; exact h1
    · rw [← List.reverse_sublist, List.reverse_reverse]; exact h2
    · rw [List.length_reverse, h3]
  · intro c h1 h2
    have := lcsLen_upper s1.reverse s2.reverse c.reverse (List.reverse_sublist.mpr h1)
      (List.reverse_sublist.mpr h2)
    rw [List.length_reverse] at this
    exact_mod_cast this

end DpCpp

namespace DpCpp

theorem take_reverse_char (l : CppString) (i : Int) (h1 : 1 ≤ i) (h2 : i ≤ (l.length : Int)) :
    (l.take i.toNat).reverse =
      getAt l (i - 1) (0 : CppChar) :: (l.take (i - 1).toNat).reverse := by
  obtain ⟨hx, e⟩ := getAt_eq_getElem l (i - 1) (0 : CppChar) (by omega) (by omega)
  have e2 : i.toNat = (i - 1).toNat + 1 := by omega
  rw [e, e2, List.take_succ, List.getElem?_eq_getElem hx]
  simp

theorem lcsAt_zero_right (str1 str2 : CppString) (i : Int) : lcsAt str1 str2 i 0 = 0 := by
  simp [lcsAt, lcsLen_nil_right]

theorem lcsAt_zero_left (str1 str2 : CppString) (j : Int) : lcsAt str1 str2 0 j = 0 := by
  simp [lcsAt, lcsLen_nil_left]

theorem lcsAt_nonneg (str1 str2 : CppString) (i j : Int) : 0 ≤ lcsAt str1 str2 i j := by
  unfold lcsAt
  omega

theorem lcsAt_le (str1 str2 : CppString) (i j : Int) :
    lcsAt str1 str2 i j ≤ (str1.length : Int) := by
  unfold lcsAt
  have h := lcsLen_le_left (str1.take i.toNat).reverse (str2.take j.toNat).reverse
  rw [List.length_reverse, List.length_take] at h
  omega

theorem lcsAt_le_pred (str1 str2 : CppString) (i j : Int) (h1 : 1 ≤ i) :
    lcsAt str1 str2 (i - 1) j + 1 ≤ (str1.length : Int) ∨ (str1.length : Int) < i := by
  unfold lcsAt
  have h := lcsLen_le_left (str1.take (i - 1).toNat).reverse (str2.take j.toNat).reverse
  rw [List.length_reverse, List.length_take] at h
  omega

theorem lcsAt_match (str1 str2 : CppString) (i j : Int) (hi1 : 1 ≤ i)
    (hi2 : i ≤ (str1.length : Int)) (hj1 : 1 ≤ j) (hj2 : j ≤ (str2.length : Int))
    (e : getAt str1 (i - 1) (0 : CppChar) = getAt str2 (j - 1) (0 : CppChar)) :
    lcsAt str1 str2 i j = lcsAt str1 str2 (i - 1) (j - 1) + 1 := by
  unfold lcsAt
  rw [take_reverse_char str1 i hi1 hi2, take_reverse_char str2 j hj1 hj2, e, lcsLen_cons_eq]
  push_cast
  rfl

theorem lcsAt_differ (str1 str2 : CppString) (i j : Int) (hi1 : 1 ≤ i)
    (hi2 : i ≤ (str1.length : Int)) (hj1 : 1 ≤ j) (hj2 : j ≤ (str2.length : Int))
    (e : getAt str1 (i - 1) (0 : CppChar) ≠ getAt str2 (j - 1) (0 : CppChar)) :
    lcsAt str1 str2 i j = max (lcsAt str1 str2 (i - 1) j) (lcsAt str1 str2 i (j - 1)) := by
  unfold lcsAt
  rw [take_reverse_char str1 i hi1 hi2, take_reverse_char str2 j hj1 hj2,
    lcsLen_cons_ne _ _ _ _ e]
  push_cast
  rfl

theorem lcsBody_fst (str1 str2 : CppString) (initialState : AlgorithmState) (i j : Int)
    (s : List (List Int) × List AlgorithmState) (hb : str1.length ≤ 2147483647)
    (hi1 : 1 ≤ i) (hi2 : i ≤ (str1.length : Int)) (hj1 : 1 ≤ j)
    (hj2 : j ≤ (str2.length : Int)) (h : LcsRowInv str1 str2 i j s) :
    (lcsBody str1 str2 initialState i j s).1 = setCell s.1 i j (lcsAt str1 str2 i j) := by
  obtain ⟨_, hdone, hrow⟩ := h
  unfold lcsBody
  simp only
  by_cases e : getAt str1 (i - 1) (0 : CppChar) = getAt str2 (j - 1) (0 : CppChar)
  · rw [if_pos e, hdone.1 (i - 1) (j - 1) (by omega) (by omega) (by omega) (by omega),
      lcsAt_match str1 str2 i j hi1 hi2 hj1 hj2 e]
    have h0 := lcsAt_nonneg str1 str2 (i - 1) (j - 1)
    have h1 := lcsAt_le_pred str1 str2 i (j - 1) hi1
    rw [wrapInt32_of_range _ (by omega) (by omega)]
  · rw [if_neg e, hdone.1 (i - 1) j (by omega) (by omega) (by omega) hj2,
      hrow (j - 1) (by omega) (by omega), lcsAt_differ str1 str2 i j hi1 hi2 hj1 hj2 e]

theorem lcsBody_inv (str1 str2 : CppString) (initialState : AlgorithmState) (i j : Int)
    (s : List (List Int) × List AlgorithmState) (hb : str1.length ≤ 2147483647)
    (hi1 : 1 ≤ i) (hi2 : i ≤ (str1.length : Int)) (hj1 : 1 ≤ j)
    (hj2 : j ≤ (str2.length : Int)) (h : LcsRowInv str1 str2 i j s) :
    LcsRowInv str1 str2 i (j + 1) (lcsBody str1 str2 initialState i j s) := by
  have e := lcsBody_fst str1 str2 initialState i j s hb hi1 hi2 hj1 hj2 h
  obtain ⟨hd, hdone, hrow⟩ := h
  have gs := getCell_setCell s.1 _ _ hd i j (lcsAt str1 str2 i j) (by omega)
    (by push_cast; omega) (by omega) (by push_cast; omega)
  refine ⟨?_, ⟨?_, ?_⟩, ?_⟩
  · rw [e]
    exact setCell_dims _ _ _ hd _ _ _ (by omega) (by push_cast; omega)
  · intro r c hr0 hr1 hc0 hc1
    rw [e, gs, if_neg (by omega)]
    exact hdone.1 r c hr0 hr1 hc0 hc1
  · intro r hr0 hr1
    rw [e, gs, if_neg (by omega)]
    exact hdone.2 r hr0 hr1
  · intro c hc0 hc1
    rw [e, gs]
    by_cases ec : c = j
    · rw [if_pos ⟨rfl, ec⟩, ec]
    · rw [if_neg (fun h => ec h.2)]
      exact hrow c hc0 (by omega)

theorem lcsRow_inv (str1 str2 : CppString) (initialState : AlgorithmState) (i : Int)
    (s : List (List Int) × List AlgorithmState) (hb : str1.length ≤ 2147483647)
    (hi1 : 1 ≤ i) (hi2 : i ≤ (str1.length : Int))
    (h : TableDims s.1 (str1.length + 1) (str2.length + 1) ∧ LcsRowsDone str1 str2 s.1 i) :
    TableDims (lcsRow str1 str2 initialState i s).1 (str1.length + 1) (str2.length + 1) ∧
      LcsRowsDone str1 str2 (lcsRow str1 str2 initialState i s).1 (i + 1) := by
  have hinv := forLoop_invariant (lcsBody str1 str2 initialState i)
    (fun j t => LcsRowInv str1 str2 i j t) str2.length 1 s
    ⟨h.1, h.2, fun c h0 h1 => by
      have ec : c = 0 := by omega
      rw [ec, lcsAt_zero_right]
      exact h.2.2 i (by omega) hi2⟩
    (fun j t hj1 hj2 hI =>
      lcsBody_inv str1 str2 initialState i j t hb hi1 hi2 hj1 (by omega) hI)
  obtain ⟨hd, hdone, hrow⟩ := hinv
  refine ⟨hd, ?_, hdone.2⟩
  intro r c hr0 hr1 hc0 hc1
  by_cases e : r = i
  · rw [e]
    exact hrow c hc0 (by omega)
  · exact hdone.1 r c hr0 (by omega) hc0 hc1

theorem lcs_table (str1 str2 : CppString) (initialState : AlgorithmState)
    (states : List AlgorithmState) (hb : str1.length ≤ 2147483647) :
    ∀ r c : Int, 0 ≤ r → r ≤ (str1.length : Int) → 0 ≤ c → c ≤ (str2.length : Int) →
      getCell (forLoop (lcsRow str1 str2 initialState) str1.length 1
        (List.replicate (str1.length + 1) (List.replicate (str2.length + 1) 0), states)).1
        r c = lcsAt str1 str2 r c := by
  have hzero : ∀ r c : Int, 0 ≤ r → r ≤ (str1.length : Int) → 0 ≤ c →
      c ≤ (str2.length : Int) →
      getCell (List.replicate (str1.length + 1) (List.replicate (str2.length + 1) (0 : Int)))
        r c = 0 := by
    intro r c hr0 hr1 hc0 hc1
    unfold getCell
    rw [getAt_replicate _ _ _ _ hr0 (by push_cast; omega),
      getAt_replicate _ _ _ _ hc0 (by push_cast; omega)]
  have hinv := forLoop_invariant (lcsRow str1 str2 initialState)
    (fun i t => TableDims t.1 (str1.length + 1) (str2.length + 1) ∧
      LcsRowsDone str1 str2 t.1 i) str1.length 1
    (List.replicate (str1.length + 1) (List.replicate (str2.length + 1) 0), states)
    ⟨⟨by simp, fun row hrow => by
        rw [List.eq_of_mem_replicate hrow]
        simp⟩,
      fun r c hr0 hr1 hc0 hc1 => by
        have e : r = 0 := by omega
        rw [e, lcsAt_zero_left]
        exact hzero 0 c (le_refl _) (by omega) hc0 hc1,
      fun r hr0 hr1 => hzero r 0 hr0 hr1 (le_refl _) (by omega)⟩
    (fun i t hi1 hi2 hI => lcsRow_inv str1 str2 initialState i t hb hi1 (by omega) hI)
  intro r c hr0 hr1 hc0 hc1
  exact hinv.2.1 r c hr0 (by omega) hc0 hc1

end DpCpp

namespace DpCpp

theorem drop_pred_char (l : CppString) (i : Int) (h1 : 1 ≤ i) (h2 : i ≤ (l.length : Int)) :
    l.drop (i - 1).toNat = getAt l (i - 1) (0 : CppChar) :: l.drop i.toNat := by
  obtain ⟨hx, e⟩ := getAt_eq_getElem l (i - 1) (0 : CppChar) (by omega) (by omega)
  have e2 : i.toNat = (i - 1).toNat + 1 := by omega
  rw [e, e2]
  exact List.drop_eq_getElem_cons hx

theorem drop_pred_sublist (l : CppString) (i : Int) :
    (l.drop i.toNat).Sublist (l.drop (i - 1).toNat) := by
  have e : i.toNat = (i - 1).toNat + (i.toNat - (i - 1).toNat) := by omega
  rw [e, ← List.drop_drop]
  exact List.drop_sublist _ _

theorem lcsWalkBody_inv (str1 str2 : CppString) (dp : List (List Int))
    (hdp : ∀ r c : Int, 0 ≤ r → r ≤ (str1.length : Int) → 0 ≤ c → c ≤ (str2.length : Int) →
      getCell dp r c = lcsAt str1 str2 r c)
    (t : LcsWalk) (h : LcsWalkInv str1 str2 t) (hc : lcsWalkCond t = true) :
    LcsWalkInv str1 str2 (lcsWalkBody str1 str2 dp t) := by
  obtain ⟨hi0, hi1, hj0, hj1, hs1, hs2, hlen⟩ := h
  simp only [lcsWalkCond, Bool.and_eq_true, decide_eq_true_eq] at hc
  unfold lcsWalkBody
  by_cases e : getAt str1 (t.i - 1) (0 : CppChar) = getAt str2 (t.j - 1) (0 : CppChar)
  · rw [if_pos e]
    refine ⟨by simp only; omega, by simp only; omega, by simp only; omega,
      by simp only; omega, ?_, ?_, ?_⟩
    · simp only
      rw [drop_pred_char str1 t.i (by omega) hi1]
      exact List.Sublist.cons₂ _ hs1
    · simp only
      rw [drop_pred_char str2 t.j (by omega) hj1, e]
      exact List.Sublist.cons₂ _ hs2
    · simp only [List.length_cons]
      rw [lcsAt_match str1 str2 t.i t.j (by omega) hi1 (by omega) hj1 e] at hlen
      push_cast
      omega
  · rw [if_neg e]
    have hmax := lcsAt_differ str1 str2 t.i t.j (by omega) hi1 (by omega) hj1 e
    rw [hdp (t.i - 1) t.j (by omega) (by omega) hj0 hj1,
      hdp t.i (t.j - 1) hi0 hi1 (by omega) (by omega)]
    by_cases hgt : lcsAt str1 str2 (t.i - 1) t.j > lcsAt str1 str2 t.i (t.j - 1)
    · rw [if_pos hgt]
      refine ⟨by simp only; omega, by simp only; omega, hj0, hj1, ?_, hs2, ?_⟩
      · exact hs1.trans (drop_pred_sublist str1 t.i)
      · simp only
        rw [hmax, max_eq_left (by omega)] at hlen
        exact hlen
    · rw [if_neg hgt]
      refine ⟨hi0, hi1, by simp only; omega, by simp only; omega, hs1, ?_, ?_⟩
      · exact hs2.trans (drop_pred_sublist str2 t.j)
      · simp only
        rw [hmax, max_eq_right (by omega)] at hlen
        exact hlen

theorem lcsWalk_result (str1 str2 : CppString) (dp : List (List Int))
    (hdp : ∀ r c : Int, 0 ≤ r → r ≤ (str1.length : Int) → 0 ≤ c → c ≤ (str2.length : Int) →
      getCell dp r c = lcsAt str1 str2 r c) :
    ∃ walk, whileLoop lcsWalkCond (lcsWalkBody str1 str2 dp) (str1.length + str2.length)
        { i := (str1.length : Int), j := (str2.length : Int), lcs := [] } = some walk ∧
      walk.lcs.Sublist str1 ∧ walk.lcs.Sublist str2 ∧
      (walk.lcs.length : Int) = lcsAt str1 str2 (str1.length : Int) (str2.length : Int) := by
  obtain ⟨walk, hw, hinv, hcond⟩ := whileLoop_total lcsWalkCond (lcsWalkBody str1 str2 dp)
    (LcsWalkInv str1 str2) (fun t => (t.i + t.j).toNat)
    (fun t ht hc => by
      refine ⟨lcsWalkBody_inv str1 str2 dp hdp t ht hc, ?_⟩
      simp only [lcsWalkCond, Bool.and_eq_true, decide_eq_true_eq] at hc
      unfold lcsWalkBody
      split_ifs <;> simp only <;> omega)
    (str1.length + str2.length)
    { i := (str1.length : Int), j := (str2.length : Int), lcs := [] }
    ⟨by simp, by simp, by simp, by simp, by simp, by simp, by simp⟩
    (by simp only; omega)
  obtain ⟨hi0, hi1, hj0, hj1, hs1, hs2, hlen⟩ := hinv
  refine ⟨walk, hw, hs1.trans (List.drop_sublist _ _), hs2.trans (List.drop_sublist _ _), ?_⟩
  have hz : lcsAt str1 str2 walk.i walk.j = 0 := by
    simp only [lcsWalkCond, Bool.and_eq_false_iff, decide_eq_false_iff_not] at hcond
    rcases hcond with h | h
    · have e : walk.i = 0 := by omega
      rw [e, lcsAt_zero_left]
    · have e : walk.j = 0 := by omega
      rw [e, lcsAt_zero_right]
  omega

theorem lcsAt_full (str1 str2 : CppString) :
    IsLcsLength str1 str2 (lcsAt str1 str2 (str1.length : Int) (str2.length : Int)) := by
  have h := lcsLen_reverse_optimum str1 str2
  unfold lcsAt
  simpa using h

theorem lcs_final (dp : DynamicProgramming) (str1 str2 : CppString)
    (h1 : str1 ≠ []) (h2 : str2 ≠ []) (hb : str1.length ≤ 2147483647) :
    ∃ dp1, dp.longestCommonSubsequence str1 str2 = some dp1 ∧
      ∃ last, dp1.states.getLast? = some last ∧ ∃ lcs : CppString,
      last.message = "Length of LCS: " ++
        toString (lcsAt str1 str2 (str1.length : Int) (str2.length : Int))
          ++ ("\nLCS: \"" ++ showString lcs ++ "\"") ∧
      lcs.Sublist str1 ∧ lcs.Sublist str2 ∧
      (lcs.length : Int) =
        lcsAt str1 str2 (str1.length : Int) (str2.length : Int) := by
  have e1 : str1 ≠ [] := h1
  have e2 : str2 ≠ [] := h2
  have hc : (str1.isEmpty || str2.isEmpty) = false := by simp [e1, e2]
  have hb1 : str1.length ≤ 2147483647 := hb
  simp only [DynamicProgramming.longestCommonSubsequence, hc]
  have htab := lcs_table str1 str2
    { message := "Finding Longest Common Subsequence of \"" ++ showString str1 ++ "\" and \"" ++
        showString str2 ++ "\"",
      step := 1,
      cells := createGrid (List.replicate (str1.length + 1)
        (List.replicate (str2.length + 1) 0)) (-1) (-1) }
    [{ message := "Finding Longest Common Subsequence of \"" ++ showString str1 ++ "\" and \"" ++
         showString str2 ++ "\"",
       step := 1,
       cells := createGrid (List.replicate (str1.length + 1)
         (List.replicate (str2.length + 1) 0)) (-1) (-1) }] hb1
  obtain ⟨walk, hw, hs1, hs2, hlen⟩ := lcsWalk_result str1 str2 _ htab
  simp only [Bool.false_eq_true, if_false]
  rw [hw]
  refine ⟨_, rfl, ?_⟩
  simp only [finalize, List.map_append, List.map_cons, List.map_nil, List.getLast?_concat]
  refine ⟨_, rfl, walk.lcs, ?_, hs1, hs2, hlen⟩
  simp only
  rw [htab _ _ (by omega) (le_refl _) (by omega) (le_refl _)]

end DpCpp

namespace DpCpp

/-- C11: for every pair of non-empty strings, taken as the byte sequences a `std::string`
holds (with lengths that fit the `int` variables `m` and `n`), the number `L` in the final
message `"Length of LCS: L ..."` of the LCS trace is the length of a longest common
subsequence of the two byte sequences; for `"ABCBDAB"` and `"BDCABA"` the reported length
is 4, and for the UTF-8 strings of e-acute and e-grave (two bytes each, the first one
shared) it is 1. -/
theorem lcs_reports_longest_length (dp : DynamicProgramming) (str1 str2 : CppString)
    (h1 : str1 ≠ []) (h2 : str2 ≠ [])
    (hb : max str1.length str2.length ≤ 2147483647) :
    (∃ dp1 last, ∃ L : Int, ∃ lcs : String,
      dp.longestCommonSubsequence str1 str2 = some dp1 ∧
      dp1.states.getLast? = some last ∧
      last.message = "Length of LCS: " ++ toString L ++ ("\nLCS: \"" ++ lcs ++ "\"") ∧
      IsLcsLength str1 str2 L) ∧
    (∃ dp1 last,
      dp.longestCommonSubsequence (cppString "ABCBDAB") (cppString "BDCABA") = some dp1 ∧
      dp1.states.getLast? = some last ∧
      last.message = "Length of LCS: 4\nLCS: \"BDAB\"" ∧
      IsLcsLength (cppString "ABCBDAB") (cppString "BDCABA") 4) ∧
    (∃ dp1 last,
      dp.longestCommonSubsequence (cppString "é") (cppString "è") = some dp1 ∧
      dp1.states.getLast? = some last ∧
      last.message = "Length of LCS: 1\nLCS: \"" ++ showString [195] ++ "\"" ∧
      IsLcsLength (cppString "é") (cppString "è") 1) := by
  refine ⟨?_, ?_, ?_⟩
  · obtain ⟨dp1, hrun, last, hlast, lcs, hmsg, _, _, _⟩ :=
      lcs_final dp str1 str2 h1 h2 (le_trans (le_max_left _ _) hb)
    exact ⟨dp1, last, _, showString lcs, hrun, hlast, hmsg, lcsAt_full str1 str2⟩
  · refine ⟨_, _, rfl, rfl, rfl, ?_⟩
    have hfull := lcsAt_full (cppString "ABCBDAB") (cppString "BDCABA")
    have htab := lcs_table (cppString "ABCBDAB") (cppString "BDCABA") {} [] (by decide) 7 6
      (by decide) (by decide) (by decide) (by decide)
    have hcell : getCell (forLoop (lcsRow (cppString "ABCBDAB") (cppString "BDCABA") {})
        (cppString "ABCBDAB").length 1
        (List.replicate ((cppString "ABCBDAB").length + 1)
          (List.replicate ((cppString "BDCABA").length + 1) 0), [])).1 7 6 = 4 := by decide
    rw [hcell] at htab
    rw [htab]
    exact hfull
  · refine ⟨_, _, rfl, rfl, rfl, ?_⟩
    have hfull := lcsAt_full (cppString "é") (cppString "è")
    have htab := lcs_table (cppString "é") (cppString "è") {} [] (by decide) 2 2
      (by decide) (by decide) (by decide) (by decide)
    have hcell : getCell (forLoop (lcsRow (cppString "é") (cppString "è") {})
        (cppString "é").length 1
        (List.replicate ((cppString "é").length + 1)
          (List.replicate ((cppString "è").length + 1) 0), [])).1 2 2 = 1 := by decide
    rw [hcell] at htab
    rw [htab]
    exact hfull

/-- Instance of C11 at the strings `"ABCBDAB"` and `"BDCABA"`. -/
theorem lcs_reports_longest_length_witness :
    (∃ dp1 last, ∃ L : Int, ∃ lcs : String,
      ({} : DynamicProgramming).longestCommonSubsequence (cppString "ABCBDAB")
        (cppString "BDCABA") = some dp1 ∧
      dp1.states.getLast? = some last ∧
      last.message = "Length of LCS: " ++ toString L ++ ("\nLCS: \"" ++ lcs ++ "\"") ∧
      IsLcsLength (cppString "ABCBDAB") (cppString "BDCABA") L) ∧
    (∃ dp1 last,
      ({} : DynamicProgramming).longestCommonSubsequence (cppString "ABCBDAB")
        (cppString "BDCABA") = some dp1 ∧
      dp1.states.getLast? = some last ∧
      last.message = "Length of LCS: 4\nLCS: \"BDAB\"" ∧
      IsLcsLength (cppString "ABCBDAB") (cppString "BDCABA") 4) ∧
    (∃ dp1 last,
      ({} : DynamicProgramming).longestCommonSubsequence (cppString "é") (cppString "è") =
        some dp1 ∧
      dp1.states.getLast? = some last ∧
      last.message = "Length of LCS: 1\nLCS: \"" ++ showString [195] ++ "\"" ∧
      IsLcsLength (cppString "é") (cppString "è") 1) :=
  lcs_reports_longest_length {} (cppString "ABCBDAB") (cppString "BDCABA") (by decide)
    (by decide) (by decide)

/-- C12: the string appended to the final LCS message, byte by byte, is a subsequence of
the bytes of `str1` and of the bytes of `str2`, and its length is the reported LCS length;
for `"ABCBDAB"` and `"BDCABA"` the reconstructed string is `"BDAB"`, and for the UTF-8
strings of e-acute and e-grave it is the single byte 195 they share. -/
theorem lcs_reconstruction_is_common_subsequence (dp : DynamicProgramming)
    (str1 str2 : CppString) (h1 : str1 ≠ []) (h2 : str2 ≠ [])
    (hb : max str1.length str2.length ≤ 2147483647) :
    (∃ dp1 last, ∃ lcs : CppString,
      dp.longestCommonSubsequence str1 str2 = some dp1 ∧
      dp1.states.getLast? = some last ∧
      last.message = "Length of LCS: " ++ toString (lcs.length : Int) ++
        ("\nLCS: \"" ++ showString lcs ++ "\"") ∧
      lcs.Sublist str1 ∧ lcs.Sublist str2) ∧
    (∃ dp1 last,
      dp.longestCommonSubsequence (cppString "ABCBDAB") (cppString "BDCABA") = some dp1 ∧
      dp1.states.getLast? = some last ∧
      last.message = "Length of LCS: " ++ toString ((cppString "BDAB").length : Int) ++
        ("\nLCS: \"" ++ showString (cppString "BDAB") ++ "\"") ∧
      showString (cppString "BDAB") = "BDAB" ∧
      (cppString "BDAB").Sublist (cppString "ABCBDAB") ∧
      (cppString "BDAB").Sublist (cppString "BDCABA")) ∧
    (∃ dp1 last,
      dp.longestCommonSubsequence (cppString "é") (cppString "è") = some dp1 ∧
      dp1.states.getLast? = some last ∧
      last.message = "Length of LCS: 1\nLCS: \"" ++ showString [195] ++ "\"" ∧
      ([195] : CppString).Sublist (cppString "é") ∧
      ([195] : CppString).Sublist (cppString "è")) := by
  refine ⟨?_, ?_, ?_⟩
  · obtain ⟨dp1, hrun, last, hlast, lcs, hmsg, hs1, hs2, hlen⟩ :=
      lcs_final dp str1 str2 h1 h2 (le_trans (le_max_left _ _) hb)
    refine ⟨dp1, last, lcs, hrun, hlast, ?_, hs1, hs2⟩
    rw [hmsg, hlen]
  · exact ⟨_, _, rfl, rfl, rfl, rfl, by decide, by decide⟩
  · exact ⟨_, _, rfl, rfl, rfl, by decide, by decide⟩

/-- Instance of C12 at the strings `"ABCBDAB"` and `"BDCABA"`. -/
theorem lcs_reconstruction_is_common_subsequence_witness :
    ∃ dp1 last, ∃ lcs : CppString,
      ({} : DynamicProgramming).longestCommonSubsequence (cppString "ABCBDAB")
        (cppString "BDCABA") = some dp1 ∧
      dp1.states.getLast? = some last ∧
      last.message = "Length of LCS: " ++ toString (lcs.length : Int) ++
        ("\nLCS: \"" ++ showString lcs ++ "\"") ∧
      lcs.Sublist (cppString "ABCBDAB") ∧ lcs.Sublist (cppString "BDCABA") :=
  (lcs_reconstruction_is_common_subsequence {} (cppString "ABCBDAB") (cppString "BDCABA")
    (by decide) (by decide) (by decide)).1

end DpCpp

/-! ### Breadth-first and depth-first search visit exactly the reachable nodes -/

namespace GraphCpp

theorem mapFind_mapInsert {β : Type} (k k1 : Int) (v : β) (m : List (Int × β)) :
    mapFind k1 (mapInsert k v m) = if k = k1 then some v else mapFind k1 m := by
  induction m with
  | nil =>
    unfold mapInsert
    rw [mapFind_cons]
  | cons hd tl ih =>
    obtain ⟨k2, v2⟩ := hd
    unfold mapInsert
    by_cases h1 : k < k2
    · rw [if_pos h1, mapFind_cons]
    · rw [if_neg h1]
      by_cases h2 : k = k2
      · rw [if_pos h2, mapFind_cons, mapFind_cons]
        subst h2
        by_cases h3 : k = k1
        · simp only [h3, if_true]
        · simp only [h3, if_false]
      · rw [if_neg h2, mapFind_cons, mapFind_cons, ih]
        by_cases h3 : k2 = k1
        · have h4 : ¬ k = k1 := by omega
          simp only [h3, h4, if_true, if_false]
        · simp only [h3, if_false]

theorem mapGet_mapTouch {β : Type} (m : List (Int × List β)) (k u : Int) :
    mapGet (mapTouch m k []) u [] = mapGet m u [] := by
  unfold mapTouch
  cases hf : mapFind k m with
  | some _ => rfl
  | none =>
    simp only
    unfold mapGet
    rw [mapFind_mapInsert]
    by_cases h : k = u
    · rw [if_pos h, ← h, hf]
      rfl
    · rw [if_neg h]

theorem reachable_of_closed (adj : List (Int × List Edge)) (start : Int) (S : List Int)
    (hs : start ∈ S) (hclosed : ∀ u ∈ S, ∀ w, HasEdge adj u w → w ∈ S) (v : Int)
    (h : Reachable adj start v) : v ∈ S := by
  induction h with
  | refl => exact hs
  | tail _ hbc ih => exact hclosed _ ih _ hbc

theorem map_message_finalize (self : Graph) (adj : List (Int × List Edge))
    (states : List AlgorithmState) :
    (finalize self adj states).states.map AlgorithmState.message =
      states.map AlgorithmState.message := by
  simp [finalize, List.map_map, Function.comp_def]

theorem bfsPush_fold (current : Int) (l : List Edge) :
    ∀ (V Q : List Int) (T : List (Int × Int)), ∃ N : List Int,
      (l.foldl (bfsPush current) (V, Q, T)).1 = N.reverse ++ V ∧
      (l.foldl (bfsPush current) (V, Q, T)).2.1 = Q ++ N ∧
      N.Nodup ∧ (∀ x ∈ N, x ∉ V ∧ ∃ e ∈ l, e.target = x) ∧
      ∀ e ∈ l, e.target ∈ (l.foldl (bfsPush current) (V, Q, T)).1 := by
  induction l with
  | nil =>
    intro V Q T
    exact ⟨[], by simp, by simp, List.nodup_nil, by simp, by simp⟩
  | cons e l ih =>
    intro V Q T
    simp only [List.foldl_cons]
    by_cases hv : e.target ∈ V
    · have e1 : bfsPush current (V, Q, T) e = (V, Q, T) := by
        unfold bfsPush
        rw [if_pos hv]
      rw [e1]
      obtain ⟨N, h1, h2, h3, h4, h5⟩ := ih V Q T
      refine ⟨N, h1, h2, h3, ?_, ?_⟩
      · intro x hx
        obtain ⟨a, e0, he0, b⟩ := h4 x hx
        exact ⟨a, e0, List.mem_cons_of_mem _ he0, b⟩
      · intro e0 he0
        rcases List.mem_cons.mp he0 with h | h
        · rw [h, h1]
          exact List.mem_append_right _ hv
        · exact h5 e0 h
    · have e1 : bfsPush current (V, Q, T) e =
          (e.target :: V, Q ++ [e.target], T ++ [(current, e.target)]) := by
        unfold bfsPush
        rw [if_neg hv]
      rw [e1]
      obtain ⟨N, h1, h2, h3, h4, h5⟩ := ih (e.target :: V) (Q ++ [e.target])
        (T ++ [(current, e.target)])
      refine ⟨e.target :: N, ?_, ?_, ?_, ?_, ?_⟩
      · rw [h1]
        simp
      · rw [h2]
        simp
      · refine List.nodup_cons.mpr ⟨?_, h3⟩
        intro hmem
        exact (h4 _ hmem).1 (List.mem_cons_self _ _)
      · intro x hx
        rcases List.mem_cons.mp hx with h | h
        · rw [h]
          exact ⟨hv, e, List.mem_cons_self _ _, rfl⟩
        · obtain ⟨a, e0, he0, b⟩ := h4 x h
          exact ⟨fun hxV => a (List.mem_cons_of_mem _ hxV), e0, List.mem_cons_of_mem _ he0, b⟩
      · intro e0 he0
        rcases List.mem_cons.mp he0 with h | h
        · rw [h, h1]
          exact List.mem_append_right _ (List.mem_cons_self _ _)
        · exact h5 e0 h

end GraphCpp

namespace GraphCpp

theorem bfsBody_inv (adj : List (Int × List Edge)) (start : Int) (opening : String)
    (initialState : AlgorithmState) (t : BfsVars) (h : BfsInv adj start opening t)
    (hc : bfsCond t = true) : BfsInv adj start opening (bfsBody initialState t) := by
  obtain ⟨done, ha, hb, hnd, hreach, hclosed, hstart, hmsg⟩ := h
  unfold bfsBody
  cases hs : t.nodeQueue with
  | nil => simp [bfsCond, hs] at hc
  | cons current rest =>
    simp only
    rw [hs] at hb
    obtain ⟨N, h1, h2, h3, h4, h5⟩ := bfsPush_fold current (mapGet t.adjacencyList current [])
      t.visited rest t.traversalEdges
    have hcur : current ∈ t.visited := by
      rw [← List.mem_reverse, hb]
      simp
    refine ⟨done ++ [current], ?_, ?_, ?_, ?_, ?_, ?_, ?_⟩
    · intro u
      rw [mapGet_mapTouch]
      exact ha u
    · rw [h1, h2, List.reverse_append, List.reverse_reverse, hb]
      simp
    · rw [h1]
      refine List.Nodup.append (List.nodup_reverse.mpr h3) hnd ?_
      intro x hx hxv
      exact (h4 x (List.mem_reverse.mp hx)).1 hxv
    · intro v hv
      rw [h1] at hv
      rcases List.mem_append.mp hv with hv | hv
      · obtain ⟨_, e, he, het⟩ := h4 v (List.mem_reverse.mp hv)
        rw [ha current] at he
        exact Relation.ReflTransGen.tail (hreach current hcur) ⟨e, he, het⟩
      · exact hreach v hv
    · intro u hu w hw
      rcases List.mem_append.mp hu with hu | hu
      · rw [h1]
        exact List.mem_append_right _ (hclosed u hu w hw)
      · rw [List.mem_singleton] at hu
        subst hu
        obtain ⟨e, he, het⟩ := hw
        rw [← ha u] at he
        rw [← het]
        exact h5 e he
    · rw [h1]
      exact List.mem_append_right _ hstart
    · rw [List.map_append, hmsg]
      simp [visitState]

theorem length_traversalMessages (opening closing : String) (visits : List Int) :
    (traversalMessages opening visits closing).length = visits.length + 2 := by
  simp [traversalMessages]

/-- C15: for every graph and every start node, the `breadthFirstSearch` trace consists of
the opening snapshot, one `"Visiting node v"` snapshot per entry of a list `visits`, and
the closing snapshot, where `visits` has no repetition and contains exactly the nodes
reachable from the start node; so the trace has (number of reachable nodes + 2)
snapshots.  On the demo graph from node 0 the visits are 0, 1, 2, 3, 4, 5, each once. -/
theorem breadthFirstSearch_visits_reachable_once (self : Graph) (startNode : Int) :
    (∃ g1 visits, self.breadthFirstSearch startNode = some g1 ∧
      g1.states.map AlgorithmState.message =
        traversalMessages ("Starting BFS from node " ++ toString startNode) visits
          "BFS traversal complete" ∧
      visits.Nodup ∧ (∀ v, v ∈ visits ↔ Reachable self.adjacencyList startNode v) ∧
      g1.states.length = visits.length + 2) ∧
    (∃ g1, ({} : Graph).createDemoGraph.breadthFirstSearch 0 = some g1 ∧
      g1.states.map AlgorithmState.message =
        traversalMessages "Starting BFS from node 0" [0, 1, 2, 3, 4, 5]
          "BFS traversal complete") := by
  constructor
  · unfold Graph.breadthFirstSearch
    simp only
    obtain ⟨r, hr⟩ := bfsLoop_terminates
      (createInitialState self.adjacencyList ("Starting BFS from node " ++ toString startNode))
      (edgeEntryCount self.adjacencyList + 1)
      { adjacencyList := self.adjacencyList, visited := [startNode],
        nodeQueue := [startNode], traversalEdges := [],
        states := [createInitialState self.adjacencyList
          ("Starting BFS from node " ++ toString startNode)] }
      (by
        have := unvisitedTargets_le self.adjacencyList [startNode]
        simp only [List.length_singleton]
        omega)
    have hinv := whileLoop_invariant bfsCond (bfsBody _)
      (BfsInv self.adjacencyList startNode ("Starting BFS from node " ++ toString startNode))
      (fun t ht hc => bfsBody_inv _ _ _ _ t ht hc) _ _ r
      ⟨[], fun _ => rfl, by simp, by simp, fun v hv => by
          rw [List.mem_singleton] at hv
          rw [hv]
          exact Relation.ReflTransGen.refl,
        by simp, by simp, by simp [createInitialState]⟩ hr
    rw [hr]
    obtain ⟨⟨done, ha, hb, hnd, hreach, hclosed, hstart, hmsg⟩, hcond⟩ := hinv
    have hq : r.nodeQueue = [] := by
      simpa [bfsCond] using hcond
    rw [hq, List.append_nil] at hb
    have hmem : ∀ v, v ∈ done ↔ v ∈ r.visited := by
      intro v
      rw [← hb, List.mem_reverse]
    have hmsgs : (finalize self r.adjacencyList
        (r.states ++ [finalState r.states "BFS traversal complete"])).states.map
          AlgorithmState.message =
        traversalMessages ("Starting BFS from node " ++ toString startNode) done
          "BFS traversal complete" := by
      rw [map_message_finalize, List.map_append, hmsg]
      simp [traversalMessages, finalState]
    refine ⟨_, done, rfl, hmsgs, ?_, ?_, ?_⟩
    · rw [← hb]
      exact List.nodup_reverse.mpr hnd
    · intro v
      constructor
      · intro hv
        exact hreach v ((hmem v).mp hv)
      · intro hv
        exact reachable_of_closed self.adjacencyList startNode done ((hmem _).mpr hstart)
          (fun u hu w hw => (hmem w).mpr (hclosed u hu w hw)) v hv
    · have := congrArg List.length hmsgs
      rw [List.length_map, length_traversalMessages] at this
      exact this
  · exact ⟨_, rfl, by rfl⟩

end GraphCpp

namespace GraphCpp

theorem dfsPush_fold (visited : List Int) (current : Int) (l : List Edge) :
    ∀ (S : List Int) (T : List (Int × Int)) (x : Int),
      x ∈ (l.foldl (dfsPush visited current) (S, T)).1 ↔
        x ∈ S ∨ ∃ e ∈ l, e.target = x ∧ x ∉ visited := by
  induction l with
  | nil =>
    intro S T x
    simp
  | cons e l ih =>
    intro S T x
    simp only [List.foldl_cons]
    by_cases hv : e.target ∈ visited
    · have e1 : dfsPush visited current (S, T) e = (S, T) := by
        unfold dfsPush
        rw [if_pos hv]
      rw [e1, ih]
      constructor
      · rintro (h | ⟨e0, he0, h1, h2⟩)
        · exact Or.inl h
        · exact Or.inr ⟨e0, List.mem_cons_of_mem _ he0, h1, h2⟩
      · rintro (h | ⟨e0, he0, h1, h2⟩)
        · exact Or.inl h
        · rcases List.mem_cons.mp he0 with h | h
          · subst h
            rw [h1] at hv
            exact absurd hv h2
          · exact Or.inr ⟨e0, h, h1, h2⟩
    · have e1 : dfsPush visited current (S, T) e =
          (e.target :: S, T ++ [(current, e.target)]) := by
        unfold dfsPush
        rw [if_neg hv]
      rw [e1, ih]
      constructor
      · rintro (h | ⟨e0, he0, h1, h2⟩)
        · rcases List.mem_cons.mp h with h | h
          · exact Or.inr ⟨e, List.mem_cons_self _ _, h.symm, by rw [h]; exact hv⟩
          · exact Or.inl h
        · exact Or.inr ⟨e0, List.mem_cons_of_mem _ he0, h1, h2⟩
      · rintro (h | ⟨e0, he0, h1, h2⟩)
        · exact Or.inl (List.mem_cons_of_mem _ h)
        · rcases List.mem_cons.mp he0 with h | h
          · subst h
            exact Or.inl (by rw [h1]; exact List.mem_cons_self _ _)
          · exact Or.inr ⟨e0, h, h1, h2⟩

theorem dfsBody_inv (adj : List (Int × List Edge)) (start : Int) (opening : String)
    (initialState : AlgorithmState) (t : DfsVars) (h : DfsInv adj start opening t)
    (hc : dfsCond t = true) : DfsInv adj start opening (dfsBody initialState t) := by
  obtain ⟨ha, hnd, hreach, hstack, hclosed, hstart, hmsg⟩ := h
  unfold dfsBody
  cases hs : t.nodeStack with
  | nil => simp [dfsCond, hs] at hc
  | cons current rest =>
    simp only
    rw [hs] at hstack hclosed hstart
    by_cases hv : current ∈ t.visited
    · rw [if_pos hv]
      refine ⟨ha, hnd, hreach, fun v hv1 => hstack v (List.mem_cons_of_mem _ hv1), ?_, ?_, hmsg⟩
      · intro u hu w hw
        rcases hclosed u hu w hw with h | h
        · exact Or.inl h
        · rcases List.mem_cons.mp h with h | h
          · exact Or.inl (by rw [h]; exact hv)
          · exact Or.inr h
      · rcases hstart with h | h
        · exact Or.inl h
        · rcases List.mem_cons.mp h with h | h
          · exact Or.inl (by rw [h]; exact hv)
          · exact Or.inr h
    · rw [if_neg hv]
      have hfold := dfsPush_fold (current :: t.visited) current
        (mapGet t.adjacencyList current []).reverse rest t.traversalEdges
      have hcur : Reachable adj start current := hstack current (List.mem_cons_self _ _)
      refine ⟨?_, ?_, ?_, ?_, ?_, ?_, ?_⟩
      · intro u
        rw [mapGet_mapTouch]
        exact ha u
      · exact List.nodup_cons.mpr ⟨hv, hnd⟩
      · intro v hv1
        rcases List.mem_cons.mp hv1 with h | h
        · rw [h]
          exact hcur
        · exact hreach v h
      · intro v hv1
        rcases (hfold v).mp hv1 with h | ⟨e, he, h1, _⟩
        · exact hstack v (List.mem_cons_of_mem _ h)
        · rw [List.mem_reverse, ha current] at he
          exact Relation.ReflTransGen.tail hcur ⟨e, he, h1⟩
      · intro u hu w hw
        by_cases hwv : w ∈ current :: t.visited
        · exact Or.inl hwv
        · refine Or.inr ((hfold w).mpr ?_)
          rcases List.mem_cons.mp hu with h | h
          · subst h
            obtain ⟨e, he, het⟩ := hw
            rw [← ha u] at he
            exact Or.inr ⟨e, List.mem_reverse.mpr he, het, hwv⟩
          · rcases hclosed u h w hw with h2 | h2
            · exact absurd (List.mem_cons_of_mem _ h2) hwv
            · rcases List.mem_cons.mp h2 with h3 | h3
              · exact absurd (by rw [h3]; exact List.mem_cons_self _ _) hwv
              · exact Or.inl h3
      · rcases hstart with h | h
        · exact Or.inl (List.mem_cons_of_mem _ h)
        · rcases List.mem_cons.mp h with h | h
          · exact Or.inl (by rw [h]; exact List.mem_cons_self _ _)
          · exact Or.inr ((hfold start).mpr (Or.inl h))
      · rw [List.map_append, hmsg]
        simp [visitState]

/-- C16: for every graph and every start node, the `depthFirstSearch` trace consists of
the opening snapshot, one `"Visiting node v"` snapshot per entry of a list `visits`, and
the closing snapshot, where `visits` has no repetition (however often a node was pushed)
and contains exactly the nodes reachable from the start node; so the trace has (number of
reachable nodes + 2) snapshots.  On the demo graph from node 0 the visits are
0, 1, 2, 3, 4, 5, each once. -/
theorem depthFirstSearch_visits_reachable_once (self : Graph) (startNode : Int) :
    (∃ g1 visits, self.depthFirstSearch startNode = some g1 ∧
      g1.states.map AlgorithmState.message =
        traversalMessages ("Starting DFS from node " ++ toString startNode) visits
          "DFS traversal complete" ∧
      visits.Nodup ∧ (∀ v, v ∈ visits ↔ Reachable self.adjacencyList startNode v) ∧
      g1.states.length = visits.length + 2) ∧
    (∃ g1, ({} : Graph).createDemoGraph.depthFirstSearch 0 = some g1 ∧
      g1.states.map AlgorithmState.message =
        traversalMessages "Starting DFS from node 0" [0, 1, 2, 3, 4, 5]
          "DFS traversal complete") := by
  constructor
  · unfold Graph.depthFirstSearch
    simp only
    obtain ⟨r, hr⟩ := dfsLoop_terminates
      (createInitialState self.adjacencyList ("Starting DFS from node " ++ toString startNode))
      (edgeEntryCount self.adjacencyList + 1)
      { adjacencyList := self.adjacencyList, visited := [], nodeStack := [startNode],
        traversalEdges := [],
        states := [createInitialState self.adjacencyList
          ("Starting DFS from node " ++ toString startNode)] }
      (by simp only [unvisitedWeight_nil, List.length_singleton]; omega)
    have hinv := whileLoop_invariant dfsCond (dfsBody _)
      (DfsInv self.adjacencyList startNode ("Starting DFS from node " ++ toString startNode))
      (fun t ht hc => dfsBody_inv _ _ _ _ t ht hc) _ _ r
      ⟨fun _ => rfl, by simp, by simp, fun v hv => by
          rw [List.mem_singleton] at hv
          rw [hv]
          exact Relation.ReflTransGen.refl,
        by simp, by simp, by simp [createInitialState]⟩ hr
    rw [hr]
    obtain ⟨⟨ha, hnd, hreach, hstack, hclosed, hstart, hmsg⟩, hcond⟩ := hinv
    have hq : r.nodeStack = [] := by
      simpa [dfsCond] using hcond
    rw [hq] at hclosed hstart
    have hmsgs : (finalize self r.adjacencyList
        (r.states ++ [finalState r.states "DFS traversal complete"])).states.map
          AlgorithmState.message =
        traversalMessages ("Starting DFS from node " ++ toString startNode) r.visited.reverse
          "DFS traversal complete" := by
      rw [map_message_finalize, List.map_append, hmsg]
      simp [traversalMessages, finalState]
    refine ⟨_, r.visited.reverse, rfl, hmsgs, List.nodup_reverse.mpr hnd, ?_, ?_⟩
    · intro v
      rw [List.mem_reverse]
      constructor
      · intro hv
        exact hreach v hv
      · intro hv
        refine reachable_of_closed self.adjacencyList startNode r.visited ?_ ?_ v hv
        · rcases hstart with h | h
          · exact h
          · simp at h
        · intro u hu w hw
          rcases hclosed u hu w hw with h | h
          · exact h
          · simp at h
    · have := congrArg List.length hmsgs
      rw [List.length_map, length_traversalMessages] at this
      exact this
  · exact ⟨_, rfl, by rfl⟩

end GraphCpp

/-! ### Repeated step access, the demo graph guard, short arrays -/

/-- C25: in each of the four families, for every object and every index (in range or
not), a second `getStep(index)` right after a first one returns the same snapshot, the
object is unchanged by the calls and `getStepCount()` is the same before and after. -/
theorem getStep_idempotent (dp : DpCpp.DynamicProgramming)
    (sorting : SortCpp.SortingAlgorithms) (graph : GraphCpp.Graph)
    (bst : TreeCpp.BinarySearchTree) (index : Int) :
    (((dp.getStepCall index).1.getStepCall index).2 = (dp.getStepCall index).2 ∧
      ((dp.getStepCall index).1.getStepCall index).1 = dp ∧
      ((dp.getStepCall index).1.getStepCall index).1.getStepCount = dp.getStepCount) ∧
    (((sorting.getStepCall index).1.getStepCall index).2 = (sorting.getStepCall index).2 ∧
      ((sorting.getStepCall index).1.getStepCall index).1 = sorting ∧
      ((sorting.getStepCall index).1.getStepCall index).1.getStepCount =
        sorting.getStepCount) ∧
    (((graph.getStepCall index).1.getStepCall index).2 = (graph.getStepCall index).2 ∧
      ((graph.getStepCall index).1.getStepCall index).1 = graph ∧
      ((graph.getStepCall index).1.getStepCall index).1.getStepCount =
        graph.getStepCount) ∧
    (((bst.getStepCall index).1.getStepCall index).2 = (bst.getStepCall index).2 ∧
      ((bst.getStepCall index).1.getStepCall index).1 = bst ∧
      ((bst.getStepCall index).1.getStepCall index).1.getStepCount = bst.getStepCount) := by
  refine ⟨⟨?_, ?_, ?_⟩, ⟨?_, ?_, ?_⟩, ⟨?_, ?_, ?_⟩, ⟨?_, ?_, ?_⟩⟩ <;>
    simp only [DpCpp.DynamicProgramming.getStepCall, SortCpp.SortingAlgorithms.getStepCall,
      GraphCpp.Graph.getStepCall, TreeCpp.BinarySearchTree.getStepCall]

namespace GraphCpp

/-- The guard of `performGraphOperation` tests the step count, not the graph: applied to an
object that holds a graph of two nodes joined by one edge of weight 7 and no trace, a state
the global graph never takes (see `GlobalGraph`), the function installs the six-node demo
graph and returns the 8 snapshots of the demo traversal, where the traversal of the
two-node graph has 4.  Once a trace is stored the graph is kept. -/
theorem performGraphOperation_replaces_built_graph :
    ((({} : Graph).addNode.1.addNode.1.addEdge 0 1 7).adjacencyList.map Prod.fst = [0, 1]) ∧
    ((({} : Graph).addNode.1.addNode.1.addEdge 0 1 7).breadthFirstSearch 0).map
      Graph.getStepCount = some 4 ∧
    (performGraphOperation (({} : Graph).addNode.1.addNode.1.addEdge 0 1 7) 1 0).map
      Prod.fst = some 8 ∧
    (performGraphOperation (({} : Graph).addNode.1.addNode.1.addEdge 0 1 7) 1 0).map
      (fun r => r.2.adjacencyList) = some ({} : Graph).createDemoGraph.adjacencyList ∧
    ((performGraphOperation (({} : Graph).addNode.1.addNode.1.addEdge 0 1 7) 1 0).bind
      (fun r => performGraphOperation
        ((r.2.addNode.1.addEdge 0 6 1)) 1 0)).map
      (fun r => r.2.adjacencyList.map Prod.fst) = some [0, 1, 2, 3, 4, 5, 6] := by
  refine ⟨by decide, by rfl, by rfl, by rfl, by rfl⟩

end GraphCpp

namespace SortCpp

/-- C24 as stated fails for `heapSort`: on the empty array its trace has 4 snapshots, not
2. -/
theorem heapSort_empty_has_four_snapshots :
    (({} : SortingAlgorithms).heapSort []).map (fun r => r.1.states.length) = some 4 ∧
    (({} : SortingAlgorithms).heapSort [7]).map (fun r => r.1.states.map
      AlgorithmState.message) = some ["Initial array for HeapSort",
        "Building heap (rearranging array)", "Heap built successfully",
        "Array sorted with HeapSort"] := by
  refine ⟨by rfl, by rfl⟩

theorem heapSortSteps_single (x : Int) (states : List AlgorithmState) :
    heapSortSteps [x] states =
      some ([x], pushState (pushState states "Building heap (rearranging array)"
        (createArrayVisualization [x] (-1) (-1) false)) "Heap built successfully"
        (createArrayVisualization [x] (-1) (-1) false)) := by
  have e1 : ((([x] : List Int).length : Int) / 2).toNat = 0 := by
    simp only [List.length_singleton]
    decide
  have e2 : ((([x] : List Int).length : Int) - 1).toNat = 0 := by
    simp only [List.length_singleton]
    decide
  unfold heapSortSteps
  simp only [e1, e2, forDownLoop]

/-- C24 (amended): for every array of length 0 or 1 the three sorts accept the input;
`quickSort` and `mergeSort` record exactly the initial and the final snapshot, `heapSort`
records these two and between them its two phase snapshots `"Building heap ..."` and
`"Heap built successfully"`; no snapshot is a comparison (nothing is highlighted or
flagged as swapping), every snapshot shows the unchanged input, and the array is returned
unchanged. -/
theorem short_array_traces (self : SortingAlgorithms) (arr : List Int)
    (h : arr.length ≤ 1) :
    (∃ r, self.quickSort arr = some r ∧ r.2 = arr ∧
      r.1.states.map AlgorithmState.message =
        ["Initial array for QuickSort", "Array sorted with QuickSort"] ∧
      r.1.states.map AlgorithmState.elements =
        List.replicate 2 (createArrayVisualization arr (-1) (-1) false)) ∧
    (∃ r, self.mergeSort arr = some r ∧ r.2 = arr ∧
      r.1.states.map AlgorithmState.message =
        ["Initial array for MergeSort", "Array sorted with MergeSort"] ∧
      r.1.states.map AlgorithmState.elements =
        List.replicate 2 (createArrayVisualization arr (-1) (-1) false)) ∧
    (∃ r, self.heapSort arr = some r ∧ r.2 = arr ∧
      r.1.states.map AlgorithmState.message =
        ["Initial array for HeapSort", "Building heap (rearranging array)",
          "Heap built successfully", "Array sorted with HeapSort"] ∧
      r.1.states.map AlgorithmState.elements =
        List.replicate 4 (createArrayVisualization arr (-1) (-1) false)) ∧
    (∀ e ∈ createArrayVisualization arr (-1) (-1) false,
      e.highlighted = false ∧ e.swapping = false) ∧
    (createArrayVisualization arr (-1) (-1) false).map ArrayElement.value = arr := by
  have hcases : arr = [] ∨ ∃ x, arr = [x] := by
    match arr, h with
    | [], _ => exact Or.inl rfl
    | [x], _ => exact Or.inr ⟨x, rfl⟩
    | _ :: _ :: _, h => simp at h
  rcases hcases with h0 | ⟨x, h1⟩
  · subst h0
    exact ⟨⟨_, rfl, rfl, rfl, rfl⟩, ⟨_, rfl, rfl, rfl, rfl⟩, ⟨_, rfl, rfl, rfl, rfl⟩,
      by simp [createArrayVisualization, createArrayVisualizationFrom], rfl⟩
  · subst h1
    refine ⟨⟨_, rfl, rfl, rfl, rfl⟩, ⟨_, rfl, rfl, rfl, rfl⟩, ?_, ?_, rfl⟩
    · unfold SortingAlgorithms.heapSort
      simp only [heapSortSteps_single, Option.map_some']
      exact ⟨_, rfl, rfl, rfl, rfl⟩
    · simp [createArrayVisualization, createArrayVisualizationFrom]

/-- Instance of C24 (amended) at the one-element array `[7]`. -/
theorem short_array_traces_witness :
    (∃ r, ({} : SortingAlgorithms).quickSort [7] = some r ∧ r.2 = [7] ∧
      r.1.states.map AlgorithmState.message =
        ["Initial array for QuickSort", "Array sorted with QuickSort"] ∧
      r.1.states.map AlgorithmState.elements =
        List.replicate 2 (createArrayVisualization [7] (-1) (-1) false)) ∧
    (∃ r, ({} : SortingAlgorithms).mergeSort [7] = some r ∧ r.2 = [7] ∧
      r.1.states.map AlgorithmState.message =
        ["Initial array for MergeSort", "Array sorted with MergeSort"] ∧
      r.1.states.map AlgorithmState.elements =
        List.replicate 2 (createArrayVisualization [7] (-1) (-1) false)) ∧
    (∃ r, ({} : SortingAlgorithms).heapSort [7] = some r ∧ r.2 = [7] ∧
      r.1.states.map AlgorithmState.message =
        ["Initial array for HeapSort", "Building heap (rearranging array)",
          "Heap built successfully", "Array sorted with HeapSort"] ∧
      r.1.states.map AlgorithmState.elements =
        List.replicate 4 (createArrayVisualization [7] (-1) (-1) false)) ∧
    (∀ e ∈ createArrayVisualization [7] (-1) (-1) false,
      e.highlighted = false ∧ e.swapping = false) ∧
    (createArrayVisualization [7] (-1) (-1) false).map ArrayElement.value = [7] :=
  short_array_traces {} [7] (by decide)

end SortCpp

/-! ### Building graphs: `addEdge` and symmetry -/

namespace GraphCpp

theorem mapGet_mapInsert {β : Type} (k u : Int) (x d : β) (m : List (Int × β)) :
    mapGet (mapInsert k x m) u d = if k = u then x else mapGet m u d := by
  unfold mapGet
  rw [mapFind_mapInsert]
  by_cases h : k = u
  · simp only [h, if_true, Option.getD_some]
  · simp only [h, if_false]

theorem addEdge_of_nodes (g : Graph) (s t w : Int) (hs : IsNode g.adjacencyList s)
    (ht : IsNode g.adjacencyList t) :
    (g.addEdge s t w).adjacencyList =
      mapInsert t
        (mapGet (mapInsert s (mapGet g.adjacencyList s [] ++ [{ target := t, weight := w }])
          g.adjacencyList) t [] ++ [{ target := s, weight := w }])
        (mapInsert s (mapGet g.adjacencyList s [] ++ [{ target := t, weight := w }])
          g.adjacencyList) := by
  unfold IsNode at hs ht
  unfold Graph.addEdge
  rw [if_pos ⟨hs, ht⟩]

theorem addEdge_lists (g : Graph) (s t w : Int) (hs : IsNode g.adjacencyList s)
    (ht : IsNode g.adjacencyList t) (u : Int) :
    mapGet (g.addEdge s t w).adjacencyList u [] =
      mapGet g.adjacencyList u [] ++ (if u = s then [{ target := t, weight := w }] else []) ++
        (if u = t then [{ target := s, weight := w }] else []) := by
  rw [addEdge_of_nodes g s t w hs ht]
  simp only [mapGet_mapInsert]
  by_cases h1 : t = u
  · by_cases h2 : s = u
    · subst h1
      subst h2
      simp
    · subst h1
      have h3 : ¬ t = s := fun e => h2 e.symm
      simp [h2, h3]
  · by_cases h2 : s = u
    · subst h2
      have h3 : ¬ s = t := fun e => h1 e.symm
      simp [h1, h3]
    · have h3 : ¬ u = s := fun e => h2 e.symm
      have h4 : ¬ u = t := fun e => h1 e.symm
      simp [h1, h2, h3, h4]

theorem addEdge_nodes (g : Graph) (s t w : Int) (u : Int) :
    IsNode (g.addEdge s t w).adjacencyList u ↔ IsNode g.adjacencyList u := by
  by_cases hc : IsNode g.adjacencyList s ∧ IsNode g.adjacencyList t
  · rw [addEdge_of_nodes g s t w hc.1 hc.2]
    unfold IsNode at hc ⊢
    simp only [mapFind_mapInsert]
    by_cases h1 : t = u
    · subst h1
      simp [hc.2]
    · by_cases h2 : s = u
      · subst h2
        simp [h1, hc.1]
      · simp [h1, h2]
  · unfold Graph.addEdge
    unfold IsNode at hc
    rw [if_neg hc]

theorem addEdge_unchanged (g : Graph) (s t w : Int)
    (h : ¬ (IsNode g.adjacencyList s ∧ IsNode g.adjacencyList t)) : g.addEdge s t w = g := by
  unfold Graph.addEdge
  unfold IsNode at h
  rw [if_neg h]

theorem addNode_lists (g : Graph) (h : ∀ u, IsNode g.adjacencyList u → u < g.nextNodeId)
    (u : Int) : mapGet g.addNode.1.adjacencyList u [] = mapGet g.adjacencyList u [] := by
  unfold Graph.addNode
  simp only [mapGet_mapInsert]
  by_cases e : g.nextNodeId = u
  · rw [if_pos e]
    have hno : ¬ IsNode g.adjacencyList u := by
      intro hu
      have := h u hu
      omega
    unfold IsNode at hno
    unfold mapGet
    cases hf : mapFind u g.adjacencyList with
    | none => rfl
    | some x => simp [hf] at hno
  · rw [if_neg e]

theorem addNode_nodes (g : Graph) (u : Int) :
    IsNode g.addNode.1.adjacencyList u ↔ (u = g.nextNodeId ∨ IsNode g.adjacencyList u) := by
  unfold Graph.addNode IsNode
  simp only [mapFind_mapInsert]
  by_cases e : g.nextNodeId = u
  · simp [e]
  · have e2 : ¬ u = g.nextNodeId := fun h => e h.symm
    simp [e, e2]

theorem buildGraph_snoc (ops : List BuildOp) (op : BuildOp) :
    buildGraph (ops ++ [op]) = (buildGraph ops).applyOp op := by
  simp [buildGraph, List.foldl_append]

theorem buildGraph_nodes_below (ops : List BuildOp) :
    ∀ u, IsNode (buildGraph ops).adjacencyList u → u < (buildGraph ops).nextNodeId := by
  induction ops using List.reverseRecOn with
  | nil =>
    intro u hu
    simp [buildGraph, IsNode, mapFind] at hu
  | append_singleton ops op ih =>
    intro u hu
    rw [buildGraph_snoc] at hu ⊢
    cases op with
    | addNode =>
      simp only [Graph.applyOp] at hu ⊢
      rcases (addNode_nodes _ u).mp hu with h | h
      · rw [h]
        simp [Graph.addNode]
      · have := ih u h
        simp only [Graph.addNode]
        omega
    | addEdge s t w =>
      simp only [Graph.applyOp] at hu ⊢
      have h1 := ih u ((addEdge_nodes _ s t w u).mp hu)
      have h2 : ((buildGraph ops).addEdge s t w).nextNodeId = (buildGraph ops).nextNodeId := by
        unfold Graph.addEdge
        split_ifs <;> rfl
      rw [h2]
      exact h1

theorem buildGraph_symmetric (ops : List BuildOp) (u v w : Int) :
    (mapGet (buildGraph ops).adjacencyList u []).count { target := v, weight := w } =
      (mapGet (buildGraph ops).adjacencyList v []).count { target := u, weight := w } := by
  induction ops using List.reverseRecOn generalizing u v w with
  | nil => simp [buildGraph, mapGet, mapFind]
  | append_singleton ops op ih =>
    rw [buildGraph_snoc]
    cases op with
    | addNode =>
      simp only [Graph.applyOp]
      rw [addNode_lists _ (buildGraph_nodes_below ops), addNode_lists _
        (buildGraph_nodes_below ops)]
      exact ih u v w
    | addEdge s t w1 =>
      simp only [Graph.applyOp]
      by_cases hc : IsNode (buildGraph ops).adjacencyList s ∧
          IsNode (buildGraph ops).adjacencyList t
      · rw [addEdge_lists _ s t w1 hc.1 hc.2, addEdge_lists _ s t w1 hc.1 hc.2]
        simp only [List.count_append, ih u v w]
        have key : ∀ (a b c d : Int),
            (if a = b then [({ target := c, weight := w1 } : Edge)] else []).count
              { target := d, weight := w } =
            if a = b ∧ c = d ∧ w1 = w then 1 else 0 := by
          intro a b c d
          by_cases h1 : a = b
          · by_cases h2 : c = d ∧ w1 = w
            · simp [h1, h2.1, h2.2]
            · rw [if_pos h1, if_neg (fun h => h2 h.2)]
              have hne : ({ target := c, weight := w1 } : Edge) ≠ { target := d, weight := w } := by
                intro hb
                simp only [Edge.mk.injEq] at hb
                exact h2 hb
              exact List.count_eq_zero.mpr (by simpa using hne.symm)
          · simp [h1]
        rw [key u s t v, key u t s v, key v s t u, key v t s u]
        have e1 : (u = s ∧ t = v ∧ w1 = w) ↔ (v = t ∧ s = u ∧ w1 = w) := by
          constructor <;> rintro ⟨a, b, c⟩ <;> exact ⟨b.symm, a.symm, c⟩
        have e2 : (u = t ∧ s = v ∧ w1 = w) ↔ (v = s ∧ t = u ∧ w1 = w) := by
          constructor <;> rintro ⟨a, b, c⟩ <;> exact ⟨b.symm, a.symm, c⟩
        simp only [e1, e2]
        omega
      · rw [addEdge_unchanged _ s t w1 hc]
        exact ih u v w

end GraphCpp

namespace GraphCpp

/-- C22: for every graph and all `s`, `t`, `w`: when `s` and `t` are both existing nodes,
`addEdge(s, t, w)` appends one entry `(t, w)` at the end of the adjacency list of `s` and
one entry `(s, w)` at the end of that of `t`, every other list, the set of nodes and the
other members stay as they were; when `s` or `t` is not an existing node the graph is
unchanged.  Hence in every graph built from the empty one by `addNode`/`addEdge` calls the
entry `(u -> v, w)` occurs as often as `(v -> u, w)`. -/
theorem addEdge_appends_both_directions (g : Graph) (s t w : Int) :
    (IsNode g.adjacencyList s ∧ IsNode g.adjacencyList t →
      (∀ u, mapGet (g.addEdge s t w).adjacencyList u [] =
        mapGet g.adjacencyList u [] ++
          (if u = s then [{ target := t, weight := w }] else []) ++
          (if u = t then [{ target := s, weight := w }] else [])) ∧
      (∀ u, IsNode (g.addEdge s t w).adjacencyList u ↔ IsNode g.adjacencyList u) ∧
      (g.addEdge s t w).nextNodeId = g.nextNodeId ∧
      (g.addEdge s t w).states = g.states ∧
      (g.addEdge s t w).currentStep = g.currentStep ∧
      (g.addEdge s t w).totalSteps = g.totalSteps) ∧
    (¬ (IsNode g.adjacencyList s ∧ IsNode g.adjacencyList t) → g.addEdge s t w = g) ∧
    (∀ (ops : List BuildOp) (u v x : Int),
      (mapGet (buildGraph ops).adjacencyList u []).count { target := v, weight := x } =
        (mapGet (buildGraph ops).adjacencyList v []).count { target := u, weight := x }) := by
  refine ⟨?_, addEdge_unchanged g s t w, buildGraph_symmetric⟩
  intro hc
  refine ⟨addEdge_lists g s t w hc.1 hc.2, addEdge_nodes g s t w, ?_, ?_, ?_, ?_⟩ <;>
    · unfold Graph.addEdge
      split_ifs <;> rfl

/-- Instance of C22: on the graph with nodes 0 and 1, `addEdge(0, 1, 7)` gives node 0 the
list `[(1, 7)]` and node 1 the list `[(0, 7)]`, and `addEdge(0, 5, 7)` changes nothing. -/
theorem addEdge_appends_both_directions_witness :
    mapGet ((buildGraph [BuildOp.addNode, BuildOp.addNode]).addEdge 0 1 7).adjacencyList 0 [] =
      [{ target := 1, weight := 7 }] ∧
    mapGet ((buildGraph [BuildOp.addNode, BuildOp.addNode]).addEdge 0 1 7).adjacencyList 1 [] =
      [{ target := 0, weight := 7 }] ∧
    (buildGraph [BuildOp.addNode, BuildOp.addNode]).addEdge 0 5 7 =
      buildGraph [BuildOp.addNode, BuildOp.addNode] :=
  ⟨((addEdge_appends_both_directions (buildGraph [BuildOp.addNode, BuildOp.addNode]) 0 1 7).1
      ⟨rfl, rfl⟩).1 0,
    ((addEdge_appends_both_directions (buildGraph [BuildOp.addNode, BuildOp.addNode]) 0 1 7).1
      ⟨rfl, rfl⟩).1 1,
    (addEdge_appends_both_directions (buildGraph [BuildOp.addNode, BuildOp.addNode]) 0 5 7).2.1
      (fun h => absurd (show false = true from h.2) (by decide))⟩

end GraphCpp

/-! ### One snapshot per computed cell in the DP traces -/

namespace DpCpp

theorem createArrayFrom_highlight (hi : Int) (l : List Int) :
    ∀ i : Int, ((createArrayFrom hi l i).filter (fun c => c.highlighted)).map CellPosition.id =
      if i ≤ hi ∧ hi < i + l.length then [hi] else [] := by
  induction l with
  | nil =>
    intro i
    have : ¬ (i ≤ hi ∧ hi < i + (([] : List Int).length : Int)) := by
      simp only [List.length_nil]
      omega
    rw [if_neg this]
    rfl
  | cons v rest ih =>
    intro i
    unfold createArrayFrom
    rw [List.filter_cons]
    by_cases e : i = hi
    · subst e
      have h1 : ¬ (i + 1 ≤ i ∧ i < i + 1 + (rest.length : Int)) := by omega
      simp only [beq_self_eq_true, if_true, List.map_cons, ih, if_neg h1]
      rw [if_pos (by simp only [List.length_cons]; push_cast; omega)]
    · have hb : (i == hi) = false := by simpa using e
      simp only [hb, Bool.false_eq_true, if_false, ih]
      by_cases h2 : i + 1 ≤ hi ∧ hi < i + 1 + (rest.length : Int)
      · rw [if_pos h2, if_pos (by simp only [List.length_cons]; push_cast; omega)]
      · rw [if_neg h2, if_neg (by simp only [List.length_cons]; push_cast; omega)]

theorem createArray_highlight (l : List Int) (hi : Int) (h0 : 0 ≤ hi)
    (h1 : hi < (l.length : Int)) :
    ((createArray l hi).filter (fun c => c.highlighted)).map CellPosition.id = [hi] := by
  unfold createArray
  rw [createArrayFrom_highlight, if_pos (by omega)]

theorem createArray_no_highlight (l : List Int) :
    ((createArray l (-1)).filter (fun c => c.highlighted)).map CellPosition.id = [] := by
  unfold createArray
  rw [createArrayFrom_highlight, if_neg (by omega)]

theorem createGridCells_highlight (hr hc i : Int) (row : List Int) :
    ∀ j id : Int,
      ((createGridCells hr hc i row j id).filter (fun c => c.highlighted)).map
          CellPosition.id =
        if i = hr ∧ j ≤ hc ∧ hc < j + row.length then [id + (hc - j)] else [] := by
  induction row with
  | nil =>
    intro j id
    have : ¬ (i = hr ∧ j ≤ hc ∧ hc < j + (([] : List Int).length : Int)) := by
      simp only [List.length_nil]
      omega
    rw [if_neg this]
    rfl
  | cons v rest ih =>
    intro j id
    unfold createGridCells
    rw [List.filter_cons]
    by_cases e : i = hr ∧ j = hc
    · obtain ⟨e1, e2⟩ := e
      subst e1
      subst e2
      have hp : True ∧ j ≤ j ∧ j < j + (((v :: rest).length : Nat) : Int) := by
        refine ⟨trivial, le_refl _, ?_⟩
        simp only [List.length_cons]
        push_cast
        omega
      have hq : ¬ (True ∧ j + 1 ≤ j ∧ j < j + 1 + (rest.length : Int)) := fun h => by omega
      simp only [beq_self_eq_true, Bool.and_self, if_true, List.map_cons, ih]
      rw [if_pos hp, if_neg hq]
      simp
    · have hb : (i == hr && j == hc) = false := by
        simp only [Bool.and_eq_false_iff, beq_eq_false_iff_ne, ne_eq]
        by_cases e1 : i = hr
        · exact Or.inr (fun e2 => e ⟨e1, e2⟩)
        · exact Or.inl e1
      simp only [hb, Bool.false_eq_true, if_false, ih]
      by_cases h2 : i = hr ∧ j + 1 ≤ hc ∧ hc < j + 1 + (rest.length : Int)
      · rw [if_pos h2, if_pos (by simp only [List.length_cons]; push_cast; omega)]
        congr 1
        omega
      · rw [if_neg h2, if_neg (by
          simp only [List.length_cons]
          push_cast
          intro h3
          apply h2
          refine ⟨h3.1, ?_, by omega⟩
          by_contra h4
          exact e ⟨h3.1, by omega⟩)]

theorem createGridRows_highlight (hr hc : Int) (cols : Nat) (rows : List (List Int))
    (hrows : ∀ row ∈ rows, row.length = cols) :
    ∀ i id : Int,
      ((createGridRows hr hc rows i id).filter (fun c => c.highlighted)).map
          CellPosition.id =
        if i ≤ hr ∧ hr < i + rows.length ∧ 0 ≤ hc ∧ hc < cols then
          [id + (hr - i) * cols + hc] else [] := by
  induction rows with
  | nil =>
    intro i id
    have : ¬ (i ≤ hr ∧ hr < i + (([] : List (List Int)).length : Int) ∧ 0 ≤ hc ∧
        hc < (cols : Int)) := by
      simp only [List.length_nil]
      omega
    rw [if_neg this]
    rfl
  | cons row rest ih =>
    intro i id
    unfold createGridRows
    have hlen : row.length = cols := hrows row (List.mem_cons_self _ _)
    rw [List.filter_append, List.map_append, createGridCells_highlight,
      ih (fun r hr1 => hrows r (List.mem_cons_of_mem _ hr1)), hlen]
    by_cases e : i = hr
    · subst e
      have h1 : ¬ (i + 1 ≤ i ∧ i < i + 1 + (rest.length : Int) ∧ 0 ≤ hc ∧ hc < (cols : Int)) := by
        omega
      rw [if_neg h1, List.append_nil]
      by_cases h2 : 0 ≤ hc ∧ hc < (cols : Int)
      · rw [if_pos ⟨rfl, by omega, by omega⟩,
          if_pos ⟨le_refl _, by simp only [List.length_cons]; push_cast; omega, h2.1, h2.2⟩]
        congr 1
        ring
      · rw [if_neg (fun h => h2 ⟨by omega, by omega⟩), if_neg (fun h => h2 ⟨h.2.2.1, h.2.2.2⟩)]
    · rw [if_neg (fun h => e h.1), List.nil_append]
      by_cases h2 : i + 1 ≤ hr ∧ hr < i + 1 + (rest.length : Int) ∧ 0 ≤ hc ∧ hc < (cols : Int)
      · rw [if_pos h2, if_pos ⟨by omega, by simp only [List.length_cons]; push_cast; omega,
          h2.2.2.1, h2.2.2.2⟩]
        congr 1
        ring
      · rw [if_neg h2, if_neg (by
          simp only [List.length_cons]
          push_cast
          intro h3
          exact h2 ⟨by omega, by omega, h3.2.2.1, h3.2.2.2⟩)]

theorem createGrid_highlight (dp : List (List Int)) (rows cols : Nat)
    (hd : TableDims dp rows cols) (i j : Int) (hi0 : 0 ≤ i) (hi1 : i < (rows : Int))
    (hj0 : 0 ≤ j) (hj1 : j < (cols : Int)) :
    ((createGrid dp i j).filter (fun c => c.highlighted)).map CellPosition.id =
      [i * (cols : Int) + j] := by
  unfold createGrid
  rw [createGridRows_highlight i j cols dp hd.2, if_pos ⟨hi0, by rw [hd.1]; omega, hj0, hj1⟩]
  congr 1
  ring

theorem createGrid_no_highlight (dp : List (List Int)) (rows cols : Nat)
    (hd : TableDims dp rows cols) :
    ((createGrid dp (-1) (-1)).filter (fun c => c.highlighted)).map CellPosition.id = [] := by
  unfold createGrid
  rw [createGridRows_highlight (-1) (-1) cols dp hd.2, if_neg (by omega)]

end DpCpp

namespace DpCpp

theorem row_trace (body : Int → List (List Int) × List AlgorithmState →
      List (List Int) × List AlgorithmState) (rows width : Nat) (i : Int) (cnt : Nat) :
    ∀ (a : Nat) (s : List (List Int) × List AlgorithmState),
      (∀ (j : Int) t, (a : Int) ≤ j → j < (a : Int) + cnt → TableDims t.1 rows width →
        TableDims (body j t).1 rows width ∧
          (body j t).2.map highlightedIds = t.2.map highlightedIds ++ [[i * width + j]]) →
      TableDims s.1 rows width →
      TableDims (forLoop body cnt (a : Int) s).1 rows width ∧
        (forLoop body cnt (a : Int) s).2.map highlightedIds =
          s.2.map highlightedIds ++
            (List.range cnt).map (fun (c : Nat) => [i * (width : Int) + ((a : Int) + (c : Int))]) := by
  induction cnt with
  | zero =>
    intro a s _ hd
    exact ⟨hd, by simp [forLoop]⟩
  | succ cnt ih =>
    intro a s hstep hd
    have h1 := hstep (a : Int) s (le_refl _) (by push_cast; omega) hd
    have h2 := ih (a + 1) (body (a : Int) s)
      (fun j t hj1 hj2 ht => hstep j t (by push_cast at hj1; omega)
        (by push_cast at hj2 ⊢; omega) ht) h1.1
    have e : ((a + 1 : Nat) : Int) = (a : Int) + 1 := by push_cast; rfl
    rw [e] at h2
    simp only [forLoop]
    refine ⟨h2.1, ?_⟩
    rw [h2.2, h1.2, List.range_succ_eq_map, List.map_cons, List.map_map, List.append_assoc]
    congr 1
    simp only [List.singleton_append, Nat.cast_zero, add_zero, List.cons.injEq, true_and]
    apply List.map_congr_left
    intro c _
    simp only [Function.comp, Nat.succ_eq_add_one]
    push_cast
    congr 2
    ring

theorem table_trace (rowBody : Int → List (List Int) × List AlgorithmState →
      List (List Int) × List AlgorithmState) (rows width firstCol cols : Nat) (cnt : Nat) :
    ∀ (b : Nat) (s : List (List Int) × List AlgorithmState),
      (∀ (i : Int) t, (b : Int) + 1 ≤ i → i < (b : Int) + 1 + cnt →
        TableDims t.1 rows width →
        TableDims (rowBody i t).1 rows width ∧
          (rowBody i t).2.map highlightedIds = t.2.map highlightedIds ++
            (List.range cols).map (fun (c : Nat) => [i * (width : Int) + ((firstCol : Int) + (c : Int))])) →
      TableDims s.1 rows width →
      TableDims (forLoop rowBody cnt ((b : Int) + 1) s).1 rows width ∧
        (forLoop rowBody cnt ((b : Int) + 1) s).2.map highlightedIds =
          s.2.map highlightedIds ++
            (List.range cnt).flatMap (fun (r : Nat) => (List.range cols).map (fun (c : Nat) =>
              [(((b + r : Nat) : Int) + 1) * (width : Int) + ((firstCol : Int) + (c : Int))])) := by
  induction cnt with
  | zero =>
    intro b s _ hd
    exact ⟨hd, by simp [forLoop]⟩
  | succ cnt ih =>
    intro b s hstep hd
    have h1 := hstep ((b : Int) + 1) s (le_refl _) (by push_cast; omega) hd
    have h2 := ih (b + 1) (rowBody ((b : Int) + 1) s)
      (fun i t hi1 hi2 ht => hstep i t (by push_cast at hi1; omega)
        (by push_cast at hi2 ⊢; omega) ht) h1.1
    have e : ((b + 1 : Nat) : Int) + 1 = (b : Int) + 1 + 1 := by push_cast; rfl
    rw [e] at h2
    simp only [forLoop]
    refine ⟨h2.1, ?_⟩
    rw [h2.2, h1.2, List.range_succ_eq_map, List.flatMap_cons, List.flatMap_map,
      List.append_assoc]
    have hf : (fun (r : Nat) => (List.range cols).map (fun (c : Nat) =>
          [(((b + 1 + r : Nat) : Int) + 1) * (width : Int) + ((firstCol : Int) + (c : Int))])) =
        (fun (r : Nat) => (List.range cols).map (fun (c : Nat) =>
          [(((b + r : Nat) : Int) + 1) * (width : Int) + ((firstCol : Int) + (c : Int))])) ∘
          Nat.succ := by
      funext r
      simp only [Function.comp, Nat.succ_eq_add_one]
      have e3 : b + 1 + r = b + (r + 1) := by omega
      rw [e3]
    rw [hf]
    simp [Function.comp_def]

theorem perCellHighlights_length (rows width firstCol cols : Nat) :
    (perCellHighlights rows width firstCol cols).length = rows * cols := by
  unfold perCellHighlights
  induction rows with
  | zero => simp
  | succ n ih =>
    rw [List.range_succ, List.flatMap_append, List.length_append, ih]
    simp
    ring

end DpCpp

namespace DpCpp

theorem highlightedIds_finalize (states : List AlgorithmState) :
    (finalize states).states.map highlightedIds = states.map highlightedIds := by
  simp [finalize, List.map_map, Function.comp_def, highlightedIds]

theorem fibonacci_fill_trace (n : Nat) (initialState : AlgorithmState) (cnt : Nat) :
    ∀ (a : Int) (s : List Int × List AlgorithmState), 0 ≤ a →
      (cnt ≠ 0 → a + cnt ≤ n + 1) → s.1.length = n + 1 →
      (forLoop (fibonacciBody initialState) cnt a s).1.length = n + 1 ∧
        (forLoop (fibonacciBody initialState) cnt a s).2.map highlightedIds =
          s.2.map highlightedIds ++ (List.range cnt).map (fun (c : Nat) => [(c : Int) + a]) := by
  induction cnt with
  | zero =>
    intro a s _ _ hl
    exact ⟨hl, by simp [forLoop]⟩
  | succ cnt ih =>
    intro a s h0 ha0 hl
    have ha := ha0 (by omega)
    have hlen : (fibonacciBody initialState a s).1.length = n + 1 := by
      simp only [fibonacciBody, length_setAt]
      exact hl
    have h2 := ih (a + 1) (fibonacciBody initialState a s) (by omega)
      (fun _ => by push_cast at ha ⊢; omega) hlen
    simp only [forLoop]
    refine ⟨h2.1, ?_⟩
    rw [h2.2]
    have hcell : (fibonacciBody initialState a s).2.map highlightedIds =
        s.2.map highlightedIds ++ [[a]] := by
      simp only [fibonacciBody, List.map_append, List.map_cons, List.map_nil, highlightedIds]
      rw [createArray_highlight _ _ h0 (by rw [length_setAt, hl]; push_cast at ha ⊢; omega)]
    rw [hcell, List.range_succ_eq_map, List.map_cons, List.map_map, List.append_assoc]
    simp only [List.singleton_append, Nat.cast_zero, zero_add, Function.comp_def,
      Nat.succ_eq_add_one, Nat.cast_add, Nat.cast_one]
    congr 2
    refine List.map_congr_left (fun c _ => ?_)
    congr 1
    ring

theorem fibonacci_highlights (dp : DynamicProgramming) (n : Nat) :
    (dp.fibonacci n).states.map highlightedIds =
      [[]] ++ (List.range (n - 1)).map (fun (k : Nat) => [(k : Int) + 2]) ++ [[(n : Int)]] := by
  unfold DynamicProgramming.fibonacci
  simp only
  rw [highlightedIds_finalize, List.map_append]
  obtain ⟨h1, h2⟩ := fibonacci_fill_trace n
    { message := "Calculating Fibonacci(" ++ toString n ++ ") using Dynamic Programming",
      step := 1,
      cells := createArray (if n ≥ 1 then setAt (List.replicate (n + 1) (0 : Int)) 1 1
        else List.replicate (n + 1) 0) (-1) }
    (n - 1) 2
    (if n ≥ 1 then setAt (List.replicate (n + 1) (0 : Int)) 1 1 else List.replicate (n + 1) 0,
      [{ message := "Calculating Fibonacci(" ++ toString n ++ ") using Dynamic Programming",
         step := 1,
         cells := createArray (if n ≥ 1 then setAt (List.replicate (n + 1) (0 : Int)) 1 1
           else List.replicate (n + 1) 0) (-1) }])
    (by omega) (fun _ => by omega) (by split_ifs <;> simp [length_setAt])
  rw [h2]
  simp only [List.map_cons, List.map_nil, highlightedIds, createArray_no_highlight]
  rw [createArray_highlight _ _ (by omega) (by rw [h1]; push_cast; omega)]

theorem knapsackBody_trace (values weights : List Int) (initialState : AlgorithmState)
    (rows width : Nat) (i w : Int) (t : List (List Int) × List AlgorithmState)
    (hi0 : 0 ≤ i) (hi1 : i < (rows : Int)) (hw0 : 0 ≤ w) (hw1 : w < (width : Int))
    (hd : TableDims t.1 rows width) :
    TableDims (knapsackBody values weights initialState i w t).1 rows width ∧
      (knapsackBody values weights initialState i w t).2.map highlightedIds =
        t.2.map highlightedIds ++ [[i * (width : Int) + w]] := by
  unfold knapsackBody
  simp only [List.map_append, List.map_cons, List.map_nil, highlightedIds]
  split_ifs
  · have hdim := setCell_dims t.1 rows width hd i w (getCell t.1 (i - 1) w) hi0 hi1
    exact ⟨hdim, by rw [createGrid_highlight _ rows width hdim i w hi0 hi1 hw0 hw1]⟩
  · have hdim := setCell_dims t.1 rows width hd i w
      (max (getCell t.1 (i - 1) w)
        (wrapInt32 (getAt values (i - 1) 0 + getCell t.1 (i - 1) (w - getAt weights (i - 1) 0))))
      hi0 hi1
    exact ⟨hdim, by rw [createGrid_highlight _ rows width hdim i w hi0 hi1 hw0 hw1]⟩

theorem lcsBody_trace (str1 str2 : CppString) (initialState : AlgorithmState)
    (rows width : Nat) (i j : Int) (t : List (List Int) × List AlgorithmState)
    (hi0 : 0 ≤ i) (hi1 : i < (rows : Int)) (hj0 : 0 ≤ j) (hj1 : j < (width : Int))
    (hd : TableDims t.1 rows width) :
    TableDims (lcsBody str1 str2 initialState i j t).1 rows width ∧
      (lcsBody str1 str2 initialState i j t).2.map highlightedIds =
        t.2.map highlightedIds ++ [[i * (width : Int) + j]] := by
  unfold lcsBody
  simp only [List.map_append, List.map_cons, List.map_nil, highlightedIds]
  split_ifs
  · have hdim := setCell_dims t.1 rows width hd i j
      (wrapInt32 (getCell t.1 (i - 1) (j - 1) + 1)) hi0 hi1
    exact ⟨hdim, by rw [createGrid_highlight _ rows width hdim i j hi0 hi1 hj0 hj1]⟩
  · have hdim := setCell_dims t.1 rows width hd i j
      (max (getCell t.1 (i - 1) j) (getCell t.1 i (j - 1))) hi0 hi1
    exact ⟨hdim, by rw [createGrid_highlight _ rows width hdim i j hi0 hi1 hj0 hj1]⟩

theorem tableDims_replicate (rows cols : Nat) :
    TableDims (List.replicate rows (List.replicate cols (0 : Int))) rows cols :=
  ⟨by simp, fun row hrow => by rw [List.eq_of_mem_replicate hrow]; simp⟩

theorem knapsack_fill_trace (values weights : List Int) (capacity : Nat)
    (initialState : AlgorithmState) (s : List (List Int) × List AlgorithmState)
    (hd : TableDims s.1 (values.length + 1) (capacity + 1)) :
    TableDims (forLoop (knapsackRow values weights capacity initialState) values.length 1 s).1
        (values.length + 1) (capacity + 1) ∧
      (forLoop (knapsackRow values weights capacity initialState) values.length 1 s).2.map
          highlightedIds =
        s.2.map highlightedIds ++
          perCellHighlights values.length (capacity + 1) 0 (capacity + 1) := by
  have h := table_trace (knapsackRow values weights capacity initialState)
    (values.length + 1) (capacity + 1) 0 (capacity + 1) values.length 0 s
    (fun i t hi1 hi2 ht => by
      have hr := row_trace (knapsackBody values weights initialState i)
        (values.length + 1) (capacity + 1) i (capacity + 1) 0 t
        (fun w u hw1 hw2 hu => knapsackBody_trace values weights initialState _ _ i w u
          (by push_cast at hi1; omega) (by push_cast at hi1 hi2 ⊢; omega)
          (by push_cast at hw1; omega) (by push_cast at hw1 hw2 ⊢; omega) hu) ht
      simpa [knapsackRow] using hr) hd
  simpa [perCellHighlights] using h

theorem lcs_fill_trace (str1 str2 : CppString) (initialState : AlgorithmState)
    (s : List (List Int) × List AlgorithmState)
    (hd : TableDims s.1 (str1.length + 1) (str2.length + 1)) :
    TableDims (forLoop (lcsRow str1 str2 initialState) str1.length 1 s).1
        (str1.length + 1) (str2.length + 1) ∧
      (forLoop (lcsRow str1 str2 initialState) str1.length 1 s).2.map highlightedIds =
        s.2.map highlightedIds ++
          perCellHighlights str1.length (str2.length + 1) 1 str2.length := by
  have h := table_trace (lcsRow str1 str2 initialState)
    (str1.length + 1) (str2.length + 1) 1 str2.length str1.length 0 s
    (fun i t hi1 hi2 ht => by
      have hr := row_trace (lcsBody str1 str2 initialState i)
        (str1.length + 1) (str2.length + 1) i str2.length 1 t
        (fun j u hj1 hj2 hu => lcsBody_trace str1 str2 initialState _ _ i j u
          (by push_cast at hi1; omega) (by push_cast at hi1 hi2 ⊢; omega)
          (by push_cast at hj1; omega) (by push_cast at hj1 hj2 ⊢; omega) hu) ht
      simpa [lcsRow] using hr) hd
  simpa [perCellHighlights] using h

end DpCpp

namespace DpCpp

theorem knapsack_highlights (dp : DynamicProgramming) (values weights : List Int)
    (capacity : Nat) (h1 : values ≠ []) (h2 : values.length = weights.length) :
    (dp.knapsack values weights capacity).states.map highlightedIds =
      [[]] ++ perCellHighlights values.length (capacity + 1) 0 (capacity + 1) ++ [[]] := by
  have hw : weights ≠ [] := by
    intro e
    rw [e] at h2
    exact h1 (List.length_eq_zero.mp h2)
  have hc : (values.isEmpty || weights.isEmpty || values.length != weights.length) = false := by
    simp [h1, hw, h2]
  simp only [DynamicProgramming.knapsack, hc]
  simp only [Bool.false_eq_true, if_false]
  rw [highlightedIds_finalize, List.map_append]
  obtain ⟨hd, ht⟩ := knapsack_fill_trace values weights capacity
    { message := "Solving 0-1 Knapsack Problem with " ++ toString values.length ++
        " items and capacity " ++ toString capacity ++ ("\n" ++
          (forLoop (itemsInfoBody values weights (values.length : Int)) values.length 0
            "Items: [" ++ "]")),
      step := 1,
      cells := createGrid (List.replicate (values.length + 1)
        (List.replicate (capacity + 1) 0)) (-1) (-1) }
    (List.replicate (values.length + 1) (List.replicate (capacity + 1) 0),
      [{ message := "Solving 0-1 Knapsack Problem with " ++ toString values.length ++
           " items and capacity " ++ toString capacity ++ ("\n" ++
             (forLoop (itemsInfoBody values weights (values.length : Int)) values.length 0
               "Items: [" ++ "]")),
         step := 1,
         cells := createGrid (List.replicate (values.length + 1)
           (List.replicate (capacity + 1) 0)) (-1) (-1) }])
    (tableDims_replicate _ _)
  rw [ht]
  simp only [List.map_cons, List.map_nil, highlightedIds]
  rw [createGrid_no_highlight _ _ _ hd, createGrid_no_highlight _ _ _ (tableDims_replicate _ _)]

theorem lcs_highlights (dp : DynamicProgramming) (str1 str2 : CppString)
    (h1 : str1 ≠ []) (h2 : str2 ≠ []) :
    ∃ dp1, dp.longestCommonSubsequence str1 str2 = some dp1 ∧
      dp1.states.map highlightedIds =
        [[]] ++ perCellHighlights str1.length (str2.length + 1) 1 str2.length ++ [[]] := by
  have e1 : str1 ≠ [] := h1
  have e2 : str2 ≠ [] := h2
  have hc : (str1.isEmpty || str2.isEmpty) = false := by simp [e1, e2]
  simp only [DynamicProgramming.longestCommonSubsequence, hc]
  obtain ⟨hd, ht⟩ := lcs_fill_trace str1 str2
    { message := "Finding Longest Common Subsequence of \"" ++ showString str1 ++ "\" and \"" ++
        showString str2 ++ "\"",
      step := 1,
      cells := createGrid (List.replicate (str1.length + 1)
        (List.replicate (str2.length + 1) 0)) (-1) (-1) }
    (List.replicate (str1.length + 1) (List.replicate (str2.length + 1) 0),
      [{ message := "Finding Longest Common Subsequence of \"" ++ showString str1 ++ "\" and \"" ++
           showString str2 ++ "\"",
         step := 1,
         cells := createGrid (List.replicate (str1.length + 1)
           (List.replicate (str2.length + 1) 0)) (-1) (-1) }])
    (tableDims_replicate _ _)
  obtain ⟨walk, hw⟩ := lcsWalk_terminates str1 str2
    (forLoop (lcsRow str1 str2
      { message := "Finding Longest Common Subsequence of \"" ++ showString str1 ++ "\" and \"" ++
          showString str2 ++ "\"",
        step := 1,
        cells := createGrid (List.replicate (str1.length + 1)
          (List.replicate (str2.length + 1) 0)) (-1) (-1) })
      str1.length 1 (List.replicate (str1.length + 1)
          (List.replicate (str2.length + 1) 0), [_])).1
    (str1.length + str2.length)
    { i := (str1.length : Int), j := (str2.length : Int), lcs := [] }
    (by simp only; omega)
  simp only [Bool.false_eq_true, if_false]
  rw [hw]
  refine ⟨_, rfl, ?_⟩
  rw [highlightedIds_finalize, List.map_append, ht]
  simp only [List.map_cons, List.map_nil, highlightedIds]
  rw [createGrid_no_highlight _ _ _ hd, createGrid_no_highlight _ _ _ (tableDims_replicate _ _)]

/-- C29: the DP drivers record one snapshot per computed cell between the initial and the
final snapshot, and each per-cell snapshot highlights exactly the cell just computed:
`fibonacci(n)` highlights the cells `2 .. n` in turn (then cell `n` in the final
snapshot), which gives `n + 1` snapshots for `n >= 1` and 2 for `n = 0`; `knapsack` with
`k >= 1` items and capacity `C` highlights the cells `(i, w)`, `i = 1 .. k`,
`w = 0 .. C`, which gives `k * (C + 1) + 2` snapshots; `longestCommonSubsequence` on
strings of `m, n >= 1` bytes (the lengths `str1.length()`, `str2.length()` of the source)
highlights the cells `(i, j)`, `i = 1 .. m`, `j = 1 .. n`, which gives `m * n + 2`
snapshots. -/
theorem dp_one_snapshot_per_cell (dp : DynamicProgramming) :
    (∀ n : Nat,
      (dp.fibonacci n).states.map highlightedIds =
        [[]] ++ (List.range (n - 1)).map (fun (k : Nat) => [(k : Int) + 2]) ++ [[(n : Int)]] ∧
      (dp.fibonacci n).states.length = if n = 0 then 2 else n + 1) ∧
    (∀ (values weights : List Int) (capacity : Nat), values ≠ [] →
      values.length = weights.length →
      (dp.knapsack values weights capacity).states.map highlightedIds =
        [[]] ++ perCellHighlights values.length (capacity + 1) 0 (capacity + 1) ++ [[]] ∧
      (dp.knapsack values weights capacity).states.length =
        values.length * (capacity + 1) + 2) ∧
    (∀ str1 str2 : CppString, str1 ≠ [] → str2 ≠ [] →
      ∃ dp1, dp.longestCommonSubsequence str1 str2 = some dp1 ∧
        dp1.states.map highlightedIds =
          [[]] ++ perCellHighlights str1.length (str2.length + 1) 1 str2.length ++ [[]] ∧
        dp1.states.length = str1.length * str2.length + 2) := by
  refine ⟨?_, ?_, ?_⟩
  · intro n
    have h := fibonacci_highlights dp n
    refine ⟨h, ?_⟩
    have hl := congrArg List.length h
    simp only [List.length_map, List.length_append, List.length_singleton,
      List.length_range] at hl
    rw [hl]
    split_ifs <;> omega
  · intro values weights capacity h1 h2
    have h := knapsack_highlights dp values weights capacity h1 h2
    refine ⟨h, ?_⟩
    have hl := congrArg List.length h
    simp only [List.length_map, List.length_append, List.length_singleton,
      perCellHighlights_length] at hl
    rw [hl]
    omega
  · intro str1 str2 h1 h2
    obtain ⟨dp1, hrun, h⟩ := lcs_highlights dp str1 str2 h1 h2
    refine ⟨dp1, hrun, h, ?_⟩
    have hl := congrArg List.length h
    simp only [List.length_map, List.length_append, List.length_singleton,
      perCellHighlights_length] at hl
    rw [hl]
    omega

/-- Instance of C29 at the demo inputs: `fibonacci(10)` has 11 snapshots, the knapsack
demo with capacity 50 has `3 * 51 + 2`, the LCS demo has `7 * 6 + 2`, and the LCS run on
the UTF-8 strings of e-acute and e-grave (two bytes each) has `2 * 2 + 2`. -/
theorem dp_one_snapshot_per_cell_witness :
    (({} : DynamicProgramming).fibonacci 10).states.length = 11 ∧
    (({} : DynamicProgramming).knapsack [60, 100, 120] [10, 20, 30] 50).states.length =
      3 * (50 + 1) + 2 ∧
    (∃ dp1, ({} : DynamicProgramming).longestCommonSubsequence (cppString "ABCBDAB")
        (cppString "BDCABA") = some dp1 ∧
      dp1.states.map highlightedIds =
        [[]] ++ perCellHighlights 7 (6 + 1) 1 6 ++ [[]] ∧
      dp1.states.length = 7 * 6 + 2) ∧
    (∃ dp1, ({} : DynamicProgramming).longestCommonSubsequence (cppString "é")
        (cppString "è") = some dp1 ∧
      dp1.states.map highlightedIds = [[], [4], [5], [7], [8], []] ∧
      dp1.states.length = 6) :=
  ⟨((dp_one_snapshot_per_cell {}).1 10).2,
    ((dp_one_snapshot_per_cell {}).2.1 [60, 100, 120] [10, 20, 30] 50 (by decide) rfl).2,
    (dp_one_snapshot_per_cell {}).2.2 (cppString "ABCBDAB") (cppString "BDCABA") (by decide)
      (by decide),
    (dp_one_snapshot_per_cell {}).2.2 (cppString "é") (cppString "è") (by decide)
      (by decide)⟩

end DpCpp

/-! ### Layout of the final snapshot of an insertion -/

namespace TreeCpp

theorem mem_preorder (t : Node) (x : Int) : x ∈ Node.preorder t ↔ Node.Contains x t := by
  induction t with
  | null => simp [Node.preorder, Node.Contains]
  | mk data left right ihl ihr =>
    simp only [Node.preorder, Node.Contains, List.mem_cons, List.mem_append, ihl, ihr]

theorem preorder_nodup (t : Node) (h : Node.Ordered t) : (Node.preorder t).Nodup := by
  induction t with
  | null => exact List.nodup_nil
  | mk data left right ihl ihr =>
    obtain ⟨hl, hr, ol, orr⟩ := h
    simp only [Node.preorder]
    refine List.nodup_cons.mpr ⟨?_, List.Nodup.append (ihl ol) (ihr orr) ?_⟩
    · intro hm
      rcases List.mem_append.mp hm with hm | hm
      · have := hl data ((mem_preorder _ _).mp hm)
        omega
      · have := hr data ((mem_preorder _ _).mp hm)
        omega
    · intro x hx1 hx2
      have h1 := hl x ((mem_preorder _ _).mp hx1)
      have h2 := hr x ((mem_preorder _ _).mp hx2)
      omega

theorem pushChildEdge_spec (b c : Int) (child : Node) (s : LayoutVars)
    (h : ∀ x ∈ Node.preorder child,
      mapFind x s.positions = some (entityAt (Node.preorder child) c x)) :
    pushChildEdge b child s = { s with edges := s.edges ++ linkTo b c child } := by
  cases child with
  | null => simp [pushChildEdge, linkTo]
  | mk data left right =>
    have h1 := h data (by simp [Node.preorder])
    simp only [pushChildEdge, linkTo, mapGet, h1, Option.getD_some]
    simp [entityAt, Node.preorder]

theorem calculatePositions_spec (t : Node) (hd : (Node.preorder t).Nodup) :
    ∀ s : LayoutVars,
      (calculatePositions t s).nextId = s.nextId + ((Node.preorder t).length : Nat) ∧
      (calculatePositions t s).edges = s.edges ++ childLinks t s.nextId ∧
      ∀ x, mapFind x (calculatePositions t s).positions =
        if x ∈ Node.preorder t then some (entityAt (Node.preorder t) s.nextId x)
        else mapFind x s.positions := by
  induction t with
  | null =>
    intro s
    simp [calculatePositions, Node.preorder, childLinks]
  | mk data left right ihl ihr =>
    intro s
    simp only [Node.preorder] at hd
    obtain ⟨hdata, hlr⟩ := List.nodup_cons.mp hd
    have hL : (Node.preorder left).Nodup := (List.nodup_append.mp hlr).1
    have hR : (Node.preorder right).Nodup := (List.nodup_append.mp hlr).2.1
    have hdisj := (List.nodup_append.mp hlr).2.2
    obtain ⟨a1, a2, a3⟩ := ihl hL
      { s with nextId := s.nextId + 1,
               positions := mapInsert data
                 { id := s.nextId, value := data, highlighted := false } s.positions }
    have hpl := pushChildEdge_spec s.nextId (s.nextId + 1) left _ (fun x hx => by
      rw [a3 x, if_pos hx])
    obtain ⟨b1, b2, b3⟩ := ihr hR
      { calculatePositions left
          { s with nextId := s.nextId + 1,
                   positions := mapInsert data
                     { id := s.nextId, value := data, highlighted := false } s.positions } with
        edges := (calculatePositions left
          { s with nextId := s.nextId + 1,
                   positions := mapInsert data
                     { id := s.nextId, value := data, highlighted := false }
                     s.positions }).edges ++ linkTo s.nextId (s.nextId + 1) left }
    simp only at b1 b2 b3
    have hpr := pushChildEdge_spec s.nextId
      (calculatePositions left
        { s with nextId := s.nextId + 1,
                 positions := mapInsert data
                   { id := s.nextId, value := data, highlighted := false }
                   s.positions }).nextId right _ (fun x hx => by
      rw [b3 x, if_pos hx])
    unfold calculatePositions
    simp only
    rw [hpl, hpr]
    simp only
    refine ⟨?_, ?_, ?_⟩
    · rw [b1, a1]
      simp only [Node.preorder, List.length_cons, List.length_append]
      push_cast
      ring
    · rw [b2, a2, a1]
      simp only [childLinks, List.append_assoc]
    · intro x
      rw [b3 x, a3 x, a1]
      simp only [GraphCpp.mapFind_mapInsert, Node.preorder, List.mem_cons, List.mem_append]
      by_cases e : data = x
      · subst e
        have n1 : data ∉ Node.preorder left := fun h => hdata (List.mem_append_left _ h)
        have n2 : data ∉ Node.preorder right := fun h => hdata (List.mem_append_right _ h)
        simp [n1, n2, entityAt]
      · have e2 : ¬ x = data := fun h => e h.symm
        by_cases hr : x ∈ Node.preorder right
        · have hnl : x ∉ Node.preorder left := fun h => hdisj h hr
          simp only [hr, hnl, e, e2, if_true, or_true, false_or]
          simp only [entityAt, Option.some.injEq, NodePosition.mk.injEq, and_true]
          rw [List.indexOf_cons_ne _ e, List.indexOf_append_of_not_mem hnl]
          push_cast
          ring
        · by_cases hl : x ∈ Node.preorder left
          · simp only [hr, hl, e, e2, if_true, if_false, or_false, or_true, false_or]
            simp only [entityAt, Option.some.injEq, NodePosition.mk.injEq, and_true]
            rw [List.indexOf_cons_ne _ e, List.indexOf_append_of_mem hl]
            push_cast
            ring
          · simp only [hr, hl, e, e2, if_false, or_false]

theorem childLinks_length (t : Node) :
    ∀ b : Int, (childLinks t b).length = (Node.preorder t).length - 1 := by
  induction t with
  | null => intro b; simp [childLinks, Node.preorder]
  | mk data left right ihl ihr =>
    intro b
    simp only [childLinks, Node.preorder, List.length_append, List.length_cons, ihl, ihr]
    cases left <;> cases right <;> simp [linkTo, Node.preorder]

theorem mapFind_of_mem_sorted {β : Type} (m : List (Int × β))
    (hs : (m.map Prod.fst).Pairwise (fun a b => a < b)) (p : Int × β) (hp : p ∈ m) :
    mapFind p.1 m = some p.2 := by
  induction m with
  | nil => simp at hp
  | cons q rest ih =>
    obtain ⟨k1, v1⟩ := q
    simp only [List.map_cons, List.pairwise_cons] at hs
    rw [GraphCpp.mapFind_cons]
    rcases List.mem_cons.mp hp with h | h
    · rw [h, if_pos rfl]
    · have hlt := hs.1 p.1 (List.mem_map_of_mem _ h)
      rw [if_neg (by omega)]
      exact ih hs.2 h

end TreeCpp

namespace TreeCpp

theorem layout_entries (t : Node) (hd : (Node.preorder t).Nodup) :
    (∀ p ∈ (calculatePositions t { positions := [], nextId := 0, edges := [] }).positions,
      p.1 ∈ Node.preorder t ∧ p.2 = entityAt (Node.preorder t) 0 p.1) ∧
    (∀ x ∈ Node.preorder t, (x, entityAt (Node.preorder t) 0 x) ∈
      (calculatePositions t { positions := [], nextId := 0, edges := [] }).positions) ∧
    (calculatePositions t { positions := [], nextId := 0, edges := [] }).positions.length =
      (Node.preorder t).length ∧
    (calculatePositions t { positions := [], nextId := 0, edges := [] }).edges =
      childLinks t 0 := by
  obtain ⟨_, c2, c3⟩ := calculatePositions_spec t hd
    { positions := [], nextId := 0, edges := [] }
  have hok : LayoutOk (calculatePositions t
      { positions := [], nextId := 0, edges := [] }).positions :=
    calculatePositions_layoutOk _ _ ⟨by simp, by simp⟩
  have hfind : ∀ x, mapFind x (calculatePositions t
      { positions := [], nextId := 0, edges := [] }).positions =
      if x ∈ Node.preorder t then some (entityAt (Node.preorder t) 0 x) else none := by
    intro x
    rw [c3 x]
    rfl
  refine ⟨?_, ?_, ?_, by simpa using c2⟩
  · intro p hp
    have h1 := mapFind_of_mem_sorted _ hok.1 p hp
    rw [hfind] at h1
    by_cases hm : p.1 ∈ Node.preorder t
    · rw [if_pos hm] at h1
      exact ⟨hm, (Option.some.inj h1).symm⟩
    · rw [if_neg hm] at h1
      exact absurd h1 (by simp)
  · intro x hx
    have h1 := hfind x
    rw [if_pos hx] at h1
    exact GraphCpp.mapFind_mem x _ _ h1
  · have hk : ((calculatePositions t
        { positions := [], nextId := 0, edges := [] }).positions.map Prod.fst).Nodup :=
      hok.1.imp (fun h => ne_of_lt h)
    have hperm : ((calculatePositions t
        { positions := [], nextId := 0, edges := [] }).positions.map Prod.fst).Perm
        (Node.preorder t) := by
      refine (List.perm_ext_iff_of_nodup hk hd).mpr (fun x => ?_)
      rw [calculatePositions_keys, mem_preorder]
      simp
    have := hperm.length_eq
    rw [List.length_map] at this
    exact this

/-- C21: in the final snapshot of an insert trace on a search tree, the node entities and
edges come from one fresh traversal of the tree after the insertion.  With `k` the number
of values then in the tree (the old values and `v`): there are exactly `k` node
entities; the id of each is the pre-order position of its value (root 0, then the left
subtree, then the right subtree) and every position `0 .. k-1` is the id of a node
entity; and the edge entities are the `k - 1` pairs `(parent id, child id)` of the
parent-child links. -/
theorem insert_final_snapshot_layout (bst : BinarySearchTree) (v : Int)
    (h : Node.Ordered bst.root) :
    ∃ last, (bst.insert v).states.getLast? = some last ∧
      (∀ x, x ∈ Node.preorder (bst.insert v).root ↔ (x = v ∨ x ∈ Node.preorder bst.root)) ∧
      last.nodes.length = (Node.preorder (bst.insert v).root).length ∧
      (∀ e ∈ last.nodes, ∃ i : Nat, e.id = (i : Int) ∧
        (Node.preorder (bst.insert v).root)[i]? = some e.value) ∧
      (∀ i : Nat, i < (Node.preorder (bst.insert v).root).length →
        ∃ e ∈ last.nodes, e.id = (i : Int)) ∧
      last.edges = childLinks (bst.insert v).root 0 ∧
      last.edges.length = (Node.preorder (bst.insert v).root).length - 1 := by
  have hroot : (bst.insert v).root = (insertRecursive bst.root v []).1 := rfl
  have hord : Node.Ordered (insertRecursive bst.root v []).1 :=
    insertRecursive_ordered _ _ _ h
  have hd := preorder_nodup _ hord
  obtain ⟨l1, l2, l3, l4⟩ := layout_entries _ hd
  have hlast : ∃ last, (bst.insert v).states.getLast? = some last ∧
      last.nodes = (calculatePositions (insertRecursive bst.root v []).1
        { positions := [], nextId := 0, edges := [] }).positions.map (fun pair =>
          if pair.2.value = v then { pair.2 with highlighted := true } else pair.2) ∧
      last.edges = (calculatePositions (insertRecursive bst.root v []).1
        { positions := [], nextId := 0, edges := [] }).edges := by
    simp only [BinarySearchTree.insert, createInsertionStates, finalize, List.map_append,
      List.map_cons, List.map_nil, List.getLast?_concat]
    exact ⟨_, rfl, rfl, rfl⟩
  obtain ⟨last, hl1, hl2, hl3⟩ := hlast
  rw [hroot]
  refine ⟨last, hl1, ?_, ?_, ?_, ?_, ?_, ?_⟩
  · intro x
    rw [mem_preorder, mem_preorder, insertRecursive_contains]
  · rw [hl2, List.length_map, l3]
  · intro e he
    rw [hl2] at he
    obtain ⟨p, hp, hpe⟩ := List.mem_map.mp he
    obtain ⟨hm, hp2⟩ := l1 p hp
    refine ⟨List.indexOf p.1 (Node.preorder (insertRecursive bst.root v []).1), ?_, ?_⟩
    · rw [← hpe, hp2]
      split_ifs <;> simp [entityAt]
    · have hv : e.value = p.1 := by
        rw [← hpe, hp2]
        split_ifs <;> simp [entityAt]
      rw [hv, ← List.get?_eq_getElem?]
      exact List.indexOf_get? hm
  · intro i hi
    have hx : (Node.preorder (insertRecursive bst.root v []).1)[i] ∈
        Node.preorder (insertRecursive bst.root v []).1 := List.getElem_mem _
    have hmem := List.mem_map_of_mem (fun pair : Int × NodePosition =>
      if pair.2.value = v then { pair.2 with highlighted := true } else pair.2) (l2 _ hx)
    rw [← hl2] at hmem
    refine ⟨_, hmem, ?_⟩
    have hidx := List.indexOf_getElem hd i hi
    simp only
    split_ifs <;> simp [entityAt, hidx]
  · rw [hl3, l4]
  · rw [hl3, l4, childLinks_length]

/-- Instance of C21 on the tree built by inserting 50, 25, 75, then 15. -/
theorem insert_final_snapshot_layout_witness :
    ∃ last, ((insertAll [50, 25, 75]).insert 15).states.getLast? = some last ∧
      (∀ x, x ∈ Node.preorder ((insertAll [50, 25, 75]).insert 15).root ↔
        (x = 15 ∨ x ∈ Node.preorder (insertAll [50, 25, 75]).root)) ∧
      last.nodes.length = (Node.preorder ((insertAll [50, 25, 75]).insert 15).root).length ∧
      (∀ e ∈ last.nodes, ∃ i : Nat, e.id = (i : Int) ∧
        (Node.preorder ((insertAll [50, 25, 75]).insert 15).root)[i]? = some e.value) ∧
      (∀ i : Nat, i < (Node.preorder ((insertAll [50, 25, 75]).insert 15).root).length →
        ∃ e ∈ last.nodes, e.id = (i : Int)) ∧
      last.edges = childLinks ((insertAll [50, 25, 75]).insert 15).root 0 ∧
      last.edges.length = (Node.preorder ((insertAll [50, 25, 75]).insert 15).root).length - 1 :=
  insert_final_snapshot_layout (insertAll [50, 25, 75]) 15 (insertAll_root [50, 25, 75]).1

end TreeCpp

/-! ### The stack-based depth-first search follows the recursive one -/

namespace GraphCpp

theorem recDfs_mono (adj : List (Int × List Edge)) (todo visited result : List Int)
    (h : RecDfs adj todo visited result) : ∀ x ∈ visited, x ∈ result := by
  induction h with
  | done visited => exact fun x hx => hx
  | skip n rest visited result _ _ ih => exact ih
  | visit n rest visited mid result _ _ _ ih1 ih2 =>
    exact fun x hx => ih2 x (ih1 x (List.mem_append_left _ hx))

theorem recDfs_functional (adj : List (Int × List Edge)) (todo visited r1 r2 : List Int)
    (h1 : RecDfs adj todo visited r1) (h2 : RecDfs adj todo visited r2) : r1 = r2 := by
  induction h1 generalizing r2 with
  | done visited =>
    cases h2
    rfl
  | skip n rest visited result hn _ ih =>
    cases h2 with
    | skip _ _ _ _ _ h => exact ih _ h
    | visit _ _ _ mid _ hn2 _ _ => exact absurd hn hn2
  | visit n rest visited mid result hn _ _ ih1 ih2 =>
    cases h2 with
    | skip _ _ _ _ hn2 _ => exact absurd hn2 hn
    | visit _ _ _ mid2 _ _ ha hb =>
      have e := ih1 _ ha
      subst e
      exact ih2 _ hb

theorem recDfs_append_split (adj : List (Int × List Edge)) (A B : List Int) :
    ∀ (visited result : List Int), RecDfs adj (A ++ B) visited result →
      ∃ mid, RecDfs adj A visited mid ∧ RecDfs adj B mid result := by
  induction A with
  | nil =>
    intro visited result h
    exact ⟨visited, RecDfs.done visited, h⟩
  | cons a A ih =>
    intro visited result h
    rw [List.cons_append] at h
    cases h with
    | skip _ _ _ _ hn h1 =>
      obtain ⟨mid, m1, m2⟩ := ih visited result h1
      exact ⟨mid, RecDfs.skip a A visited mid hn m1, m2⟩
    | visit _ _ _ mid0 _ hn h1 h2 =>
      obtain ⟨mid, m1, m2⟩ := ih mid0 result h2
      exact ⟨mid, RecDfs.visit a A visited mid0 mid hn h1 m1, m2⟩

theorem recDfs_of_filter (adj : List (Int × List Edge)) (known : List Int) (L : List Int) :
    ∀ (visited result : List Int), (∀ x ∈ known, x ∈ visited) →
      RecDfs adj (L.filter (fun x => decide (x ∉ known))) visited result →
      RecDfs adj L visited result := by
  induction L with
  | nil =>
    intro visited result _ h
    exact h
  | cons x L ih =>
    intro visited result hk h
    by_cases hx : x ∈ known
    · have e : (x :: L).filter (fun y => decide (y ∉ known)) =
          L.filter (fun y => decide (y ∉ known)) := by
        rw [List.filter_cons]
        simp [hx]
      rw [e] at h
      exact RecDfs.skip x L visited result (hk x hx) (ih visited result hk h)
    · have e : (x :: L).filter (fun y => decide (y ∉ known)) =
          x :: L.filter (fun y => decide (y ∉ known)) := by
        rw [List.filter_cons]
        simp [hx]
      rw [e] at h
      cases h with
      | skip _ _ _ _ hn h1 =>
        exact RecDfs.skip x L visited result hn (ih visited result hk h1)
      | visit _ _ _ mid _ hn h1 h2 =>
        refine RecDfs.visit x L visited mid result hn h1 (ih mid result ?_ h2)
        intro y hy
        exact recDfs_mono adj _ _ _ h1 y (List.mem_append_left _ (hk y hy))

theorem dfsPush_stack (visited : List Int) (current : Int) (l : List Edge) :
    ∀ (S : List Int) (T : List (Int × Int)),
      (l.reverse.foldl (dfsPush visited current) (S, T)).1 =
        (l.map Edge.target).filter (fun x => decide (x ∉ visited)) ++ S := by
  induction l with
  | nil =>
    intro S T
    rfl
  | cons e l ih =>
    intro S T
    have e1 : ∀ X : List Int × List (Int × Int), (dfsPush visited current X e).1 =
        if e.target ∈ visited then X.1 else e.target :: X.1 := by
      intro X
      unfold dfsPush
      split_ifs <;> rfl
    rw [List.reverse_cons, List.foldl_append, List.foldl_cons, List.foldl_nil, List.map_cons,
      List.filter_cons, e1, ih]
    by_cases hv : e.target ∈ visited
    · simp [hv]
    · simp [hv]

theorem dfsLoop_follows_recDfs (adj : List (Int × List Edge)) (initialState : AlgorithmState)
    (fuel : Nat) :
    ∀ (s r : DfsVars), (∀ u, mapGet s.adjacencyList u [] = mapGet adj u []) →
      whileLoop dfsCond (dfsBody initialState) fuel s = some r →
      RecDfs adj s.nodeStack s.visited.reverse r.visited.reverse := by
  induction fuel with
  | zero =>
    intro s r _ h
    cases hs : s.nodeStack with
    | nil =>
      simp [whileLoop, dfsCond, hs] at h
      rw [h]
      exact RecDfs.done _
    | cons n rest => simp [whileLoop, dfsCond, hs] at h
  | succ fuel ih =>
    intro s r ha h
    cases hs : s.nodeStack with
    | nil =>
      simp [whileLoop, dfsCond, hs] at h
      rw [h]
      exact RecDfs.done _
    | cons n rest =>
      have hc : dfsCond s = true := by simp [dfsCond, hs]
      simp only [whileLoop, hc, if_true] at h
      by_cases hv : n ∈ s.visited
      · have hb : dfsBody initialState s = { s with nodeStack := rest } := by
          unfold dfsBody
          rw [hs]
          simp only
          rw [if_pos hv]
        rw [hb] at h
        have := ih { s with nodeStack := rest } r ha h
        exact RecDfs.skip n rest _ _ (List.mem_reverse.mpr hv) this
      · have hb : dfsBody initialState s =
            { adjacencyList := mapTouch s.adjacencyList n [],
              visited := n :: s.visited,
              nodeStack := ((mapGet s.adjacencyList n []).reverse.foldl
                (dfsPush (n :: s.visited) n) (rest, s.traversalEdges)).1,
              traversalEdges := ((mapGet s.adjacencyList n []).reverse.foldl
                (dfsPush (n :: s.visited) n) (rest, s.traversalEdges)).2,
              states := s.states ++ [visitState initialState s.states n s.traversalEdges] } := by
          unfold dfsBody
          rw [hs]
          simp only
          rw [if_neg hv]
        rw [hb] at h
        have h1 := ih _ r (fun u => by
          simp only
          rw [mapGet_mapTouch]
          exact ha u) h
        simp only [dfsPush_stack, List.reverse_cons] at h1
        rw [ha n] at h1
        obtain ⟨mid, m1, m2⟩ := recDfs_append_split adj _ _ _ _ h1
        have m3 := recDfs_of_filter adj (n :: s.visited) (neighbours adj n)
          (s.visited.reverse ++ [n]) mid (fun x hx => by
            rcases List.mem_cons.mp hx with e | e
            · rw [e]
              exact List.mem_append_right _ (List.mem_singleton_self _)
            · exact List.mem_append_left _ (List.mem_reverse.mpr e)) m1
        exact RecDfs.visit n rest _ mid _ (fun hm => hv (List.mem_reverse.mp hm)) m3 m2

end GraphCpp

namespace GraphCpp

theorem dfsLoop_result (self : Graph) (startNode : Int) :
    ∃ r, whileLoop dfsCond
        (dfsBody (createInitialState self.adjacencyList
          ("Starting DFS from node " ++ toString startNode)))
        (edgeEntryCount self.adjacencyList + 1)
        { adjacencyList := self.adjacencyList, visited := [], nodeStack := [startNode],
          traversalEdges := [],
          states := [createInitialState self.adjacencyList
            ("Starting DFS from node " ++ toString startNode)] } = some r ∧
      r.states.map AlgorithmState.message =
        ["Starting DFS from node " ++ toString startNode] ++
          r.visited.reverse.map (fun v => "Visiting node " ++ toString v) ∧
      RecDfs self.adjacencyList [startNode] [] r.visited.reverse := by
  obtain ⟨r, hr⟩ := dfsLoop_terminates
    (createInitialState self.adjacencyList ("Starting DFS from node " ++ toString startNode))
    (edgeEntryCount self.adjacencyList + 1)
    { adjacencyList := self.adjacencyList, visited := [], nodeStack := [startNode],
      traversalEdges := [],
      states := [createInitialState self.adjacencyList
        ("Starting DFS from node " ++ toString startNode)] }
    (by simp only [unvisitedWeight_nil, List.length_singleton]; omega)
  have hinv := whileLoop_invariant dfsCond (dfsBody _)
    (DfsInv self.adjacencyList startNode ("Starting DFS from node " ++ toString startNode))
    (fun t ht hc => dfsBody_inv _ _ _ _ t ht hc) _ _ r
    ⟨fun _ => rfl, by simp, by simp, fun v hv => by
        rw [List.mem_singleton] at hv
        rw [hv]
        exact Relation.ReflTransGen.refl,
      by simp, by simp, by simp [createInitialState]⟩ hr
  have hrec := dfsLoop_follows_recDfs self.adjacencyList _ _ _ r (fun _ => rfl) hr
  exact ⟨r, hr, hinv.1.2.2.2.2.2.2, hrec⟩

/-- C27: for every graph and start node, the nodes of the `"Visiting node"` snapshots of
the stack-based `depthFirstSearch`, in trace order, are the visiting order of the
recursive depth-first search that records a node and then calls itself on the node's
neighbours in adjacency-list order, skipping visited nodes; that order is unique.  On the
demo graph from node 0 it is 0, 1, 2, 3, 4, 5. -/
theorem depthFirstSearch_order_is_recursive_preorder (self : Graph) (startNode : Int) :
    (∃ g1 visits, self.depthFirstSearch startNode = some g1 ∧
      g1.states.map AlgorithmState.message =
        traversalMessages ("Starting DFS from node " ++ toString startNode) visits
          "DFS traversal complete" ∧
      RecDfs self.adjacencyList [startNode] [] visits ∧
      ∀ other, RecDfs self.adjacencyList [startNode] [] other → other = visits) ∧
    (∃ g1, ({} : Graph).createDemoGraph.depthFirstSearch 0 = some g1 ∧
      g1.states.map AlgorithmState.message =
        traversalMessages "Starting DFS from node 0" [0, 1, 2, 3, 4, 5]
          "DFS traversal complete" ∧
      RecDfs ({} : Graph).createDemoGraph.adjacencyList [0] [] [0, 1, 2, 3, 4, 5]) := by
  have main : ∀ (g : Graph) (start : Int), ∃ g1 visits, g.depthFirstSearch start = some g1 ∧
      g1.states.map AlgorithmState.message =
        traversalMessages ("Starting DFS from node " ++ toString start) visits
          "DFS traversal complete" ∧
      RecDfs g.adjacencyList [start] [] visits := by
    intro g start
    obtain ⟨r, hr, hmsg, hrec⟩ := dfsLoop_result g start
    unfold Graph.depthFirstSearch
    simp only
    rw [hr]
    refine ⟨_, r.visited.reverse, rfl, ?_, hrec⟩
    rw [map_message_finalize, List.map_append, hmsg]
    simp [traversalMessages, finalState]
  constructor
  · obtain ⟨g1, visits, h1, h2, h3⟩ := main self startNode
    exact ⟨g1, visits, h1, h2, h3, fun other ho => recDfs_functional _ _ _ _ _ ho h3⟩
  · obtain ⟨r, hr, _, hrec⟩ := dfsLoop_result ({} : Graph).createDemoGraph 0
    have h5 := congrArg (Option.map (fun t : DfsVars => t.visited.reverse)) hr
    have h6 : some r.visited.reverse = some [0, 1, 2, 3, 4, 5] := h5.symm.trans (by rfl)
    rw [Option.some.inj h6] at hrec
    exact ⟨_, rfl, by rfl, hrec⟩

end GraphCpp

/-! ### Snapshots of Dijkstra's algorithm: one per settled node and per relaxation -/

namespace GraphCpp

theorem relaxEdge_fold_log (state : AlgorithmState) (current : Int) (edges : List Edge) :
    ∀ s : RelaxVars,
      (edges.foldl (relaxEdge state current) s).states.map AlgorithmState.message =
        s.states.map AlgorithmState.message ++
          (relaxLog current s.distances edges).map DijkstraEvent.message := by
  induction edges with
  | nil =>
    intro s
    simp [relaxLog]
  | cons e edges ih =>
    intro s
    rw [List.foldl_cons, ih]
    unfold relaxEdge
    simp only
    by_cases hc : wrapInt32 (mapGet s.distances current 0 + e.weight) <
        mapGet s.distances e.target 0
    · rw [if_pos hc]
      simp only [relaxLog, if_pos hc, List.map_append, List.map_cons, List.map_nil,
        DijkstraEvent.message, List.append_assoc, List.singleton_append]
    · rw [if_neg hc]
      simp only [relaxLog, if_neg hc]

theorem dijkstraBody_log (initialState : AlgorithmState) (s : DijkstraVars) (current : Int)
    (hs : selectCurrent s.distances s.unvisited = some current) :
    (dijkstraBody initialState s).states.map AlgorithmState.message =
      s.states.map AlgorithmState.message ++
        (DijkstraEvent.settle current (mapGet s.distances current 0) ::
          relaxLog current s.distances (mapGet s.adjacencyList current [])).map
            DijkstraEvent.message := by
  unfold dijkstraBody
  rw [hs]
  simp only
  rw [relaxEdge_fold_log]
  simp [DijkstraEvent.message]

theorem dijkstraLoop_log (initialState : AlgorithmState) (fuel : Nat) :
    ∀ (s r : DijkstraVars), whileLoop dijkstraCond (dijkstraBody initialState) fuel s = some r →
      r.states.map AlgorithmState.message =
        s.states.map AlgorithmState.message ++
          (dijkstraLog initialState fuel s).map DijkstraEvent.message := by
  induction fuel with
  | zero =>
    intro s r h
    by_cases hc : dijkstraCond s = true
    · simp [whileLoop, hc] at h
    · simp [whileLoop, hc] at h
      rw [← h]
      simp [dijkstraLog]
  | succ fuel ih =>
    intro s r h
    by_cases hc : dijkstraCond s = true
    · simp only [whileLoop, hc, if_true] at h
      have h1 := ih _ r h
      unfold dijkstraCond at hc
      cases hs : selectCurrent s.distances s.unvisited with
      | none => simp [hs] at hc
      | some current =>
        simp only [hs] at hc
        rw [h1, dijkstraBody_log initialState s current hs]
        simp only [dijkstraLog, hs, hc, if_true, List.map_append, List.map_cons,
          List.append_assoc, List.cons_append]
    · simp [whileLoop, hc] at h
      rw [← h]
      unfold dijkstraCond at hc
      cases hs : selectCurrent s.distances s.unvisited with
      | none => simp [dijkstraLog, hs]
      | some current =>
        simp only [hs] at hc
        simp [dijkstraLog, hs, hc]

theorem length_filter_events (log : List DijkstraEvent) :
    (log.filter DijkstraEvent.isSettle).length + (log.filter DijkstraEvent.isUpdate).length =
      log.length := by
  induction log with
  | nil => rfl
  | cons e log ih =>
    cases e <;> simp [List.filter_cons, DijkstraEvent.isSettle, DijkstraEvent.isUpdate] <;> omega

end GraphCpp

namespace GraphCpp

/-- C28: for every graph and start node the `dijkstraAlgorithm` trace is the initial
snapshot, one snapshot per event of the main loop in order (`"Processing node ..."` for a
node settled, `"Updated distance ..."` for a successful relaxation, that is an edge
examination whose test `alt < distances[neighbor]` held) and the final snapshot; so it
has `2 + S + R` snapshots, `S` the number of nodes settled and `R` the number of
successful relaxations.  On the demo graph from node 0, `S = 6` and `R = 6`, giving 14
snapshots. -/
theorem dijkstra_snapshot_count (self : Graph) (startNode : Int) :
    (∃ g1, self.dijkstraAlgorithm startNode = some g1 ∧
      g1.states.map AlgorithmState.message =
        ["Starting Dijkstra's algorithm from node " ++ toString startNode] ++
          (self.dijkstraEvents startNode).map DijkstraEvent.message ++
          ["Dijkstra's algorithm complete"] ∧
      g1.states.length =
        2 + ((self.dijkstraEvents startNode).filter DijkstraEvent.isSettle).length +
          ((self.dijkstraEvents startNode).filter DijkstraEvent.isUpdate).length) ∧
    (∃ g1, ({} : Graph).createDemoGraph.dijkstraAlgorithm 0 = some g1 ∧
      g1.states.length = 14 ∧
      ((({} : Graph).createDemoGraph.dijkstraEvents 0).filter DijkstraEvent.isSettle).length = 6 ∧
      ((({} : Graph).createDemoGraph.dijkstraEvents 0).filter DijkstraEvent.isUpdate).length =
        6) := by
  constructor
  · obtain ⟨r, hr⟩ := whileLoop_terminates dijkstraCond
      (dijkstraBody (createInitialState self.adjacencyList
        ("Starting Dijkstra's algorithm from node " ++ toString startNode)))
      (fun _ => True) (fun t => t.unvisited.length)
      (fun t _ hc => ⟨trivial, dijkstraBody_decreases _ t hc⟩) self.adjacencyList.length
      { adjacencyList := self.adjacencyList,
        distances := mapInsert startNode 0 (self.adjacencyList.foldl
          (fun (d : List (Int × Int)) node => mapInsert node.1 INT_MAX d) []),
        previous := [], unvisited := self.adjacencyList.map Prod.fst,
        states := [createInitialState self.adjacencyList
          ("Starting Dijkstra's algorithm from node " ++ toString startNode)] }
      trivial (by simp)
    have hlog := dijkstraLoop_log _ _ _ r hr
    have hmsgs : (finalize self r.adjacencyList
        (r.states ++ [{ finalState r.states "Dijkstra's algorithm complete" with
          edges := highlightPrevious r.previous
            (finalState r.states "Dijkstra's algorithm complete").edges }])).states.map
          AlgorithmState.message =
        ["Starting Dijkstra's algorithm from node " ++ toString startNode] ++
          (self.dijkstraEvents startNode).map DijkstraEvent.message ++
          ["Dijkstra's algorithm complete"] := by
      rw [map_message_finalize, List.map_append, hlog]
      simp [Graph.dijkstraEvents, finalState, createInitialState]
    unfold Graph.dijkstraAlgorithm
    simp only
    rw [hr]
    refine ⟨_, rfl, hmsgs, ?_⟩
    have hl := congrArg List.length hmsgs
    simp only [List.length_map, List.length_append, List.length_singleton] at hl
    rw [hl]
    have := length_filter_events (self.dijkstraEvents startNode)
    omega
  · exact ⟨_, rfl, by rfl, by rfl, by rfl⟩

end GraphCpp

/-! ### Dijkstra's algorithm settles the reachable nodes at their shortest distances -/

namespace GraphCpp

theorem reachable_iff_walk (adj : List (Int × List Edge)) (s v : Int) :
    Reachable adj s v ↔ ∃ d, WalkWeight adj s v d := by
  constructor
  · intro h
    induction h with
    | refl => exact ⟨0, WalkWeight.start⟩
    | tail _ hbc ih =>
      obtain ⟨d, hd⟩ := ih
      obtain ⟨e, he, het⟩ := hbc
      rw [← het]
      exact ⟨_, WalkWeight.step _ d e hd he⟩
  · rintro ⟨d, h⟩
    induction h with
    | start => exact Relation.ReflTransGen.refl
    | step u d e _ he ih => exact Relation.ReflTransGen.tail ih ⟨e, he, rfl⟩

theorem isNode_iff_mem_keys {β : Type} (m : List (Int × β)) (u : Int) :
    (mapFind u m).isSome = true ↔ u ∈ m.map Prod.fst := by
  induction m with
  | nil => simp [mapFind]
  | cons p m ih =>
    obtain ⟨k, v⟩ := p
    rw [mapFind_cons]
    by_cases h : k = u
    · simp [h]
    · rw [if_neg h, ih]
      simp only [List.map_cons, List.mem_cons]
      constructor
      · exact Or.inr
      · rintro (e | e)
        · exact absurd e.symm h
        · exact e

theorem scan_min (distances : List (Int × Int)) :
    ∀ (l : List Int) (cur : Int),
      mapGet distances (l.foldl (fun current node =>
          if mapGet distances node 0 < mapGet distances current 0 then node else current)
          cur) 0 ≤ mapGet distances cur 0 ∧
      ∀ x ∈ l, mapGet distances (l.foldl (fun current node =>
          if mapGet distances node 0 < mapGet distances current 0 then node else current)
          cur) 0 ≤ mapGet distances x 0 := by
  intro l
  induction l with
  | nil =>
    intro cur
    exact ⟨le_refl _, fun x hx => by simp at hx⟩
  | cons y l ih =>
    intro cur
    simp only [List.foldl_cons]
    by_cases hlt : mapGet distances y 0 < mapGet distances cur 0
    · rw [if_pos hlt]
      obtain ⟨h1, h2⟩ := ih y
      refine ⟨by omega, ?_⟩
      intro x hx
      rcases List.mem_cons.mp hx with e | e
      · rw [e]
        exact h1
      · exact h2 x e
    · rw [if_neg hlt]
      obtain ⟨h1, h2⟩ := ih cur
      refine ⟨h1, ?_⟩
      intro x hx
      rcases List.mem_cons.mp hx with e | e
      · rw [e]
        omega
      · exact h2 x e

theorem selectCurrent_min (distances : List (Int × Int)) (unvisited : List Int) (c : Int)
    (h : selectCurrent distances unvisited = some c) :
    ∀ v ∈ unvisited, mapGet distances c 0 ≤ mapGet distances v 0 := by
  unfold selectCurrent at h
  cases unvisited with
  | nil => simp at h
  | cons first rest =>
    simp only [Option.some.injEq] at h
    subst h
    exact (scan_min distances (first :: rest) first).2

theorem selectCurrent_none (distances : List (Int × Int)) (unvisited : List Int)
    (h : selectCurrent distances unvisited = none) : unvisited = [] := by
  unfold selectCurrent at h
  cases unvisited with
  | nil => rfl
  | cons first rest => simp at h

theorem initial_distances (adj : List (Int × List Edge)) (v : Int) :
    ∀ d : List (Int × Int),
      mapGet (adj.foldl (fun (d : List (Int × Int)) node => mapInsert node.1 INT_MAX d) d) v 0 =
        if v ∈ adj.map Prod.fst then INT_MAX else mapGet d v 0 := by
  induction adj with
  | nil =>
    intro d
    simp
  | cons p adj ih =>
    intro d
    rw [List.foldl_cons, ih, mapGet_mapInsert]
    by_cases h1 : v ∈ adj.map Prod.fst
    · simp [h1]
    · by_cases h2 : p.1 = v
      · simp [h1, h2]
      · have h3 : ¬ v = p.1 := fun e => h2 e.symm
        simp [h1, h2, h3]

end GraphCpp

namespace GraphCpp

theorem relaxEdge_distances (state : AlgorithmState) (c dc : Int) (s : RelaxVars) (e : Edge)
    (hc : mapGet s.distances c 0 = dc) (h0 : 0 ≤ dc) (hw : 0 ≤ e.weight)
    (hs : dc + e.weight < INT_MAX) :
    (relaxEdge state c s e).distances =
      if dc + e.weight < mapGet s.distances e.target 0 then
        mapInsert e.target (dc + e.weight) s.distances
      else s.distances := by
  have hwrap : wrapInt32 (dc + e.weight) = dc + e.weight := by
    unfold INT_MAX at hs
    exact DpCpp.wrapInt32_of_range _ (by omega) (by omega)
  unfold relaxEdge
  simp only [hc, hwrap]
  split_ifs <;> rfl

theorem relaxEdge_step (state : AlgorithmState) (c dc : Int) (s : RelaxVars) (e : Edge)
    (hc : mapGet s.distances c 0 = dc) (h0 : 0 ≤ dc) (hw : 0 ≤ e.weight)
    (hs : dc + e.weight < INT_MAX) :
    mapGet (relaxEdge state c s e).distances c 0 = dc ∧
    (∀ v, mapGet (relaxEdge state c s e).distances v 0 ≤ mapGet s.distances v 0) ∧
    (∀ v, mapGet (relaxEdge state c s e).distances v 0 = mapGet s.distances v 0 ∨
      (e.target = v ∧ mapGet (relaxEdge state c s e).distances v 0 = dc + e.weight)) ∧
    mapGet (relaxEdge state c s e).distances e.target 0 ≤ dc + e.weight := by
  rw [relaxEdge_distances state c dc s e hc h0 hw hs]
  by_cases hlt : dc + e.weight < mapGet s.distances e.target 0
  · simp only [if_pos hlt, mapGet_mapInsert]
    refine ⟨?_, ?_, ?_, ?_⟩
    · by_cases e1 : e.target = c
      · rw [e1, hc] at hlt
        omega
      · rw [if_neg e1, hc]
    · intro v
      by_cases e1 : e.target = v
      · rw [if_pos e1, ← e1]
        omega
      · rw [if_neg e1]
    · intro v
      by_cases e1 : e.target = v
      · rw [if_pos e1]
        exact Or.inr ⟨e1, rfl⟩
      · rw [if_neg e1]
        exact Or.inl rfl
    · simp
  · rw [if_neg hlt]
    exact ⟨hc, fun v => le_refl _, fun v => Or.inl rfl, by omega⟩

theorem relax_fold (state : AlgorithmState) (c dc : Int) (h0 : 0 ≤ dc) (es : List Edge) :
    ∀ s : RelaxVars, mapGet s.distances c 0 = dc →
      (∀ e ∈ es, 0 ≤ e.weight ∧ dc + e.weight < INT_MAX) →
      mapGet (es.foldl (relaxEdge state c) s).distances c 0 = dc ∧
      (∀ v, mapGet (es.foldl (relaxEdge state c) s).distances v 0 ≤ mapGet s.distances v 0) ∧
      (∀ v, mapGet (es.foldl (relaxEdge state c) s).distances v 0 = mapGet s.distances v 0 ∨
        ∃ e ∈ es, e.target = v ∧
          mapGet (es.foldl (relaxEdge state c) s).distances v 0 = dc + e.weight) ∧
      (∀ e ∈ es, mapGet (es.foldl (relaxEdge state c) s).distances e.target 0 ≤
        dc + e.weight) := by
  induction es with
  | nil =>
    intro s hc _
    exact ⟨hc, fun v => le_refl _, fun v => Or.inl rfl, fun e he => by simp at he⟩
  | cons e es ih =>
    intro s hc hes
    obtain ⟨hw, hs⟩ := hes e (List.mem_cons_self _ _)
    obtain ⟨s1, s2, s3, s4⟩ := relaxEdge_step state c dc s e hc h0 hw hs
    obtain ⟨r1, r2, r3, r4⟩ := ih (relaxEdge state c s e) s1
      (fun e1 he1 => hes e1 (List.mem_cons_of_mem _ he1))
    simp only [List.foldl_cons]
    refine ⟨r1, fun v => le_trans (r2 v) (s2 v), ?_, ?_⟩
    · intro v
      rcases r3 v with h | ⟨e1, he1, h1, h2⟩
      · rcases s3 v with h3 | ⟨h3, h4⟩
        · exact Or.inl (h.trans h3)
        · exact Or.inr ⟨e, List.mem_cons_self _ _, h3, h.trans h4⟩
      · exact Or.inr ⟨e1, List.mem_cons_of_mem _ he1, h1, h2⟩
    · intro e1 he1
      rcases List.mem_cons.mp he1 with h | h
      · rw [h]
        exact le_trans (r2 _) s4
      · exact r4 e1 h

end GraphCpp

namespace GraphCpp

theorem edge_of_input (adj : List (Int × List Edge)) (start : Int)
    (hin : DijkstraInput adj start) (u : Int) (e : Edge) (he : e ∈ mapGet adj u []) :
    IsNode adj e.target ∧ 0 ≤ e.weight := by
  obtain ⟨p, hp, hep⟩ := mapGet_mem adj u e he
  exact hin.2.2.1 p hp e hep

theorem walk_lower_bound (adj : List (Int × List Edge)) (start : Int)
    (hin : DijkstraInput adj start) (s : DijkstraVars) (hinv : DijkstraInv adj start s)
    (m : Int) (hm1 : ∀ v ∈ s.unvisited, m ≤ mapGet s.distances v 0)
    (hm2 : ∀ u, IsNode adj u → u ∉ s.unvisited → mapGet s.distances u 0 ≤ m) :
    ∀ v d1, WalkWeight adj start v d1 →
      IsNode adj v ∧ (v ∉ s.unvisited → mapGet s.distances v 0 ≤ d1) ∧
        (v ∈ s.unvisited → m ≤ d1) := by
  obtain ⟨_, _, _, _, _, hE, _, hG⟩ := hinv
  intro v d1 hwalk
  induction hwalk with
  | start =>
    refine ⟨hin.2.1, fun _ => by rw [hG], fun hU => ?_⟩
    have := hm1 start hU
    rw [hG] at this
    exact this
  | step u d e _ he ih =>
    obtain ⟨hu, hu1, hu2⟩ := ih
    obtain ⟨hnode, hw⟩ := edge_of_input adj start hin u e he
    refine ⟨hnode, ?_, ?_⟩
    · intro hv
      by_cases huU : u ∈ s.unvisited
      · have h1 := hm2 e.target hnode hv
        have h2 := hu2 huU
        omega
      · have h1 := hE u hu huU e he
        have h2 := hu1 huU
        omega
    · intro hv
      by_cases huU : u ∈ s.unvisited
      · have h2 := hu2 huU
        omega
      · have h1 := hE u hu huU e he
        have h2 := hu1 huU
        have h3 := hm1 e.target hv
        omega

theorem dijkstraBody_fields (initialState : AlgorithmState) (s : DijkstraVars) (c : Int)
    (hsel : selectCurrent s.distances s.unvisited = some c) :
    ∃ (state : AlgorithmState) (states1 : List AlgorithmState),
      (dijkstraBody initialState s).distances =
        ((mapGet s.adjacencyList c []).foldl (relaxEdge state c)
          { distances := s.distances, previous := s.previous, states := states1 }).distances ∧
      (dijkstraBody initialState s).unvisited = s.unvisited.erase c ∧
      (dijkstraBody initialState s).adjacencyList = mapTouch s.adjacencyList c [] := by
  unfold dijkstraBody
  rw [hsel]
  exact ⟨_, _, rfl, rfl, rfl⟩

theorem dijkstraBody_correct (adj : List (Int × List Edge)) (start : Int)
    (hin : DijkstraInput adj start) (initialState : AlgorithmState) (s : DijkstraVars)
    (hinv : DijkstraInv adj start s) (c : Int)
    (hsel : selectCurrent s.distances s.unvisited = some c)
    (hne : mapGet s.distances c 0 ≠ INT_MAX) :
    DijkstraInv adj start (dijkstraBody initialState s) ∧
    (dijkstraBody initialState s).unvisited = s.unvisited.erase c ∧
    c ∈ s.unvisited ∧
    mapGet (dijkstraBody initialState s).distances c 0 = mapGet s.distances c 0 ∧
    (∀ u, IsNode adj u → u ∉ s.unvisited →
      mapGet (dijkstraBody initialState s).distances u 0 = mapGet s.distances u 0) ∧
    IsShortest adj start c (mapGet s.distances c 0) := by
  have hcU := selectCurrent_mem _ _ _ hsel
  have hmin := selectCurrent_min _ _ _ hsel
  have hlb := walk_lower_bound adj start hin s hinv (mapGet s.distances c 0) hmin
    (fun u hu huU => hinv.2.2.2.2.2.2.1 u hu huU c hcU)
  obtain ⟨hA, hB1, hB2, hC, hD, hE, hF, hG⟩ := hinv
  have hcnode := hB2 c hcU
  have hcw : 0 ≤ mapGet s.distances c 0 ∧ mapGet s.distances c 0 < INT_MAX ∧
      WalkWeight adj start c (mapGet s.distances c 0) := by
    rcases hC c hcnode with h | h
    · exact absurd h hne
    · exact h
  have hshort : IsShortest adj start c (mapGet s.distances c 0) :=
    ⟨hcw.2.2, fun d1 hd1 => (hlb c d1 hd1).2.2 hcU⟩
  have hedges : ∀ e ∈ mapGet s.adjacencyList c [],
      0 ≤ e.weight ∧ mapGet s.distances c 0 + e.weight < INT_MAX := by
    intro e he
    rw [hA c] at he
    exact ⟨(edge_of_input adj start hin c e he).2, hin.2.2.2 c _ hshort e he⟩
  obtain ⟨state, states1, hdist, hunv, hadj0⟩ := dijkstraBody_fields initialState s c hsel
  obtain ⟨r1, r2, r3, r4⟩ := relax_fold state c (mapGet s.distances c 0) hcw.1
    (mapGet s.adjacencyList c [])
    { distances := s.distances, previous := s.previous, states := states1 } rfl hedges
  rw [← hdist] at r1 r2 r3 r4
  simp only at r2 r3
  have hsettled_same : ∀ u, IsNode adj u → u ∉ s.unvisited →
      mapGet (dijkstraBody initialState s).distances u 0 = mapGet s.distances u 0 := by
    intro u hu huU
    rcases r3 u with h | ⟨e, he, _, h2⟩
    · exact h
    · have h3 := r2 u
      have h4 := hF u hu huU c hcU
      have h5 := (hedges e he).1
      omega
  have hadj : ∀ u, mapGet (dijkstraBody initialState s).adjacencyList u [] = mapGet adj u [] := by
    intro u
    rw [hadj0, mapGet_mapTouch]
    exact hA u
  have hmem_erase : ∀ v, v ∈ s.unvisited.erase c ↔ (v ∈ s.unvisited ∧ v ≠ c) := by
    intro v
    rw [hB1.mem_erase_iff]
    tauto
  refine ⟨⟨hadj, ?_, ?_, ?_, ?_, ?_, ?_, ?_⟩, hunv, hcU, ?_, hsettled_same, hshort⟩
  · rw [hunv]
    exact hB1.erase c
  · intro v hv
    rw [hunv] at hv
    exact hB2 v ((hmem_erase v).mp hv).1
  · intro v hv
    rcases r3 v with h | ⟨e, he, het, h2⟩
    · rw [h]
      exact hC v hv
    · right
      rw [h2]
      refine ⟨by have := (hedges e he).1; omega, (hedges e he).2, ?_⟩
      rw [← het]
      rw [hA c] at he
      exact WalkWeight.step c _ e hcw.2.2 he
  · intro u hu huU
    rw [hunv, hmem_erase] at huU
    by_cases huc : u = c
    · subst huc
      rw [r1]
      exact ⟨hcw.2.1, hshort.2⟩
    · have huU2 : u ∉ s.unvisited := fun h => huU ⟨h, huc⟩
      rw [hsettled_same u hu huU2]
      exact hD u hu huU2
  · intro u hu huU e he
    rw [hunv, hmem_erase] at huU
    by_cases huc : u = c
    · subst huc
      rw [r1]
      rw [← hA u] at he
      exact r4 e he
    · have huU2 : u ∉ s.unvisited := fun h => huU ⟨h, huc⟩
      rw [hsettled_same u hu huU2]
      exact le_trans (r2 _) (hE u hu huU2 e he)
  · intro u hu huU v hv
    rw [hunv, hmem_erase] at huU hv
    have hbase : mapGet s.distances u 0 ≤ mapGet s.distances c 0 ∧
        mapGet (dijkstraBody initialState s).distances u 0 = mapGet s.distances u 0 := by
      by_cases huc : u = c
      · subst huc
        exact ⟨le_refl _, r1⟩
      · have huU2 : u ∉ s.unvisited := fun h => huU ⟨h, huc⟩
        exact ⟨hF u hu huU2 c hcU, hsettled_same u hu huU2⟩
    rw [hbase.2]
    rcases r3 v with h | ⟨e, he, _, h2⟩
    · rw [h]
      have := hmin v hv.1
      omega
    · rw [h2]
      have := (hedges e he).1
      omega
  · rcases r3 start with h | ⟨e, he, _, h2⟩
    · rw [h]
      exact hG
    · have h3 := r2 start
      rw [hG] at h3
      have := (hedges e he).1
      omega
  · rw [r1]

end GraphCpp

namespace GraphCpp

theorem settles_append (a b : List DijkstraEvent) :
    settles (a ++ b) = settles a ++ settles b := by
  induction a with
  | nil => rfl
  | cons e a ih =>
    cases e with
    | settle n d => simp [settles, ih]
    | update n d => simp [settles, ih]

theorem settles_relaxLog (current : Int) (edges : List Edge) :
    ∀ distances, settles (relaxLog current distances edges) = [] := by
  induction edges with
  | nil => intro d; rfl
  | cons e edges ih =>
    intro d
    unfold relaxLog
    split_ifs
    · simp [settles, ih]
    · exact ih d

theorem dijkstra_exit (adj : List (Int × List Edge)) (start : Int)
    (hin : DijkstraInput adj start) (s : DijkstraVars) (hinv : DijkstraInv adj start s)
    (c : Int) (hsel : selectCurrent s.distances s.unvisited = some c)
    (hmax : mapGet s.distances c 0 = INT_MAX) :
    ∀ v ∈ s.unvisited, ¬ Reachable adj start v := by
  have hmin := selectCurrent_min _ _ _ hsel
  obtain ⟨_, _, _, hC, hD, hE, _, hG⟩ := hinv
  have hwalk : ∀ x d, WalkWeight adj start x d → IsNode adj x ∧ x ∉ s.unvisited := by
    intro x d hw
    induction hw with
    | start =>
      refine ⟨hin.2.1, fun hU => ?_⟩
      have := hmin start hU
      rw [hG, hmax] at this
      unfold INT_MAX at this
      omega
    | step u d e _ he ih =>
      obtain ⟨hu, huU⟩ := ih
      obtain ⟨hnode, _⟩ := edge_of_input adj start hin u e he
      refine ⟨hnode, fun hU => ?_⟩
      obtain ⟨hlt, hlow⟩ := hD u hu huU
      have hshort : IsShortest adj start u (mapGet s.distances u 0) := by
        rcases hC u hu with h | h
        · omega
        · exact ⟨h.2.2, hlow⟩
      have h1 := hin.2.2.2 u _ hshort e he
      have h2 := hE u hu huU e he
      have h3 := hmin e.target hU
      rw [hmax] at h3
      omega
  intro v hv hreach
  obtain ⟨d, hd⟩ := (reachable_iff_walk adj start v).mp hreach
  exact (hwalk v d hd).2 hv

theorem dijkstraLog_correct (adj : List (Int × List Edge)) (start : Int)
    (hin : DijkstraInput adj start) (initialState : AlgorithmState) (fuel : Nat) :
    ∀ s : DijkstraVars, DijkstraInv adj start s → s.unvisited.length ≤ fuel →
      ((settles (dijkstraLog initialState fuel s)).map Prod.fst).Nodup ∧
      (∀ v, v ∈ (settles (dijkstraLog initialState fuel s)).map Prod.fst ↔
        (v ∈ s.unvisited ∧ Reachable adj start v)) ∧
      (∀ p ∈ settles (dijkstraLog initialState fuel s), IsShortest adj start p.1 p.2) ∧
      ((settles (dijkstraLog initialState fuel s)).map Prod.snd).Pairwise (fun a b => a ≤ b) ∧
      (∀ p ∈ settles (dijkstraLog initialState fuel s), ∀ u, IsNode adj u →
        u ∉ s.unvisited → mapGet s.distances u 0 ≤ p.2) := by
  induction fuel with
  | zero =>
    intro s _ hlen
    have hU : s.unvisited = [] := List.length_eq_zero.mp (by omega)
    simp [dijkstraLog, settles, hU]
  | succ fuel ih =>
    intro s hinv hlen
    cases hsel : selectCurrent s.distances s.unvisited with
    | none =>
      have hU := selectCurrent_none _ _ hsel
      simp [dijkstraLog, settles, hsel, hU]
    | some c =>
      by_cases hmax : mapGet s.distances c 0 = INT_MAX
      · have hexit := dijkstra_exit adj start hin s hinv c hsel hmax
        have hlog : dijkstraLog initialState (fuel + 1) s = [] := by
          simp [dijkstraLog, hsel, hmax]
        rw [hlog]
        simp only [settles, List.map_nil, List.nodup_nil, List.not_mem_nil, false_iff,
          List.Pairwise.nil, true_and, and_true, not_and]
        exact ⟨fun v hv => hexit v hv, fun p hp => by simp at hp, fun p hp => by simp at hp⟩
      · obtain ⟨binv, bunv, hcU, bc, bsame, bshort⟩ :=
          dijkstraBody_correct adj start hin initialState s hinv c hsel hmax
        have hlen2 : (dijkstraBody initialState s).unvisited.length ≤ fuel := by
          rw [bunv, List.length_erase_of_mem hcU]
          have := List.length_pos_of_mem hcU
          omega
        obtain ⟨i1, i2, i3, i4, i5⟩ := ih (dijkstraBody initialState s) binv hlen2
        have hlog : settles (dijkstraLog initialState (fuel + 1) s) =
            (c, mapGet s.distances c 0) ::
              settles (dijkstraLog initialState fuel (dijkstraBody initialState s)) := by
          have hb : (mapGet s.distances c 0 != INT_MAX) = true := by simpa using hmax
          simp only [dijkstraLog, hsel, hb, if_true, settles, settles_append, settles_relaxLog,
            List.nil_append]
        have hmem_erase : ∀ v, v ∈ s.unvisited.erase c ↔ (v ∈ s.unvisited ∧ v ≠ c) := by
          intro v
          rw [hinv.2.1.mem_erase_iff]
          tauto
        have hcnode : IsNode adj c := hinv.2.2.1 c hcU
        have hcnot : c ∉ (dijkstraBody initialState s).unvisited := by
          rw [bunv, hmem_erase]
          exact fun h => h.2 rfl
        rw [hlog]
        refine ⟨?_, ?_, ?_, ?_, ?_⟩
        · simp only [List.map_cons]
          refine List.nodup_cons.mpr ⟨?_, i1⟩
          intro hm
          exact hcnot ((i2 c).mp hm).1
        · intro v
          simp only [List.map_cons, List.mem_cons, i2 v, bunv, hmem_erase]
          constructor
          · rintro (h | h)
            · rw [h]
              exact ⟨hcU, (reachable_iff_walk adj start c).mpr ⟨_, bshort.1⟩⟩
            · exact ⟨h.1.1, h.2⟩
          · intro h
            by_cases e : v = c
            · exact Or.inl e
            · exact Or.inr ⟨⟨h.1, e⟩, h.2⟩
        · intro p hp
          rcases List.mem_cons.mp hp with h | h
          · rw [h]
            exact bshort
          · exact i3 p h
        · simp only [List.map_cons]
          refine List.pairwise_cons.mpr ⟨?_, i4⟩
          intro d hd
          obtain ⟨p, hp, hpd⟩ := List.mem_map.mp hd
          have := i5 p hp c hcnode hcnot
          rw [bc, hpd] at this
          exact this
        · intro p hp u hu huU
          rcases List.mem_cons.mp hp with h | h
          · rw [h]
            exact hinv.2.2.2.2.2.2.1 u hu huU c hcU
          · have hnot : u ∉ (dijkstraBody initialState s).unvisited := by
              rw [bunv, hmem_erase]
              exact fun h2 => huU h2.1
            have := i5 p h u hu hnot
            rw [bsame u hu huU] at this
            exact this

theorem dijkstra_initial_inv (adj : List (Int × List Edge)) (start : Int)
    (hin : DijkstraInput adj start) (states : List AlgorithmState) :
    DijkstraInv adj start
      { adjacencyList := adj,
        distances := mapInsert start 0 (adj.foldl
          (fun (d : List (Int × Int)) node => mapInsert node.1 INT_MAX d) []),
        previous := [], unvisited := adj.map Prod.fst, states := states } := by
  have hall : ∀ u, IsNode adj u → u ∈ adj.map Prod.fst :=
    fun u hu => (isNode_iff_mem_keys adj u).mp hu
  refine ⟨fun _ => rfl, hin.1, fun v hv => (isNode_iff_mem_keys adj v).mpr hv, ?_,
    fun u hu huU => absurd (hall u hu) huU, fun u hu huU => absurd (hall u hu) huU,
    fun u hu huU => absurd (hall u hu) huU, ?_⟩
  · intro v hv
    simp only [mapGet_mapInsert]
    by_cases e : start = v
    · rw [if_pos e, ← e]
      exact Or.inr ⟨le_refl _, by unfold INT_MAX; omega, WalkWeight.start⟩
    · rw [if_neg e, initial_distances, if_pos (hall v hv)]
      exact Or.inl rfl
  · simp only [mapGet_mapInsert, if_true]

end GraphCpp

namespace GraphCpp

theorem mapGet_mem_key (adj : List (Int × List Edge)) (c : Int) (e : Edge)
    (h : e ∈ mapGet adj c []) : (c, mapGet adj c []) ∈ adj := by
  unfold mapGet at h ⊢
  cases hf : mapFind c adj with
  | none => simp [hf] at h
  | some es =>
    simp only [hf, Option.getD_some]
    exact mapFind_mem c es adj hf

theorem walk_isNode (adj : List (Int × List Edge)) (start : Int)
    (hin : DijkstraInput adj start) (v d : Int) (h : WalkWeight adj start v d) :
    IsNode adj v := by
  induction h with
  | start => exact hin.2.1
  | step u d e _ he _ => exact (edge_of_input adj start hin u e he).1

theorem dijkstraAlgorithm_messages (self : Graph) (startNode : Int) :
    ∃ g1, self.dijkstraAlgorithm startNode = some g1 ∧
      g1.states.map AlgorithmState.message =
        ["Starting Dijkstra's algorithm from node " ++ toString startNode] ++
          (self.dijkstraEvents startNode).map DijkstraEvent.message ++
          ["Dijkstra's algorithm complete"] := by
  obtain ⟨r, hr⟩ := whileLoop_terminates dijkstraCond
    (dijkstraBody (createInitialState self.adjacencyList
      ("Starting Dijkstra's algorithm from node " ++ toString startNode)))
    (fun _ => True) (fun t => t.unvisited.length)
    (fun t _ hc => ⟨trivial, dijkstraBody_decreases _ t hc⟩) self.adjacencyList.length
    { adjacencyList := self.adjacencyList,
      distances := mapInsert startNode 0 (self.adjacencyList.foldl
        (fun (d : List (Int × Int)) node => mapInsert node.1 INT_MAX d) []),
      previous := [], unvisited := self.adjacencyList.map Prod.fst,
      states := [createInitialState self.adjacencyList
        ("Starting Dijkstra's algorithm from node " ++ toString startNode)] }
    trivial (by simp)
  have hlog := dijkstraLoop_log _ _ _ r hr
  unfold Graph.dijkstraAlgorithm
  simp only
  rw [hr]
  refine ⟨_, rfl, ?_⟩
  rw [map_message_finalize, List.map_append, hlog]
  simp [Graph.dijkstraEvents, finalState, createInitialState]

theorem shortest_sums_bounded (adj : List (Int × List Edge)) (start B W : Int)
    (hw : ∀ p ∈ adj, ∀ e ∈ p.2, e.weight ≤ W)
    (hB : ∀ p ∈ adj, ∃ d, d ≤ B ∧ WalkWeight adj start p.1 d)
    (hBW : B + W < INT_MAX) :
    ∀ u d, IsShortest adj start u d → ∀ e ∈ mapGet adj u [], d + e.weight < INT_MAX := by
  intro u d hs e he
  have hmem := mapGet_mem_key adj u e he
  obtain ⟨d0, hd0, hwalk⟩ := hB _ hmem
  have h1 := hs.2 d0 hwalk
  have h2 := hw _ hmem e he
  omega

theorem dijkstraAlgorithm_correct (self : Graph) (startNode : Int)
    (hin : DijkstraInput self.adjacencyList startNode) :
    (∃ g1, self.dijkstraAlgorithm startNode = some g1 ∧
      g1.states.map AlgorithmState.message =
        ["Starting Dijkstra's algorithm from node " ++ toString startNode] ++
          (self.dijkstraEvents startNode).map DijkstraEvent.message ++
          ["Dijkstra's algorithm complete"]) ∧
    ((settles (self.dijkstraEvents startNode)).map Prod.fst).Nodup ∧
    (∀ v, v ∈ (settles (self.dijkstraEvents startNode)).map Prod.fst ↔
      Reachable self.adjacencyList startNode v) ∧
    (∀ p ∈ settles (self.dijkstraEvents startNode),
      IsShortest self.adjacencyList startNode p.1 p.2) ∧
    ((settles (self.dijkstraEvents startNode)).map Prod.snd).Pairwise (fun a b => a ≤ b) := by
  refine ⟨dijkstraAlgorithm_messages self startNode, ?_⟩
  have hinv := dijkstra_initial_inv self.adjacencyList startNode hin
    [createInitialState self.adjacencyList
      ("Starting Dijkstra's algorithm from node " ++ toString startNode)]
  obtain ⟨i1, i2, i3, i4, _⟩ := dijkstraLog_correct self.adjacencyList startNode hin
    (createInitialState self.adjacencyList
      ("Starting Dijkstra's algorithm from node " ++ toString startNode))
    self.adjacencyList.length _ hinv (by simp)
  refine ⟨i1, ?_, i3, i4⟩
  intro v
  refine (i2 v).trans ⟨fun h => h.2, fun h => ⟨?_, h⟩⟩
  obtain ⟨d, hd⟩ := (reachable_iff_walk self.adjacencyList startNode v).mp h
  exact (isNode_iff_mem_keys self.adjacencyList v).mp
    (walk_isNode self.adjacencyList startNode hin v d hd)

end GraphCpp

namespace GraphCpp

theorem buildGraph_wellFormed (ops : List BuildOp) :
    ((buildGraph ops).adjacencyList.map Prod.fst).Pairwise (fun a b => a < b) ∧
    ∀ u, ∀ e ∈ mapGet (buildGraph ops).adjacencyList u [],
      IsNode (buildGraph ops).adjacencyList e.target := by
  induction ops using List.reverseRecOn with
  | nil =>
    refine ⟨by simp [buildGraph], ?_⟩
    intro u e he
    simp [buildGraph, mapGet, mapFind] at he
  | append_singleton ops op ih =>
    rw [buildGraph_snoc]
    obtain ⟨ihs, ihe⟩ := ih
    cases op with
    | addNode =>
      simp only [Graph.applyOp]
      refine ⟨mapInsert_sorted _ _ _ ihs, ?_⟩
      intro u e he
      rw [addNode_lists _ (buildGraph_nodes_below ops)] at he
      exact (addNode_nodes _ _).mpr (Or.inr (ihe u e he))
    | addEdge s t w =>
      simp only [Graph.applyOp]
      by_cases hn : IsNode (buildGraph ops).adjacencyList s ∧
          IsNode (buildGraph ops).adjacencyList t
      · refine ⟨?_, ?_⟩
        · rw [addEdge_of_nodes _ s t w hn.1 hn.2]
          exact mapInsert_sorted _ _ _ (mapInsert_sorted _ _ _ ihs)
        · intro u e he
          rw [addEdge_lists _ s t w hn.1 hn.2] at he
          rw [addEdge_nodes]
          simp only [List.mem_append] at he
          rcases he with (he | he) | he
          · exact ihe u e he
          · split_ifs at he
            · rw [List.mem_singleton.mp he]
              exact hn.2
            · simp at he
          · split_ifs at he
            · rw [List.mem_singleton.mp he]
              exact hn.1
            · simp at he
      · rw [addEdge_unchanged _ s t w hn]
        exact ⟨ihs, ihe⟩

theorem buildGraph_dijkstraInput (ops : List BuildOp) (startNode : Int)
    (hstart : IsNode (buildGraph ops).adjacencyList startNode)
    (hw : ∀ p ∈ (buildGraph ops).adjacencyList, ∀ e ∈ p.2, 0 ≤ e.weight)
    (hsum : ∀ u d, IsShortest (buildGraph ops).adjacencyList startNode u d →
      ∀ e ∈ mapGet (buildGraph ops).adjacencyList u [], d + e.weight < INT_MAX) :
    DijkstraInput (buildGraph ops).adjacencyList startNode := by
  obtain ⟨hs, he⟩ := buildGraph_wellFormed ops
  refine ⟨hs.imp (fun h => ne_of_lt h), hstart, ?_, hsum⟩
  intro p hp e hep
  refine ⟨he p.1 e ?_, hw p hp e hep⟩
  unfold mapGet
  rw [TreeCpp.mapFind_of_mem_sorted _ hs p hp]
  exact hep

end GraphCpp

namespace GraphCpp

/-- C26 (amended): for every graph built with `addNode`/`addEdge` whose edge weights are
all `≥ 0`, every start node in the graph, and provided that the minimum distance of a node
plus the weight of an edge leaving it is always below `INT_MAX`, `dijkstraAlgorithm`
returns, its trace is the opening snapshot, the snapshots of the main loop events and the
closing snapshot, and the `"Processing node v with distance d"` events name each node
reachable from the start exactly once and no other node, `d` is the minimum total weight
of a walk from the start to `v`, and the distances appear in non-decreasing order. -/
theorem dijkstra_settles_reachable_at_shortest_distance (ops : List BuildOp)
    (startNode : Int)
    (hstart : IsNode (buildGraph ops).adjacencyList startNode)
    (hw : ∀ p ∈ (buildGraph ops).adjacencyList, ∀ e ∈ p.2, 0 ≤ e.weight)
    (hsum : ∀ u d, IsShortest (buildGraph ops).adjacencyList startNode u d →
      ∀ e ∈ mapGet (buildGraph ops).adjacencyList u [], d + e.weight < INT_MAX) :
    (∃ g1, (buildGraph ops).dijkstraAlgorithm startNode = some g1 ∧
      g1.states.map AlgorithmState.message =
        ["Starting Dijkstra's algorithm from node " ++ toString startNode] ++
          ((buildGraph ops).dijkstraEvents startNode).map DijkstraEvent.message ++
          ["Dijkstra's algorithm complete"]) ∧
    ((settles ((buildGraph ops).dijkstraEvents startNode)).map Prod.fst).Nodup ∧
    (∀ v, v ∈ (settles ((buildGraph ops).dijkstraEvents startNode)).map Prod.fst ↔
      Reachable (buildGraph ops).adjacencyList startNode v) ∧
    (∀ p ∈ settles ((buildGraph ops).dijkstraEvents startNode),
      IsShortest (buildGraph ops).adjacencyList startNode p.1 p.2) ∧
    ((settles ((buildGraph ops).dijkstraEvents startNode)).map Prod.snd).Pairwise
      (fun a b => a ≤ b) :=
  dijkstraAlgorithm_correct (buildGraph ops) startNode
    (buildGraph_dijkstraInput ops startNode hstart hw hsum)

/-- Instance of C26 (amended) on the triangle built by three `addNode()` calls and
`addEdge(0, 1, 4)`, `addEdge(1, 2, 1)`, `addEdge(0, 2, 7)`: from node 0 the nodes are settled
at distances 0, 4 and 5, node 2 through node 1 and not along its direct edge. -/
theorem dijkstra_settles_reachable_at_shortest_distance_witness :
    settles ((buildGraph [BuildOp.addNode, BuildOp.addNode, BuildOp.addNode,
      BuildOp.addEdge 0 1 4, BuildOp.addEdge 1 2 1, BuildOp.addEdge 0 2 7]).dijkstraEvents 0) =
      [(0, 0), (1, 4), (2, 5)] ∧
    IsShortest (buildGraph [BuildOp.addNode, BuildOp.addNode, BuildOp.addNode,
      BuildOp.addEdge 0 1 4, BuildOp.addEdge 1 2 1, BuildOp.addEdge 0 2 7]).adjacencyList
      0 2 5 := by
  have hadj : (buildGraph [BuildOp.addNode, BuildOp.addNode, BuildOp.addNode,
      BuildOp.addEdge 0 1 4, BuildOp.addEdge 1 2 1, BuildOp.addEdge 0 2 7]).adjacencyList =
      [(0, [⟨1, 4⟩, ⟨2, 7⟩]), (1, [⟨0, 4⟩, ⟨2, 1⟩]), (2, [⟨1, 1⟩, ⟨0, 7⟩])] := by rfl
  have w0 : WalkWeight
      [(0, [(⟨1, 4⟩ : Edge), ⟨2, 7⟩]), (1, [⟨0, 4⟩, ⟨2, 1⟩]), (2, [⟨1, 1⟩, ⟨0, 7⟩])] 0 0 0 :=
    WalkWeight.start
  have w1 := WalkWeight.step 0 0 ⟨1, 4⟩ w0 (by decide)
  have w2 := WalkWeight.step 1 _ ⟨2, 1⟩ w1 (by decide)
  have hsum : ∀ u d, IsShortest (buildGraph [BuildOp.addNode, BuildOp.addNode,
      BuildOp.addNode, BuildOp.addEdge 0 1 4, BuildOp.addEdge 1 2 1,
      BuildOp.addEdge 0 2 7]).adjacencyList 0 u d →
      ∀ e ∈ mapGet (buildGraph [BuildOp.addNode, BuildOp.addNode, BuildOp.addNode,
        BuildOp.addEdge 0 1 4, BuildOp.addEdge 1 2 1, BuildOp.addEdge 0 2 7]).adjacencyList
        u [], d + e.weight < INT_MAX := by
    rw [hadj]
    refine shortest_sums_bounded _ 0 5 7 (by decide) ?_ (by decide)
    intro p hp
    simp only [List.mem_cons, List.mem_singleton, List.not_mem_nil, or_false] at hp
    rcases hp with h | h | h <;> rw [h]
    · exact ⟨_, by decide, w0⟩
    · exact ⟨_, by decide, w1⟩
    · exact ⟨_, by decide, w2⟩
  exact ⟨by rfl,
    (dijkstra_settles_reachable_at_shortest_distance [BuildOp.addNode, BuildOp.addNode,
      BuildOp.addNode, BuildOp.addEdge 0 1 4, BuildOp.addEdge 1 2 1, BuildOp.addEdge 0 2 7] 0
      rfl (by rw [hadj]; decide) hsum).2.2.2.1 (2, 5) (by decide)⟩

/-- C26 (as stated) fails: in the graph built by `addNode(); addNode();
addEdge(0, 1, 2147483647)` node 1 is reachable from node 0 by a walk of weight
`2147483647`, which is a value of `int`, and no weight is negative; but the relaxation test
`alt < distances[neighbor]` compares `2147483647` with the initial `INT_MAX`, fails, and
the next round leaves the main loop at the `break`, so the trace has a
`"Processing node"` event for node 0 only. -/
theorem dijkstra_skips_node_at_distance_int_max :
    Reachable (buildGraph [BuildOp.addNode, BuildOp.addNode,
      BuildOp.addEdge 0 1 2147483647]).adjacencyList 0 1 ∧
    IsShortest (buildGraph [BuildOp.addNode, BuildOp.addNode,
      BuildOp.addEdge 0 1 2147483647]).adjacencyList 0 1 2147483647 ∧
    (∀ p ∈ (buildGraph [BuildOp.addNode, BuildOp.addNode,
      BuildOp.addEdge 0 1 2147483647]).adjacencyList, ∀ e ∈ p.2, 0 ≤ e.weight) ∧
    (buildGraph [BuildOp.addNode, BuildOp.addNode,
      BuildOp.addEdge 0 1 2147483647]).dijkstraEvents 0 = [DijkstraEvent.settle 0 0] ∧
    ((buildGraph [BuildOp.addNode, BuildOp.addNode,
      BuildOp.addEdge 0 1 2147483647]).dijkstraAlgorithm 0).map
        (fun g => g.states.map AlgorithmState.message) =
      some ["Starting Dijkstra's algorithm from node 0", "Processing node 0 with distance 0",
        "Dijkstra's algorithm complete"] := by
  have hadj : (buildGraph [BuildOp.addNode, BuildOp.addNode,
      BuildOp.addEdge 0 1 2147483647]).adjacencyList =
      [(0, [⟨1, 2147483647⟩]), (1, [⟨0, 2147483647⟩])] := by rfl
  have hw : WalkWeight [(0, [(⟨1, 2147483647⟩ : Edge)]), (1, [⟨0, 2147483647⟩])] 0 1
      (0 + 2147483647) := WalkWeight.step 0 0 ⟨1, 2147483647⟩ WalkWeight.start (by decide)
  have hnonneg : ∀ (v d : Int),
      WalkWeight [(0, [(⟨1, 2147483647⟩ : Edge)]), (1, [⟨0, 2147483647⟩])] 0 v d →
      0 ≤ d ∧ (v = 1 → 2147483647 ≤ d) ∧ (v = 0 ∨ v = 1) := by
    intro v d h
    induction h with
    | start => exact ⟨le_refl _, by decide, Or.inl rfl⟩
    | step u d e _ he ih =>
      rcases ih.2.2 with h | h
      · subst h
        have : e = ⟨1, 2147483647⟩ := by simpa [mapGet, mapFind] using he
        subst this
        have h0 := ih.1
        exact ⟨show 0 ≤ d + 2147483647 by omega,
          fun _ => show 2147483647 ≤ d + 2147483647 by omega, Or.inr rfl⟩
      · subst h
        have : e = ⟨0, 2147483647⟩ := by simpa [mapGet, mapFind] using he
        subst this
        have h0 := ih.1
        exact ⟨show 0 ≤ d + 2147483647 by omega, fun h => absurd h (by decide), Or.inl rfl⟩
  refine ⟨?_, ?_, ?_, by rfl, by rfl⟩
  · rw [hadj]
    exact (reachable_iff_walk _ 0 1).mpr ⟨_, hw⟩
  · rw [hadj]
    exact ⟨hw, fun d1 h1 => (hnonneg 1 d1 h1).2.1 rfl⟩
  · rw [hadj]
    decide

end GraphCpp

/-! ### Swap-intent snapshots of quickSort and heapSort and their post-swap snapshots -/

namespace SortCpp

theorem swapAt_self (arr : List Int) (i : Int) : swapAt arr i i = arr := by
  unfold swapAt setAt getAt
  by_cases h : i < 0
  · simp [h]
  · simp only [h, if_false]
    apply List.ext_getElem
    · simp
    · intro n h1 h2
      simp only [List.getElem_set, List.length_set]
      split_ifs with e
      · subst e
        simp [List.getD_eq_getElem?_getD, List.getElem?_set]
        simp at h1
        simp [h1]
      · rfl

theorem createArrayVisualizationFrom_swapping (h1 h2 : Int) (sw : Bool) (arr : List Int) :
    ∀ s : Int, (createArrayVisualizationFrom h1 h2 sw arr s).map ArrayElement.swapping =
      (List.range arr.length).map
        (fun (p : Nat) => sw && decide (s + (p : Int) = h1 ∨ s + (p : Int) = h2)) := by
  induction arr with
  | nil => intro s; rfl
  | cons v rest ih =>
    intro s
    simp only [createArrayVisualizationFrom, List.map_cons, ih, List.length_cons,
      List.range_succ_eq_map, List.map_map]
    simp only [Nat.cast_zero, add_zero, List.cons.injEq]
    have e0 : (s == h1 || s == h2) = decide (s = h1 ∨ s = h2) := by
      rw [Bool.eq_iff_iff]
      simp only [Bool.or_eq_true, beq_iff_eq, decide_eq_true_eq]
    refine ⟨by rw [e0], ?_⟩
    apply List.map_congr_left
    intro k _
    simp only [Function.comp, Nat.cast_succ]
    have e : s + 1 + (k : Int) = s + ((k : Int) + 1) := by ring
    rw [e]

theorem length_createArrayVisualization (arr : List Int) (h1 h2 : Int) (sw : Bool) :
    (createArrayVisualization arr h1 h2 sw).length = arr.length := by
  have := congrArg List.length (createArrayVisualizationFrom_value h1 h2 sw arr 0)
  simpa [createArrayVisualization] using this

theorem values_createArrayVisualization (arr : List Int) (h1 h2 : Int) (sw : Bool) :
    (createArrayVisualization arr h1 h2 sw).map ArrayElement.value = arr :=
  createArrayVisualizationFrom_value h1 h2 sw arr 0

theorem hasSwap_plain (arr : List Int) (h1 h2 : Int) (message : String) (step : Int) :
    AlgorithmState.hasSwap ⟨createArrayVisualization arr h1 h2 false, message, step, 0⟩ =
      false := by
  have h := createArrayVisualizationFrom_swapping h1 h2 false arr 0
  simp only [Bool.false_and] at h
  unfold AlgorithmState.hasSwap
  simp only
  rw [Bool.eq_false_iff]
  intro hany
  obtain ⟨e, he, hs⟩ := List.any_eq_true.mp hany
  have hm : e.swapping ∈ (createArrayVisualization arr h1 h2 false).map
      ArrayElement.swapping := List.mem_map_of_mem _ he
  unfold createArrayVisualization at hm
  rw [h] at hm
  simp only [List.mem_map] at hm
  obtain ⟨_, _, hf⟩ := hm
  rw [hs] at hf
  exact Bool.false_ne_true hf

theorem swapPair_intro (arr : List Int) (i j h1 h2 : Int) (m1 m2 : String) (s1 s2 : Int)
    (hi0 : 0 ≤ i) (hi1 : i < (arr.length : Int)) (hj0 : 0 ≤ j) (hj1 : j < (arr.length : Int)) :
    SwapPair ⟨createArrayVisualization arr i j true, m1, s1, 0⟩
      ⟨createArrayVisualization (swapAt arr i j) h1 h2 false, m2, s2, 0⟩ := by
  refine ⟨i, j, hi0, ?_, hj0, ?_, ?_, hasSwap_plain _ _ _ _ _, ?_, ?_⟩
  · simp only [length_createArrayVisualization]
    exact hi1
  · simp only [length_createArrayVisualization]
    exact hj1
  · simp only [AlgorithmState.swapFlags, length_createArrayVisualization, flagsAt]
    unfold createArrayVisualization
    rw [createArrayVisualizationFrom_swapping]
    simp
  · simp only [AlgorithmState.values, values_createArrayVisualization]
  · intro e
    simp only [AlgorithmState.values, values_createArrayVisualization]
    rw [e, swapAt_self]

theorem pushState_eq (states : List AlgorithmState) (message : String)
    (elements : List ArrayElement) :
    pushState states message elements =
      states ++ [⟨elements, message, (states.length : Int) + 1, 0⟩] := rfl

theorem swapTrace_push (Q : Option AlgorithmState → AlgorithmState → Prop)
    (states : List AlgorithmState) (message : String) (arr : List Int) (h1 h2 : Int)
    (h : SwapTrace Q states) :
    SwapTrace Q (pushState states message (createArrayVisualization arr h1 h2 false)) :=
  SwapTrace.plain _ _ h (hasSwap_plain _ _ _ _ _)

theorem swapTrace_push_swap (Q : Option AlgorithmState → AlgorithmState → Prop)
    (states : List AlgorithmState) (m1 m2 : String) (arr : List Int) (i j h1 h2 : Int)
    (hi0 : 0 ≤ i) (hi1 : i < (arr.length : Int)) (hj0 : 0 ≤ j) (hj1 : j < (arr.length : Int))
    (hQ : Q states.getLast?
      ⟨createArrayVisualization arr i j true, m1, (states.length : Int) + 1, 0⟩)
    (h : SwapTrace Q states) :
    SwapTrace Q (pushState (pushState states m1 (createArrayVisualization arr i j true)) m2
      (createArrayVisualization (swapAt arr i j) h1 h2 false)) := by
  rw [pushState_eq, pushState_eq, List.append_assoc]
  exact SwapTrace.swap _ _ _ h (swapPair_intro arr i j h1 h2 _ _ _ _ hi0 hi1 hj0 hj1) hQ

theorem swapTrace_index (Q : Option AlgorithmState → AlgorithmState → Prop)
    (states : List AlgorithmState) (h : SwapTrace Q states) :
    ∀ (k : Nat) (a : AlgorithmState), states[k]? = some a → a.hasSwap = true →
      ∃ b, states[k + 1]? = some b ∧ SwapPair a b ∧
        Q (if k = 0 then none else states[k - 1]?) a := by
  induction h with
  | nil =>
    intro k a hk _
    simp at hk
  | plain states st _ hst ih =>
    intro k a hk ha
    by_cases hlt : k < states.length
    · rw [List.getElem?_append_left hlt] at hk
      obtain ⟨b, hb, hp, hq⟩ := ih k a hk ha
      have hlt1 : k + 1 < states.length := by
        by_contra hc
        rw [List.getElem?_eq_none (by omega)] at hb
        exact Option.noConfusion hb
      refine ⟨b, ?_, hp, ?_⟩
      · rw [List.getElem?_append_left hlt1]
        exact hb
      · by_cases hk0 : k = 0
        · simpa [hk0] using hq
        · rw [if_neg hk0] at hq ⊢
          rw [List.getElem?_append_left (by omega)]
          exact hq
    · rw [List.getElem?_append_right (by omega)] at hk
      by_cases he : k = states.length
      · simp [he] at hk
        rw [← hk, hst] at ha
        exact absurd ha (by decide)
      · have : k - states.length ≥ 1 := by omega
        rw [List.getElem?_eq_none (by simp; omega)] at hk
        exact Option.noConfusion hk
  | swap states a0 b0 _ hp hq ih =>
    intro k a hk ha
    by_cases hlt : k < states.length
    · rw [List.getElem?_append_left hlt] at hk
      obtain ⟨b, hb, hp1, hq1⟩ := ih k a hk ha
      have hlt1 : k + 1 < states.length := by
        by_contra hc
        rw [List.getElem?_eq_none (by omega)] at hb
        exact Option.noConfusion hb
      refine ⟨b, ?_, hp1, ?_⟩
      · rw [List.getElem?_append_left hlt1]
        exact hb
      · by_cases hk0 : k = 0
        · simpa [hk0] using hq1
        · rw [if_neg hk0] at hq1 ⊢
          rw [List.getElem?_append_left (by omega)]
          exact hq1
    · rw [List.getElem?_append_right (by omega)] at hk
      by_cases he : k = states.length
      · subst he
        simp only [Nat.sub_self, List.getElem?_cons_zero, Option.some.injEq] at hk
        subst hk
        refine ⟨b0, ?_, hp, ?_⟩
        · rw [List.getElem?_append_right (by omega)]
          simp
        · by_cases hk0 : states.length = 0
          · rw [if_pos hk0]
            have : states = [] := List.length_eq_zero.mp hk0
            rw [this] at hq
            exact hq
          · rw [if_neg hk0, List.getElem?_append_left (by omega)]
            rw [List.getLast?_eq_getElem?] at hq
            exact hq
      · by_cases he1 : k = states.length + 1
        · subst he1
          simp at hk
          obtain ⟨_, _, _, _, _, _, _, hb, _⟩ := hp
          rw [hk, ha] at hb
          exact absurd hb (by decide)
        · rw [List.getElem?_eq_none (by simp; omega)] at hk
          exact Option.noConfusion hk

theorem forDownLoop_invariant_of_some {σ : Type} (body : Int → σ → Option σ)
    (Inv : Int → σ → Prop) :
    ∀ (n : Nat) (a : Int) (s r : σ), Inv a s →
      (∀ j t t1, a - n < j → j ≤ a → Inv j t → body j t = some t1 → Inv (j - 1) t1) →
      forDownLoop body n a s = some r → Inv (a - n) r := by
  intro n
  induction n with
  | zero =>
    intro a s r h _ hr
    simp only [forDownLoop, Option.some.injEq] at hr
    rw [← hr]
    simpa using h
  | succ n ih =>
    intro a s r h hstep hr
    simp only [forDownLoop] at hr
    cases hb : body a s with
    | none => simp [hb] at hr
    | some t1 =>
      simp only [hb] at hr
      have h1 := hstep a s t1 (by push_cast; omega) (le_refl a) h hb
      have h2 := ih (a - 1) t1 r h1
        (fun j t t2 hj1 hj2 hI hbody => hstep j t t2 (by push_cast; omega) (by omega) hI hbody)
        hr
      have e : a - ((n + 1 : Nat) : Int) = a - 1 - (n : Int) := by push_cast; ring
      rw [e]
      exact h2

end SortCpp

namespace SortCpp

theorem getLast?_pushState (states : List AlgorithmState) (message : String)
    (elements : List ArrayElement) :
    (pushState states message elements).getLast? =
      some ⟨elements, message, (states.length : Int) + 1, 0⟩ := by
  rw [pushState_eq, List.getLast?_concat]

theorem partitionBody_swapTrace (pivot high j : Int) (s : PartitionVars)
    (hi0 : 0 ≤ s.i + 1) (hij : s.i < j) (hj : j < (s.arr.length : Int))
    (hp : getAt s.arr high 0 = pivot) (h : SwapTrace QuickSwapOrigin s.states) :
    SwapTrace QuickSwapOrigin (partitionBody pivot high j s).states := by
  subst hp
  unfold partitionBody
  simp only
  split_ifs with hc
  · refine swapTrace_push_swap _ _ _ _ s.arr (s.i + 1) j _ _ hi0 (by omega) (by omega) hj ?_
      (swapTrace_push _ _ _ _ _ _ h)
    exact Or.inr ⟨_, getLast?_pushState _ _ _, s.arr, s.i + 1, j, high, hc, rfl, rfl, rfl, rfl⟩
  · exact swapTrace_push _ _ _ _ _ _ h

theorem partitionSteps_swapTrace (arr : List Int) (states : List AlgorithmState)
    (low high : Int) (h0 : 0 ≤ low) (h1 : high < (arr.length : Int)) (hlt : low < high)
    (h : SwapTrace QuickSwapOrigin states) :
    SwapTrace QuickSwapOrigin (partitionSteps arr states low high).states := by
  have hinv := forLoop_invariant (partitionBody (getAt arr high 0) high)
    (fun j s => j ≤ high → PartitionInv arr low high (getAt arr high 0) j s ∧
      SwapTrace QuickSwapOrigin s.states)
    (high - low).toNat low
    { arr := arr, i := low - 1,
      states := pushState (pushState states
        ("Sorting segment [" ++ toString low ++ " to " ++ toString high ++ "]")
        (createArrayVisualization arr low high false))
        ("Pivot: " ++ toString (getAt arr high 0) ++ " (index " ++ toString high ++ ")")
        (createArrayVisualization arr high (-1) false) }
    (fun _ => ⟨⟨SwapReach.refl _, by simp, by simp only; omega,
      fun k hk1 hk2 => by simp only at hk2; omega,
      fun k hk1 hk2 => by simp only at hk1; omega, rfl⟩,
      swapTrace_push _ _ _ _ _ _ (swapTrace_push _ _ _ _ _ _ h)⟩)
    (fun j t hj1 hj2 hI hj3 => by
      obtain ⟨hP, hT⟩ := hI (by omega)
      have hl := hP.1.length_eq
      exact ⟨partitionBody_inv arr low high _ j t h0 h1 hj1 (by omega) hP,
        partitionBody_swapTrace _ high j t (by have := hP.2.1; omega) hP.2.2.1 (by omega)
          hP.2.2.2.2.2 hT⟩)
  have e : low + ((high - low).toNat : Int) = high := by omega
  rw [e] at hinv
  obtain ⟨hP, hT⟩ := hinv (le_refl _)
  have hl := hP.1.length_eq
  unfold partitionSteps
  simp only
  refine swapTrace_push_swap _ _ _ _ _ _ high _ _ (by have := hP.2.1; omega)
    (by have := hP.2.2.1; omega) (by omega) (by omega) ?_ hT
  exact Or.inl ⟨_, _, high, rfl, rfl⟩

theorem quickSortSteps_swapTrace : ∀ (fuel : Nat) (arr : List Int)
    (states : List AlgorithmState) (low high : Int) (r : List Int × List AlgorithmState),
    quickSortSteps fuel arr states low high = some r →
    0 ≤ low → high < (arr.length : Int) → SwapTrace QuickSwapOrigin states →
    SwapTrace QuickSwapOrigin r.2 ∧ r.1.length = arr.length := by
  intro fuel
  induction fuel with
  | zero =>
    intro arr states low high r hr h0 h1 h
    unfold quickSortSteps at hr
    split_ifs at hr
    simp only [Option.some.injEq] at hr
    rw [← hr]
    exact ⟨h, rfl⟩
  | succ fuel ih =>
    intro arr states low high r hr h0 h1 h
    unfold quickSortSteps at hr
    split_ifs at hr with hlt
    · obtain ⟨hreach, hi1, hi2, _, _⟩ := partitionSteps_spec arr states low high h0 h1 hlt
      have hT := partitionSteps_swapTrace arr states low high h0 h1 hlt h
      have hlen := hreach.length_eq
      simp only at hr
      split at hr
      · simp at hr
      · rename_i r1 hq
        obtain ⟨hT1, hl1⟩ := ih _ _ _ _ r1 hq h0 (by omega) hT
        obtain ⟨hT2, hl2⟩ := ih _ _ _ _ r hr (by omega) (by omega) hT1
        exact ⟨hT2, by omega⟩
    · simp only [Option.some.injEq] at hr
      rw [← hr]
      exact ⟨h, rfl⟩

theorem finalize_swap_index (Q : Option AlgorithmState → AlgorithmState → Prop)
    (hQ : ∀ (n : Int) (previous : Option AlgorithmState) (a : AlgorithmState), Q previous a →
      Q (previous.map (fun st => { st with totalSteps := n })) { a with totalSteps := n })
    (states : List AlgorithmState) (h : SwapTrace Q states) :
    ∀ (k : Nat) (a : AlgorithmState), (finalize states).states[k]? = some a →
      a.hasSwap = true →
      ∃ b, (finalize states).states[k + 1]? = some b ∧ SwapPair a b ∧
        Q (if k = 0 then none else (finalize states).states[k - 1]?) a := by
  intro k a hk ha
  simp only [finalize, List.getElem?_map, Option.map_eq_some'] at hk ⊢
  obtain ⟨a0, hk0, rfl⟩ := hk
  obtain ⟨b0, hb0, hp, hq⟩ := swapTrace_index Q states h k a0 hk0 ha
  refine ⟨_, ⟨b0, hb0, rfl⟩, hp, ?_⟩
  have := hQ (states.length : Int) _ a0 hq
  by_cases hk : k = 0
  · simpa [hk] using this
  · simpa [hk] using this

theorem quickSwapOrigin_finalize (n : Int) (previous : Option AlgorithmState)
    (a : AlgorithmState) (h : QuickSwapOrigin previous a) :
    QuickSwapOrigin (previous.map (fun st => { st with totalSteps := n }))
      { a with totalSteps := n } := by
  rcases h with h | ⟨c, hc, hp⟩
  · exact Or.inl h
  · refine Or.inr ⟨{ c with totalSteps := n }, ?_, hp⟩
    rw [hc]
    rfl

end SortCpp

namespace SortCpp

theorem heapifyNode_bounds (arr : List Int) (states : List AlgorithmState) (n i : Int)
    (h0 : 0 ≤ i) (hin : i < n) :
    i ≤ (heapifyNode arr states n i).largest ∧ (heapifyNode arr states n i).largest < n ∧
    (heapifyNode arr states n i).arr.length = arr.length := by
  obtain ⟨hcase, _, _, _⟩ := heapifyNode_spec arr states n i
  refine ⟨by omega, by omega, ?_⟩
  rw [heapifyNode_arr]
  split_ifs
  · exact length_swapAt _ _ _
  · rfl

theorem heapifyNode_swapTrace (arr : List Int) (states : List AlgorithmState) (n i : Int)
    (h0 : 0 ≤ i) (hin : i < n) (hn : n ≤ (arr.length : Int))
    (h : SwapTrace (fun _ _ => True) states) :
    SwapTrace (fun _ _ => True) (heapifyNode arr states n i).states := by
  have p1 := swapTrace_push (fun _ _ => True) states
    ("Heapifying subtree rooted at index " ++ toString i) arr i (-1) h
  unfold heapifyNode
  simp only
  split_ifs <;>
    first
      | exact p1
      | exact swapTrace_push _ _ _ _ _ _ p1
      | exact swapTrace_push _ _ _ _ _ _ (swapTrace_push _ _ _ _ _ _ p1)
      | exact swapTrace_push_swap _ _ _ _ _ _ _ _ _ (by omega) (by omega) (by omega)
          (by omega) trivial p1
      | exact swapTrace_push_swap _ _ _ _ _ _ _ _ _ (by omega) (by omega) (by omega)
          (by omega) trivial (swapTrace_push _ _ _ _ _ _ p1)
      | exact swapTrace_push_swap _ _ _ _ _ _ _ _ _ (by omega) (by omega) (by omega)
          (by omega) trivial (swapTrace_push _ _ _ _ _ _ (swapTrace_push _ _ _ _ _ _ p1))

theorem heapifySteps_swapTrace : ∀ (fuel : Nat) (arr : List Int)
    (states : List AlgorithmState) (n i : Int) (r : List Int × List AlgorithmState),
    heapifySteps fuel arr states n i = some r →
    0 ≤ i → i < n → n ≤ (arr.length : Int) → SwapTrace (fun _ _ => True) states →
    SwapTrace (fun _ _ => True) r.2 ∧ r.1.length = arr.length := by
  intro fuel
  induction fuel with
  | zero =>
    intro arr states n i r hr h0 hin hn h
    obtain ⟨_, _, hl⟩ := heapifyNode_bounds arr states n i h0 hin
    unfold heapifySteps at hr
    simp only at hr
    split_ifs at hr
    simp only [Option.some.injEq] at hr
    rw [← hr]
    exact ⟨heapifyNode_swapTrace _ _ _ _ h0 hin hn h, hl⟩
  | succ fuel ih =>
    intro arr states n i r hr h0 hin hn h
    obtain ⟨hb2, hb1, hl⟩ := heapifyNode_bounds arr states n i h0 hin
    unfold heapifySteps at hr
    simp only at hr
    split_ifs at hr
    · obtain ⟨hT, hl2⟩ := ih _ _ _ _ r hr (by omega) hb1 (by omega)
        (heapifyNode_swapTrace _ _ _ _ h0 hin hn h)
      exact ⟨hT, by omega⟩
    · simp only [Option.some.injEq] at hr
      rw [← hr]
      exact ⟨heapifyNode_swapTrace _ _ _ _ h0 hin hn h, hl⟩

theorem heapSortSteps_swapTrace (arr : List Int) (states : List AlgorithmState)
    (r : List Int × List AlgorithmState) (hr : heapSortSteps arr states = some r)
    (h : SwapTrace (fun _ _ => True) states) : SwapTrace (fun _ _ => True) r.2 := by
  unfold heapSortSteps at hr
  simp only at hr
  split at hr
  · simp at hr
  · rename_i r1 h1
    have i1 := forDownLoop_invariant_of_some (buildHeapBody (arr.length : Int))
      (fun _ (t : List Int × List AlgorithmState) =>
        t.1.length = arr.length ∧ SwapTrace (fun _ _ => True) t.2)
      ((arr.length : Int) / 2).toNat ((arr.length : Int) / 2 - 1)
      (arr, pushState states "Building heap (rearranging array)"
        (createArrayVisualization arr (-1) (-1) false))
      r1 ⟨rfl, swapTrace_push _ _ _ _ _ _ h⟩
      (fun j t t1 hj1 hj2 hI hb => by
        obtain ⟨hT, hl⟩ := heapifySteps_swapTrace _ _ _ _ _ t1 hb (by omega) (by omega)
          (by omega) hI.2
        exact ⟨by omega, hT⟩) h1
    have i2 := forDownLoop_invariant_of_some (extractBody (arr.length : Int))
      (fun _ (t : List Int × List AlgorithmState) =>
        t.1.length = arr.length ∧ SwapTrace (fun _ _ => True) t.2)
      ((arr.length : Int) - 1).toNat ((arr.length : Int) - 1)
      (r1.1, pushState r1.2 "Heap built successfully"
        (createArrayVisualization r1.1 (-1) (-1) false))
      r ⟨i1.1, swapTrace_push _ _ _ _ _ _ i1.2⟩
      (fun j t t1 hj1 hj2 hI hb => by
        have hls : (swapAt t.1 0 j).length = t.1.length := length_swapAt _ _ _
        obtain ⟨hT, hl⟩ := heapifySteps_swapTrace _ _ _ _ _ t1 hb (le_refl _) (by omega)
          (by omega)
          (swapTrace_push_swap _ _ _ _ _ _ _ _ _ (le_refl _) (by omega) (by omega) (by omega)
            trivial hI.2)
        exact ⟨by omega, hT⟩) hr
    exact i2.2

end SortCpp

namespace SortCpp

theorem quickSort_swap_index (self : SortingAlgorithms) (arr : List Int)
    (r : SortingAlgorithms × List Int) (hr : self.quickSort arr = some r) :
    ∀ (k : Nat) (a : AlgorithmState), r.1.states[k]? = some a → a.hasSwap = true →
      ∃ b, r.1.states[k + 1]? = some b ∧ SwapPair a b ∧
        QuickSwapOrigin (if k = 0 then none else r.1.states[k - 1]?) a := by
  unfold SortingAlgorithms.quickSort at hr
  simp only [Option.map_eq_some'] at hr
  obtain ⟨t, ht, rfl⟩ := hr
  obtain ⟨hT, _⟩ := quickSortSteps_swapTrace _ _ _ _ _ t ht (le_refl _) (by omega)
    (swapTrace_push _ _ _ _ _ _ SwapTrace.nil)
  exact finalize_swap_index QuickSwapOrigin quickSwapOrigin_finalize _
    (swapTrace_push _ _ _ _ _ _ hT)

theorem heapSort_swap_index (self : SortingAlgorithms) (arr : List Int)
    (r : SortingAlgorithms × List Int) (hr : self.heapSort arr = some r) :
    ∀ (k : Nat) (a : AlgorithmState), r.1.states[k]? = some a → a.hasSwap = true →
      ∃ b, r.1.states[k + 1]? = some b ∧ SwapPair a b := by
  unfold SortingAlgorithms.heapSort at hr
  simp only [Option.map_eq_some'] at hr
  obtain ⟨t, ht, rfl⟩ := hr
  have hT := heapSortSteps_swapTrace _ _ t ht (swapTrace_push _ _ _ _ _ _ SwapTrace.nil)
  intro k a hk ha
  obtain ⟨b, hb, hp, _⟩ := finalize_swap_index (fun _ _ => True) (fun _ _ _ _ => trivial) _
    (swapTrace_push _ _ "Array sorted with HeapSort" t.1 (-1) (-1) hT) k a hk ha
  exact ⟨b, hb, hp⟩

end SortCpp

namespace SortCpp

/-- C30: `quickSort` and `heapSort` return a trace for every array, and in it every
swap-intent snapshot (some element has `swapping = true`) is flagged exactly at two
positions `i`, `j` of the array and is immediately followed by a snapshot in which no
element has `swapping = true` and whose value sequence is that of the swap-intent snapshot
with the values at `i` and `j` exchanged (unchanged when `i = j`).  In `quickSort` every
swap-intent snapshot is either the pivot placement (`"Swap x and pivot y"`) or a swap of
`arr[i]` and `arr[j]` of the partition loop, and the latter is immediately preceded by the
comparison snapshot `"Compare arr[j] with pivot p"` on the same array, whose test
`arr[j] < p` held. -/
theorem swap_intent_followed_by_post_swap (self : SortingAlgorithms) (arr : List Int) :
    (∃ r, self.quickSort arr = some r ∧
      ∀ (k : Nat) (a : AlgorithmState), r.1.states[k]? = some a → a.hasSwap = true →
        ∃ b, r.1.states[k + 1]? = some b ∧ SwapPair a b ∧
          (PivotPlacement a ∨
            ∃ c, 1 ≤ k ∧ r.1.states[k - 1]? = some c ∧ PartitionSwap c a)) ∧
    (∃ r, self.heapSort arr = some r ∧
      ∀ (k : Nat) (a : AlgorithmState), r.1.states[k]? = some a → a.hasSwap = true →
        ∃ b, r.1.states[k + 1]? = some b ∧ SwapPair a b) := by
  obtain ⟨r1, _, h1, _⟩ := quickSort_sortsTo self arr
  obtain ⟨r2, _, h2, _⟩ := heapSort_sortsTo self arr
  refine ⟨⟨r1, h1, ?_⟩, ⟨r2, h2, heapSort_swap_index self arr r2 h2⟩⟩
  intro k a hk ha
  obtain ⟨b, hb, hp, hq⟩ := quickSort_swap_index self arr r1 h1 k a hk ha
  refine ⟨b, hb, hp, ?_⟩
  rcases hq with hq | ⟨c, hc, hq⟩
  · exact Or.inl hq
  · by_cases hk0 : k = 0
    · rw [if_pos hk0] at hc
      exact Option.noConfusion hc
    · rw [if_neg hk0] at hc
      exact Or.inr ⟨c, by omega, hc, hq⟩

/-- Instance of C30 at the array `[3, 1, 2]`: snapshot 5 of the `quickSort` trace is the
swap-intent of the partition loop, after the comparison snapshot 4 and before its post-swap
snapshot 6; snapshot 6 of the `heapSort` trace is the swap-intent of the first extraction,
before its post-swap snapshot 7. -/
theorem swap_intent_followed_by_post_swap_witness :
    (∃ r a b c, ({} : SortingAlgorithms).quickSort [3, 1, 2] = some r ∧
      r.1.states[5]? = some a ∧ a.hasSwap = true ∧ r.1.states[6]? = some b ∧ SwapPair a b ∧
      r.1.states[4]? = some c ∧ c.hasSwap = false) ∧
    (∃ r a b, ({} : SortingAlgorithms).heapSort [3, 1, 2] = some r ∧
      r.1.states[6]? = some a ∧ a.hasSwap = true ∧ r.1.states[7]? = some b ∧ SwapPair a b) := by
  obtain ⟨⟨r1, h1, p1⟩, ⟨r2, h2, p2⟩⟩ :=
    swap_intent_followed_by_post_swap ({} : SortingAlgorithms) [3, 1, 2]
  have e1 : (({} : SortingAlgorithms).quickSort [3, 1, 2]).map
      (fun r => (r.1.states[5]?.map AlgorithmState.hasSwap,
        r.1.states[4]?.map AlgorithmState.hasSwap)) = some (some true, some false) := by rfl
  have e2 : (({} : SortingAlgorithms).heapSort [3, 1, 2]).map
      (fun r => r.1.states[6]?.map AlgorithmState.hasSwap) = some (some true) := by rfl
  rw [h1] at e1
  rw [h2] at e2
  simp only [Option.map_some', Option.some.injEq, Prod.mk.injEq, Option.map_eq_some'] at e1 e2
  obtain ⟨⟨a1, ha1, hs1⟩, ⟨c1, hc1, hcs1⟩⟩ := e1
  obtain ⟨a2, ha2, hs2⟩ := e2
  obtain ⟨b1, hb1, hp1, _⟩ := p1 5 a1 ha1 hs1
  obtain ⟨b2, hb2, hp2⟩ := p2 6 a2 ha2 hs2
  exact ⟨⟨r1, a1, b1, c1, h1, ha1, hs1, hb1, hp1, hc1, hcs1⟩,
    ⟨r2, a2, b2, h2, ha2, hs2, hb2, hp2⟩⟩

end SortCpp

/-! ### Binary search tree: the trace follows the descent path -/

namespace TreeCpp

theorem forLoop_append_one {α : Type} (f : Int → α) (body : Int → List α → List α)
    (hb : ∀ j st, body j st = st ++ [f j]) :
    ∀ (n : Nat) (a : Int) (s : List α),
      forLoop body n a s = s ++ (List.range n).map (fun (k : Nat) => f (a + (k : Int))) := by
  intro n
  induction n with
  | zero => intro a s; simp [forLoop]
  | succ n ih =>
    intro a s
    rw [forLoop, ih, hb, List.range_succ_eq_map, List.map_cons, List.map_map,
      List.append_assoc]
    simp only [Nat.cast_zero, add_zero, List.singleton_append, List.cons.injEq, true_and,
      List.append_cancel_left_eq]
    apply List.map_congr_left
    intro k _
    simp only [Function.comp, Nat.cast_succ]
    congr 1
    ring

theorem range_map_getAt {α β : Type} (l : List α) (d : α) (g : α → β) :
    (List.range l.length).map (fun (k : Nat) => g (getAt l (0 + (k : Int)) d)) = l.map g := by
  apply List.ext_getElem
  · simp
  · intro n h1 h2
    simp only [List.length_map, List.length_range] at h1
    simp only [List.getElem_map, List.getElem_range, zero_add]
    rw [getAt_natCast l n d h1]

theorem insertRecursive_path (t : Node) (v : Int) :
    ∀ path, (insertRecursive t v path).2 = path ++ descentPath t v := by
  induction t with
  | null => intro path; simp [insertRecursive, descentPath]
  | mk data left right ihl ihr =>
    intro path
    unfold insertRecursive descentPath
    split_ifs with h1 h2
    · simp only [ihl, List.append_assoc, List.singleton_append]
    · simp only [ihr, List.append_assoc, List.singleton_append]
    · rfl

theorem findNode_path (t : Node) (v : Int) :
    ∀ path, (findNode t v path).2 = path ++ descentPath t v := by
  induction t with
  | null => intro path; simp [findNode, descentPath]
  | mk data left right ihl ihr =>
    intro path
    unfold findNode descentPath
    by_cases h0 : data = v
    · subst h0
      simp
    · rw [if_neg h0]
      by_cases h1 : v < data
      · rw [if_pos h1, if_pos h1, ihl, List.append_assoc, List.singleton_append]
      · have h2 : v > data := by omega
        rw [if_neg h1, if_neg h1, if_pos h2, ihr, List.append_assoc, List.singleton_append]

theorem descentPath_contains (t : Node) (v : Int) :
    ∀ p ∈ descentPath t v, Node.Contains p t := by
  induction t with
  | null => intro p hp; simp [descentPath] at hp
  | mk data left right ihl ihr =>
    intro p hp
    unfold descentPath at hp
    rcases List.mem_cons.mp hp with h | h
    · exact Or.inl h
    · split_ifs at h with h1 h2
      · exact Or.inr (Or.inl (ihl p h))
      · exact Or.inr (Or.inr (ihr p h))
      · simp at h

theorem highlightPath_nodes (initialState : AlgorithmState) (path : List Int) (i : Int) :
    (highlightPath initialState path i).nodes =
      initialState.nodes.map (fun node =>
        { node with highlighted := (node.value == getAt path i 0) }) := by
  unfold highlightPath
  simp only
  split_ifs <;> rfl

theorem highlight_values_none (positions : List (Int × NodePosition)) (p : Int)
    (hok : ∀ q ∈ positions, q.2.value = q.1 ∧ q.2.highlighted = false)
    (hp : p ∉ positions.map Prod.fst) :
    ((((positions.map Prod.snd).map (fun (node : NodePosition) =>
      { node with highlighted := (node.value == p) })).filter
        (fun n => n.highlighted)).map NodePosition.value) = [] := by
  induction positions with
  | nil => rfl
  | cons q tl ih =>
    simp only [List.map_cons, List.mem_cons, not_or] at hp
    have hq := hok q (List.mem_cons_self _ _)
    have hne : (q.2.value == p) = false := by
      rw [beq_eq_false_iff_ne, hq.1]
      exact fun e => hp.1 e.symm
    simp only [List.map_cons, List.filter_cons, hne, Bool.false_eq_true, if_false]
    exact ih (fun r hr => hok r (List.mem_cons_of_mem _ hr)) hp.2

theorem highlight_values_one (positions : List (Int × NodePosition)) (p : Int)
    (hok : LayoutOk positions) (hp : p ∈ positions.map Prod.fst) :
    ((((positions.map Prod.snd).map (fun (node : NodePosition) =>
      { node with highlighted := (node.value == p) })).filter
        (fun n => n.highlighted)).map NodePosition.value) = [p] := by
  induction positions with
  | nil => simp at hp
  | cons q tl ih =>
    obtain ⟨hs, hval⟩ := hok
    simp only [List.map_cons, List.pairwise_cons] at hs
    have hq := hval q (List.mem_cons_self _ _)
    have htl : ∀ r ∈ tl, r.2.value = r.1 ∧ r.2.highlighted = false :=
      fun r hr => hval r (List.mem_cons_of_mem _ hr)
    by_cases e : q.1 = p
    · have hnot : p ∉ tl.map Prod.fst := by
        intro hmem
        have := hs.1 p hmem
        omega
      have he : (q.2.value == p) = true := by
        rw [beq_iff_eq, hq.1]
        exact e
      simp only [List.map_cons, List.filter_cons, he, if_true]
      rw [highlight_values_none tl p htl hnot, hq.1, e]
    · have hne : (q.2.value == p) = false := by
        rw [beq_eq_false_iff_ne, hq.1]
        exact e
      have hmem : p ∈ tl.map Prod.fst := by
        simp only [List.map_cons, List.mem_cons] at hp
        rcases hp with hp | hp
        · exact absurd hp.symm e
        · exact hp
      simp only [List.map_cons, List.filter_cons, hne, Bool.false_eq_true, if_false]
      exact ih ⟨hs.2, htl⟩ hmem

theorem highlightedValues_initial (positions : List (Int × NodePosition))
    (hok : LayoutOk positions) (edges : List EdgePosition) (message : String)
    (step total : Int) :
    highlightedValues ⟨positions.map Prod.snd, edges, message, step, total⟩ = [] := by
  unfold highlightedValues
  simp only
  have : (positions.map Prod.snd).filter (fun n => n.highlighted) = [] := by
    rw [List.filter_eq_nil_iff]
    intro n hn
    obtain ⟨q, hq, rfl⟩ := List.mem_map.mp hn
    rw [(hok.2 q hq).2]
    decide
  rw [this]
  rfl

theorem layout_fresh_ok (t : Node) (edges : List EdgePosition) :
    LayoutOk (calculatePositions t { positions := [], nextId := 0, edges := edges }).positions :=
  calculatePositions_layoutOk _ _ ⟨by simp, by simp⟩

theorem layout_fresh_keys (t : Node) (edges : List EdgePosition) (x : Int) :
    x ∈ (calculatePositions t
      { positions := [], nextId := 0, edges := edges }).positions.map Prod.fst ↔
      Node.Contains x t := by
  rw [calculatePositions_keys]
  simp

theorem path_highlights (t : Node) (edges : List EdgePosition) (message : String)
    (v : Int) (msg : Int → String) :
    (List.range (descentPath t v).length).map (fun (k : Nat) =>
      highlightedValues
        { highlightPath ⟨(calculatePositions t
            { positions := [], nextId := 0, edges := edges }).positions.map Prod.snd,
            (calculatePositions t { positions := [], nextId := 0, edges := edges }).edges,
            message, 1, 0⟩ (descentPath t v) (0 + (k : Int)) with
          step := 0 + (k : Int) + 2, message := msg (0 + (k : Int)) }) =
      (descentPath t v).map (fun p => [p]) := by
  apply List.ext_getElem
  · simp
  · intro n h1 h2
    simp only [List.length_map, List.length_range] at h1
    simp only [List.getElem_map, List.getElem_range, zero_add]
    unfold highlightedValues
    simp only [highlightPath_nodes]
    rw [getAt_natCast _ n 0 h1]
    exact highlight_values_one _ _ (layout_fresh_ok t edges)
      ((layout_fresh_keys t edges _).mpr
        (descentPath_contains t v _ (List.getElem_mem _)))

end TreeCpp

namespace TreeCpp

theorem insert_messages (bst : BinarySearchTree) (v : Int) :
    (bst.insert v).states.map AlgorithmState.message =
      ["Starting BST insertion for value " ++ toString v] ++
        (descentPath bst.root v).map (fun p => "Comparing with node " ++ toString p) ++
        ["Inserted " ++ toString v ++ " into the tree"] := by
  have hp : (insertRecursive bst.root v []).2 = descentPath bst.root v := by
    rw [insertRecursive_path, List.nil_append]
  simp only [BinarySearchTree.insert, createInsertionStates, finalize, List.map_map, hp]
  rw [forLoop_append_one _ (insertionPathBody _ (descentPath bst.root v))
    (fun j st => rfl)]
  simp only [List.map_append, List.map_cons, List.map_nil, List.map_map, Function.comp_def,
    List.singleton_append, List.cons_append, List.nil_append]
  rw [range_map_getAt (descentPath bst.root v) 0
    (fun p => "Comparing with node " ++ toString p)]

theorem insert_highlights (bst : BinarySearchTree) (v : Int) :
    (bst.insert v).states.map highlightedValues =
      [[]] ++ (descentPath bst.root v).map (fun p => [p]) ++ [[v]] := by
  have hp : (insertRecursive bst.root v []).2 = descentPath bst.root v := by
    rw [insertRecursive_path, List.nil_append]
  have hfinal : ((((calculatePositions (insertRecursive bst.root v []).1
      { positions := [], nextId := 0, edges := [] }).positions.map (fun pair =>
        if pair.2.value = v then { pair.2 with highlighted := true } else pair.2)).filter
          (fun n => n.highlighted)).map NodePosition.value) = [v] := by
    obtain ⟨node, h1, h2⟩ := highlight_filter_one _ v
      (layout_fresh_ok (insertRecursive bst.root v []).1 [])
      ((layout_fresh_keys _ _ _).mpr ((insertRecursive_contains _ _ _ _).mpr (Or.inl rfl)))
    rw [h1, List.map_cons, h2, List.map_nil]
  simp only [BinarySearchTree.insert, createInsertionStates, finalize, List.map_map, hp]
  rw [forLoop_append_one _ (insertionPathBody _ (descentPath bst.root v))
    (fun j st => rfl)]
  simp only [List.map_append, List.map_cons, List.map_nil, List.map_map, Function.comp_def,
    List.singleton_append, List.cons_append, List.nil_append]
  have h1 := path_highlights bst.root bst.edges
    ("Starting BST insertion for value " ++ toString v) v
    (fun i => "Comparing with node " ++ toString (getAt (descentPath bst.root v) i 0))
  have h0 := highlightedValues_initial _ (layout_fresh_ok bst.root bst.edges)
    (calculatePositions bst.root { positions := [], nextId := 0, edges := bst.edges }).edges
    ("Starting BST insertion for value " ++ toString v) 1
    ((descentPath bst.root v).length + 1 + 1 : Nat)
  refine congrArg₂ List.cons ?_ (congrArg₂ HAppend.hAppend ?_ ?_)
  · exact h0
  · exact h1
  · exact congrArg (fun x => [x]) hfinal

theorem search_length (bst : BinarySearchTree) (v : Int) :
    (bst.search v).1.states.length = (descentPath bst.root v).length + 2 := by
  have hp : (findNode bst.root v []).2 = descentPath bst.root v := by
    rw [findNode_path, List.nil_append]
  simp only [BinarySearchTree.search, createSearchStates, finalize, List.length_map, hp]
  rw [forLoop_append_one _ (searchPathBody _ (descentPath bst.root v) v)
    (fun j st => rfl)]
  simp

end TreeCpp

namespace TreeCpp

/-- C32: for every tree object and value `v`, with `path` the values met on the descent for
`v` from the root (the path that `insertRecursive` and `findNode` record), the `insert(v)`
trace is the initial snapshot, one `"Comparing with node p"` snapshot for each `p` of
`path` in order, whose only highlighted node entity is the one of value `p`, and the final
snapshot `"Inserted v into the tree"`, in which only `v` is highlighted; the trace has
`path.length + 2` snapshots (2 for the empty tree, whose path is empty), and so has the
`search(v)` trace.  Inserting 15 into the tree built from 50, 25, 75 gives the path 50, 25
and 4 snapshots. -/
theorem insert_trace_follows_descent (bst : BinarySearchTree) (v : Int) :
    (insertRecursive bst.root v []).2 = descentPath bst.root v ∧
    (findNode bst.root v []).2 = descentPath bst.root v ∧
    (bst.insert v).states.map AlgorithmState.message =
      ["Starting BST insertion for value " ++ toString v] ++
        (descentPath bst.root v).map (fun p => "Comparing with node " ++ toString p) ++
        ["Inserted " ++ toString v ++ " into the tree"] ∧
    (bst.insert v).states.map highlightedValues =
      [[]] ++ (descentPath bst.root v).map (fun p => [p]) ++ [[v]] ∧
    (bst.insert v).states.length = (descentPath bst.root v).length + 2 ∧
    (bst.search v).1.states.length = (descentPath bst.root v).length + 2 ∧
    descentPath Node.null v = [] ∧
    (({} : BinarySearchTree).insert v).states.length = 2 ∧
    descentPath (insertAll [50, 25, 75]).root 15 = [50, 25] ∧
    ((insertAll [50, 25, 75]).insert 15).states.length = 4 := by
  have hlen : ∀ b : BinarySearchTree,
      (b.insert v).states.length = (descentPath b.root v).length + 2 := by
    intro b
    have h := congrArg List.length (insert_messages b v)
    simpa using h
  refine ⟨by rw [insertRecursive_path, List.nil_append],
    by rw [findNode_path, List.nil_append], insert_messages bst v, insert_highlights bst v,
    hlen bst, search_length bst v, rfl, hlen {}, by decide, by decide⟩

end TreeCpp

namespace TreeCpp

theorem mem_inorder (t : Node) (x : Int) : x ∈ Node.inorder t ↔ Node.Contains x t := by
  induction t with
  | null => simp [Node.inorder, Node.Contains]
  | mk data left right ihl ihr =>
    simp only [Node.inorder, Node.Contains, List.mem_cons, List.mem_append, ihl, ihr]
    tauto

theorem inorder_sorted (t : Node) (h : Node.Ordered t) :
    (Node.inorder t).Pairwise (fun a b => a < b) := by
  induction t with
  | null => exact List.Pairwise.nil
  | mk data left right ihl ihr =>
    obtain ⟨hl, hr, ol, orr⟩ := h
    simp only [Node.inorder]
    rw [List.pairwise_append]
    refine ⟨ihl ol, List.pairwise_cons.mpr ⟨fun x hx => hr x ((mem_inorder _ _).mp hx),
      ihr orr⟩, ?_⟩
    intro a ha b hb
    have h1 := hl a ((mem_inorder _ _).mp ha)
    rcases List.mem_cons.mp hb with h | h
    · rw [h]
      exact h1
    · have h2 := hr b ((mem_inorder _ _).mp h)
      omega

theorem insertRecursive_again (t : Node) (v : Int) :
    ∀ p q, (insertRecursive (insertRecursive t v p).1 v q).1 = (insertRecursive t v p).1 := by
  induction t with
  | null =>
    intro p q
    simp [insertRecursive]
  | mk data left right ihl ihr =>
    intro p q
    by_cases h1 : v < data
    · have e : (insertRecursive (Node.mk data left right) v p).1 =
          Node.mk data (insertRecursive left v (p ++ [data])).1 right := by
        simp [insertRecursive, h1]
      rw [e]
      simp only [insertRecursive, h1, if_true]
      rw [ihl]
    · by_cases h2 : v > data
      · have e : (insertRecursive (Node.mk data left right) v p).1 =
            Node.mk data left (insertRecursive right v (p ++ [data])).1 := by
          simp [insertRecursive, h1, h2]
        rw [e]
        simp only [insertRecursive, h1, h2, if_true, if_false]
        rw [ihr]
      · have e : (insertRecursive (Node.mk data left right) v p).1 =
            Node.mk data left right := by
          simp [insertRecursive, h1, h2]
        rw [e]
        simp [insertRecursive, h1, h2]

theorem descent_after_insert (t : Node) (v : Int) :
    ∀ p, (descentPath (insertRecursive t v p).1 v).getLast? = some v := by
  induction t with
  | null =>
    intro p
    simp [insertRecursive, descentPath]
  | mk data left right ihl ihr =>
    intro p
    by_cases h1 : v < data
    · have e : (insertRecursive (Node.mk data left right) v p).1 =
          Node.mk data (insertRecursive left v (p ++ [data])).1 right := by
        simp [insertRecursive, h1]
      rw [e]
      simp only [descentPath, h1, if_true]
      have := ihl (p ++ [data])
      rw [List.getLast?_cons, this]
      rfl
    · by_cases h2 : v > data
      · have e : (insertRecursive (Node.mk data left right) v p).1 =
            Node.mk data left (insertRecursive right v (p ++ [data])).1 := by
          simp [insertRecursive, h1, h2]
        rw [e]
        simp only [descentPath, h1, h2, if_true, if_false]
        have := ihr (p ++ [data])
        rw [List.getLast?_cons, this]
        rfl
      · have e : (insertRecursive (Node.mk data left right) v p).1 =
            Node.mk data left right := by
          simp [insertRecursive, h1, h2]
        have hv : v = data := by omega
        rw [e]
        simp [descentPath, h1, h2, hv]

theorem insertRecursive_present (t : Node) (v : Int) (ho : Node.Ordered t)
    (hc : Node.Contains v t) :
    ∀ p, (insertRecursive t v p).1 = t := by
  induction t with
  | null => exact absurd hc (by simp [Node.Contains])
  | mk data left right ihl ihr =>
    intro p
    obtain ⟨hl, hr, ol, orr⟩ := ho
    by_cases h1 : v < data
    · have hcl : Node.Contains v left := by
        rcases hc with h | h | h
        · omega
        · exact h
        · have := hr v h
          omega
      simp only [insertRecursive, h1, if_true]
      rw [ihl ol hcl]
    · by_cases h2 : v > data
      · have hcr : Node.Contains v right := by
          rcases hc with h | h | h
          · omega
          · have := hl v h
            omega
          · exact h
        simp only [insertRecursive, h1, h2, if_true, if_false]
        rw [ihr orr hcr]
      · simp [insertRecursive, h1, h2]

theorem search_head (bst : BinarySearchTree) (v : Int) :
    ∃ st, (bst.search v).1.states.head? = some st ∧
      st.nodes = (calculatePositions bst.root
        { positions := [], nextId := 0, edges := bst.edges }).positions.map Prod.snd ∧
      st.edges = (calculatePositions bst.root
        { positions := [], nextId := 0, edges := bst.edges }).edges := by
  simp only [BinarySearchTree.search, createSearchStates, finalize]
  rw [forLoop_append_one _ (searchPathBody _ _ v) (fun j st => rfl)]
  simp only [List.singleton_append, List.cons_append, List.map_cons, List.head?_cons]
  exact ⟨_, rfl, rfl, rfl⟩

end TreeCpp

namespace TreeCpp

/-- C34: for every sequence `xs` of `insert` calls from the empty tree, the in-order
traversal of the resulting tree is strictly increasing, every left subtree holds only
smaller and every right subtree only larger values than its node, and the stored values
are exactly the values of `xs`; inserting 50, 25, 75, 15 gives the in-order traversal
15, 25, 50, 75. -/
theorem insert_keeps_search_tree_order (xs : List Int) :
    (Node.inorder (insertAll xs).root).Pairwise (fun a b => a < b) ∧
    Node.Ordered (insertAll xs).root ∧
    (∀ x, x ∈ Node.inorder (insertAll xs).root ↔ x ∈ xs) ∧
    Node.inorder (insertAll [50, 25, 75, 15]).root = [15, 25, 50, 75] := by
  obtain ⟨ho, hc⟩ := insertAll_root xs
  refine ⟨inorder_sorted _ ho, ho, fun x => ?_, by decide⟩
  rw [mem_inorder, hc]

/-- C37: for every tree object and value `v`, a second `insert(v)` leaves the tree of the
first `insert(v)` unchanged, and the descent path of the second trace ends at the node of
value `v`, so its last path snapshot is `"Comparing with node v"`.  On a tree in
search-tree order that already stores `v`, already the first `insert(v)` leaves the tree
unchanged and its descent path ends at `v`. -/
theorem insert_stored_value_keeps_tree (bst : BinarySearchTree) (v : Int) :
    ((bst.insert v).insert v).root = (bst.insert v).root ∧
    (descentPath (bst.insert v).root v).getLast? = some v ∧
    ((bst.insert v).insert v).states.map AlgorithmState.message =
      ["Starting BST insertion for value " ++ toString v] ++
        (descentPath (bst.insert v).root v).map
          (fun p => "Comparing with node " ++ toString p) ++
        ["Inserted " ++ toString v ++ " into the tree"] ∧
    (Node.Ordered bst.root → Node.Contains v bst.root →
      (bst.insert v).root = bst.root ∧ (descentPath bst.root v).getLast? = some v) := by
  refine ⟨?_, ?_, insert_messages (bst.insert v) v, ?_⟩
  · rw [insert_root, insert_root]
    exact insertRecursive_again bst.root v [] []
  · rw [insert_root]
    exact descent_after_insert bst.root v []
  · intro ho hc
    have e := insertRecursive_present bst.root v ho hc []
    refine ⟨by rw [insert_root, e], ?_⟩
    have := descent_after_insert bst.root v []
    rw [e] at this
    exact this

/-- Instance of C37 on the tree built by inserting 50, 25, 75, for the stored value 25:
the tree is unchanged and the descent path is 50, 25. -/
theorem insert_stored_value_keeps_tree_witness :
    ((insertAll [50, 25, 75]).insert 25).root = (insertAll [50, 25, 75]).root ∧
    (descentPath (insertAll [50, 25, 75]).root 25).getLast? = some 25 ∧
    descentPath (insertAll [50, 25, 75]).root 25 = [50, 25] :=
  ⟨((insert_stored_value_keeps_tree (insertAll [50, 25, 75]) 25).2.2.2
      (insertAll_root [50, 25, 75]).1
      (((insertAll_root [50, 25, 75]).2 25).mpr (by decide))).1,
    ((insert_stored_value_keeps_tree (insertAll [50, 25, 75]) 25).2.2.2
      (insertAll_root [50, 25, 75]).1
      (((insertAll_root [50, 25, 75]).2 25).mpr (by decide))).2,
    by decide⟩

/-- C33, the failing run: `calculatePositions` appends to the member `edges`, which only
the final pass of `createInsertionStates` clears.  On the tree built by inserting 50, 25,
75, 15 (4 nodes, 3 parent-child links) the initial snapshot of every `search(v)` has 6
edge entities, the 3 left by the last insertion and 3 new ones; the final snapshot of that
last insertion has 3, and the initial snapshot of `insert(75)` on the tree of 50 and 25 has
2 edge entities for its single link. -/
theorem search_initial_snapshot_keeps_stale_edges :
    (∀ v, ∃ st, ((insertAll [50, 25, 75, 15]).search v).1.states.head? = some st ∧
      st.nodes.length = 4 ∧ st.edges.length = 6) ∧
    (Node.preorder (insertAll [50, 25, 75, 15]).root).length = 4 ∧
    (insertAll [50, 25, 75, 15]).states.getLast?.map (fun st => st.edges.length) = some 3 ∧
    ((insertAll [50, 25]).insert 75).states.head?.map
      (fun st => (st.nodes.length, st.edges.length)) = some (2, 2) := by
  refine ⟨fun v => ?_, by decide, by decide, by decide⟩
  obtain ⟨st, h1, h2, h3⟩ := search_head (insertAll [50, 25, 75, 15]) v
  refine ⟨st, h1, ?_, ?_⟩
  · rw [h2]
    decide
  · rw [h3]
    decide

end TreeCpp

/-! ### Fibonacci: the sums stay inside `int` exactly up to `n = 46` -/

namespace DpCpp

theorem fibonacciBody_prefix (n : Nat) (initialState : AlgorithmState) (i : Int)
    (s : List Int × List AlgorithmState) (hi1 : 2 ≤ i) (hi2 : i ≤ (n : Int))
    (h : FibPrefix n i s) : FibPrefix n (i + 1) (fibonacciBody initialState i s) := by
  obtain ⟨hlen, hval⟩ := h
  obtain ⟨j, rfl⟩ : ∃ j : Nat, i = ((j + 2 : Nat) : Int) := ⟨(i - 2).toNat, by omega⟩
  unfold fibonacciBody
  simp only
  refine ⟨by rw [length_setAt]; exact hlen, ?_⟩
  intro k hk1 hk2 hk3
  rw [getAt_setAt _ _ _ _ _ (by omega) (by rw [hlen]; push_cast at hi2 ⊢; omega)]
  by_cases e : (k : Int) = ((j + 2 : Nat) : Int)
  · rw [if_pos e]
    have hk : k = j + 2 := by exact_mod_cast e
    subst hk
    have h1 := hval (j + 1) (by push_cast; omega) (by omega) (by omega)
    have h0 := hval j (by push_cast; omega) (by omega) (by omega)
    have e1 : ((j + 2 : Nat) : Int) - 1 = ((j + 1 : Nat) : Int) := by push_cast; omega
    have e2 : ((j + 2 : Nat) : Int) - 2 = (j : Int) := by push_cast; omega
    have hb := fib_le_of_le_46 (j + 2) hk3
    rw [e1, e2, h1, h0, Nat.fib_add_two]
    have hb2 : Nat.fib j + Nat.fib (j + 1) ≤ 1836311903 := by
      rw [← Nat.fib_add_two]; exact hb
    rw [wrapInt32_of_range _ (by omega) (by omega)]
    push_cast
    ring
  · rw [if_neg e]
    exact hval k (by omega) hk2 hk3

theorem fibonacciSumsFrom_length (initialState : AlgorithmState) (cnt : Nat) :
    ∀ i s, (fibonacciSumsFrom initialState cnt i s).length = cnt := by
  induction cnt with
  | zero => intro i s; rfl
  | succ cnt ih => intro i s; simp [fibonacciSumsFrom, ih]

theorem fibonacciSumsFrom_values (n : Nat) (initialState : AlgorithmState) (cnt : Nat) :
    ∀ (j : Nat) (s : List Int × List AlgorithmState), FibPrefix n ((j : Int) + 2) s →
      j + cnt + 1 ≤ n →
      ∀ k : Nat, k < cnt → j + k + 2 ≤ 47 →
        (fibonacciSumsFrom initialState cnt ((j : Int) + 2) s)[k]? =
          some (Nat.fib (j + k + 2) : Int) := by
  induction cnt with
  | zero => intro j s _ _ k hk; omega
  | succ cnt ih =>
    intro j s hP hn k hk h47
    cases k with
    | zero =>
      simp only [fibonacciSumsFrom, List.getElem?_cons_zero, fibonacciSum, add_zero,
        Option.some.injEq]
      have h1 := hP.2 (j + 1) (by push_cast; omega) (by omega) (by omega)
      have h0 := hP.2 j (by omega) (by omega) (by omega)
      have e1 : (j : Int) + 2 - 1 = ((j + 1 : Nat) : Int) := by push_cast; omega
      have e2 : (j : Int) + 2 - 2 = (j : Int) := by omega
      rw [e1, e2, h1, h0, Nat.fib_add_two]
      push_cast
      ring
    | succ k =>
      simp only [fibonacciSumsFrom, List.getElem?_cons_succ]
      have hP1 := fibonacciBody_prefix n initialState ((j : Int) + 2) s (by omega)
        (by omega) hP
      have e : (j : Int) + 2 + 1 = ((j + 1 : Nat) : Int) + 2 := by push_cast; ring
      rw [e] at hP1 ⊢
      have := ih (j + 1) _ hP1 (by omega) k (by omega) (by omega)
      rw [this]
      have e3 : j + 1 + k + 2 = j + (k + 1) + 2 := by omega
      rw [e3]

theorem fibonacci_initial_prefix (n : Nat) (states : List AlgorithmState) :
    FibPrefix n 2
      (if n ≥ 1 then setAt (List.replicate (n + 1) 0) 1 1 else List.replicate (n + 1) 0,
        states) := by
  refine ⟨by split_ifs <;> simp [length_setAt], ?_⟩
  intro k hk1 hk2 _
  simp only
  by_cases h1 : n ≥ 1
  · rw [if_pos h1, getAt_setAt _ _ _ _ _ (by omega) (by simp; omega)]
    by_cases e : (k : Int) = 1
    · rw [if_pos e]
      have : k = 1 := by omega
      rw [this]
      simp
    · rw [if_neg e, getAt_replicate _ _ _ _ (by omega) (by push_cast; omega)]
      have : k = 0 := by omega
      rw [this]
      simp
  · rw [if_neg h1, getAt_replicate _ _ _ _ (by omega) (by push_cast; omega)]
    have : k = 0 := by omega
    rw [this]
    simp

theorem fibonacciSums_get (dp : DynamicProgramming) (n k : Nat) (hk : k + 2 ≤ n)
    (h47 : k + 2 ≤ 47) :
    (dp.fibonacciSums n)[k]? = some (Nat.fib (k + 2) : Int) := by
  unfold DynamicProgramming.fibonacciSums
  simp only
  generalize (⟨createArray
    (if n ≥ 1 then setAt (List.replicate (n + 1) 0) 1 1 else List.replicate (n + 1) 0) (-1),
    [], "Calculating Fibonacci(" ++ toString n ++ ") using Dynamic Programming", 1, 0⟩ :
      AlgorithmState) = init
  have h := fibonacciSumsFrom_values n init (n - 1) 0
    (if n ≥ 1 then setAt (List.replicate (n + 1) 0) 1 1 else List.replicate (n + 1) 0, [init])
    (by simpa using fibonacci_initial_prefix n [init]) (by omega) k (by omega) (by omega)
  simp only [Nat.cast_zero, zero_add] at h
  exact h

theorem fibonacciSums_length (dp : DynamicProgramming) (n : Nat) :
    (dp.fibonacciSums n).length = n - 1 := by
  unfold DynamicProgramming.fibonacciSums
  simp only [fibonacciSumsFrom_length]

end DpCpp

namespace DpCpp

/-- C39: the sums `fib[i-1] + fib[i-2]` computed by `fibonacci(n)` all lie inside the range
of a 32-bit `int` exactly when `n <= 46`; for those `n` the sum of round `i` is the
Fibonacci number `F(i)` and the final message reports `F(n)`, with `F(46) = 1836311903`;
from `n = 47` on the sum of round 47 is `F(46) + F(45) = 2971215073`, above `2^31 - 1`. -/
theorem fibonacci_sums_fit_int_iff (dp : DynamicProgramming) (n : Nat) :
    ((∀ x ∈ dp.fibonacciSums n, -2147483648 ≤ x ∧ x ≤ 2147483647) ↔ n ≤ 46) ∧
    (n ≤ 46 →
      dp.fibonacciSums n = (List.range (n - 1)).map (fun (k : Nat) => (Nat.fib (k + 2) : Int)) ∧
      ∃ last, (dp.fibonacci n).states.getLast? = some last ∧
        last.message = "Fibonacci(" ++ toString n ++ ") = " ++ toString (Nat.fib n : Int)) ∧
    (47 ≤ n → (dp.fibonacciSums n)[45]? = some 2971215073) ∧
    Nat.fib 46 = 1836311903 ∧ Nat.fib 46 + Nat.fib 45 = 2971215073 := by
  have h46 : Nat.fib 46 = 1836311903 := by norm_num
  have h45 : Nat.fib 45 = 1134903170 := by norm_num
  have h47 : Nat.fib 47 = 2971215073 := by
    rw [show 47 = 45 + 2 from rfl, Nat.fib_add_two, h45, show 45 + 1 = 46 from rfl, h46]
  have hbig : 47 ≤ n → (dp.fibonacciSums n)[45]? = some 2971215073 := by
    intro hn
    rw [fibonacciSums_get dp n 45 (by omega) (by omega), h47]
    rfl
  have hsmall : n ≤ 46 → dp.fibonacciSums n =
      (List.range (n - 1)).map (fun (k : Nat) => (Nat.fib (k + 2) : Int)) := by
    intro hn
    apply List.ext_getElem?
    intro k
    by_cases hk : k < n - 1
    · rw [fibonacciSums_get dp n k (by omega) (by omega)]
      simp [List.getElem?_range hk, hk]
    · rw [List.getElem?_eq_none (by rw [fibonacciSums_length]; omega),
        List.getElem?_eq_none (by simp; omega)]
  refine ⟨⟨?_, ?_⟩, fun hn => ⟨hsmall hn, fibonacci_final_message dp n hn⟩, hbig,
    h46, by rw [h46, h45]⟩
  · intro hall
    by_contra hn
    have hmem := List.mem_iff_getElem?.mpr ⟨45, hbig (by omega)⟩
    have := (hall _ hmem).2
    omega
  · intro hn x hx
    rw [hsmall hn] at hx
    obtain ⟨k, hk, rfl⟩ := List.mem_map.mp hx
    have hk2 := List.mem_range.mp hk
    have := fib_le_of_le_46 (k + 2) (by omega)
    constructor
    · have : (0 : Int) ≤ (Nat.fib (k + 2) : Int) := Int.natCast_nonneg _
      omega
    · exact_mod_cast (by omega : Nat.fib (k + 2) ≤ 2147483647)

/-- Instances of C39 at `n = 46`, where the last sum is `F(46) = 1836311903` and the final
message reports it, and at `n = 47`, where the last sum is 2971215073. -/
theorem fibonacci_sums_fit_int_iff_witness :
    ((({} : DynamicProgramming).fibonacciSums 46).getLast? = some 1836311903 ∧
      ∃ last, (({} : DynamicProgramming).fibonacci 46).states.getLast? = some last ∧
        last.message = "Fibonacci(" ++ toString 46 ++ ") = " ++ toString (Nat.fib 46 : Int)) ∧
    (({} : DynamicProgramming).fibonacciSums 47)[45]? = some 2971215073 :=
  ⟨⟨by rfl, ((fibonacci_sums_fit_int_iff {} 46).2.1 (by decide)).2⟩,
    (fibonacci_sums_fit_int_iff {} 47).2.2.1 (by decide)⟩

end DpCpp

/-! ### The traversals and the adjacency map -/

namespace GraphCpp

theorem mapTouch_of_isNode {β : Type} (m : List (Int × β)) (k : Int) (d : β)
    (h : (mapFind k m).isSome = true) : mapTouch m k d = m := by
  unfold mapTouch
  cases hf : mapFind k m with
  | none => simp [hf] at h
  | some x => rfl

theorem mapTouch_of_not_isNode {β : Type} (m : List (Int × β)) (k : Int) (d : β)
    (h : ¬ (mapFind k m).isSome = true) : mapTouch m k d = mapInsert k d m := by
  unfold mapTouch
  cases hf : mapFind k m with
  | none => rfl
  | some x => simp [hf] at h

theorem mapGet_of_not_isNode (adj : List (Int × List Edge)) (k : Int)
    (h : ¬ IsNode adj k) : mapGet adj k [] = [] := by
  unfold mapGet
  unfold IsNode at h
  cases hf : mapFind k adj with
  | none => rfl
  | some x => simp [hf] at h

theorem whileLoop_one {σ : Type} (cond : σ → Bool) (body : σ → σ) (fuel : Nat) (s : σ)
    (h1 : cond s = true) (h2 : cond (body s) = false) :
    whileLoop cond body (fuel + 1) s = some (body s) := by
  cases fuel with
  | zero => simp [whileLoop, h1, h2]
  | succ n => simp [whileLoop, h1, h2]

theorem dfsBody_keeps_adjacency (adj : List (Int × List Edge))
    (htargets : ∀ u, ∀ e ∈ mapGet adj u [], IsNode adj e.target)
    (initialState : AlgorithmState) (t : DfsVars)
    (h : t.adjacencyList = adj ∧ ∀ v ∈ t.nodeStack, IsNode adj v) :
    (dfsBody initialState t).adjacencyList = adj ∧
      ∀ v ∈ (dfsBody initialState t).nodeStack, IsNode adj v := by
  obtain ⟨ha, hs⟩ := h
  unfold dfsBody
  cases hq : t.nodeStack with
  | nil => exact ⟨ha, hs⟩
  | cons current rest =>
    rw [hq] at hs
    simp only
    split_ifs with hv
    · exact ⟨ha, fun v hv1 => hs v (List.mem_cons_of_mem _ hv1)⟩
    · refine ⟨?_, ?_⟩
      · simp only
        rw [ha]
        exact mapTouch_of_isNode adj current [] (hs current (List.mem_cons_self _ _))
      · intro v hv1
        simp only at hv1
        rcases (dfsPush_fold _ current _ rest t.traversalEdges v).mp hv1 with h1 | ⟨e, he, h2, _⟩
        · exact hs v (List.mem_cons_of_mem _ h1)
        · rw [← h2]
          rw [ha] at he
          exact htargets current e (List.mem_reverse.mp he)

theorem bfsBody_keeps_adjacency (adj : List (Int × List Edge))
    (htargets : ∀ u, ∀ e ∈ mapGet adj u [], IsNode adj e.target)
    (initialState : AlgorithmState) (t : BfsVars)
    (h : t.adjacencyList = adj ∧ ∀ v ∈ t.nodeQueue, IsNode adj v) :
    (bfsBody initialState t).adjacencyList = adj ∧
      ∀ v ∈ (bfsBody initialState t).nodeQueue, IsNode adj v := by
  obtain ⟨ha, hs⟩ := h
  unfold bfsBody
  cases hq : t.nodeQueue with
  | nil => exact ⟨ha, hs⟩
  | cons current rest =>
    rw [hq] at hs
    simp only
    obtain ⟨N, _, h2, _, h4, _⟩ := bfsPush_fold current (mapGet t.adjacencyList current [])
      t.visited rest t.traversalEdges
    refine ⟨?_, ?_⟩
    · rw [ha]
      exact mapTouch_of_isNode adj current [] (hs current (List.mem_cons_self _ _))
    · intro v hv1
      rw [h2] at hv1
      rcases List.mem_append.mp hv1 with h1 | h1
      · exact hs v (List.mem_cons_of_mem _ h1)
      · obtain ⟨_, e, he, h3⟩ := h4 v h1
        rw [← h3]
        rw [ha] at he
        exact htargets current e he

theorem dijkstraBody_keeps_adjacency (adj : List (Int × List Edge))
    (initialState : AlgorithmState) (t : DijkstraVars)
    (h : t.adjacencyList = adj ∧ ∀ v ∈ t.unvisited, IsNode adj v) :
    (dijkstraBody initialState t).adjacencyList = adj ∧
      ∀ v ∈ (dijkstraBody initialState t).unvisited, IsNode adj v := by
  obtain ⟨ha, hs⟩ := h
  unfold dijkstraBody
  cases hsel : selectCurrent t.distances t.unvisited with
  | none => exact ⟨ha, hs⟩
  | some current =>
    simp only
    refine ⟨?_, fun v hv => hs v (List.mem_of_mem_erase hv)⟩
    rw [ha]
    exact mapTouch_of_isNode adj current [] (hs current (selectCurrent_mem _ _ _ hsel))

theorem depthFirstSearch_adjacency (self : Graph) (startNode : Int)
    (htargets : ∀ u, ∀ e ∈ mapGet self.adjacencyList u [], IsNode self.adjacencyList e.target) :
    ∃ g1, self.depthFirstSearch startNode = some g1 ∧
      g1.adjacencyList =
        if (mapFind startNode self.adjacencyList).isSome then self.adjacencyList
        else mapInsert startNode [] self.adjacencyList := by
  unfold Graph.depthFirstSearch
  simp only
  by_cases hstart : (mapFind startNode self.adjacencyList).isSome = true
  · rw [if_pos hstart]
    obtain ⟨r, hr, hI, _⟩ := whileLoop_total dfsCond
      (dfsBody (createInitialState self.adjacencyList
        ("Starting DFS from node " ++ toString startNode)))
      (fun t => t.adjacencyList = self.adjacencyList ∧
        ∀ v ∈ t.nodeStack, IsNode self.adjacencyList v)
      (fun t => t.nodeStack.length + unvisitedWeight t.adjacencyList t.visited)
      (fun t ht hc => ⟨dfsBody_keeps_adjacency _ htargets _ t ht, dfsBody_decreases _ t hc⟩)
      (edgeEntryCount self.adjacencyList + 1)
      { adjacencyList := self.adjacencyList, visited := [], nodeStack := [startNode],
        traversalEdges := [],
        states := [createInitialState self.adjacencyList
          ("Starting DFS from node " ++ toString startNode)] }
      ⟨rfl, fun v hv => by rw [List.mem_singleton.mp hv]; exact hstart⟩
      (by simp only [unvisitedWeight_nil, List.length_singleton]; omega)
    rw [hr]
    exact ⟨_, rfl, hI.1⟩
  · rw [if_neg hstart]
    rw [whileLoop_one dfsCond _ _ _ (by rfl)
      (by simp [dfsBody, dfsCond, mapGet_of_not_isNode _ _ hstart])]
    refine ⟨_, rfl, ?_⟩
    simp only [finalize, dfsBody, List.not_mem_nil, if_false]
    exact mapTouch_of_not_isNode _ _ _ hstart

theorem breadthFirstSearch_adjacency (self : Graph) (startNode : Int)
    (htargets : ∀ u, ∀ e ∈ mapGet self.adjacencyList u [], IsNode self.adjacencyList e.target) :
    ∃ g1, self.breadthFirstSearch startNode = some g1 ∧
      g1.adjacencyList =
        if (mapFind startNode self.adjacencyList).isSome then self.adjacencyList
        else mapInsert startNode [] self.adjacencyList := by
  unfold Graph.breadthFirstSearch
  simp only
  by_cases hstart : (mapFind startNode self.adjacencyList).isSome = true
  · rw [if_pos hstart]
    obtain ⟨r, hr, hI, _⟩ := whileLoop_total bfsCond
      (bfsBody (createInitialState self.adjacencyList
        ("Starting BFS from node " ++ toString startNode)))
      (fun t => t.adjacencyList = self.adjacencyList ∧
        ∀ v ∈ t.nodeQueue, IsNode self.adjacencyList v)
      (fun t => t.nodeQueue.length + unvisitedTargets t.adjacencyList t.visited)
      (fun t ht hc => ⟨bfsBody_keeps_adjacency _ htargets _ t ht, bfsBody_decreases _ t hc⟩)
      (edgeEntryCount self.adjacencyList + 1)
      { adjacencyList := self.adjacencyList, visited := [startNode],
        nodeQueue := [startNode], traversalEdges := [],
        states := [createInitialState self.adjacencyList
          ("Starting BFS from node " ++ toString startNode)] }
      ⟨rfl, fun v hv => by rw [List.mem_singleton.mp hv]; exact hstart⟩
      (by
        have := unvisitedTargets_le self.adjacencyList [startNode]
        simp only [List.length_singleton]
        omega)
    rw [hr]
    exact ⟨_, rfl, hI.1⟩
  · rw [if_neg hstart]
    rw [whileLoop_one bfsCond _ _ _ (by rfl)
      (by simp [bfsBody, bfsCond, mapGet_of_not_isNode _ _ hstart])]
    refine ⟨_, rfl, ?_⟩
    simp only [finalize, bfsBody]
    exact mapTouch_of_not_isNode _ _ _ hstart

theorem dijkstraAlgorithm_adjacency (self : Graph) (startNode : Int) :
    ∃ g1, self.dijkstraAlgorithm startNode = some g1 ∧
      g1.adjacencyList = self.adjacencyList := by
  unfold Graph.dijkstraAlgorithm
  simp only
  obtain ⟨r, hr, hI, _⟩ := whileLoop_total dijkstraCond
    (dijkstraBody (createInitialState self.adjacencyList
      ("Starting Dijkstra's algorithm from node " ++ toString startNode)))
    (fun t => t.adjacencyList = self.adjacencyList ∧
      ∀ v ∈ t.unvisited, IsNode self.adjacencyList v)
    (fun t => t.unvisited.length)
    (fun t ht hc => ⟨dijkstraBody_keeps_adjacency _ _ t ht, dijkstraBody_decreases _ t hc⟩)
    self.adjacencyList.length
    { adjacencyList := self.adjacencyList,
      distances := mapInsert startNode 0 (self.adjacencyList.foldl
        (fun (d : List (Int × Int)) node => mapInsert node.1 INT_MAX d) []),
      previous := [], unvisited := self.adjacencyList.map Prod.fst,
      states := [createInitialState self.adjacencyList
        ("Starting Dijkstra's algorithm from node " ++ toString startNode)] }
    ⟨rfl, fun v hv => (isNode_iff_mem_keys _ v).mpr hv⟩ (by simp)
  rw [hr]
  exact ⟨_, rfl, hI.1⟩

end GraphCpp

namespace GraphCpp

/-- C40, what the drivers do to the adjacency map of a graph built with
`addNode`/`addEdge`: `dijkstraAlgorithm` leaves it as it was for every start id;
`depthFirstSearch` and `breadthFirstSearch` leave it as it was when the start id is a node
of the graph, and otherwise return with the start id inserted as a new node with an empty
edge list, the effect of the expression `adjacencyList[current]` on a missing key. -/
theorem traversals_insert_missing_start_node (ops : List BuildOp) (startNode : Int) :
    (∃ g1, (buildGraph ops).dijkstraAlgorithm startNode = some g1 ∧
      g1.adjacencyList = (buildGraph ops).adjacencyList) ∧
    (IsNode (buildGraph ops).adjacencyList startNode →
      (∃ g1, (buildGraph ops).depthFirstSearch startNode = some g1 ∧
        g1.adjacencyList = (buildGraph ops).adjacencyList) ∧
      (∃ g1, (buildGraph ops).breadthFirstSearch startNode = some g1 ∧
        g1.adjacencyList = (buildGraph ops).adjacencyList)) ∧
    (¬ IsNode (buildGraph ops).adjacencyList startNode →
      (∃ g1, (buildGraph ops).depthFirstSearch startNode = some g1 ∧
        g1.adjacencyList = mapInsert startNode [] (buildGraph ops).adjacencyList ∧
        IsNode g1.adjacencyList startNode) ∧
      (∃ g1, (buildGraph ops).breadthFirstSearch startNode = some g1 ∧
        g1.adjacencyList = mapInsert startNode [] (buildGraph ops).adjacencyList ∧
        IsNode g1.adjacencyList startNode)) := by
  have ht := (buildGraph_wellFormed ops).2
  obtain ⟨g1, h1, h2⟩ := depthFirstSearch_adjacency (buildGraph ops) startNode ht
  obtain ⟨g2, h3, h4⟩ := breadthFirstSearch_adjacency (buildGraph ops) startNode ht
  have hnode : IsNode (mapInsert startNode [] (buildGraph ops).adjacencyList) startNode := by
    unfold IsNode
    rw [mapFind_mapInsert, if_pos rfl]
    rfl
  refine ⟨dijkstraAlgorithm_adjacency _ _, fun hs => ?_, fun hs => ?_⟩
  · have hs1 : (mapFind startNode (buildGraph ops).adjacencyList).isSome = true := hs
    rw [if_pos hs1] at h2 h4
    exact ⟨⟨g1, h1, h2⟩, ⟨g2, h3, h4⟩⟩
  · have hs1 : ¬ (mapFind startNode (buildGraph ops).adjacencyList).isSome = true := hs
    rw [if_neg hs1] at h2 h4
    exact ⟨⟨g1, h1, h2, by rw [h2]; exact hnode⟩, ⟨g2, h3, h4, by rw [h4]; exact hnode⟩⟩

/-- Instance of C40 on the graph built by `addNode(); addNode(); addEdge(0, 1, 7)`: from
node 0 the depth-first search leaves the two adjacency entries as they were, from the id 5
it returns a graph with a third node, 5, that has no edge. -/
theorem traversals_insert_missing_start_node_witness :
    ((buildGraph [BuildOp.addNode, BuildOp.addNode, BuildOp.addEdge 0 1 7]).depthFirstSearch
      0).map (fun g => g.adjacencyList) = some [(0, [⟨1, 7⟩]), (1, [⟨0, 7⟩])] ∧
    ((buildGraph [BuildOp.addNode, BuildOp.addNode, BuildOp.addEdge 0 1 7]).depthFirstSearch
      5).map (fun g => g.adjacencyList) = some [(0, [⟨1, 7⟩]), (1, [⟨0, 7⟩]), (5, [])] ∧
    (∃ g1, (buildGraph [BuildOp.addNode, BuildOp.addNode,
        BuildOp.addEdge 0 1 7]).breadthFirstSearch 5 = some g1 ∧
      g1.adjacencyList = mapInsert 5 []
        (buildGraph [BuildOp.addNode, BuildOp.addNode, BuildOp.addEdge 0 1 7]).adjacencyList ∧
      IsNode g1.adjacencyList 5) :=
  ⟨by rfl, by rfl,
    ((traversals_insert_missing_start_node
      [BuildOp.addNode, BuildOp.addNode, BuildOp.addEdge 0 1 7] 5).2.2
      (fun h => absurd (show false = true from h) (by decide))).2⟩

end GraphCpp

/-! ### Sorting traces: what every snapshot shows -/

namespace SortCpp

theorem allShow_push (P : List Int → Prop) (states : List AlgorithmState) (message : String)
    (a : List Int) (h1 h2 : Int) (sw : Bool) (h : AllShow P states) (hP : P a) :
    AllShow P (pushState states message (createArrayVisualization a h1 h2 sw)) := by
  intro st hst
  rw [pushState_eq] at hst
  rcases List.mem_append.mp hst with hm | hm
  · exact h st hm
  · rw [List.mem_singleton.mp hm]
    exact ⟨a, h1, h2, sw, rfl, hP⟩

theorem allShow_nil (P : List Int → Prop) : AllShow P [] := by
  intro st hst
  simp at hst

theorem allShow_finalize (P : List Int → Prop) (states : List AlgorithmState)
    (h : AllShow P states) : AllShow P (finalize states).states := by
  intro st hst
  simp only [finalize, List.mem_map] at hst
  obtain ⟨st0, h0, rfl⟩ := hst
  exact h st0 h0

theorem partitionBody_shows (arr0 : List Int) (pivot high j : Int) (s : PartitionVars)
    (hi0 : 0 ≤ s.i + 1) (hij : s.i < j) (hj : j < (s.arr.length : Int))
    (hperm : s.arr.Perm arr0) (h : AllShow (fun a => a.Perm arr0) s.states) :
    AllShow (fun a => a.Perm arr0) (partitionBody pivot high j s).states := by
  unfold partitionBody
  simp only
  split_ifs with hc
  · exact allShow_push _ _ _ _ _ _ _
      (allShow_push _ _ _ _ _ _ _ (allShow_push _ _ _ _ _ _ _ h hperm) hperm)
      ((swapAt_perm s.arr (s.i + 1) j hi0 (by omega) (by omega) hj).trans hperm)
  · exact allShow_push _ _ _ _ _ _ _ h hperm

theorem partitionSteps_shows (arr0 arr : List Int) (states : List AlgorithmState)
    (low high : Int) (h0 : 0 ≤ low) (h1 : high < (arr.length : Int)) (hlt : low < high)
    (hperm : arr.Perm arr0) (h : AllShow (fun a => a.Perm arr0) states) :
    AllShow (fun a => a.Perm arr0) (partitionSteps arr states low high).states := by
  have hinv := forLoop_invariant (partitionBody (getAt arr high 0) high)
    (fun j s => j ≤ high → PartitionInv arr low high (getAt arr high 0) j s ∧
      AllShow (fun a => a.Perm arr0) s.states)
    (high - low).toNat low
    { arr := arr, i := low - 1,
      states := pushState (pushState states
        ("Sorting segment [" ++ toString low ++ " to " ++ toString high ++ "]")
        (createArrayVisualization arr low high false))
        ("Pivot: " ++ toString (getAt arr high 0) ++ " (index " ++ toString high ++ ")")
        (createArrayVisualization arr high (-1) false) }
    (fun _ => ⟨⟨SwapReach.refl _, by simp, by simp only; omega,
      fun k hk1 hk2 => by simp only at hk2; omega,
      fun k hk1 hk2 => by simp only at hk1; omega, rfl⟩,
      allShow_push _ _ _ _ _ _ _ (allShow_push _ _ _ _ _ _ _ h hperm) hperm⟩)
    (fun j t hj1 hj2 hI hj3 => by
      obtain ⟨hP, hT⟩ := hI (by omega)
      have hl := hP.1.length_eq
      exact ⟨partitionBody_inv arr low high _ j t h0 h1 hj1 (by omega) hP,
        partitionBody_shows arr0 _ high j t (by have := hP.2.1; omega) hP.2.2.1 (by omega)
          ((hP.1.perm h0 h1).trans hperm) hT⟩)
  have e : low + ((high - low).toNat : Int) = high := by omega
  rw [e] at hinv
  obtain ⟨hP, hT⟩ := hinv (le_refl _)
  have hl := hP.1.length_eq
  have hp1 := (hP.1.perm h0 h1).trans hperm
  unfold partitionSteps
  simp only
  exact allShow_push _ _ _ _ _ _ _ (allShow_push _ _ _ _ _ _ _ hT hp1)
    ((swapAt_perm _ _ high (by have := hP.2.1; omega) (by have := hP.2.2.1; omega)
      (by omega) (by omega)).trans hp1)

theorem quickSortSteps_shows (arr0 : List Int) : ∀ (fuel : Nat) (arr : List Int)
    (states : List AlgorithmState) (low high : Int) (r : List Int × List AlgorithmState),
    quickSortSteps fuel arr states low high = some r →
    0 ≤ low → high < (arr.length : Int) → arr.Perm arr0 →
    AllShow (fun a => a.Perm arr0) states →
    AllShow (fun a => a.Perm arr0) r.2 ∧ r.1.Perm arr0 := by
  intro fuel
  induction fuel with
  | zero =>
    intro arr states low high r hr h0 h1 hperm h
    unfold quickSortSteps at hr
    split_ifs at hr
    simp only [Option.some.injEq] at hr
    rw [← hr]
    exact ⟨h, hperm⟩
  | succ fuel ih =>
    intro arr states low high r hr h0 h1 hperm h
    unfold quickSortSteps at hr
    split_ifs at hr with hlt
    · obtain ⟨hreach, hi1, hi2, _, _⟩ := partitionSteps_spec arr states low high h0 h1 hlt
      have hT := partitionSteps_shows arr0 arr states low high h0 h1 hlt hperm h
      have hlen := hreach.length_eq
      have hp1 := (hreach.perm h0 h1).trans hperm
      simp only at hr
      split at hr
      · simp at hr
      · rename_i r1 hq
        obtain ⟨hT1, hl1⟩ := ih _ _ _ _ r1 hq h0 (by omega) hp1 hT
        have hlen1 := (hl1.trans hperm.symm).length_eq
        exact ih _ _ _ _ r hr (by omega) (by omega) hl1 hT1
    · simp only [Option.some.injEq] at hr
      rw [← hr]
      exact ⟨h, hperm⟩

theorem heapifyNode_shows (arr0 arr : List Int) (states : List AlgorithmState) (n i : Int)
    (h0 : 0 ≤ i) (hin : i < n) (hn : n ≤ (arr.length : Int)) (hperm : arr.Perm arr0)
    (h : AllShow (fun a => a.Perm arr0) states) :
    AllShow (fun a => a.Perm arr0) (heapifyNode arr states n i).states ∧
      (heapifyNode arr states n i).arr.Perm arr0 := by
  obtain ⟨hb2, hb1, _⟩ := heapifyNode_bounds arr states n i h0 hin
  constructor
  · have p1 := allShow_push (fun a => a.Perm arr0) states
      ("Heapifying subtree rooted at index " ++ toString i) arr i (-1) false h hperm
    unfold heapifyNode
    simp only
    split_ifs <;>
      first
        | exact p1
        | exact allShow_push _ _ _ _ _ _ _ p1 hperm
        | exact allShow_push _ _ _ _ _ _ _ (allShow_push _ _ _ _ _ _ _ p1 hperm) hperm
        | exact allShow_push _ _ _ _ _ _ _ (allShow_push _ _ _ _ _ _ _ p1 hperm)
            ((swapAt_perm arr i _ (by omega) (by omega) (by omega) (by omega)).trans hperm)
        | exact allShow_push _ _ _ _ _ _ _
            (allShow_push _ _ _ _ _ _ _ (allShow_push _ _ _ _ _ _ _ p1 hperm) hperm)
            ((swapAt_perm arr i _ (by omega) (by omega) (by omega) (by omega)).trans hperm)
        | exact allShow_push _ _ _ _ _ _ _
            (allShow_push _ _ _ _ _ _ _
              (allShow_push _ _ _ _ _ _ _ (allShow_push _ _ _ _ _ _ _ p1 hperm) hperm) hperm)
            ((swapAt_perm arr i _ (by omega) (by omega) (by omega) (by omega)).trans hperm)
  · rw [heapifyNode_arr]
    split_ifs
    · exact (swapAt_perm arr i _ h0 (by omega) (by omega) (by omega)).trans hperm
    · exact hperm

theorem heapifySteps_shows (arr0 : List Int) : ∀ (fuel : Nat) (arr : List Int)
    (states : List AlgorithmState) (n i : Int) (r : List Int × List AlgorithmState),
    heapifySteps fuel arr states n i = some r →
    0 ≤ i → i < n → n ≤ (arr.length : Int) → arr.Perm arr0 →
    AllShow (fun a => a.Perm arr0) states →
    AllShow (fun a => a.Perm arr0) r.2 ∧ r.1.Perm arr0 := by
  intro fuel
  induction fuel with
  | zero =>
    intro arr states n i r hr h0 hin hn hperm h
    unfold heapifySteps at hr
    simp only at hr
    split_ifs at hr
    simp only [Option.some.injEq] at hr
    rw [← hr]
    exact heapifyNode_shows arr0 _ _ _ _ h0 hin hn hperm h
  | succ fuel ih =>
    intro arr states n i r hr h0 hin hn hperm h
    obtain ⟨hb2, hb1, hl⟩ := heapifyNode_bounds arr states n i h0 hin
    obtain ⟨hT, hp⟩ := heapifyNode_shows arr0 arr states n i h0 hin hn hperm h
    unfold heapifySteps at hr
    simp only at hr
    split_ifs at hr
    · exact ih _ _ _ _ r hr (by omega) hb1 (by omega) hp hT
    · simp only [Option.some.injEq] at hr
      rw [← hr]
      exact ⟨hT, hp⟩

theorem heapSortSteps_shows (arr : List Int) (states : List AlgorithmState)
    (r : List Int × List AlgorithmState) (hr : heapSortSteps arr states = some r)
    (h : AllShow (fun a => a.Perm arr) states) :
    AllShow (fun a => a.Perm arr) r.2 ∧ r.1.Perm arr := by
  unfold heapSortSteps at hr
  simp only at hr
  split at hr
  · simp at hr
  · rename_i r1 h1
    have i1 := forDownLoop_invariant_of_some (buildHeapBody (arr.length : Int))
      (fun _ (t : List Int × List AlgorithmState) =>
        AllShow (fun a => a.Perm arr) t.2 ∧ t.1.Perm arr)
      ((arr.length : Int) / 2).toNat ((arr.length : Int) / 2 - 1)
      (arr, pushState states "Building heap (rearranging array)"
        (createArrayVisualization arr (-1) (-1) false))
      r1 ⟨allShow_push _ _ _ _ _ _ _ h (List.Perm.refl _), List.Perm.refl _⟩
      (fun j t t1 hj1 hj2 hI hb => by
        have hl := hI.2.length_eq
        exact heapifySteps_shows arr _ _ _ _ _ t1 hb (by omega) (by omega) (by omega)
          hI.2 hI.1) h1
    exact forDownLoop_invariant_of_some (extractBody (arr.length : Int))
      (fun _ (t : List Int × List AlgorithmState) =>
        AllShow (fun a => a.Perm arr) t.2 ∧ t.1.Perm arr)
      ((arr.length : Int) - 1).toNat ((arr.length : Int) - 1)
      (r1.1, pushState r1.2 "Heap built successfully"
        (createArrayVisualization r1.1 (-1) (-1) false))
      r ⟨allShow_push _ _ _ _ _ _ _ i1.1 i1.2, i1.2⟩
      (fun j t t1 hj1 hj2 hI hb => by
        have hl := hI.2.length_eq
        have hls : (swapAt t.1 0 j).length = t.1.length := length_swapAt _ _ _
        have hsw := (swapAt_perm t.1 0 j (le_refl _) (by omega) (by omega) (by omega)).trans
          hI.2
        exact heapifySteps_shows arr _ _ _ _ _ t1 hb (le_refl _) (by omega) (by omega) hsw
          (allShow_push _ _ _ _ _ _ _ (allShow_push _ _ _ _ _ _ _ hI.1 hI.2) hsw)) hr

theorem mergeBody_shows (n : Nat) (L R : List Int) (left mid : Int) (s : MergeVars)
    (h : s.arr.length = n ∧ AllShow (fun a => a.length = n) s.states) :
    (mergeBody L R left mid s).arr.length = n ∧
      AllShow (fun a => a.length = n) (mergeBody L R left mid s).states := by
  unfold mergeBody
  simp only
  split_ifs
  · exact ⟨by rw [length_setAt]; exact h.1,
      allShow_push _ _ _ _ _ _ _ (allShow_push _ _ _ _ _ _ _ h.2 h.1)
        (by rw [length_setAt]; exact h.1)⟩
  · exact ⟨by rw [length_setAt]; exact h.1,
      allShow_push _ _ _ _ _ _ _ (allShow_push _ _ _ _ _ _ _ h.2 h.1)
        (by rw [length_setAt]; exact h.1)⟩

theorem copyLeftBody_shows (n : Nat) (L : List Int) (s : MergeVars)
    (h : s.arr.length = n ∧ AllShow (fun a => a.length = n) s.states) :
    (copyLeftBody L s).arr.length = n ∧
      AllShow (fun a => a.length = n) (copyLeftBody L s).states := by
  unfold copyLeftBody
  simp only
  exact ⟨by rw [length_setAt]; exact h.1,
    allShow_push _ _ _ _ _ _ _ h.2 (by rw [length_setAt]; exact h.1)⟩

theorem copyRightBody_shows (n : Nat) (R : List Int) (s : MergeVars)
    (h : s.arr.length = n ∧ AllShow (fun a => a.length = n) s.states) :
    (copyRightBody R s).arr.length = n ∧
      AllShow (fun a => a.length = n) (copyRightBody R s).states := by
  unfold copyRightBody
  simp only
  exact ⟨by rw [length_setAt]; exact h.1,
    allShow_push _ _ _ _ _ _ _ h.2 (by rw [length_setAt]; exact h.1)⟩

theorem mergeSteps_shows (n : Nat) (arr : List Int) (states : List AlgorithmState)
    (left mid right : Int) (r : List Int × List AlgorithmState)
    (hr : mergeSteps arr states left mid right = some r)
    (h : arr.length = n ∧ AllShow (fun a => a.length = n) states) :
    r.1.length = n ∧ AllShow (fun a => a.length = n) r.2 := by
  unfold mergeSteps at hr
  simp only at hr
  split at hr
  · simp at hr
  · rename_i s1 h1
    split at hr
    · simp at hr
    · rename_i s2 h2
      split at hr
      · simp at hr
      · rename_i s3 h3
        simp only [Option.some.injEq] at hr
        subst hr
        have i1 := (whileLoop_invariant _ _
          (fun t : MergeVars => t.arr.length = n ∧ AllShow (fun a => a.length = n) t.states)
          (fun t ht _ => mergeBody_shows n _ _ _ _ t ht) _ _ s1
          ⟨h.1, allShow_push _ _ _ _ _ _ _ h.2 h.1⟩ h1).1
        have i2 := (whileLoop_invariant _ _
          (fun t : MergeVars => t.arr.length = n ∧ AllShow (fun a => a.length = n) t.states)
          (fun t ht _ => copyLeftBody_shows n _ t ht) _ _ s2 i1 h2).1
        exact (whileLoop_invariant _ _
          (fun t : MergeVars => t.arr.length = n ∧ AllShow (fun a => a.length = n) t.states)
          (fun t ht _ => copyRightBody_shows n _ t ht) _ _ s3 i2 h3).1

theorem mergeSortSteps_shows (n : Nat) : ∀ (fuel : Nat) (arr : List Int)
    (states : List AlgorithmState) (left right : Int) (r : List Int × List AlgorithmState),
    mergeSortSteps fuel arr states left right = some r →
    arr.length = n ∧ AllShow (fun a => a.length = n) states →
    r.1.length = n ∧ AllShow (fun a => a.length = n) r.2 := by
  intro fuel
  induction fuel with
  | zero =>
    intro arr states left right r hr h
    unfold mergeSortSteps at hr
    split_ifs at hr
    simp only [Option.some.injEq] at hr
    exact hr ▸ h
  | succ fuel ih =>
    intro arr states left right r hr h
    unfold mergeSortSteps at hr
    split_ifs at hr with hlt
    · simp only at hr
      split at hr
      · simp at hr
      · rename_i r1 h1
        split at hr
        · simp at hr
        · rename_i r2 h2
          have i1 := ih _ _ _ _ r1 h1
            ⟨h.1, allShow_push _ _ _ _ _ _ _ (allShow_push _ _ _ _ _ _ _ h.2 h.1) h.1⟩
          have i2 := ih _ _ _ _ r2 h2 i1
          exact mergeSteps_shows n _ _ _ _ _ r hr i2
    · simp only [Option.some.injEq] at hr
      exact hr ▸ h

theorem quickSort_shows (self : SortingAlgorithms) (arr : List Int)
    (r : SortingAlgorithms × List Int) (hr : self.quickSort arr = some r) :
    AllShow (fun a => a.Perm arr) r.1.states := by
  unfold SortingAlgorithms.quickSort at hr
  simp only [Option.map_eq_some'] at hr
  obtain ⟨t, ht, rfl⟩ := hr
  obtain ⟨hT, hp⟩ := quickSortSteps_shows arr _ _ _ _ _ t ht (le_refl _) (by omega)
    (List.Perm.refl _) (allShow_push _ _ _ _ _ _ _ (allShow_nil _) (List.Perm.refl _))
  exact allShow_finalize _ _ (allShow_push _ _ _ _ _ _ _ hT hp)

theorem heapSort_shows (self : SortingAlgorithms) (arr : List Int)
    (r : SortingAlgorithms × List Int) (hr : self.heapSort arr = some r) :
    AllShow (fun a => a.Perm arr) r.1.states := by
  unfold SortingAlgorithms.heapSort at hr
  simp only [Option.map_eq_some'] at hr
  obtain ⟨t, ht, rfl⟩ := hr
  obtain ⟨hT, hp⟩ := heapSortSteps_shows arr _ t ht
    (allShow_push _ _ _ _ _ _ _ (allShow_nil _) (List.Perm.refl _))
  exact allShow_finalize _ _ (allShow_push _ _ _ _ _ _ _ hT hp)

theorem mergeSort_shows (self : SortingAlgorithms) (arr : List Int)
    (r : SortingAlgorithms × List Int) (hr : self.mergeSort arr = some r) :
    AllShow (fun a => a.length = arr.length) r.1.states := by
  unfold SortingAlgorithms.mergeSort at hr
  simp only [Option.map_eq_some'] at hr
  obtain ⟨t, ht, rfl⟩ := hr
  obtain ⟨hl, hT⟩ := mergeSortSteps_shows arr.length _ _ _ _ _ t ht
    ⟨rfl, allShow_push _ _ _ _ _ _ _ (allShow_nil _) rfl⟩
  exact allShow_finalize _ _ (allShow_push _ _ _ _ _ _ _ hT hl)

theorem showsArray_ids (n : Nat) (st : AlgorithmState)
    (h : ShowsArray (fun a => a.length = n) st) :
    st.elements.length = n ∧
      st.elements.map ArrayElement.id = (List.range n).map (fun k : Nat => (k : Int)) := by
  obtain ⟨a, h1, h2, sw, he, hl⟩ := h
  rw [he, length_createArrayVisualization, hl]
  refine ⟨rfl, ?_⟩
  unfold createArrayVisualization
  rw [createArrayVisualizationFrom_id, hl]
  simp

end SortCpp

namespace SortCpp

/-- C35: `quickSort` and `heapSort` return a trace for every array, and the value sequence
of every snapshot of it, not only of the last one, is a permutation of the input array. -/
theorem every_snapshot_is_permutation (self : SortingAlgorithms) (arr : List Int) :
    (∃ r, self.quickSort arr = some r ∧ ∀ st ∈ r.1.states, st.values.Perm arr) ∧
    (∃ r, self.heapSort arr = some r ∧ ∀ st ∈ r.1.states, st.values.Perm arr) := by
  obtain ⟨r1, _, h1, _⟩ := quickSort_sortsTo self arr
  obtain ⟨r2, _, h2, _⟩ := heapSort_sortsTo self arr
  have hv : ∀ st, ShowsArray (fun a => a.Perm arr) st → st.values.Perm arr := by
    intro st hst
    obtain ⟨a, h1, h2, sw, he, hp⟩ := hst
    unfold AlgorithmState.values
    rw [he, values_createArrayVisualization]
    exact hp
  exact ⟨⟨r1, h1, fun st hst => hv st (quickSort_shows self arr r1 h1 st hst)⟩,
    ⟨r2, h2, fun st hst => hv st (heapSort_shows self arr r2 h2 st hst)⟩⟩

/-- Instance of C35 at the array `[3, 1, 2]`, whose `quickSort` trace has 10 snapshots and
whose `heapSort` trace has 14. -/
theorem every_snapshot_is_permutation_witness :
    (∃ r, ({} : SortingAlgorithms).quickSort [3, 1, 2] = some r ∧
      ∀ st ∈ r.1.states, st.values.Perm [3, 1, 2]) ∧
    (∃ r, ({} : SortingAlgorithms).heapSort [3, 1, 2] = some r ∧
      ∀ st ∈ r.1.states, st.values.Perm [3, 1, 2]) ∧
    (({} : SortingAlgorithms).quickSort [3, 1, 2]).map (fun r => r.1.states.length) =
      some 10 ∧
    (({} : SortingAlgorithms).heapSort [3, 1, 2]).map (fun r => r.1.states.length) =
      some 14 :=
  ⟨(every_snapshot_is_permutation {} [3, 1, 2]).1,
    (every_snapshot_is_permutation {} [3, 1, 2]).2, by rfl, by rfl⟩

end SortCpp

/-! ### Entity ids of array and table snapshots -/

namespace DpCpp

theorem createArrayFrom_id (h : Int) (a : List Int) :
    ∀ i : Int, (createArrayFrom h a i).map CellPosition.id =
      (List.range a.length).map (fun k : Nat => i + (k : Int)) := by
  induction a with
  | nil => intro i; rfl
  | cons v rest ih =>
    intro i
    simp only [createArrayFrom, List.map_cons, ih, List.length_cons,
      List.range_succ_eq_map, List.map_map]
    simp only [Nat.cast_zero, add_zero, List.cons.injEq, true_and]
    apply List.map_congr_left
    intro k _
    simp only [Function.comp, Nat.cast_succ]
    ring

theorem createGridCells_id (hr hc i : Int) (row : List Int) :
    ∀ j id : Int, (createGridCells hr hc i row j id).map CellPosition.id =
      (List.range row.length).map (fun k : Nat => id + (k : Int)) := by
  induction row with
  | nil => intro j id; rfl
  | cons v rest ih =>
    intro j id
    simp only [createGridCells, List.map_cons, ih, List.length_cons,
      List.range_succ_eq_map, List.map_map]
    simp only [Nat.cast_zero, add_zero, List.cons.injEq, true_and]
    apply List.map_congr_left
    intro k _
    simp only [Function.comp, Nat.cast_succ]
    ring

theorem createGridRows_id (hr hc : Int) (cols : Nat) (rows : List (List Int))
    (hrows : ∀ row ∈ rows, row.length = cols) :
    ∀ i id : Int, (createGridRows hr hc rows i id).map CellPosition.id =
      (List.range (rows.length * cols)).map (fun k : Nat => id + (k : Int)) := by
  induction rows with
  | nil => intro i id; simp [createGridRows]
  | cons row rest ih =>
    intro i id
    have hrow := hrows row (List.mem_cons_self _ _)
    have e : (row :: rest).length * cols = cols + rest.length * cols := by
      simp only [List.length_cons]
      ring
    rw [e, List.range_add, List.map_append, List.map_map]
    simp only [createGridRows, List.map_append, createGridCells_id, hrow]
    rw [ih (fun r hr1 => hrows r (List.mem_cons_of_mem _ hr1))]
    congr 1
    apply List.map_congr_left
    intro k _
    simp only [Function.comp]
    push_cast
    ring

theorem createGridCells_get (hr hc i : Int) (row : List Int) :
    ∀ (j id : Int) (k : Nat), k < row.length →
      (createGridCells hr hc i row j id)[k]? =
        some ⟨id + (k : Int), toString (getAt row (k : Int) 0),
          (i == hr && (j + (k : Int)) == hc)⟩ := by
  induction row with
  | nil => intro j id k hk; simp at hk
  | cons v rest ih =>
    intro j id k hk
    cases k with
    | zero =>
      simp only [createGridCells, List.getElem?_cons_zero, Nat.cast_zero, add_zero]
      rfl
    | succ k =>
      simp only [createGridCells, List.getElem?_cons_succ]
      rw [ih (j + 1) (id + 1) k (by simpa using hk)]
      have e1 : id + 1 + (k : Int) = id + ((k + 1 : Nat) : Int) := by push_cast; ring
      have e2 : j + 1 + (k : Int) = j + ((k + 1 : Nat) : Int) := by push_cast; ring
      have e3 : getAt rest (k : Int) 0 = getAt (v :: rest) ((k + 1 : Nat) : Int) 0 := by
        rw [getAt_natCast _ _ _ (by simpa using hk), getAt_natCast _ _ _ hk]
        rfl
      rw [e1, e2, e3]

theorem createGridCells_length (hr hc i : Int) (row : List Int) :
    ∀ j id : Int, (createGridCells hr hc i row j id).length = row.length := by
  intro j id
  have := congrArg List.length (createGridCells_id hr hc i row j id)
  simpa using this

theorem createGridRows_get (hr hc : Int) (cols : Nat) (rows : List (List Int))
    (hrows : ∀ row ∈ rows, row.length = cols) :
    ∀ (i id : Int) (r c : Nat), r < rows.length → c < cols →
      (createGridRows hr hc rows i id)[r * cols + c]? =
        some ⟨id + ((r * cols + c : Nat) : Int), toString (getCell rows (r : Int) (c : Int)),
          ((i + (r : Int)) == hr && (c : Int) == hc)⟩ := by
  induction rows with
  | nil => intro i id r c hr1; simp at hr1
  | cons row rest ih =>
    intro i id r c hr1 hc1
    have hrow := hrows row (List.mem_cons_self _ _)
    cases r with
    | zero =>
      simp only [createGridRows, Nat.zero_mul, Nat.zero_add]
      rw [List.getElem?_append_left (by rw [createGridCells_length, hrow]; exact hc1),
        createGridCells_get hr hc i row 0 id c (by rw [hrow]; exact hc1)]
      simp only [Nat.cast_zero, add_zero, zero_add, getCell]
      rfl
    | succ r =>
      simp only [createGridRows]
      rw [List.getElem?_append_right (by
        rw [createGridCells_length, hrow]
        nlinarith)]
      have e : (r + 1) * cols + c - (createGridCells hr hc i row 0 id).length =
          r * cols + c := by
        rw [createGridCells_length, hrow]
        have : (r + 1) * cols = r * cols + cols := by ring
        omega
      rw [e, ih (fun q hq => hrows q (List.mem_cons_of_mem _ hq)) (i + 1) (id + row.length)
        r c (by simpa using hr1) hc1]
      have e1 : id + (row.length : Int) + ((r * cols + c : Nat) : Int) =
          id + (((r + 1) * cols + c : Nat) : Int) := by
        rw [hrow]
        push_cast
        ring
      have e2 : i + 1 + (r : Int) = i + ((r + 1 : Nat) : Int) := by push_cast; ring
      have e3 : getCell rest (r : Int) (c : Int) =
          getCell (row :: rest) ((r + 1 : Nat) : Int) (c : Int) := by
        unfold getCell
        rw [getAt_natCast rest r [] (by simpa using hr1),
          getAt_natCast (row :: rest) (r + 1) [] hr1]
        rfl
      rw [e1, e2, e3]

theorem showsCells_ids (len : Nat) (st : AlgorithmState) (h : ShowsCells len st) :
    st.cells.length = len ∧
      st.cells.map CellPosition.id = (List.range len).map (fun k : Nat => (k : Int)) := by
  obtain ⟨a, hi, hl, hc⟩ := h
  have hid : st.cells.map CellPosition.id = (List.range len).map (fun k : Nat => (k : Int)) := by
    rw [hc]
    unfold createArray
    rw [createArrayFrom_id, hl]
    simp
  refine ⟨?_, hid⟩
  have := congrArg List.length hid
  simpa using this

theorem showsTable_ids (rows cols : Nat) (st : AlgorithmState) (h : ShowsTable rows cols st) :
    st.cells.length = rows * cols ∧
      st.cells.map CellPosition.id =
        (List.range (rows * cols)).map (fun k : Nat => (k : Int)) ∧
      ∃ dp, TableDims dp rows cols ∧ ∀ i j : Nat, i < rows → j < cols →
        ∃ cell, st.cells[i * cols + j]? = some cell ∧
          cell.id = ((i * cols + j : Nat) : Int) ∧
          cell.value = toString (getCell dp (i : Int) (j : Int)) := by
  obtain ⟨dp, hr, hc, hd, hcells⟩ := h
  have hid : st.cells.map CellPosition.id =
      (List.range (rows * cols)).map (fun k : Nat => (k : Int)) := by
    rw [hcells]
    unfold createGrid
    rw [createGridRows_id hr hc cols dp hd.2, hd.1]
    simp
  refine ⟨?_, hid, dp, hd, ?_⟩
  · have := congrArg List.length hid
    simpa using this
  · intro i j hi hj
    rw [hcells]
    unfold createGrid
    rw [createGridRows_get hr hc cols dp hd.2 0 0 i j (by rw [hd.1]; exact hi) hj]
    exact ⟨_, rfl, by simp, rfl⟩

end DpCpp

namespace DpCpp

theorem knapsackBody_shows (values weights : List Int) (initialState : AlgorithmState)
    (rows cols : Nat) (i w : Int) (t : List (List Int) × List AlgorithmState)
    (hi0 : 0 ≤ i) (hi1 : i < (rows : Int)) (hw0 : 0 ≤ w) (hw1 : w < (cols : Int))
    (h : TableDims t.1 rows cols ∧ ∀ st ∈ t.2, ShowsTable rows cols st) :
    TableDims (knapsackBody values weights initialState i w t).1 rows cols ∧
      ∀ st ∈ (knapsackBody values weights initialState i w t).2, ShowsTable rows cols st := by
  have hd := (knapsackBody_trace values weights initialState rows cols i w t hi0 hi1 hw0 hw1
    h.1).1
  refine ⟨hd, ?_⟩
  intro st hst
  have e : (knapsackBody values weights initialState i w t).2 =
      t.2 ++ [{ initialState with
        step := (t.2.length : Int) + 1,
        message := ((knapsackBody values weights initialState i w t).2.getLastD {}).message,
        cells := createGrid (knapsackBody values weights initialState i w t).1 i w }] := by
    simp [knapsackBody]
  rw [e] at hst
  rcases List.mem_append.mp hst with hm | hm
  · exact h.2 st hm
  · rw [List.mem_singleton.mp hm]
    exact ⟨_, i, w, hd, rfl⟩

theorem lcsBody_shows (str1 str2 : CppString) (initialState : AlgorithmState)
    (rows cols : Nat) (i j : Int) (t : List (List Int) × List AlgorithmState)
    (hi0 : 0 ≤ i) (hi1 : i < (rows : Int)) (hj0 : 0 ≤ j) (hj1 : j < (cols : Int))
    (h : TableDims t.1 rows cols ∧ ∀ st ∈ t.2, ShowsTable rows cols st) :
    TableDims (lcsBody str1 str2 initialState i j t).1 rows cols ∧
      ∀ st ∈ (lcsBody str1 str2 initialState i j t).2, ShowsTable rows cols st := by
  have hd := (lcsBody_trace str1 str2 initialState rows cols i j t hi0 hi1 hj0 hj1 h.1).1
  refine ⟨hd, ?_⟩
  intro st hst
  have e : (lcsBody str1 str2 initialState i j t).2 =
      t.2 ++ [{ initialState with
        step := (t.2.length : Int) + 1,
        message := ((lcsBody str1 str2 initialState i j t).2.getLastD {}).message,
        cells := createGrid (lcsBody str1 str2 initialState i j t).1 i j }] := by
    simp [lcsBody]
  rw [e] at hst
  rcases List.mem_append.mp hst with hm | hm
  · exact h.2 st hm
  · rw [List.mem_singleton.mp hm]
    exact ⟨_, i, j, hd, rfl⟩

theorem fibonacci_loop_shows (n : Nat) (initialState : AlgorithmState) (cnt : Nat)
    (a : Int) (s : List Int × List AlgorithmState)
    (h : s.1.length = n + 1 ∧ ∀ st ∈ s.2, ShowsCells (n + 1) st) :
    (forLoop (fibonacciBody initialState) cnt a s).1.length = n + 1 ∧
      ∀ st ∈ (forLoop (fibonacciBody initialState) cnt a s).2, ShowsCells (n + 1) st :=
  forLoop_preserves (fibonacciBody initialState)
    (fun t : List Int × List AlgorithmState =>
      t.1.length = n + 1 ∧ ∀ st ∈ t.2, ShowsCells (n + 1) st)
    (fun j t ht => by
      have hl : (fibonacciBody initialState j t).1.length = n + 1 := by
        simp only [fibonacciBody, length_setAt]
        exact ht.1
      refine ⟨hl, ?_⟩
      intro st hst
      simp only [fibonacciBody] at hst
      rcases List.mem_append.mp hst with hm | hm
      · exact ht.2 st hm
      · rw [List.mem_singleton.mp hm]
        exact ⟨_, j, by rw [length_setAt]; exact ht.1, rfl⟩)
    cnt a s h

theorem knapsack_fill_shows (values weights : List Int) (capacity : Nat)
    (initialState : AlgorithmState) (s : List (List Int) × List AlgorithmState)
    (h : TableDims s.1 (values.length + 1) (capacity + 1) ∧
      ∀ st ∈ s.2, ShowsTable (values.length + 1) (capacity + 1) st) :
    TableDims (forLoop (knapsackRow values weights capacity initialState) values.length 1 s).1
        (values.length + 1) (capacity + 1) ∧
      ∀ st ∈ (forLoop (knapsackRow values weights capacity initialState) values.length 1 s).2,
        ShowsTable (values.length + 1) (capacity + 1) st :=
  forLoop_invariant (knapsackRow values weights capacity initialState)
    (fun _ (t : List (List Int) × List AlgorithmState) =>
      TableDims t.1 (values.length + 1) (capacity + 1) ∧
        ∀ st ∈ t.2, ShowsTable (values.length + 1) (capacity + 1) st)
    values.length 1 s h
    (fun i t hi1 hi2 ht =>
      forLoop_invariant (knapsackBody values weights initialState i)
        (fun _ (u : List (List Int) × List AlgorithmState) =>
          TableDims u.1 (values.length + 1) (capacity + 1) ∧
            ∀ st ∈ u.2, ShowsTable (values.length + 1) (capacity + 1) st)
        (capacity + 1) 0 t ht
        (fun w u hw1 hw2 hu => knapsackBody_shows values weights initialState _ _ i w u
          (by omega) (by push_cast; omega) hw1 (by push_cast at hw2 ⊢; omega) hu))

theorem lcs_fill_shows (str1 str2 : CppString) (initialState : AlgorithmState)
    (s : List (List Int) × List AlgorithmState)
    (h : TableDims s.1 (str1.length + 1) (str2.length + 1) ∧
      ∀ st ∈ s.2, ShowsTable (str1.length + 1) (str2.length + 1) st) :
    TableDims (forLoop (lcsRow str1 str2 initialState) str1.length 1 s).1
        (str1.length + 1) (str2.length + 1) ∧
      ∀ st ∈ (forLoop (lcsRow str1 str2 initialState) str1.length 1 s).2,
        ShowsTable (str1.length + 1) (str2.length + 1) st :=
  forLoop_invariant (lcsRow str1 str2 initialState)
    (fun _ (t : List (List Int) × List AlgorithmState) =>
      TableDims t.1 (str1.length + 1) (str2.length + 1) ∧
        ∀ st ∈ t.2, ShowsTable (str1.length + 1) (str2.length + 1) st)
    str1.length 1 s h
    (fun i t hi1 hi2 ht =>
      forLoop_invariant (lcsBody str1 str2 initialState i)
        (fun _ (u : List (List Int) × List AlgorithmState) =>
          TableDims u.1 (str1.length + 1) (str2.length + 1) ∧
            ∀ st ∈ u.2, ShowsTable (str1.length + 1) (str2.length + 1) st)
        str2.length 1 t ht
        (fun j u hj1 hj2 hu => lcsBody_shows str1 str2 initialState _ _ i j u (by omega)
          (by push_cast; omega) (by omega) (by push_cast; omega) hu))

theorem fibonacci_shows (dp : DynamicProgramming) (n : Nat) :
    ∀ st ∈ (dp.fibonacci n).states, ShowsCells (n + 1) st := by
  have hfib1 : (if n ≥ 1 then setAt (List.replicate (n + 1) (0 : Int)) 1 1
      else List.replicate (n + 1) 0).length = n + 1 := by
    split_ifs <;> simp [length_setAt]
  intro st hst
  simp only [DynamicProgramming.fibonacci, finalize, List.mem_map] at hst
  obtain ⟨st0, h0, rfl⟩ := hst
  have hinit : ∀ (m : String) (k : Int) (t : Int),
      ∀ st ∈ [(⟨createArray (if n ≥ 1 then setAt (List.replicate (n + 1) (0 : Int)) 1 1
        else List.replicate (n + 1) 0) (-1), [], m, k, t⟩ : AlgorithmState)],
        ShowsCells (n + 1) st := by
    intro m k t st hst
    rw [List.mem_singleton.mp hst]
    exact ⟨_, -1, hfib1, rfl⟩
  rcases List.mem_append.mp h0 with hm | hm
  · obtain ⟨a, hi, hl, hc⟩ :=
      (fibonacci_loop_shows n _ _ _ _ ⟨hfib1, hinit _ _ _⟩).2 st0 hm
    exact ⟨a, hi, hl, hc⟩
  · rw [List.mem_singleton.mp hm]
    exact ⟨_, (n : Int), (fibonacci_loop_shows n _ _ _ _ ⟨hfib1, hinit _ _ _⟩).1, rfl⟩

theorem knapsack_shows (dp : DynamicProgramming) (values weights : List Int)
    (capacity : Nat) :
    ∀ st ∈ (dp.knapsack values weights capacity).states,
      ShowsTable (values.length + 1) (capacity + 1) st := by
  by_cases hc : (values.isEmpty || weights.isEmpty || values.length != weights.length) = true
  · intro st hst
    simp [DynamicProgramming.knapsack, hc] at hst
  · have hc1 : (values.isEmpty || weights.isEmpty || values.length != weights.length) =
        false := by simpa using hc
    intro st hst
    simp only [DynamicProgramming.knapsack, hc1, Bool.false_eq_true, if_false, finalize,
      List.mem_map] at hst
    obtain ⟨st0, h0, rfl⟩ := hst
    have hinit : ∀ (m : String) (k : Int) (t : Int),
        ∀ st ∈ [(⟨createGrid (List.replicate (values.length + 1)
          (List.replicate (capacity + 1) 0)) (-1) (-1), [], m, k, t⟩ : AlgorithmState)],
          ShowsTable (values.length + 1) (capacity + 1) st := by
      intro m k t st hst
      rw [List.mem_singleton.mp hst]
      exact ⟨_, -1, -1, tableDims_replicate _ _, rfl⟩
    rcases List.mem_append.mp h0 with hm | hm
    · obtain ⟨a, hr, hcol, hd, hcells⟩ :=
        (knapsack_fill_shows values weights capacity _ _
          ⟨tableDims_replicate _ _, hinit _ _ _⟩).2 st0 hm
      exact ⟨a, hr, hcol, hd, hcells⟩
    · rw [List.mem_singleton.mp hm]
      exact ⟨_, -1, -1, (knapsack_fill_shows values weights capacity _ _
        ⟨tableDims_replicate _ _, hinit _ _ _⟩).1, rfl⟩

theorem lcs_shows (dp : DynamicProgramming) (str1 str2 : CppString) :
    ∃ dp1, dp.longestCommonSubsequence str1 str2 = some dp1 ∧
      ∀ st ∈ dp1.states, ShowsTable (str1.length + 1) (str2.length + 1) st := by
  by_cases hc : (str1.isEmpty || str2.isEmpty) = true
  · refine ⟨{ dp with states := [] }, by simp [DynamicProgramming.longestCommonSubsequence, hc],
      ?_⟩
    intro st hst
    simp at hst
  · have hc1 : (str1.isEmpty || str2.isEmpty) = false := by simpa using hc
    simp only [DynamicProgramming.longestCommonSubsequence, hc1, Bool.false_eq_true, if_false]
    have hinit : ∀ (m : String) (k : Int) (t : Int),
        ∀ st ∈ [(⟨createGrid (List.replicate (str1.length + 1)
          (List.replicate (str2.length + 1) 0)) (-1) (-1), [], m, k, t⟩ :
            AlgorithmState)],
          ShowsTable (str1.length + 1) (str2.length + 1) st := by
      intro m k t st hst
      rw [List.mem_singleton.mp hst]
      exact ⟨_, -1, -1, tableDims_replicate _ _, rfl⟩
    obtain ⟨walk, hw⟩ := lcsWalk_terminates str1 str2
      (forLoop (lcsRow str1 str2
        ⟨createGrid (List.replicate (str1.length + 1)
          (List.replicate (str2.length + 1) 0)) (-1) (-1), [],
          "Finding Longest Common Subsequence of \"" ++ showString str1 ++ "\" and \"" ++
          showString str2 ++ "\"",
          1, 0⟩)
        str1.length 1 (List.replicate (str1.length + 1)
            (List.replicate (str2.length + 1) 0), [_])).1
      (str1.length + str2.length)
      { i := (str1.length : Int), j := (str2.length : Int), lcs := [] }
      (by simp only; omega)
    rw [hw]
    refine ⟨_, rfl, ?_⟩
    intro st hst
    simp only [finalize, List.mem_map] at hst
    obtain ⟨st0, h0, rfl⟩ := hst
    rcases List.mem_append.mp h0 with hm | hm
    · obtain ⟨a, hr, hcol, hd, hcells⟩ :=
        (lcs_fill_shows str1 str2 _ _
          ⟨tableDims_replicate _ _, hinit _ _ _⟩).2 st0 hm
      exact ⟨a, hr, hcol, hd, hcells⟩
    · rw [List.mem_singleton.mp hm]
      exact ⟨_, -1, -1, (lcs_fill_shows str1 str2 _ _
        ⟨tableDims_replicate _ _, hinit _ _ _⟩).1, rfl⟩

end DpCpp

/-- C31: in every snapshot of a `quickSort`, `mergeSort` or `heapSort` trace on an array of
length `n` there are `n` entities and the entity at position `k` has id `k`; in every
snapshot of a `fibonacci(n)` trace there are `n + 1` entities, again with id equal to
position; in every snapshot of a `knapsack` or `longestCommonSubsequence` trace over a
table of `R` rows and `C` columns (for the strings, one more than their numbers of bytes)
there are `R * C` entities with id equal to position, and the entity at position
`i * C + j` is the cell of row `i`, column `j`: it shows the value of `dp[i][j]`.  So the
id sequence is the same in all snapshots of one trace. -/
theorem entity_ids_are_fixed_positions (sorting : SortCpp.SortingAlgorithms)
    (arr : List Int) (dp : DpCpp.DynamicProgramming) (n : Nat) (values weights : List Int)
    (capacity : Nat) (str1 str2 : CppString) :
    (∃ r, sorting.quickSort arr = some r ∧ ∀ st ∈ r.1.states,
      st.elements.length = arr.length ∧ st.elements.map SortCpp.ArrayElement.id =
        (List.range arr.length).map (fun k : Nat => (k : Int))) ∧
    (∃ r, sorting.mergeSort arr = some r ∧ ∀ st ∈ r.1.states,
      st.elements.length = arr.length ∧ st.elements.map SortCpp.ArrayElement.id =
        (List.range arr.length).map (fun k : Nat => (k : Int))) ∧
    (∃ r, sorting.heapSort arr = some r ∧ ∀ st ∈ r.1.states,
      st.elements.length = arr.length ∧ st.elements.map SortCpp.ArrayElement.id =
        (List.range arr.length).map (fun k : Nat => (k : Int))) ∧
    (∀ st ∈ (dp.fibonacci n).states,
      st.cells.length = n + 1 ∧ st.cells.map DpCpp.CellPosition.id =
        (List.range (n + 1)).map (fun k : Nat => (k : Int))) ∧
    (∀ st ∈ (dp.knapsack values weights capacity).states,
      st.cells.length = (values.length + 1) * (capacity + 1) ∧
      st.cells.map DpCpp.CellPosition.id =
        (List.range ((values.length + 1) * (capacity + 1))).map (fun k : Nat => (k : Int)) ∧
      ∃ table, DpCpp.TableDims table (values.length + 1) (capacity + 1) ∧
        ∀ i j : Nat, i < values.length + 1 → j < capacity + 1 →
          ∃ cell, st.cells[i * (capacity + 1) + j]? = some cell ∧
            cell.id = ((i * (capacity + 1) + j : Nat) : Int) ∧
            cell.value = toString (DpCpp.getCell table (i : Int) (j : Int))) ∧
    (∃ dp1, dp.longestCommonSubsequence str1 str2 = some dp1 ∧ ∀ st ∈ dp1.states,
      st.cells.length = (str1.length + 1) * (str2.length + 1) ∧
      st.cells.map DpCpp.CellPosition.id =
        (List.range ((str1.length + 1) * (str2.length + 1))).map
          (fun k : Nat => (k : Int)) ∧
      ∃ table, DpCpp.TableDims table (str1.length + 1) (str2.length + 1) ∧
        ∀ i j : Nat, i < str1.length + 1 → j < str2.length + 1 →
          ∃ cell, st.cells[i * (str2.length + 1) + j]? = some cell ∧
            cell.id = ((i * (str2.length + 1) + j : Nat) : Int) ∧
            cell.value = toString (DpCpp.getCell table (i : Int) (j : Int))) := by
  obtain ⟨r1, _, h1, _⟩ := SortCpp.quickSort_sortsTo sorting arr
  obtain ⟨r2, _, h2, _⟩ := SortCpp.mergeSort_sortsTo sorting arr
  obtain ⟨r3, _, h3, _⟩ := SortCpp.heapSort_sortsTo sorting arr
  obtain ⟨dp1, h4, h5⟩ := DpCpp.lcs_shows dp str1 str2
  have hperm : ∀ st, SortCpp.ShowsArray (fun a => a.Perm arr) st →
      SortCpp.ShowsArray (fun a => a.length = arr.length) st := by
    intro st hst
    obtain ⟨a, x1, x2, sw, he, hp⟩ := hst
    exact ⟨a, x1, x2, sw, he, hp.length_eq⟩
  refine ⟨⟨r1, h1, fun st hst => ?_⟩, ⟨r2, h2, fun st hst => ?_⟩, ⟨r3, h3, fun st hst => ?_⟩,
    fun st hst => ?_, fun st hst => ?_, ⟨dp1, h4, fun st hst => ?_⟩⟩
  · exact SortCpp.showsArray_ids _ st (hperm st (SortCpp.quickSort_shows sorting arr r1 h1 st hst))
  · exact SortCpp.showsArray_ids _ st (SortCpp.mergeSort_shows sorting arr r2 h2 st hst)
  · exact SortCpp.showsArray_ids _ st (hperm st (SortCpp.heapSort_shows sorting arr r3 h3 st hst))
  · exact DpCpp.showsCells_ids _ st (DpCpp.fibonacci_shows dp n st hst)
  · exact DpCpp.showsTable_ids _ _ st (DpCpp.knapsack_shows dp values weights capacity st hst)
  · exact DpCpp.showsTable_ids _ _ st (h5 st hst)

/-- Instance of C31 at the array `[3, 1, 2]`, at `fibonacci(10)`, at the knapsack demo with
capacity 50, at the LCS demo strings, and at the UTF-8 strings of e-acute and e-grave (two
bytes each, a table of 3 rows and 3 columns). -/
theorem entity_ids_are_fixed_positions_witness :
    (∃ r, ({} : SortCpp.SortingAlgorithms).quickSort [3, 1, 2] = some r ∧
      ∀ st ∈ r.1.states, st.elements.length = 3 ∧
        st.elements.map SortCpp.ArrayElement.id = [0, 1, 2]) ∧
    (∀ st ∈ (({} : DpCpp.DynamicProgramming).fibonacci 10).states, st.cells.length = 11) ∧
    (∀ st ∈ (({} : DpCpp.DynamicProgramming).knapsack [60, 100, 120] [10, 20, 30] 50).states,
      st.cells.length = 204) ∧
    (∃ dp1, ({} : DpCpp.DynamicProgramming).longestCommonSubsequence (cppString "ABCBDAB")
        (cppString "BDCABA") = some dp1 ∧ ∀ st ∈ dp1.states, st.cells.length = 56) ∧
    (∃ dp1, ({} : DpCpp.DynamicProgramming).longestCommonSubsequence (cppString "é")
        (cppString "è") = some dp1 ∧ ∀ st ∈ dp1.states, st.cells.length = 9 ∧
          st.cells.map DpCpp.CellPosition.id = [0, 1, 2, 3, 4, 5, 6, 7, 8]) := by
  obtain ⟨⟨r, hr, h1⟩, _, _, h4, h5, ⟨dp1, h6, h7⟩⟩ :=
    entity_ids_are_fixed_positions {} [3, 1, 2] {} 10 [60, 100, 120] [10, 20, 30] 50
      (cppString "ABCBDAB") (cppString "BDCABA")
  obtain ⟨_, _, _, _, _, ⟨dp2, h8, h9⟩⟩ :=
    entity_ids_are_fixed_positions {} [3, 1, 2] {} 10 [60, 100, 120] [10, 20, 30] 50
      (cppString "é") (cppString "è")
  exact ⟨⟨r, hr, fun st hst => h1 st hst⟩, fun st hst => (h4 st hst).1,
    fun st hst => (h5 st hst).1, ⟨dp1, h6, fun st hst => (h7 st hst).1⟩,
    ⟨dp2, h8, fun st hst => ⟨(h9 st hst).1, (h9 st hst).2.1⟩⟩⟩

/-! ### Knapsack and LCS: every table access is inside the table -/

namespace DpCpp

theorem getAtChecked_eq {α : Type} (l : List α) (i : Int) (d : α) (h0 : 0 ≤ i)
    (h1 : i < (l.length : Int)) : getAtChecked l i = some (getAt l i d) := by
  unfold getAtChecked getAt
  rw [if_neg (by omega), if_neg (by omega)]
  have h : i.toNat < l.length := by omega
  rw [List.getElem?_eq_getElem h, List.getD_eq_getElem?_getD, List.getElem?_eq_getElem h]
  rfl

theorem setAtChecked_eq {α : Type} (l : List α) (i : Int) (x : α) (h0 : 0 ≤ i)
    (h1 : i < (l.length : Int)) : setAtChecked l i x = some (setAt l i x) := by
  unfold setAtChecked
  rw [if_neg (by omega)]

theorem getCellChecked_eq (dp : List (List Int)) (rows cols : Nat)
    (hd : TableDims dp rows cols) (i j : Int) (hi0 : 0 ≤ i) (hi1 : i < (rows : Int))
    (hj0 : 0 ≤ j) (hj1 : j < (cols : Int)) :
    getCellChecked dp i j = some (getCell dp i j) := by
  unfold getCellChecked getCell
  rw [getAtChecked_eq dp i [] hi0 (by rw [hd.1]; exact hi1), Option.some_bind,
    getAtChecked_eq _ j 0 hj0 (by rw [tableDims_row dp rows cols hd i hi0 hi1]; exact hj1)]

theorem setCellChecked_eq (dp : List (List Int)) (rows cols : Nat)
    (hd : TableDims dp rows cols) (i j : Int) (v : Int) (hi0 : 0 ≤ i) (hi1 : i < (rows : Int))
    (hj0 : 0 ≤ j) (hj1 : j < (cols : Int)) :
    setCellChecked dp i j v = some (setCell dp i j v) := by
  unfold setCellChecked setCell
  rw [getAtChecked_eq dp i [] hi0 (by rw [hd.1]; exact hi1), Option.some_bind,
    setAtChecked_eq _ j v hj0 (by rw [tableDims_row dp rows cols hd i hi0 hi1]; exact hj1),
    Option.some_bind, setAtChecked_eq dp i _ hi0 (by rw [hd.1]; exact hi1)]

theorem knapsackBodyChecked_eq (values weights : List Int) (initialState : AlgorithmState)
    (capacity : Nat) (i w : Int) (t : List (List Int) × List AlgorithmState)
    (hlen : values.length = weights.length) (hw : ∀ x ∈ weights, 0 ≤ x)
    (hi1 : 1 ≤ i) (hi2 : i ≤ (values.length : Int)) (hw0 : 0 ≤ w)
    (hw1 : w ≤ (capacity : Int))
    (hd : TableDims t.1 (values.length + 1) (capacity + 1)) :
    knapsackBodyChecked values weights i w t.1 =
      some (knapsackBody values weights initialState i w t).1 := by
  obtain ⟨hx, ex⟩ := getAt_eq_getElem weights (i - 1) 0 (by omega) (by omega)
  have hwi : 0 ≤ getAt weights (i - 1) 0 := by
    rw [ex]
    exact hw _ (List.getElem_mem _)
  have g := fun (dp : List (List Int)) (hdp : TableDims dp (values.length + 1) (capacity + 1))
      (a b : Int) (ha0 : 0 ≤ a) (ha1 : a ≤ (values.length : Int)) (hb0 : 0 ≤ b)
      (hb1 : b ≤ (capacity : Int)) =>
    getCellChecked_eq dp _ _ hdp a b ha0 (by push_cast; omega) hb0 (by push_cast; omega)
  have s := fun (v : Int) => setCellChecked_eq t.1 _ _ hd i w v (by omega)
    (by push_cast; omega) hw0 (by push_cast; omega)
  have sd := fun (v : Int) => setCell_dims t.1 _ _ hd i w v (by omega)
    (show i < ((values.length + 1 : Nat) : Int) by push_cast; omega)
  unfold knapsackBodyChecked knapsackBody
  rw [getAtChecked_eq weights (i - 1) 0 (by omega) (by omega), Option.some_bind]
  simp only
  by_cases hc : getAt weights (i - 1) 0 > w
  · rw [if_pos hc, if_pos hc, g t.1 hd (i - 1) w (by omega) (by omega) hw0 hw1,
      Option.some_bind, s, Option.some_bind,
      g _ (sd _) (i - 1) w (by omega) (by omega) hw0 hw1, Option.some_bind]
  · rw [if_neg hc, if_neg hc, g t.1 hd (i - 1) w (by omega) (by omega) hw0 hw1,
      Option.some_bind, getAtChecked_eq values (i - 1) 0 (by omega) (by omega),
      Option.some_bind,
      g t.1 hd (i - 1) (w - getAt weights (i - 1) 0) (by omega) (by omega) (by omega)
        (by omega),
      Option.some_bind, s, Option.some_bind,
      g _ (sd _) (i - 1) w (by omega) (by omega) hw0 hw1, Option.some_bind,
      g _ (sd _) (i - 1) (w - getAt weights (i - 1) 0) (by omega) (by omega) (by omega)
        (by omega),
      Option.some_bind, g _ (sd _) i w (by omega) (by omega) hw0 hw1, Option.some_bind]

theorem forLoop_checked {σ τ : Type} (checked : Int → Option τ → Option τ)
    (body : Int → σ → σ) (proj : σ → τ) (Inv : σ → Prop) :
    ∀ (n : Nat) (a : Int) (s : σ), Inv s →
      (∀ j t, a ≤ j → j < a + n → Inv t →
        checked j (some (proj t)) = some (proj (body j t)) ∧ Inv (body j t)) →
      forLoop checked n a (some (proj s)) = some (proj (forLoop body n a s)) ∧
        Inv (forLoop body n a s) := by
  intro n
  induction n with
  | zero =>
    intro a s h _
    exact ⟨rfl, h⟩
  | succ n ih =>
    intro a s h hstep
    obtain ⟨h1, h2⟩ := hstep a s (le_refl a) (by push_cast; omega) h
    simp only [forLoop]
    rw [h1]
    exact ih (a + 1) (body a s) h2
      (fun j t hj1 hj2 hI => hstep j t (by omega) (by push_cast; omega) hI)

theorem knapsack_fill_checked (values weights : List Int) (capacity : Nat)
    (initialState : AlgorithmState) (s : List (List Int) × List AlgorithmState)
    (hlen : values.length = weights.length) (hw : ∀ x ∈ weights, 0 ≤ x)
    (hd : TableDims s.1 (values.length + 1) (capacity + 1)) :
    forLoop (fun i (c : Option (List (List Int))) =>
        forLoop (fun w (u : Option (List (List Int))) =>
          u.bind (knapsackBodyChecked values weights i w)) (capacity + 1) 0 c)
      values.length 1 (some s.1) =
      some (forLoop (knapsackRow values weights capacity initialState) values.length 1 s).1 ∧
    TableDims (forLoop (knapsackRow values weights capacity initialState) values.length 1 s).1
      (values.length + 1) (capacity + 1) :=
  forLoop_checked _ (knapsackRow values weights capacity initialState) Prod.fst
    (fun t => TableDims t.1 (values.length + 1) (capacity + 1)) values.length 1 s hd
    (fun i t hi1 hi2 ht =>
      forLoop_checked _ (knapsackBody values weights initialState i) Prod.fst
        (fun u => TableDims u.1 (values.length + 1) (capacity + 1)) (capacity + 1) 0 t ht
        (fun w u hw1 hw2 hu => by
          refine ⟨?_, (knapsackBody_trace values weights initialState _ _ i w u (by omega)
            (by push_cast; omega) hw1 (by push_cast at hw2 ⊢; omega) hu).1⟩
          rw [Option.some_bind]
          exact knapsackBodyChecked_eq values weights initialState capacity i w u hlen hw hi1
            (by omega) hw1 (by push_cast at hw2; omega) hu))

theorem lcsBodyChecked_eq (str1 str2 : CppString) (initialState : AlgorithmState)
    (i j : Int) (t : List (List Int) × List AlgorithmState)
    (hi1 : 1 ≤ i) (hi2 : i ≤ (str1.length : Int)) (hj1 : 1 ≤ j)
    (hj2 : j ≤ (str2.length : Int))
    (hd : TableDims t.1 (str1.length + 1) (str2.length + 1)) :
    lcsBodyChecked str1 str2 i j t.1 = some (lcsBody str1 str2 initialState i j t).1 := by
  have g := fun (a b : Int) (ha0 : 0 ≤ a) (ha1 : a ≤ (str1.length : Int)) (hb0 : 0 ≤ b)
      (hb1 : b ≤ (str2.length : Int)) =>
    getCellChecked_eq t.1 _ _ hd a b ha0 (by push_cast; omega) hb0 (by push_cast; omega)
  have s := fun (v : Int) => setCellChecked_eq t.1 _ _ hd i j v (by omega)
    (by push_cast; omega) (by omega) (by push_cast; omega)
  unfold lcsBodyChecked lcsBody
  rw [getAtChecked_eq str1 (i - 1) (0 : CppChar) (by omega) (by omega), Option.some_bind,
    getAtChecked_eq str2 (j - 1) (0 : CppChar) (by omega) (by omega), Option.some_bind]
  simp only
  by_cases hc : getAt str1 (i - 1) (0 : CppChar) = getAt str2 (j - 1) (0 : CppChar)
  · rw [if_pos hc, if_pos hc, g (i - 1) (j - 1) (by omega) (by omega) (by omega) (by omega),
      Option.some_bind, s]
  · rw [if_neg hc, if_neg hc, g (i - 1) j (by omega) (by omega) (by omega) (by omega),
      Option.some_bind, g i (j - 1) (by omega) (by omega) (by omega) (by omega),
      Option.some_bind, s]

theorem lcs_fill_checked (str1 str2 : CppString) (initialState : AlgorithmState)
    (s : List (List Int) × List AlgorithmState)
    (hd : TableDims s.1 (str1.length + 1) (str2.length + 1)) :
    forLoop (fun i (c : Option (List (List Int))) =>
        forLoop (fun j (u : Option (List (List Int))) =>
          u.bind (lcsBodyChecked str1 str2 i j)) str2.length 1 c)
      str1.length 1 (some s.1) =
      some (forLoop (lcsRow str1 str2 initialState) str1.length 1 s).1 ∧
    TableDims (forLoop (lcsRow str1 str2 initialState) str1.length 1 s).1
      (str1.length + 1) (str2.length + 1) :=
  forLoop_checked _ (lcsRow str1 str2 initialState) Prod.fst
    (fun t => TableDims t.1 (str1.length + 1) (str2.length + 1)) str1.length 1 s hd
    (fun i t hi1 hi2 ht =>
      forLoop_checked _ (lcsBody str1 str2 initialState i) Prod.fst
        (fun u => TableDims u.1 (str1.length + 1) (str2.length + 1)) str2.length 1 t ht
        (fun j u hj1 hj2 hu => by
          refine ⟨?_, (lcsBody_trace str1 str2 initialState _ _ i j u (by omega)
            (by push_cast; omega) (by omega) (by push_cast; omega) hu).1⟩
          rw [Option.some_bind]
          exact lcsBodyChecked_eq str1 str2 initialState i j u hi1 (by omega) hj1 (by omega)
            hu))

theorem lcsWalkBodyChecked_eq (str1 str2 : CppString) (dp : List (List Int))
    (hd : TableDims dp (str1.length + 1) (str2.length + 1)) (s : LcsWalk)
    (hi1 : 1 ≤ s.i) (hi2 : s.i ≤ (str1.length : Int)) (hj1 : 1 ≤ s.j)
    (hj2 : s.j ≤ (str2.length : Int)) :
    lcsWalkBodyChecked str1 str2 dp s = some (lcsWalkBody str1 str2 dp s) := by
  have g := fun (a b : Int) (ha0 : 0 ≤ a) (ha1 : a ≤ (str1.length : Int)) (hb0 : 0 ≤ b)
      (hb1 : b ≤ (str2.length : Int)) =>
    getCellChecked_eq dp _ _ hd a b ha0 (by push_cast; omega) hb0 (by push_cast; omega)
  unfold lcsWalkBodyChecked lcsWalkBody
  rw [getAtChecked_eq str1 (s.i - 1) (0 : CppChar) (by omega) (by omega), Option.some_bind,
    getAtChecked_eq str2 (s.j - 1) (0 : CppChar) (by omega) (by omega), Option.some_bind]
  by_cases hc : getAt str1 (s.i - 1) (0 : CppChar) = getAt str2 (s.j - 1) (0 : CppChar)
  · rw [if_pos hc, if_pos hc]
  · rw [if_neg hc, if_neg hc, g (s.i - 1) s.j (by omega) (by omega) (by omega) (by omega),
      Option.some_bind, g s.i (s.j - 1) (by omega) (by omega) (by omega) (by omega),
      Option.some_bind]
    split_ifs <;> rfl

theorem lcsWalkChecked_eq (str1 str2 : CppString) (dp : List (List Int))
    (hd : TableDims dp (str1.length + 1) (str2.length + 1)) (fuel : Nat) :
    ∀ s : LcsWalk, 0 ≤ s.i → s.i ≤ (str1.length : Int) → 0 ≤ s.j →
      s.j ≤ (str2.length : Int) →
      lcsWalkChecked str1 str2 dp fuel s =
        whileLoop lcsWalkCond (lcsWalkBody str1 str2 dp) fuel s := by
  induction fuel with
  | zero => intro s _ _ _ _; rfl
  | succ fuel ih =>
    intro s hi0 hi2 hj0 hj2
    unfold lcsWalkChecked whileLoop
    by_cases hc : lcsWalkCond s = true
    · rw [if_pos hc, if_pos hc]
      have hc1 := hc
      simp only [lcsWalkCond, Bool.and_eq_true, decide_eq_true_eq] at hc1
      rw [lcsWalkBodyChecked_eq str1 str2 dp hd s (by omega) hi2 (by omega) hj2,
        Option.some_bind]
      apply ih
      all_goals (unfold lcsWalkBody; split_ifs <;> simp only <;> omega)
    · rw [if_neg hc, if_neg hc]

end DpCpp

namespace DpCpp

theorem knapsackChecked_eq (dp : DynamicProgramming) (values weights : List Int)
    (capacity : Nat) (hne : values ≠ []) (hlen : values.length = weights.length)
    (hw : ∀ x ∈ weights, 0 ≤ x) :
    ∃ v, dp.knapsackChecked values weights capacity = some (some v) ∧
      ((dp.knapsack values weights capacity).states.map AlgorithmState.message).getLast? =
        some ("Maximum value: " ++ toString v) := by
  have hne2 : weights ≠ [] := fun e => hne (List.length_eq_zero.mp (by rw [hlen, e]; rfl))
  have hc : (values.isEmpty || weights.isEmpty || values.length != weights.length) = false := by
    simp [hne, hne2, hlen]
  simp only [DynamicProgramming.knapsackChecked, DynamicProgramming.knapsack, hc,
    Bool.false_eq_true, if_false]
  generalize hI : (⟨_, _, _, 1, _⟩ : AlgorithmState) = initialState
  have hd0 : TableDims (List.replicate (values.length + 1) (List.replicate (capacity + 1) (0 : Int)))
      (values.length + 1) (capacity + 1) := tableDims_replicate _ _
  obtain ⟨h1, h2⟩ := knapsack_fill_checked values weights capacity initialState
    (List.replicate (values.length + 1) (List.replicate (capacity + 1) 0), [initialState])
    hlen hw hd0
  refine ⟨getCell (forLoop (knapsackRow values weights capacity initialState) values.length 1
    (List.replicate (values.length + 1) (List.replicate (capacity + 1) 0),
      [initialState])).1 (values.length : Int) (capacity : Int), ?_, ?_⟩
  · rw [h1, Option.some_bind,
      getCellChecked_eq _ _ _ h2 _ _ (by omega) (by push_cast; omega) (by omega)
        (by push_cast; omega)]
    rfl
  · simp only [finalize, List.map_map, List.map_append, List.map_cons, List.map_nil,
      List.getLast?_append, List.getLast?_singleton, Function.comp_apply]
    rfl

theorem lcsChecked_eq (dp : DynamicProgramming) (str1 str2 : CppString)
    (h1 : str1 ≠ []) (h2 : str2 ≠ []) :
    ∃ len lcs dp1, dp.longestCommonSubsequenceChecked str1 str2 = some (some (len, lcs)) ∧
      dp.longestCommonSubsequence str1 str2 = some dp1 ∧
      (dp1.states.map AlgorithmState.message).getLast? =
        some ("Length of LCS: " ++ toString len ++ ("\nLCS: \"" ++ showString lcs ++ "\"")) := by
  have e1 : str1 ≠ [] := h1
  have e2 : str2 ≠ [] := h2
  have hc : (str1.isEmpty || str2.isEmpty) = false := by simp [e1, e2]
  simp only [DynamicProgramming.longestCommonSubsequenceChecked,
    DynamicProgramming.longestCommonSubsequence, hc, Bool.false_eq_true, if_false]
  generalize hI : (⟨_, _, _, 1, _⟩ : AlgorithmState) = initialState
  have hd0 : TableDims
      (List.replicate (str1.length + 1) (List.replicate (str2.length + 1) (0 : Int)))
      (str1.length + 1) (str2.length + 1) := tableDims_replicate _ _
  obtain ⟨g1, g2⟩ := lcs_fill_checked str1 str2 initialState
    (List.replicate (str1.length + 1) (List.replicate (str2.length + 1) 0),
      [initialState]) hd0
  generalize forLoop (lcsRow str1 str2 initialState) str1.length 1
    (List.replicate (str1.length + 1) (List.replicate (str2.length + 1) 0),
      [initialState]) = r at g1 g2 ⊢
  obtain ⟨walk, hwalk⟩ := lcsWalk_terminates str1 str2 r.1
    (str1.length + str2.length)
    ⟨(str1.length : Int), (str2.length : Int), []⟩ (by simp only; omega)
  rw [hwalk]
  refine ⟨getCell r.1 (str1.length : Int) (str2.length : Int), walk.lcs, _, ?_, rfl,
    ?_⟩
  · rw [g1, Option.some_bind,
      getCellChecked_eq _ _ _ g2 _ _ (by omega) (by push_cast; omega) (by omega)
        (by push_cast; omega), Option.some_bind,
      lcsWalkChecked_eq str1 str2 r.1 g2 _ _ (by simp only; omega)
        (by simp only; omega) (by simp only; omega) (by simp only; omega), hwalk]
    rfl
  · simp only [finalize, List.map_map, List.map_append, List.map_cons, List.map_nil,
      List.getLast?_append, List.getLast?_singleton, Function.comp_apply]
    rfl

/-- Claim C38: for non-empty `values` and `weights` of equal length with every weight at
least 0 and every capacity, the run of `knapsack` in which each read and write of
`weights[i-1]`, `values[i-1]`, `dp[i][w]`, `dp[i-1][w]`, `dp[i-1][w - weights[i-1]]` and
`dp[n][capacity]` is checked against the `(n+1) x (capacity+1)` table never leaves the
table, and reads from `dp[n][capacity]` the maximum value that `knapsack` reports; for
non-empty strings (byte sequences of `m` and `n` bytes, table of `m + 1` rows and `n + 1`
columns) the checked run of `longestCommonSubsequence`, fill and reconstruction, never
leaves the strings or the table either and yields the length and subsequence that
`longestCommonSubsequence` reports. -/
theorem table_accesses_within_bounds (dp : DynamicProgramming) (values weights : List Int)
    (capacity : Nat) (str1 str2 : CppString) :
    (values ≠ [] → values.length = weights.length → (∀ x ∈ weights, 0 ≤ x) →
      ∃ v, dp.knapsackChecked values weights capacity = some (some v) ∧
        ((dp.knapsack values weights capacity).states.map AlgorithmState.message).getLast? =
          some ("Maximum value: " ++ toString v)) ∧
    (str1 ≠ [] → str2 ≠ [] →
      ∃ len lcs dp1, dp.longestCommonSubsequenceChecked str1 str2 = some (some (len, lcs)) ∧
        dp.longestCommonSubsequence str1 str2 = some dp1 ∧
        (dp1.states.map AlgorithmState.message).getLast? =
          some ("Length of LCS: " ++ toString len ++
            ("\nLCS: \"" ++ showString lcs ++ "\""))) :=
  ⟨knapsackChecked_eq dp values weights capacity, lcsChecked_eq dp str1 str2⟩

theorem table_accesses_within_bounds_witness :
    (([60, 100, 120] : List Int) ≠ [] ∧
      ([60, 100, 120] : List Int).length = ([10, 20, 30] : List Int).length ∧
      (∀ x ∈ ([10, 20, 30] : List Int), 0 ≤ x) ∧
      ∃ v, ({} : DynamicProgramming).knapsackChecked [60, 100, 120] [10, 20, 30] 50 =
          some (some v) ∧
        ((({} : DynamicProgramming).knapsack [60, 100, 120] [10, 20, 30] 50).states.map
          AlgorithmState.message).getLast? = some ("Maximum value: " ++ toString v)) ∧
    (cppString "é" ≠ [] ∧ cppString "è" ≠ [] ∧
      ∃ len lcs dp1, ({} : DynamicProgramming).longestCommonSubsequenceChecked
          (cppString "é") (cppString "è") = some (some (len, lcs)) ∧
        ({} : DynamicProgramming).longestCommonSubsequence (cppString "é") (cppString "è") =
          some dp1 ∧
        (dp1.states.map AlgorithmState.message).getLast? =
          some ("Length of LCS: " ++ toString len ++
            ("\nLCS: \"" ++ showString lcs ++ "\""))) :=
  ⟨⟨by decide, rfl, by decide,
      (table_accesses_within_bounds {} [60, 100, 120] [10, 20, 30] 50 (cppString "é")
        (cppString "è")).1 (by decide) rfl (by decide)⟩,
    ⟨by decide, by decide,
      (table_accesses_within_bounds {} [60, 100, 120] [10, 20, 30] 50 (cppString "é")
        (cppString "è")).2 (by decide) (by decide)⟩⟩

theorem knapsackChecked_demo :
    ({} : DynamicProgramming).knapsackChecked [60, 100, 120] [10, 20, 30] 50 =
      some (some 220) ∧
    ({} : DynamicProgramming).longestCommonSubsequenceChecked (cppString "ABCBDAB")
      (cppString "BDCABA") = some (some (4, cppString "BDAB")) ∧
    ({} : DynamicProgramming).longestCommonSubsequenceChecked (cppString "é")
      (cppString "è") = some (some (1, [195])) ∧
    ({} : DynamicProgramming).knapsackChecked [60, 100, 120] [10, -1, 30] 50 = none := by
  refine ⟨?_, ?_, ?_, ?_⟩ <;> rfl

end DpCpp

/-! ### Breadth-first search visits by hop distance -/

namespace GraphCpp

theorem bfsBody_levelInv (adj : List (Int × List Edge)) (start : Int) (opening : String)
    (initialState : AlgorithmState) (t : BfsVars) (h : BfsLevelInv adj start opening t)
    (hc : bfsCond t = true) : BfsLevelInv adj start opening (bfsBody initialState t) := by
  obtain ⟨P, Q, ha, hq, hv, hnd, hsorted, hwalk, htop, hclosed, hstart, hmsg⟩ := h
  unfold bfsBody
  cases hs : t.nodeQueue with
  | nil => simp [bfsCond, hs] at hc
  | cons current rest =>
    simp only
    cases Q with
    | nil => rw [hs] at hq; simp at hq
    | cons q Qr =>
      rw [hs, List.map_cons] at hq
      have hq1 : current = q.1 := (List.cons.inj hq).1
      have hq2 : rest = Qr.map Prod.fst := (List.cons.inj hq).2
      obtain ⟨N, h1, h2, h3, h4, h5⟩ := bfsPush_fold current
        (mapGet t.adjacencyList current []) t.visited rest t.traversalEdges
      have hqL : q ∈ P ++ q :: Qr := List.mem_append_right _ (List.mem_cons_self _ _)
      have hlist : (P ++ [q]) ++ (Qr ++ N.map (fun x => (x, q.2 + 1))) =
          (P ++ q :: Qr) ++ N.map (fun x => (x, q.2 + 1)) := by simp
      have hfst : (N.map (fun x => ((x, q.2 + 1) : Int × Nat))).map Prod.fst = N := by
        simp [List.map_map, Function.comp_def]
      have hlevel : ∀ b ∈ N.map (fun x => ((x, q.2 + 1) : Int × Nat)),
          b.1 ∈ N ∧ b.2 = q.2 + 1 := by
        intro b hb
        obtain ⟨x, hx, e⟩ := List.mem_map.mp hb
        rw [← e]
        exact ⟨hx, rfl⟩
      have hold : ∀ r ∈ P ++ q :: Qr, r.2 ≤ q.2 + 1 :=
        fun r hr => htop q (List.mem_cons_self _ _) r hr
      have hhead : ∀ q1 ∈ Qr, q.2 ≤ q1.2 := by
        intro q1 hq1m
        exact List.rel_of_pairwise_cons (List.pairwise_append.mp hsorted).2.1 hq1m
      refine ⟨P ++ [q], Qr ++ N.map (fun x => (x, q.2 + 1)), ?_, ?_, ?_, ?_, ?_, ?_, ?_, ?_,
        ?_, ?_⟩
      · intro u
        rw [mapGet_mapTouch]
        exact ha u
      · rw [h2, List.map_append, hfst, hq2]
      · rw [h1, List.reverse_append, List.reverse_reverse, hv, hlist]
        simp only [List.map_append, hfst]
      · rw [h1]
        refine List.Nodup.append (List.nodup_reverse.mpr h3) hnd ?_
        intro x hx hxv
        exact (h4 x (List.mem_reverse.mp hx)).1 hxv
      · rw [hlist]
        refine List.pairwise_append.mpr ⟨hsorted, ?_, ?_⟩
        · rw [List.pairwise_map]
          exact List.pairwise_of_forall (fun _ _ => le_refl _)
        · intro a ha1 b hb
          rw [(hlevel b hb).2]
          exact hold a ha1
      · rw [hlist]
        intro p hp
        rcases List.mem_append.mp hp with hp | hp
        · exact hwalk p hp
        · obtain ⟨hpN, hp2⟩ := hlevel p hp
          obtain ⟨_, e, he, het⟩ := h4 p.1 hpN
          rw [ha current, hq1] at he
          rw [hp2]
          exact HopWalk.step (hwalk q hqL) ⟨e, he, het⟩
      · rw [hlist]
        intro q1 hq1m r hr
        rcases List.mem_append.mp hq1m with hq1m | hq1m
        · rcases List.mem_append.mp hr with hr | hr
          · exact htop q1 (List.mem_cons_of_mem _ hq1m) r hr
          · have := hhead q1 hq1m
            rw [(hlevel r hr).2]
            omega
        · rw [(hlevel q1 hq1m).2]
          rcases List.mem_append.mp hr with hr | hr
          · have := hold r hr
            omega
          · rw [(hlevel r hr).2]
            omega
      · rw [hlist]
        intro p hp w hw
        rcases List.mem_append.mp hp with hp | hp
        · obtain ⟨r, hr, e1, e2⟩ := hclosed p hp w hw
          exact ⟨r, List.mem_append_left _ hr, e1, e2⟩
        · rw [List.mem_singleton] at hp
          subst hp
          obtain ⟨e, he, het⟩ := hw
          rw [← ha p.1, ← hq1] at he
          have hmem := h5 e he
          rw [h1, het] at hmem
          rcases List.mem_append.mp hmem with hm | hm
          · exact ⟨(w, p.2 + 1), List.mem_append_right _
              (List.mem_map.mpr ⟨w, List.mem_reverse.mp hm, rfl⟩), rfl, le_refl _⟩
          · have hm2 : w ∈ (P ++ p :: Qr).map Prod.fst := by
              rw [← hv]
              exact List.mem_reverse.mpr hm
            obtain ⟨r, hr, e⟩ := List.mem_map.mp hm2
            exact ⟨r, List.mem_append_left _ hr, e, hold r hr⟩
      · rw [hlist]
        exact List.mem_append_left _ hstart
      · rw [List.map_append, hmsg, hq1]
        simp [visitState]

theorem level_le_walk (adj : List (Int × List Edge)) (start : Int) (P : List (Int × Nat))
    (h0 : (start, 0) ∈ P)
    (hclosed : ∀ p ∈ P, ∀ w, HasEdge adj p.1 w → ∃ r ∈ P, r.1 = w ∧ r.2 ≤ p.2 + 1)
    (v : Int) (n : Nat) (h : HopWalk adj start v n) : ∃ r ∈ P, r.1 = v ∧ r.2 ≤ n := by
  induction h with
  | start => exact ⟨(start, 0), h0, rfl, le_refl _⟩
  | step _ hedge ih =>
    obtain ⟨r, hr, e1, e2⟩ := ih
    rw [← e1] at hedge
    obtain ⟨r1, hr1, e3, e4⟩ := hclosed r hr _ hedge
    exact ⟨r1, hr1, e3, by omega⟩

/-- Claim C36: for every graph (so for every graph built with `addNode` and `addEdge`) and
every start node, `breadthFirstSearch` returns, and its trace is the opening snapshot, one
`"Visiting node v"` snapshot per entry of a list `visits` of nodes paired with numbers, and
the closing snapshot, where no node occurs twice, the number paired with a node is its hop
distance from the start node (the minimum number of edges of a walk from the start node to
it), and the numbers never decrease along `visits`: when the snapshot of `u` precedes the
snapshot of `v`, the hop distance of `u` is at most the hop distance of `v`. -/
theorem breadthFirstSearch_visits_by_hop_distance (self : Graph) (startNode : Int) :
    ∃ (g1 : Graph) (visits : List (Int × Nat)),
      self.breadthFirstSearch startNode = some g1 ∧
      g1.states.map AlgorithmState.message =
        traversalMessages ("Starting BFS from node " ++ toString startNode)
          (visits.map Prod.fst) "BFS traversal complete" ∧
      (visits.map Prod.fst).Nodup ∧
      (∀ p ∈ visits, IsHopDist self.adjacencyList startNode p.1 p.2) ∧
      visits.Pairwise (fun p q => p.2 ≤ q.2) := by
  unfold Graph.breadthFirstSearch
  simp only
  obtain ⟨r, hr⟩ := bfsLoop_terminates
    (createInitialState self.adjacencyList ("Starting BFS from node " ++ toString startNode))
    (edgeEntryCount self.adjacencyList + 1)
    { adjacencyList := self.adjacencyList, visited := [startNode],
      nodeQueue := [startNode], traversalEdges := [],
      states := [createInitialState self.adjacencyList
        ("Starting BFS from node " ++ toString startNode)] }
    (by
      have := unvisitedTargets_le self.adjacencyList [startNode]
      simp only [List.length_singleton]
      omega)
  have hinv := whileLoop_invariant bfsCond (bfsBody _)
    (BfsLevelInv self.adjacencyList startNode
      ("Starting BFS from node " ++ toString startNode))
    (fun t ht hc => bfsBody_levelInv _ _ _ _ t ht hc) _ _ r
    ⟨[], [(startNode, 0)], fun _ => rfl, by rfl, by rfl, by simp, by simp,
      fun p hp => by
        rw [List.nil_append, List.mem_singleton] at hp
        rw [hp]
        exact HopWalk.start,
      fun q hq r hr => by
        rw [List.nil_append, List.mem_singleton] at hr
        rw [hr]
        exact Nat.zero_le _,
      fun p hp => by simp at hp, by simp, by simp [createInitialState]⟩ hr
  rw [hr]
  obtain ⟨⟨P, Q, ha, hq, hv, hnd, hsorted, hwalk, htop, hclosed, hstart, hmsg⟩, hcond⟩ := hinv
  have hq0 : Q = [] := by
    have : r.nodeQueue = [] := by simpa [bfsCond] using hcond
    rw [this] at hq
    exact List.map_eq_nil_iff.mp hq.symm
  subst hq0
  rw [List.append_nil] at hv hsorted hwalk hclosed hstart
  have hnd2 : (P.map Prod.fst).Nodup := by
    rw [← hv]
    exact List.nodup_reverse.mpr hnd
  refine ⟨_, P, rfl, ?_, hnd2, ?_, hsorted⟩
  · rw [map_message_finalize, List.map_append, hmsg]
    simp [traversalMessages, finalState, List.map_map, Function.comp_def]
  · intro p hp
    refine ⟨hwalk p hp, ?_⟩
    intro n hn
    obtain ⟨r1, hr1, e1, e2⟩ := level_le_walk self.adjacencyList startNode P hstart hclosed
      p.1 n hn
    have := List.inj_on_of_nodup_map hnd2 hr1 hp e1
    rw [← this]
    exact e2

theorem breadthFirstSearch_visits_by_hop_distance_witness :
    ∃ (g1 : Graph) (visits : List (Int × Nat)),
      ({} : Graph).createDemoGraph.breadthFirstSearch 0 = some g1 ∧
      g1.states.map AlgorithmState.message =
        traversalMessages ("Starting BFS from node " ++ toString (0 : Int))
          (visits.map Prod.fst) "BFS traversal complete" ∧
      (visits.map Prod.fst).Nodup ∧
      (∀ p ∈ visits, IsHopDist ({} : Graph).createDemoGraph.adjacencyList 0 p.1 p.2) ∧
      visits.Pairwise (fun p q => p.2 ≤ q.2) :=
  breadthFirstSearch_visits_by_hop_distance ({} : Graph).createDemoGraph 0

end GraphCpp

/-! ### The demo-graph guard of `performGraphOperation` on the global graph -/

namespace GraphCpp

end GraphCpp

end AlgoStructure
